import Mathlib

/-!
# mycache: a shallow embedding of the three cache policies

The Go package keeps, per cache, a key/value store and policy bookkeeping
(`simplecache.go`, `lrucache.go`, `lfucache.go`), statistics counters
(`stats.go`) and a clock (`clock.go`).  The embedding below follows the source
function by function.

Modelling conventions

* Keys and values (`interface{}` in Go) are natural numbers.
* A Go `map` is an association list with one pair per key.  The order in which
  `range` visits a map is unspecified in Go; every operation that ranges over a
  map takes the visiting order as an explicit argument `ord`, a function that
  rearranges the list of keys.
* `int64` arithmetic wraps (`wrapInt64`), `uint64` counters wrap modulo `2^64`.
* The clock is read as one instant `now` per call of a public operation.
* A `*list.Element` is a handle (a natural number) together with the value stored
  in the element; a `container/list` list is the list of its elements, front first.
* The mutex is not modelled: operations are executed one at a time.
* The only `float64` of the package, the result of `HitRate`, is the exact rational
  quotient, of which the Go result is the rounding.
* A panic of the builder is an error value carrying the message.
-/

namespace mycache

/-! ## Machine integers -/

/-- Two's complement wrap-around of a mathematical integer into `int64`. -/
def wrapInt64 (x : Int) : Int := (x + 2 ^ 63) % 2 ^ 64 - 2 ^ 63

/-- The largest `int64`. -/
def maxInt64 : Int := 2 ^ 63 - 1

/-- Wrap-around of a natural number into `uint64`. -/
def wrapUint64 (x : Nat) : Nat := x % 2 ^ 64

/-- The largest `uint64`, the value of `^uint64(0)`. -/
def maxUint64 : Nat := 2 ^ 64 - 1

/-! ## clock.go -/

/-- `RealClock.ExpireAt`: `0` (never expires) for a non-positive number of seconds,
otherwise `Now() + expireSeconds` in `int64`. -/
def RealClock.ExpireAt (now : Int) (expireSeconds : Int) : Int :=
  if expireSeconds > 0 then wrapInt64 (now + expireSeconds) else 0

/-! ## mycache.go -/

/-- The only domain error of the package. -/
inductive Error where
  | KeyNotFound
  deriving DecidableEq, Repr

/-! ## stats.go -/

/-- The four `uint64` counters. -/
structure stats where
  keyCount : Nat
  hitCount : Nat
  missCount : Nat
  evictCount : Nat
  deriving DecidableEq, Repr

/-- `atomic.AddUint64(&st.keyCount, 1)`. -/
def stats.IncrKeyCount (st : stats) : stats :=
  { st with keyCount := wrapUint64 (st.keyCount + 1) }

/-- `atomic.AddUint64(&st.keyCount, ^uint64(0))`. -/
def stats.DecrKeyCount (st : stats) : stats :=
  { st with keyCount := wrapUint64 (maxUint64 + st.keyCount) }

/-- `atomic.AddUint64(&st.evictCount, 1)`. -/
def stats.IncrEvictCount (st : stats) : stats :=
  { st with evictCount := wrapUint64 (st.evictCount + 1) }

/-- `atomic.AddUint64(&st.hitCount, 1)`. -/
def stats.IncrHitCount (st : stats) : stats :=
  { st with hitCount := wrapUint64 (st.hitCount + 1) }

/-- `atomic.AddUint64(&st.missCount, 1)`. -/
def stats.IncrMissCount (st : stats) : stats :=
  { st with missCount := wrapUint64 (st.missCount + 1) }

def stats.KeyCount (st : stats) : Nat := st.keyCount

def stats.HitCount (st : stats) : Nat := st.hitCount

def stats.MissCount (st : stats) : Nat := st.missCount

def stats.LookupCount (st : stats) : Nat := wrapUint64 (st.HitCount + st.MissCount)

def stats.EvictCount (st : stats) : Nat := st.evictCount

/-! ## Go maps as association lists -/

/-- `v, ok := m[k]`. -/
def mget {β : Type} : List (Nat × β) → Nat → Option β
  | [], _ => none
  | (k, v) :: m, key => if k = key then some v else mget m key

/-- `delete(m, k)`. -/
def mdel {β : Type} (m : List (Nat × β)) (key : Nat) : List (Nat × β) :=
  m.filter (fun p => p.1 != key)

/-- The assignment through a pointer held in the map: the entry of `key`, when there
is one, is replaced by `v`. -/
def mupd {β : Type} : List (Nat × β) → Nat → β → List (Nat × β)
  | [], _, _ => []
  | (k, w) :: m, key, v => if k = key then (k, v) :: m else (k, w) :: mupd m key v

/-- `m[k] = v`: an existing entry is overwritten, a new one is added. -/
def mset {β : Type} (m : List (Nat × β)) (key : Nat) (v : β) : List (Nat × β) :=
  match mget m key with
  | some _ => mupd m key v
  | none => (key, v) :: m

/-- The keys of a map, in the order of the association list. -/
def mkeys {β : Type} (m : List (Nat × β)) : List Nat := m.map Prod.fst

/-- The visiting order of a `range` loop: a rearrangement of the keys. -/
abbrev Order := List Nat → List Nat

/-- A visiting order visits every key exactly once. -/
def Order.ok (ord : Order) : Prop := ∀ l, (ord l).Perm l

/-- `IsExpired` of `simpleItem`, `lruItem` and `lfuItem` (the three are identical). -/
def IsExpired (expireAt : Int) (now : Int) : Bool :=
  if expireAt = 0 then false
  else if expireAt < now then true
  else false

/-- The number returned by `TTL` on a hit. -/
def ttlOf (expireAt : Int) (now : Int) : Int :=
  if expireAt = 0 then -1 else wrapInt64 (expireAt - now)

/-! ## simplecache.go -/

structure simpleItem where
  expireAt : Int
  value : Nat
  deriving DecidableEq, Repr

structure SimpleCache where
  size : Int
  stats : stats
  items : List (Nat × simpleItem)
  deriving DecidableEq, Repr

def newSimpleCache (size : Int) : SimpleCache :=
  { size := size, stats := ⟨0, 0, 0, 0⟩, items := [] }

/-- `SimpleCache.init`: a fresh empty map. -/
def SimpleCache.init (sc : SimpleCache) : SimpleCache :=
  { sc with items := [] }

def SimpleCache.remove (sc : SimpleCache) (key : Nat) : Option Error × SimpleCache :=
  match mget sc.items key with
  | some _ => (none, { sc with items := mdel sc.items key, stats := sc.stats.DecrKeyCount })
  | none => (some Error.KeyNotFound, sc)

def SimpleCache.getValue (sc : SimpleCache) (key : Nat) (now : Int) :
    Except Error Nat × SimpleCache :=
  match mget sc.items key with
  | some item =>
    if !IsExpired item.expireAt now then (.ok item.value, sc)
    else (.error Error.KeyNotFound, (sc.remove key).2)
  | none => (.error Error.KeyNotFound, sc)

def SimpleCache.Get (sc : SimpleCache) (key : Nat) (now : Int) :
    Except Error Nat × SimpleCache :=
  match sc.getValue key now with
  | (.error err, sc1) => (.error err, { sc1 with stats := sc1.stats.IncrMissCount })
  | (.ok v, sc1) => (.ok v, { sc1 with stats := sc1.stats.IncrHitCount })

/-- The loop of `SimpleCache.evict` over the visited entries: `current` counts the
entries chosen so far, `deferred` collects the keys whose `remove` was deferred
(latest first). -/
def SimpleCache.evictLoop (items : List (Nat × simpleItem)) (count : Nat) (now : Int) :
    List Nat → Nat → mycache.stats → List Nat → mycache.stats × List Nat
  | [], _, st, deferred => (st, deferred)
  | key :: rest, current, st, deferred =>
    if current ≥ count then (st, deferred)
    else
      match mget items key with
      | some item =>
        if item.expireAt = 0 ∨ item.expireAt < now then
          SimpleCache.evictLoop items count now rest (current + 1) st.IncrEvictCount
            (key :: deferred)
        else SimpleCache.evictLoop items count now rest current st deferred
      | none => SimpleCache.evictLoop items count now rest current st deferred

/-- `SimpleCache.evict`: the loop, then the deferred `remove` calls, last deferred
first. -/
def SimpleCache.evict (sc : SimpleCache) (count : Nat) (now : Int) (ord : Order) :
    SimpleCache :=
  let r := SimpleCache.evictLoop sc.items count now (ord (mkeys sc.items)) 0 sc.stats []
  r.2.foldl (fun c key => (c.remove key).2) { sc with stats := r.1 }

def SimpleCache.set (sc : SimpleCache) (key value : Nat) (expireSeconds : Int) (now : Int)
    (ord : Order) : Option Error × SimpleCache :=
  let expireAt := RealClock.ExpireAt now expireSeconds
  match mget sc.items key with
  | some item =>
    (none, { sc with items := mupd sc.items key { item with value := value, expireAt := expireAt } })
  | none =>
    let sc1 := if (sc.items.length : Int) ≥ sc.size ∧ sc.size > 0 then sc.evict 1 now ord else sc
    (none, { sc1 with
      items := mset sc1.items key { value := value, expireAt := expireAt },
      stats := sc1.stats.IncrKeyCount })

def SimpleCache.Set (sc : SimpleCache) (key value : Nat) (now : Int) (ord : Order) :
    Option Error × SimpleCache :=
  sc.set key value 0 now ord

def SimpleCache.SetWithExpire (sc : SimpleCache) (key value : Nat) (expireSeconds : Int)
    (now : Int) (ord : Order) : Option Error × SimpleCache :=
  sc.set key value expireSeconds now ord

def SimpleCache.Del (sc : SimpleCache) (key : Nat) : Option Error × SimpleCache :=
  sc.remove key

def SimpleCache.Expire (sc : SimpleCache) (key : Nat) (expireSeconds : Int) (now : Int)
    (ord : Order) : Option Error × SimpleCache :=
  match sc.Get key now with
  | (.error err, sc1) => (some err, sc1)
  | (.ok value, sc1) => sc1.set key value expireSeconds now ord

def SimpleCache.TTL (sc : SimpleCache) (key : Nat) (now : Int) :
    (Int × Option Error) × SimpleCache :=
  match mget sc.items key with
  | some item =>
    if !IsExpired item.expireAt now then
      ((ttlOf item.expireAt now, none), { sc with stats := sc.stats.IncrHitCount })
    else
      let sc1 := (sc.remove key).2
      ((-2, some Error.KeyNotFound), { sc1 with stats := sc1.stats.IncrMissCount })
  | none => ((-2, some Error.KeyNotFound), { sc with stats := sc.stats.IncrMissCount })

/-- `SimpleCache.keys`: a snapshot of the keys, in visiting order. -/
def SimpleCache.keys (sc : SimpleCache) (ord : Order) : List Nat :=
  ord (mkeys sc.items)

def SimpleCache.GetALL (sc : SimpleCache) (now : Int) (ord : Order) :
    List (Nat × Nat) × SimpleCache :=
  (sc.keys ord).foldl
    (fun acc k =>
      match acc.2.Get k now with
      | (.error _, sc1) => (acc.1, sc1)
      | (.ok v, sc1) => (mset acc.1 k v, sc1))
    ([], sc)

def SimpleCache.Keys (sc : SimpleCache) (now : Int) (ord : Order) :
    List Nat × SimpleCache :=
  (sc.keys ord).foldl
    (fun acc k =>
      match acc.2.getValue k now with
      | (.error _, sc1) => (acc.1, sc1)
      | (.ok _, sc1) => (acc.1 ++ [k], sc1))
    ([], sc)

def SimpleCache.Len (sc : SimpleCache) (now : Int) (ord : Order) : Nat × SimpleCache :=
  ((sc.Keys now ord).1.length, (sc.Keys now ord).2)

def SimpleCache.Clear (sc : SimpleCache) : SimpleCache := sc.init

/-! ## container/list -/

/-- A list element: its handle (the address of the `*list.Element`) and its `Value`. -/
structure Element (α : Type) where
  id : Nat
  Value : α
  deriving DecidableEq, Repr

/-- The element a handle designates, if it is linked in the list. -/
def lfind {α : Type} : List (Element α) → Nat → Option (Element α)
  | [], _ => none
  | e :: l, h => if e.id = h then some e else lfind l h

/-- `l.Remove(e)`: a no-op for an element that is not linked in `l`. -/
def lRemove {α : Type} (l : List (Element α)) (h : Nat) : List (Element α) :=
  l.filter (fun e => e.id != h)

/-- `l.MoveToFront(e)`: a no-op for an element that is not linked in `l`. -/
def lMoveToFront {α : Type} (l : List (Element α)) (h : Nat) : List (Element α) :=
  match lfind l h with
  | some e => e :: lRemove l h
  | none => l

/-- `e.Next()`: the element linked after the one designated by `h`. -/
def lNext {α : Type} : List (Element α) → Nat → Option (Element α)
  | [], _ => none
  | e :: l, h => if e.id = h then l.head? else lNext l h

/-- `l.InsertAfter(v, mark)`: a no-op when `mark` is not linked in `l`. -/
def lInsertAfter {α : Type} : List (Element α) → Element α → Nat → List (Element α)
  | [], _, _ => []
  | e :: l, new, h => if e.id = h then e :: new :: l else e :: lInsertAfter l new h

/-- An assignment through the pointer `e.Value`: the value of the element designated by
`h` is replaced by its image under `f`. -/
def lmodify {α : Type} (l : List (Element α)) (h : Nat) (f : α → α) : List (Element α) :=
  l.map (fun e => if e.id = h then { e with Value := f e.Value } else e)

/-! ## lrucache.go -/

structure lruItem where
  expireAt : Int
  key : Nat
  value : Nat
  deriving DecidableEq, Repr

/-- The LRU cache: `items` maps a key to the handle of its list element, `evictList` is
the recency list (front first), `nextId` is the next unused element handle. -/
structure LruCache where
  size : Int
  stats : stats
  items : List (Nat × Nat)
  evictList : List (Element lruItem)
  nextId : Nat
  deriving DecidableEq, Repr

def newLruCache (size : Int) : LruCache :=
  { size := size, stats := ⟨0, 0, 0, 0⟩, items := [], evictList := [], nextId := 0 }

def LruCache.init (lc : LruCache) : LruCache :=
  { lc with evictList := [], items := [] }

def LruCache.removeElement (lc : LruCache) (e : Element lruItem) : LruCache :=
  { lc with
    evictList := lRemove lc.evictList e.id,
    items := mdel lc.items e.Value.key,
    stats := lc.stats.DecrKeyCount }

def LruCache.remove (lc : LruCache) (key : Nat) : Option Error × LruCache :=
  match mget lc.items key with
  | some h =>
    match lfind lc.evictList h with
    | some ent => (none, lc.removeElement ent)
    | none => (none, lc)
  | none => (some Error.KeyNotFound, lc)

def LruCache.evict (lc : LruCache) : Nat → LruCache
  | 0 => lc
  | num + 1 =>
    match lc.evictList.getLast? with
    | none => lc
    | some ent => (lc.removeElement ent).evict num

def LruCache.getValue (lc : LruCache) (key : Nat) (now : Int) :
    Except Error Nat × LruCache :=
  match mget lc.items key with
  | some h =>
    match lfind lc.evictList h with
    | some el =>
      if !IsExpired el.Value.expireAt now then
        (.ok el.Value.value, { lc with evictList := lMoveToFront lc.evictList h })
      else (.error Error.KeyNotFound, lc.removeElement el)
    | none => (.error Error.KeyNotFound, lc)
  | none => (.error Error.KeyNotFound, lc)

def LruCache.Get (lc : LruCache) (key : Nat) (now : Int) : Except Error Nat × LruCache :=
  match lc.getValue key now with
  | (.error err, lc1) => (.error err, { lc1 with stats := lc1.stats.IncrMissCount })
  | (.ok v, lc1) => (.ok v, { lc1 with stats := lc1.stats.IncrHitCount })

def LruCache.set (lc : LruCache) (key value : Nat) (expireSeconds : Int) (now : Int) :
    Option Error × LruCache :=
  match mget lc.items key with
  | some h =>
    (none, { lc with
      evictList := lmodify (lMoveToFront lc.evictList h) h
        (fun item => { item with
          value := value, expireAt := RealClock.ExpireAt now expireSeconds }) })
  | none =>
    let lc1 :=
      if (lc.evictList.length : Int) ≥ lc.size then
        { lc.evict 1 with stats := (lc.evict 1).stats.IncrEvictCount }
      else lc
    let item : lruItem :=
      { key := key, value := value, expireAt := RealClock.ExpireAt now expireSeconds }
    (none, { lc1 with
      evictList := ⟨lc1.nextId, item⟩ :: lc1.evictList,
      items := mset lc1.items key lc1.nextId,
      nextId := lc1.nextId + 1,
      stats := lc1.stats.IncrKeyCount })

def LruCache.Set (lc : LruCache) (key value : Nat) (now : Int) : Option Error × LruCache :=
  lc.set key value 0 now

def LruCache.SetWithExpire (lc : LruCache) (key value : Nat) (expireSeconds : Int)
    (now : Int) : Option Error × LruCache :=
  lc.set key value expireSeconds now

def LruCache.Del (lc : LruCache) (key : Nat) : Option Error × LruCache :=
  lc.remove key

def LruCache.Expire (lc : LruCache) (key : Nat) (expireSeconds : Int) (now : Int) :
    Option Error × LruCache :=
  match lc.Get key now with
  | (.error err, lc1) => (some err, lc1)
  | (.ok value, lc1) => lc1.set key value expireSeconds now

def LruCache.TTL (lc : LruCache) (key : Nat) (now : Int) :
    (Int × Option Error) × LruCache :=
  match mget lc.items key with
  | some h =>
    match lfind lc.evictList h with
    | some el =>
      if !IsExpired el.Value.expireAt now then
        ((ttlOf el.Value.expireAt now, none),
          { lc with
            stats := lc.stats.IncrHitCount,
            evictList := lMoveToFront lc.evictList h })
      else
        let lc1 := lc.removeElement el
        ((-2, some Error.KeyNotFound), { lc1 with stats := lc1.stats.IncrMissCount })
    | none => ((-2, some Error.KeyNotFound), { lc with stats := lc.stats.IncrMissCount })
  | none => ((-2, some Error.KeyNotFound), { lc with stats := lc.stats.IncrMissCount })

def LruCache.keys (lc : LruCache) (ord : Order) : List Nat :=
  ord (mkeys lc.items)

def LruCache.GetALL (lc : LruCache) (now : Int) (ord : Order) :
    List (Nat × Nat) × LruCache :=
  (lc.keys ord).foldl
    (fun acc k =>
      match acc.2.Get k now with
      | (.error _, lc1) => (acc.1, lc1)
      | (.ok v, lc1) => (mset acc.1 k v, lc1))
    ([], lc)

def LruCache.Keys (lc : LruCache) (now : Int) (ord : Order) : List Nat × LruCache :=
  (lc.keys ord).foldl
    (fun acc k =>
      match acc.2.Get k now with
      | (.error _, lc1) => (acc.1, lc1)
      | (.ok _, lc1) => (acc.1 ++ [k], lc1))
    ([], lc)

def LruCache.Len (lc : LruCache) (now : Int) (ord : Order) : Nat × LruCache :=
  ((lc.Keys now ord).1.length, (lc.Keys now ord).2)

def LruCache.Clear (lc : LruCache) : LruCache := lc.init

/-! ## lfucache.go

An `*lfuItem` is identified by its key: the set `freqEntry.items` holds keys, and
dereferencing a member reads the record stored under that key in `LfuCache.items`.
The frequency (`uint` in Go) is a natural number: reaching `2^64` would take `2^64`
successful lookups of a single key. -/

structure freqEntry where
  freq : Nat
  items : List Nat
  deriving DecidableEq, Repr

structure lfuItem where
  expireAt : Int
  key : Nat
  value : Nat
  freqElement : Nat
  deriving DecidableEq, Repr

/-- The LFU cache: `items` maps a key to its item, `freqList` is the list of frequency
buckets (front first), `nextId` is the next unused element handle. -/
structure LfuCache where
  size : Int
  stats : stats
  items : List (Nat × lfuItem)
  freqList : List (Element freqEntry)
  nextId : Nat
  deriving DecidableEq, Repr

/-- `LfuCache.init`: an empty map and a list holding only the frequency-0 bucket. -/
def LfuCache.init (lf : LfuCache) : LfuCache :=
  { lf with
    freqList := [⟨lf.nextId, { freq := 0, items := [] }⟩],
    items := [],
    nextId := lf.nextId + 1 }

def newLfuCache (size : Int) : LfuCache :=
  LfuCache.init { size := size, stats := ⟨0, 0, 0, 0⟩, items := [], freqList := [], nextId := 0 }

/-- `delete(fe.items, item)` on a bucket. -/
def freqEntry.delete (fe : freqEntry) (key : Nat) : freqEntry :=
  { fe with items := fe.items.filter (fun k => k != key) }

/-- `fe.items[item] = struct{}{}` on a bucket. -/
def freqEntry.add (fe : freqEntry) (key : Nat) : freqEntry :=
  { fe with items := if key ∈ fe.items then fe.items else key :: fe.items }

def LfuCache.removeItem (lf : LfuCache) (item : lfuItem) : LfuCache :=
  { lf with
    items := mdel lf.items item.key,
    freqList := lmodify lf.freqList item.freqElement (fun fe => fe.delete item.key) }

def LfuCache.remove (lf : LfuCache) (key : Nat) : Option Error × LfuCache :=
  match mget lf.items key with
  | some ent => (none, lf.removeItem ent)
  | none => (some Error.KeyNotFound, lf)

/-- The inner `range` loop of `LfuCache.evict` over the members of one bucket, visited in
the given order; the result carries the counter `i` and whether the loop executed
`return`. -/
def LfuCache.evictRange (lf : LfuCache) (count : Nat) : List Nat → Nat → LfuCache × Nat × Bool
  | [], i => (lf, i, false)
  | k :: rest, i =>
    if i ≥ count then (lf, i, true)
    else
      match mget lf.items k with
      | some item => (lf.removeItem item).evictRange count rest (i + 1)
      | none => lf.evictRange count rest i

/-- The outer loop of `LfuCache.evict` over the buckets from `entry` on. -/
def LfuCache.evictFrom (lf : LfuCache) (count : Nat) (ord : Order) :
    List (Element freqEntry) → Nat → LfuCache
  | [], _ => lf
  | entry :: rest, i =>
    if i < count then
      let members :=
        match lfind lf.freqList entry.id with
        | some e => e.Value.items
        | none => []
      let r := lf.evictRange count (ord members) i
      if r.2.2 then r.1 else r.1.evictFrom count ord rest r.2.1
    else lf

def LfuCache.evict (lf : LfuCache) (count : Nat) (ord : Order) : LfuCache :=
  lf.evictFrom count ord lf.freqList 0

def LfuCache.increment (lf : LfuCache) (item : lfuItem) : LfuCache :=
  match lfind lf.freqList item.freqElement with
  | none => lf
  | some currentFreqElement =>
    let nextFreq := currentFreqElement.Value.freq + 1
    let l1 := lmodify lf.freqList currentFreqElement.id (fun fe => fe.delete item.key)
    let fresh : Element freqEntry := ⟨lf.nextId, { freq := nextFreq, items := [] }⟩
    let r : List (Element freqEntry) × Nat × Nat :=
      match lNext l1 currentFreqElement.id with
      | none => (lInsertAfter l1 fresh currentFreqElement.id, fresh.id, lf.nextId + 1)
      | some nextFreqElement =>
        if nextFreqElement.Value.freq > nextFreq then
          (lInsertAfter l1 fresh currentFreqElement.id, fresh.id, lf.nextId + 1)
        else (l1, nextFreqElement.id, lf.nextId)
    let l2 := lmodify r.1 r.2.1 (fun fe => fe.add item.key)
    let l3 :=
      if (currentFreqElement.Value.delete item.key).items.length = 0
          ∧ currentFreqElement.Value.freq ≠ 0 then
        lRemove l2 currentFreqElement.id
      else l2
    { lf with
      freqList := l3,
      items := mupd lf.items item.key { item with freqElement := r.2.1 },
      nextId := r.2.2 }

def LfuCache.getValue (lf : LfuCache) (key : Nat) (now : Int) :
    Except Error Nat × LfuCache :=
  match mget lf.items key with
  | some item =>
    if !IsExpired item.expireAt now then (.ok item.value, lf.increment item)
    else (.error Error.KeyNotFound, lf.removeItem item)
  | none => (.error Error.KeyNotFound, lf)

def LfuCache.Get (lf : LfuCache) (key : Nat) (now : Int) : Except Error Nat × LfuCache :=
  match lf.getValue key now with
  | (.error err, lf1) => (.error err, { lf1 with stats := lf1.stats.IncrMissCount })
  | (.ok v, lf1) => (.ok v, { lf1 with stats := lf1.stats.IncrHitCount })

def LfuCache.set (lf : LfuCache) (key value : Nat) (expireSeconds : Int) (now : Int)
    (ord : Order) : Option Error × LfuCache :=
  let expireAt := RealClock.ExpireAt now expireSeconds
  match mget lf.items key with
  | some item =>
    (none, { lf with items := mupd lf.items key { item with value := value, expireAt := expireAt } })
  | none =>
    let lf1 := if (lf.items.length : Int) ≥ lf.size then lf.evict 1 ord else lf
    match lf1.freqList.head? with
    | none => (none, lf1)
    | some el =>
      (none, { lf1 with
        freqList := lmodify lf1.freqList el.id (fun fe => fe.add key),
        items := mset lf1.items key
          { key := key, value := value, expireAt := expireAt, freqElement := el.id },
        stats := lf1.stats.IncrKeyCount })

def LfuCache.Set (lf : LfuCache) (key value : Nat) (now : Int) (ord : Order) :
    Option Error × LfuCache :=
  lf.set key value 0 now ord

def LfuCache.SetWithExpire (lf : LfuCache) (key value : Nat) (expireSeconds : Int)
    (now : Int) (ord : Order) : Option Error × LfuCache :=
  lf.set key value expireSeconds now ord

def LfuCache.Del (lf : LfuCache) (key : Nat) : Option Error × LfuCache :=
  lf.remove key

def LfuCache.Expire (lf : LfuCache) (key : Nat) (expireSeconds : Int) (now : Int)
    (ord : Order) : Option Error × LfuCache :=
  match lf.Get key now with
  | (.error err, lf1) => (some err, lf1)
  | (.ok value, lf1) => lf1.set key value expireSeconds now ord

def LfuCache.TTL (lf : LfuCache) (key : Nat) (now : Int) :
    (Int × Option Error) × LfuCache :=
  match mget lf.items key with
  | some item =>
    if !IsExpired item.expireAt now then
      ((ttlOf item.expireAt now, none),
        LfuCache.increment { lf with stats := lf.stats.IncrHitCount } item)
    else
      let lf1 := lf.removeItem item
      ((-2, some Error.KeyNotFound), { lf1 with stats := lf1.stats.IncrMissCount })
  | none => ((-2, some Error.KeyNotFound), { lf with stats := lf.stats.IncrMissCount })

def LfuCache.keys (lf : LfuCache) (ord : Order) : List Nat :=
  ord (mkeys lf.items)

def LfuCache.GetALL (lf : LfuCache) (now : Int) (ord : Order) :
    List (Nat × Nat) × LfuCache :=
  (lf.keys ord).foldl
    (fun acc k =>
      match acc.2.Get k now with
      | (.error _, lf1) => (acc.1, lf1)
      | (.ok v, lf1) => (mset acc.1 k v, lf1))
    ([], lf)

def LfuCache.Keys (lf : LfuCache) (now : Int) (ord : Order) : List Nat × LfuCache :=
  (lf.keys ord).foldl
    (fun acc k =>
      match acc.2.Get k now with
      | (.error _, lf1) => (acc.1, lf1)
      | (.ok _, lf1) => (acc.1 ++ [k], lf1))
    ([], lf)

def LfuCache.Len (lf : LfuCache) (now : Int) (ord : Order) : Nat × LfuCache :=
  ((lf.Keys now ord).1.length, (lf.Keys now ord).2)

def LfuCache.Clear (lf : LfuCache) : LfuCache := lf.init

/-! ## Sequences of calls -/

/-- The public operations of the `Cache` interface. -/
inductive Op where
  | Set (key value : Nat)
  | SetWithExpire (key value : Nat) (expireSeconds : Int)
  | Get (key : Nat)
  | TTL (key : Nat)
  | Expire (key : Nat) (expireSeconds : Int)
  | Del (key : Nat)
  | Clear
  | GetALL
  | Keys
  | Len

/-- One call: the operation, the clock reading during the call and the order in which
the `range` loops of the call visit their map. -/
structure Call where
  op : Op
  now : Int
  ord : Order

/-- Every `range` loop of the calls visits each key once. -/
def CallsOk (cs : List Call) : Prop := ∀ c ∈ cs, c.ord.ok

def SimpleCache.step (sc : SimpleCache) (c : Call) : SimpleCache :=
  match c.op with
  | .Set key value => (sc.Set key value c.now c.ord).2
  | .SetWithExpire key value t => (sc.SetWithExpire key value t c.now c.ord).2
  | .Get key => (sc.Get key c.now).2
  | .TTL key => (sc.TTL key c.now).2
  | .Expire key t => (sc.Expire key t c.now c.ord).2
  | .Del key => (sc.Del key).2
  | .Clear => sc.Clear
  | .GetALL => (sc.GetALL c.now c.ord).2
  | .Keys => (sc.Keys c.now c.ord).2
  | .Len => (sc.Len c.now c.ord).2

def SimpleCache.run (sc : SimpleCache) (cs : List Call) : SimpleCache :=
  cs.foldl SimpleCache.step sc

def LruCache.step (lc : LruCache) (c : Call) : LruCache :=
  match c.op with
  | .Set key value => (lc.Set key value c.now).2
  | .SetWithExpire key value t => (lc.SetWithExpire key value t c.now).2
  | .Get key => (lc.Get key c.now).2
  | .TTL key => (lc.TTL key c.now).2
  | .Expire key t => (lc.Expire key t c.now).2
  | .Del key => (lc.Del key).2
  | .Clear => lc.Clear
  | .GetALL => (lc.GetALL c.now c.ord).2
  | .Keys => (lc.Keys c.now c.ord).2
  | .Len => (lc.Len c.now c.ord).2

def LruCache.run (lc : LruCache) (cs : List Call) : LruCache :=
  cs.foldl LruCache.step lc

def LfuCache.step (lf : LfuCache) (c : Call) : LfuCache :=
  match c.op with
  | .Set key value => (lf.Set key value c.now c.ord).2
  | .SetWithExpire key value t => (lf.SetWithExpire key value t c.now c.ord).2
  | .Get key => (lf.Get key c.now).2
  | .TTL key => (lf.TTL key c.now).2
  | .Expire key t => (lf.Expire key t c.now c.ord).2
  | .Del key => (lf.Del key).2
  | .Clear => lf.Clear
  | .GetALL => (lf.GetALL c.now c.ord).2
  | .Keys => (lf.Keys c.now c.ord).2
  | .Len => (lf.Len c.now c.ord).2

def LfuCache.run (lf : LfuCache) (cs : List Call) : LfuCache :=
  cs.foldl LfuCache.step lf

/-! ## Invariants -/

/-- The structural invariant of the LRU cache: handles and keys of the recency list are
pairwise distinct, the map holds exactly the pairs (key, handle) of the list elements,
and every handle in use is below `nextId`. -/
def LruInv (lc : LruCache) : Prop :=
  (lc.evictList.map Element.id).Nodup ∧
  (lc.evictList.map (fun e => e.Value.key)).Nodup ∧
  lc.items.Perm (lc.evictList.map (fun e => (e.Value.key, e.id))) ∧
  ∀ e ∈ lc.evictList, e.id < lc.nextId

/-- The capacity bound of an LRU cache accepted by `Build`. -/
def LruBounded (lc : LruCache) : Prop :=
  1 ≤ lc.size ∧ (lc.items.length : Int) ≤ lc.size

/-- The value is in the range of `int64`. -/
def isInt64 (x : Int) : Prop := -2 ^ 63 ≤ x ∧ x ≤ maxInt64

/-- Every stored expiration time is an `int64`. -/
def LruTimes (lc : LruCache) : Prop := ∀ e ∈ lc.evictList, isInt64 e.Value.expireAt

/-- The invariants of a reachable LRU cache. -/
def LruOK (lc : LruCache) : Prop := LruInv lc ∧ LruBounded lc ∧ LruTimes lc

/-- The frequency of the bucket an item references (`item.freqElement.Value.freq`). -/
def LfuCache.freqOf (lf : LfuCache) (item : lfuItem) : Option Nat :=
  (lfind lf.freqList item.freqElement).map (fun e => e.Value.freq)

/-- The structural invariant of the LFU cache. -/
def LfuInv (lf : LfuCache) : Prop :=
  (mkeys lf.items).Nodup ∧
  (∀ p ∈ lf.items, p.2.key = p.1) ∧
  (lf.freqList.map Element.id).Nodup ∧
  (∀ e ∈ lf.freqList, e.id < lf.nextId) ∧
  (lf.freqList.map (fun e => e.Value.freq)).Pairwise (fun a b => a < b) ∧
  (∃ e rest, lf.freqList = e :: rest ∧ e.Value.freq = 0) ∧
  (∀ p ∈ lf.items, ∃ e ∈ lf.freqList, e.id = p.2.freqElement ∧ p.1 ∈ e.Value.items) ∧
  (∀ e ∈ lf.freqList, ∀ k ∈ e.Value.items,
    ∃ item, mget lf.items k = some item ∧ item.freqElement = e.id) ∧
  (∀ e ∈ lf.freqList, e.Value.items.Nodup)

/-- The list starts with a bucket of frequency 0. -/
def headZero (l : List (Element freqEntry)) : Prop :=
  ∃ e rest, l = e :: rest ∧ e.Value.freq = 0

/-- The LFU invariant on the components of the state, with an optional hole: the key
`hole`, when there is one, is stored in the map but is a member of no bucket (the
situation inside `increment`, between the deletion from the current bucket and the
insertion into the next one). -/
def LfuWF (hole : Option Nat) (items : List (Nat × lfuItem))
    (l : List (Element freqEntry)) (nextId : Nat) : Prop :=
  (mkeys items).Nodup ∧
  (∀ p ∈ items, p.2.key = p.1) ∧
  (l.map Element.id).Nodup ∧
  (∀ e ∈ l, e.id < nextId) ∧
  (l.map (fun e => e.Value.freq)).Pairwise (fun a b => a < b) ∧
  headZero l ∧
  (∀ p ∈ items, some p.1 ≠ hole → ∃ e ∈ l, e.id = p.2.freqElement ∧ p.1 ∈ e.Value.items) ∧
  (∀ e ∈ l, ∀ k ∈ e.Value.items,
    some k ≠ hole ∧ ∃ item, mget items k = some item ∧ item.freqElement = e.id) ∧
  (∀ e ∈ l, e.Value.items.Nodup)

/-- The capacity bound of an LFU cache accepted by `Build`. -/
def LfuBounded (lf : LfuCache) : Prop :=
  1 ≤ lf.size ∧ (lf.items.length : Int) ≤ lf.size

/-- Every stored expiration time is an `int64`. -/
def LfuTimes (lf : LfuCache) : Prop := ∀ p ∈ lf.items, isInt64 p.2.expireAt

/-- The invariants of a reachable LFU cache. -/
def LfuOK (lf : LfuCache) : Prop := LfuInv lf ∧ LfuBounded lf ∧ LfuTimes lf

/-! ## Recency of the LRU entries -/

/-- The keys touched by the lookups `Get k` for the keys of `ks` in turn (the loop of
`GetALL`, `Keys` and `Len`), the most recent touch first: a lookup touches its key when
it succeeds. -/
def LruCache.touchesGets (lc : LruCache) (now : Int) : List Nat → List Nat
  | [] => []
  | k :: ks =>
    match lc.Get k now with
    | (.error _, lc1) => lc1.touchesGets now ks
    | (.ok _, lc1) => lc1.touchesGets now ks ++ [k]

/-- The keys touched by one call, the most recent touch first.  A touch is an insertion
or an overwrite by `Set`/`SetWithExpire`, a successful `Get` or a successful `TTL`;
`Expire` is a `Get` followed, when it succeeds, by an overwrite. -/
def LruCache.touches (lc : LruCache) (c : Call) : List Nat :=
  match c.op with
  | .Set key _ => [key]
  | .SetWithExpire key _ _ => [key]
  | .Get key =>
    match (lc.Get key c.now).1 with
    | .error _ => []
    | .ok _ => [key]
  | .TTL key =>
    match (lc.TTL key c.now).1.2 with
    | some _ => []
    | none => [key]
  | .Expire key _ =>
    match (lc.Get key c.now).1 with
    | .error _ => []
    | .ok _ => [key, key]
  | .Del _ => []
  | .Clear => []
  | .GetALL => lc.touchesGets c.now (lc.keys c.ord)
  | .Keys => lc.touchesGets c.now (lc.keys c.ord)
  | .Len => lc.touchesGets c.now (lc.keys c.ord)

/-- The touches of a sequence of calls, the most recent first. -/
def LruCache.touchLog (lc : LruCache) : List Call → List Nat
  | [] => []
  | c :: cs => (lc.step c).touchLog cs ++ lc.touches c

/-- The recency list is ordered by the most recent touch: an entry nearer to the front
has its most recent touch nearer to the front of the log, and every entry has been
touched. -/
def Recent (log : List Nat) (l : List (Element lruItem)) : Prop :=
  (l.map (fun e => e.Value.key)).Pairwise (fun a b => log.indexOf a < log.indexOf b) ∧
  ∀ e ∈ l, e.Value.key ∈ log

/-- The invariants of a reachable Simple cache: one entry per key, and every stored
expiration time is an `int64`. -/
def SimpleOK (sc : SimpleCache) : Prop :=
  (mkeys sc.items).Nodup ∧ ∀ p ∈ sc.items, isInt64 p.2.expireAt

/-! ## Observations used in the statements -/

/-- The stored value and expiration time of a key of the Simple cache. -/
def SimpleCache.entry (sc : SimpleCache) (key : Nat) : Option (Nat × Int) :=
  (mget sc.items key).map (fun item => (item.value, item.expireAt))

/-- The stored value and expiration time of a key of the LRU cache: the item of the
list element the map designates. -/
def LruCache.entry (lc : LruCache) (key : Nat) : Option (Nat × Int) :=
  (mget lc.items key).bind
    (fun h => (lfind lc.evictList h).map (fun el => (el.Value.value, el.Value.expireAt)))

/-- The stored value and expiration time of a key of the LFU cache. -/
def LfuCache.entry (lf : LfuCache) (key : Nat) : Option (Nat × Int) :=
  (mget lf.items key).map (fun item => (item.value, item.expireAt))

/-- The result of `TTL` as the specification words it, from the stored expiration time
of the key (`none` when the key is not stored): `(-2, KeyNotFound)` when the key is not
stored or its entry is expired, `(-1, nil)` when the entry never expires, otherwise the
remaining seconds. -/
def ttlSpec (stored : Option Int) (now : Int) : Int × Option Error :=
  match stored with
  | none => (-2, some Error.KeyNotFound)
  | some expireAt =>
    if expireAt ≠ 0 ∧ expireAt < now then (-2, some Error.KeyNotFound)
    else if expireAt = 0 then (-1, none)
    else (expireAt - now, none)

/-- The entry as a lookup at clock time `now` sees it: an expired entry counts as
absent. -/
def live (e : Option (Nat × Int)) (now : Int) : Option (Nat × Int) :=
  match e with
  | none => none
  | some (v, expireAt) => if IsExpired expireAt now then none else some (v, expireAt)

/-- The result of `Get` as the specification words it, from the live entry. -/
def getSpec (e : Option (Nat × Int)) : Except Error Nat :=
  match e with
  | none => .error Error.KeyNotFound
  | some (v, _) => .ok v

/-- The bucket choice of `increment` as the specification words it: the successor bucket
is reused when it exists and has frequency exactly `next`, otherwise a new bucket of
frequency `next` is spliced in right after the current one.  Everything else is as in
`LfuCache.increment`. -/
def LfuCache.incrementSpec (lf : LfuCache) (item : lfuItem) : LfuCache :=
  match lfind lf.freqList item.freqElement with
  | none => lf
  | some currentFreqElement =>
    let nextFreq := currentFreqElement.Value.freq + 1
    let l1 := lmodify lf.freqList currentFreqElement.id (fun fe => fe.delete item.key)
    let fresh : Element freqEntry := ⟨lf.nextId, { freq := nextFreq, items := [] }⟩
    let r : List (Element freqEntry) × Nat × Nat :=
      match lNext l1 currentFreqElement.id with
      | none => (lInsertAfter l1 fresh currentFreqElement.id, fresh.id, lf.nextId + 1)
      | some nextFreqElement =>
        if nextFreqElement.Value.freq = nextFreq then (l1, nextFreqElement.id, lf.nextId)
        else (lInsertAfter l1 fresh currentFreqElement.id, fresh.id, lf.nextId + 1)
    let l2 := lmodify r.1 r.2.1 (fun fe => fe.add item.key)
    let l3 :=
      if (currentFreqElement.Value.delete item.key).items.length = 0
          ∧ currentFreqElement.Value.freq ≠ 0 then
        lRemove l2 currentFreqElement.id
      else l2
    { lf with
      freqList := l3,
      items := mupd lf.items item.key { item with freqElement := r.2.1 },
      nextId := r.2.2 }

/-- The frequency of the bucket designated by a handle (`e.Value.(*freqEntry).freq`). -/
def bucketFreq (l : List (Element freqEntry)) (h : Nat) : Option Nat :=
  (lfind l h).map (fun e => e.Value.freq)

/-- The frequency of the bucket holding the entry stored under a key. -/
def LfuCache.freq (lf : LfuCache) (key : Nat) : Option Nat :=
  (mget lf.items key).bind (fun item => bucketFreq lf.freqList item.freqElement)

/-- One more successful lookup of the key `k`. -/
def bump (acc : Nat → Nat) (k : Nat) : Nat → Nat :=
  fun j => if j = k then acc j + 1 else acc j

/-- The key `k` is inserted: no successful lookup yet. -/
def reset (acc : Nat → Nat) (k : Nat) : Nat → Nat :=
  fun j => if j = k then 0 else acc j

/-- The number of successful lookups of each key since its insertion, after the lookups
`Get k` for the keys of `ks` in turn (the loop of `GetALL`, `Keys` and `Len`). -/
def LfuCache.hitsGets (lf : LfuCache) (now : Int) : List Nat → (Nat → Nat) → Nat → Nat
  | [], acc => acc
  | k :: ks, acc =>
    match lf.Get k now with
    | (.error _, lf1) => lf1.hitsGets now ks acc
    | (.ok _, lf1) => lf1.hitsGets now ks (bump acc k)

/-- The number of successful lookups of each key since its insertion, after one call:
`Set`/`SetWithExpire` of a key that is not stored starts its count at 0, a successful
`Get` or `TTL` adds one, and `Expire`, `GetALL`, `Keys` and `Len` count the `Get` calls
they make. -/
def LfuCache.hitsStep (lf : LfuCache) (c : Call) (acc : Nat → Nat) : Nat → Nat :=
  match c.op with
  | .Set key _ => if (mget lf.items key).isSome then acc else reset acc key
  | .SetWithExpire key _ _ => if (mget lf.items key).isSome then acc else reset acc key
  | .Get key =>
    match (lf.Get key c.now).1 with
    | .error _ => acc
    | .ok _ => bump acc key
  | .TTL key =>
    match (lf.TTL key c.now).1.2 with
    | some _ => acc
    | none => bump acc key
  | .Expire key _ =>
    match (lf.Get key c.now).1 with
    | .error _ => acc
    | .ok _ => bump acc key
  | .Del _ => acc
  | .Clear => acc
  | .GetALL => lf.hitsGets c.now (lf.keys c.ord) acc
  | .Keys => lf.hitsGets c.now (lf.keys c.ord) acc
  | .Len => lf.hitsGets c.now (lf.keys c.ord) acc

/-- The number of successful lookups of each key since its insertion, after a sequence
of calls. -/
def LfuCache.hits (lf : LfuCache) : List Call → (Nat → Nat) → Nat → Nat
  | [], acc => acc
  | c :: cs, acc => (lf.step c).hits cs (lf.hitsStep c acc)

/-- The frequency of the bucket of every stored entry is its count of successful
lookups. -/
def Counted (lf : LfuCache) (acc : Nat → Nat) : Prop :=
  ∀ k f, lf.freq k = some f → f = acc k

/-! ## mycache.go: the builder -/

def TYPE_SIMPLE : String := "simple"

def TYPE_LRU : String := "lru"

def TYPE_LFU : String := "lfu"

/-- The builder: the policy selector and the capacity (the clock is the argument `now`
of the operations). -/
structure CacheBuilder where
  tp : String
  size : Int
  deriving DecidableEq, Repr

def New (size : Int) : CacheBuilder :=
  { tp := TYPE_SIMPLE, size := size }

def CacheBuilder.EvictType (cb : CacheBuilder) (tp : String) : CacheBuilder :=
  { cb with tp := tp }

def CacheBuilder.Simple (cb : CacheBuilder) : CacheBuilder := cb.EvictType TYPE_SIMPLE

def CacheBuilder.LRU (cb : CacheBuilder) : CacheBuilder := cb.EvictType TYPE_LRU

def CacheBuilder.LFU (cb : CacheBuilder) : CacheBuilder := cb.EvictType TYPE_LFU

/-- A value of the interface `Cache`: one of the three implementations. -/
inductive Cache where
  | simple (sc : SimpleCache)
  | lru (lc : LruCache)
  | lfu (lf : LfuCache)
  deriving DecidableEq, Repr

/-- `CacheBuilder.build`; a panic is the error carrying its message. -/
def CacheBuilder.build (cb : CacheBuilder) : Except String Cache :=
  if cb.tp = TYPE_SIMPLE then .ok (.simple (newSimpleCache cb.size))
  else if cb.tp = TYPE_LRU then .ok (.lru (newLruCache cb.size))
  else if cb.tp = TYPE_LFU then .ok (.lfu (newLfuCache cb.size))
  else .error ("gcache: Unknown type " ++ cb.tp)

/-- `CacheBuilder.Build`; a panic is the error carrying its message. -/
def CacheBuilder.Build (cb : CacheBuilder) : Except String Cache :=
  if cb.size ≤ 0 ∧ cb.tp ≠ TYPE_SIMPLE then .error ("gcache: Cache size <= 0")
  else cb.build

/-- The key count accounts for the stored entries: it is at least their number `len`, and
at most the number `n` of calls made so far. -/
def KeyCountOK (n : Nat) (st : stats) (len : Nat) : Prop :=
  len ≤ st.keyCount ∧ st.keyCount ≤ n

/-- `stats.HitRate`.  The counters are converted to `float64` and divided; the model
returns the exact quotient as a rational number (the `float64` result is this number
rounded), and `0` when the `uint64` sum `total` is 0. -/
def stats.HitRate (st : stats) : ℚ :=
  let hc := st.HitCount
  let mc := st.MissCount
  let total := wrapUint64 (hc + mc)
  if total = 0 then 0 else (hc : ℚ) / (total : ℚ)

/-- The numbers of successful and of failed lookups among the calls `get x k` made for
the keys of `ks` in turn (the loop of `GetALL`, `Keys` and `Len`). -/
def getsLookups {σ : Type} (get : σ → Nat → Except Error Nat × σ) : σ → List Nat → Nat × Nat
  | _, [] => (0, 0)
  | x, k :: ks =>
    match get x k with
    | (.ok _, x1) => ((getsLookups get x1 ks).1 + 1, (getsLookups get x1 ks).2)
    | (.error _, x1) => ((getsLookups get x1 ks).1, (getsLookups get x1 ks).2 + 1)

/-- The numbers of successful and of failed lookups (`Get` and `TTL`) executed during one
call on a Simple cache: `Expire` and `GetALL` execute `Get`; `Keys` and `Len` read
through `getValue` and execute none. -/
def SimpleCache.lookups (sc : SimpleCache) (c : Call) : Nat × Nat :=
  match c.op with
  | .Get key =>
    match (sc.Get key c.now).1 with
    | .ok _ => (1, 0)
    | .error _ => (0, 1)
  | .TTL key =>
    match (sc.TTL key c.now).1.2 with
    | none => (1, 0)
    | some _ => (0, 1)
  | .Expire key _ =>
    match (sc.Get key c.now).1 with
    | .ok _ => (1, 0)
    | .error _ => (0, 1)
  | .GetALL => getsLookups (fun x k => x.Get k c.now) sc (sc.keys c.ord)
  | _ => (0, 0)

/-- The numbers of successful and of failed lookups executed during one call on an LRU
cache: `Expire`, `GetALL`, `Keys` and `Len` execute `Get`. -/
def LruCache.lookups (lc : LruCache) (c : Call) : Nat × Nat :=
  match c.op with
  | .Get key =>
    match (lc.Get key c.now).1 with
    | .ok _ => (1, 0)
    | .error _ => (0, 1)
  | .TTL key =>
    match (lc.TTL key c.now).1.2 with
    | none => (1, 0)
    | some _ => (0, 1)
  | .Expire key _ =>
    match (lc.Get key c.now).1 with
    | .ok _ => (1, 0)
    | .error _ => (0, 1)
  | .GetALL => getsLookups (fun x k => x.Get k c.now) lc (lc.keys c.ord)
  | .Keys => getsLookups (fun x k => x.Get k c.now) lc (lc.keys c.ord)
  | .Len => getsLookups (fun x k => x.Get k c.now) lc (lc.keys c.ord)
  | _ => (0, 0)

/-- The numbers of successful and of failed lookups executed during one call on an LFU
cache: `Expire`, `GetALL`, `Keys` and `Len` execute `Get`. -/
def LfuCache.lookups (lf : LfuCache) (c : Call) : Nat × Nat :=
  match c.op with
  | .Get key =>
    match (lf.Get key c.now).1 with
    | .ok _ => (1, 0)
    | .error _ => (0, 1)
  | .TTL key =>
    match (lf.TTL key c.now).1.2 with
    | none => (1, 0)
    | some _ => (0, 1)
  | .Expire key _ =>
    match (lf.Get key c.now).1 with
    | .ok _ => (1, 0)
    | .error _ => (0, 1)
  | .GetALL => getsLookups (fun x k => x.Get k c.now) lf (lf.keys c.ord)
  | .Keys => getsLookups (fun x k => x.Get k c.now) lf (lf.keys c.ord)
  | .Len => getsLookups (fun x k => x.Get k c.now) lf (lf.keys c.ord)
  | _ => (0, 0)

/-- The numbers of successful and of failed lookups executed during a sequence of
calls. -/
def lookupLog {σ : Type} (step : σ → Call → σ) (look : σ → Call → Nat × Nat) :
    σ → List Call → Nat × Nat
  | _, [] => (0, 0)
  | x, c :: cs =>
    ((look x c).1 + (lookupLog step look (step x c) cs).1,
      (look x c).2 + (lookupLog step look (step x c) cs).2)

/-- The counters of lookups of `b` are those of `a` plus `h` hits and `m` misses. -/
def LooksAdd (a b : stats) (h m : Nat) : Prop :=
  b.HitCount = a.HitCount + h ∧ b.MissCount = a.MissCount + m

/-! ## Lemmas on maps -/

theorem mget_eq_none_iff {β : Type} (m : List (Nat × β)) (k : Nat) :
    mget m k = none ↔ k ∉ mkeys m := by
  induction m with
  | nil => simp [mget, mkeys]
  | cons p m ih =>
    obtain ⟨a, b⟩ := p
    by_cases h : a = k
    · simp [mget, mkeys, h]
    · have h2 : ¬ k = a := fun e => h e.symm
      simp [mget, h, h2, mkeys] at ih ⊢
      exact ih

theorem mget_some_mem {β : Type} {m : List (Nat × β)} {k : Nat} {v : β}
    (h : mget m k = some v) : (k, v) ∈ m := by
  induction m with
  | nil => simp [mget] at h
  | cons p m ih =>
    obtain ⟨a, b⟩ := p
    by_cases hk : a = k
    · simp [mget, hk] at h
      simp [hk, h]
    · simp [mget, hk] at h
      exact List.mem_cons_of_mem _ (ih h)

theorem mget_of_mem {β : Type} {m : List (Nat × β)} {k : Nat} {v : β}
    (hnd : (mkeys m).Nodup) (h : (k, v) ∈ m) : mget m k = some v := by
  induction m with
  | nil => simp at h
  | cons p m ih =>
    obtain ⟨a, b⟩ := p
    simp only [mkeys, List.map_cons, List.nodup_cons] at hnd
    rcases List.mem_cons.1 h with h1 | h1
    · cases h1
      simp [mget]
    · have hka : a ≠ k := by
        intro e
        apply hnd.1
        rw [e]
        exact List.mem_map_of_mem Prod.fst h1
      simp only [mget, hka, if_false]
      exact ih hnd.2 h1

theorem mget_isSome_iff {β : Type} (m : List (Nat × β)) (k : Nat) :
    (∃ v, mget m k = some v) ↔ k ∈ mkeys m := by
  constructor
  · rintro ⟨v, hv⟩
    by_contra hc
    rw [← mget_eq_none_iff] at hc
    rw [hc] at hv
    cases hv
  · intro h
    cases hm : mget m k with
    | none => exact absurd h ((mget_eq_none_iff m k).1 hm)
    | some v => exact ⟨v, rfl⟩

theorem mget_mdel_self {β : Type} (m : List (Nat × β)) (k : Nat) : mget (mdel m k) k = none := by
  rw [mget_eq_none_iff]
  simp [mkeys, mdel, List.mem_filter]

theorem mget_mdel_ne {β : Type} (m : List (Nat × β)) {k j : Nat} (h : j ≠ k) :
    mget (mdel m k) j = mget m j := by
  induction m with
  | nil => simp [mdel, mget]
  | cons p m ih =>
    obtain ⟨a, b⟩ := p
    by_cases hk : a = k
    · subst hk
      have haj : ¬ a = j := fun e => h e.symm
      simp only [mdel, List.filter, bne_self_eq_false, mget, haj, if_false]
      simpa [mdel] using ih
    · have : (a != k) = true := by simpa using hk
      simp only [mdel, List.filter, this, mget]
      by_cases haj : a = j
      · simp [haj]
      · simp only [haj, if_false]
        simpa [mdel] using ih

theorem mkeys_mdel {β : Type} (m : List (Nat × β)) (k : Nat) :
    mkeys (mdel m k) = (mkeys m).filter (fun j => j != k) := by
  simp [mkeys, mdel, List.filter_map, Function.comp_def]

theorem mkeys_mupd {β : Type} (m : List (Nat × β)) (k : Nat) (v : β) :
    mkeys (mupd m k v) = mkeys m := by
  induction m with
  | nil => simp [mupd]
  | cons p m ih =>
    obtain ⟨a, b⟩ := p
    by_cases hk : a = k
    · simp [mupd, hk, mkeys]
    · simp only [mupd, hk, if_false, mkeys, List.map_cons] at ih ⊢
      rw [ih]

theorem length_mupd {β : Type} (m : List (Nat × β)) (k : Nat) (v : β) :
    (mupd m k v).length = m.length := by
  have := congrArg List.length (mkeys_mupd m k v)
  simpa [mkeys] using this

theorem mget_mupd {β : Type} (m : List (Nat × β)) (k j : Nat) (v : β) :
    mget (mupd m k v) j = if j = k then (mget m k).map (fun _ => v) else mget m j := by
  induction m with
  | nil => simp [mupd, mget]
  | cons p m ih =>
    obtain ⟨a, b⟩ := p
    by_cases hk : a = k
    · by_cases hj : j = k
      · simp [mupd, mget, hk, hj]
      · have : ¬ k = j := fun e => hj e.symm
        simp [mupd, mget, hk, hj, this]
    · by_cases hj : j = k
      · simp only [mupd, hk, if_false, mget, hj, if_true] at ih ⊢
        exact ih
      · simp only [mupd, hk, if_false, mget, hj] at ih ⊢
        by_cases haj : a = j
        · simp [haj]
        · simp only [haj, if_false]
          exact ih

theorem mem_mupd {β : Type} {m : List (Nat × β)} {k : Nat} {v : β} {p : Nat × β}
    (h : p ∈ mupd m k v) : p ∈ m ∨ p = (k, v) := by
  induction m with
  | nil => simp [mupd] at h
  | cons q m ih =>
    obtain ⟨a, b⟩ := q
    by_cases hk : a = k
    · simp only [mupd, hk, if_true, List.mem_cons] at h
      rcases h with h | h
      · exact Or.inr h
      · exact Or.inl (List.mem_cons_of_mem _ h)
    · simp only [mupd, hk, if_false, List.mem_cons] at h
      rcases h with h | h
      · exact Or.inl (h ▸ List.mem_cons_self _ _)
      · rcases ih h with h1 | h1
        · exact Or.inl (List.mem_cons_of_mem _ h1)
        · exact Or.inr h1

theorem mem_mupd_of_ne {β : Type} {m : List (Nat × β)} {k : Nat} {v : β} {p : Nat × β}
    (h : p ∈ m) (hk : p.1 ≠ k) : p ∈ mupd m k v := by
  induction m with
  | nil => simp at h
  | cons q m ih =>
    obtain ⟨a, b⟩ := q
    rcases List.mem_cons.1 h with h1 | h1
    · subst h1
      have : ¬ a = k := hk
      simp [mupd, this]
    · by_cases hak : a = k
      · simp only [mupd, hak, if_true]
        exact List.mem_cons_of_mem _ h1
      · simp only [mupd, hak, if_false]
        exact List.mem_cons_of_mem _ (ih h1)

theorem mset_of_none {β : Type} {m : List (Nat × β)} {k : Nat} (v : β)
    (h : mget m k = none) : mset m k v = (k, v) :: m := by
  simp [mset, h]

theorem mget_mset_self {β : Type} (m : List (Nat × β)) (k : Nat) (v : β) :
    mget (mset m k v) k = some v := by
  unfold mset
  cases h : mget m k with
  | none => simp [mget]
  | some w => simp [mget_mupd, h]

theorem mget_mset_ne {β : Type} (m : List (Nat × β)) {k j : Nat} (v : β) (h : j ≠ k) :
    mget (mset m k v) j = mget m j := by
  unfold mset
  cases hm : mget m k with
  | none =>
    have : ¬ k = j := fun e => h e.symm
    simp [mget, this]
  | some w => simp [mget_mupd, h]

theorem length_mdel_of_mem {β : Type} {m : List (Nat × β)} {k : Nat}
    (hnd : (mkeys m).Nodup) (h : k ∈ mkeys m) : (mdel m k).length + 1 = m.length := by
  induction m with
  | nil => simp [mkeys] at h
  | cons p m ih =>
    obtain ⟨a, b⟩ := p
    simp only [mkeys, List.map_cons, List.nodup_cons] at hnd
    by_cases hk : a = k
    · subst hk
      have hall : ∀ q ∈ m, (q.1 != a) = true := by
        intro q hq
        have : q.1 ≠ a := by
          intro e
          apply hnd.1
          rw [← e]
          exact List.mem_map_of_mem Prod.fst hq
        simpa using this
      simp [mdel, List.filter, List.filter_eq_self.2 hall]
    · have hne : (a != k) = true := by simpa using hk
      have hk2 : k ∈ mkeys m := by
        simp only [mkeys, List.map_cons, List.mem_cons] at h
        rcases h with h | h
        · exact absurd h.symm hk
        · exact h
      have := ih hnd.2 hk2
      simp only [mdel, List.filter, hne, List.length_cons] at this ⊢
      omega

theorem length_mdel_le {β : Type} (m : List (Nat × β)) (k : Nat) :
    (mdel m k).length ≤ m.length := by
  simp [mdel, List.length_filter_le]

/-! ## Lemmas on lists of elements -/

theorem lfind_some {α : Type} {l : List (Element α)} {h : Nat} {e : Element α}
    (hf : lfind l h = some e) : e ∈ l ∧ e.id = h := by
  induction l with
  | nil => simp [lfind] at hf
  | cons a l ih =>
    by_cases ha : a.id = h
    · simp only [lfind, ha, if_true, Option.some.injEq] at hf
      subst hf
      exact ⟨List.mem_cons_self _ _, ha⟩
    · simp only [lfind, ha, if_false] at hf
      exact ⟨List.mem_cons_of_mem _ (ih hf).1, (ih hf).2⟩

theorem lfind_eq_none_iff {α : Type} (l : List (Element α)) (h : Nat) :
    lfind l h = none ↔ h ∉ l.map Element.id := by
  induction l with
  | nil => simp [lfind]
  | cons a l ih =>
    by_cases ha : a.id = h
    · simp [lfind, ha]
    · have : ¬ h = a.id := fun e => ha e.symm
      simp only [lfind, ha, if_false, List.map_cons, List.mem_cons, this, false_or]
      exact ih

theorem lfind_of_mem {α : Type} {l : List (Element α)} {e : Element α}
    (hnd : (l.map Element.id).Nodup) (he : e ∈ l) : lfind l e.id = some e := by
  induction l with
  | nil => simp at he
  | cons a l ih =>
    simp only [List.map_cons, List.nodup_cons] at hnd
    rcases List.mem_cons.1 he with h1 | h1
    · subst h1
      simp [lfind]
    · have hne : a.id ≠ e.id := by
        intro heq
        apply hnd.1
        rw [heq]
        exact List.mem_map_of_mem Element.id h1
      simp only [lfind, hne, if_false]
      exact ih hnd.2 h1

theorem lRemove_perm {α : Type} {l : List (Element α)} {h : Nat} {e : Element α}
    (hnd : (l.map Element.id).Nodup) (hf : lfind l h = some e) :
    (e :: lRemove l h).Perm l := by
  induction l with
  | nil => simp [lfind] at hf
  | cons a l ih =>
    simp only [List.map_cons, List.nodup_cons] at hnd
    by_cases ha : a.id = h
    · simp only [lfind, ha, if_true, Option.some.injEq] at hf
      subst hf
      have hall : ∀ x ∈ l, (x.id != h) = true := by
        intro x hx
        have : x.id ≠ h := by
          intro heq
          apply hnd.1
          rw [ha, ← heq]
          exact List.mem_map_of_mem Element.id hx
        simpa using this
      simp [lRemove, List.filter, ha, List.filter_eq_self.2 hall]
    · simp only [lfind, ha, if_false] at hf
      have hne : (a.id != h) = true := by simpa using ha
      have := ih hnd.2 hf
      simp only [lRemove, List.filter, hne] at this ⊢
      exact (List.Perm.swap a e _).trans (List.Perm.cons a this)

theorem lMoveToFront_perm {α : Type} {l : List (Element α)} (h : Nat)
    (hnd : (l.map Element.id).Nodup) : (lMoveToFront l h).Perm l := by
  unfold lMoveToFront
  cases hf : lfind l h with
  | none => exact List.Perm.refl _
  | some e => exact lRemove_perm hnd hf

theorem map_id_lmodify {α : Type} (l : List (Element α)) (h : Nat) (f : α → α) :
    (lmodify l h f).map Element.id = l.map Element.id := by
  simp only [lmodify, List.map_map]
  apply List.map_congr_left
  intro e _
  by_cases he : e.id = h <;> simp [he]

theorem length_lmodify {α : Type} (l : List (Element α)) (h : Nat) (f : α → α) :
    (lmodify l h f).length = l.length := by
  simp [lmodify]

theorem lRemove_sublist {α : Type} (l : List (Element α)) (h : Nat) :
    (lRemove l h).Sublist l := List.filter_sublist l

theorem lRemove_eq_dropLast {α : Type} {l : List (Element α)} {e : Element α}
    (hnd : (l.map Element.id).Nodup) (hl : l.getLast? = some e) :
    lRemove l e.id = l.dropLast := by
  obtain ⟨ys, rfl⟩ := List.getLast?_eq_some_iff.1 hl
  simp only [List.map_append, List.map_cons, List.map_nil] at hnd
  have hall : ∀ x ∈ ys, (x.id != e.id) = true := by
    intro x hx
    have : x.id ≠ e.id := by
      intro heq
      have hd := (List.nodup_append.1 hnd).2.2
      exact hd (List.mem_map_of_mem Element.id hx) (by simp [heq])
    simpa using this
  simp [lRemove, List.filter_append, List.filter_eq_self.2 hall, List.filter]

/-! ## The LRU invariant -/

theorem LruInv.lruInv_keys_nodup {lc : LruCache} (hinv : LruInv lc) : (mkeys lc.items).Nodup := by
  obtain ⟨_, h2, h3, _⟩ := hinv
  have hp := h3.map Prod.fst
  rw [List.map_map] at hp
  exact (hp.nodup_iff).2 (by simpa [Function.comp_def] using h2)

theorem LruInv.lruInv_length_eq {lc : LruCache} (hinv : LruInv lc) :
    lc.items.length = lc.evictList.length := by
  have := hinv.2.2.1.length_eq
  simpa using this

theorem LruInv.lruInv_resolve {lc : LruCache} (hinv : LruInv lc) {k h : Nat}
    (hg : mget lc.items k = some h) :
    ∃ e, lfind lc.evictList h = some e ∧ e.Value.key = k ∧ e.id = h ∧ e ∈ lc.evictList := by
  have hm := (hinv.2.2.1.mem_iff).1 (mget_some_mem hg)
  obtain ⟨e, he, heq⟩ := List.mem_map.1 hm
  simp only [Prod.mk.injEq] at heq
  refine ⟨e, ?_, heq.1, heq.2, he⟩
  rw [← heq.2]
  exact lfind_of_mem hinv.1 he

theorem LruInv.lruInv_mget_elem {lc : LruCache} (hinv : LruInv lc) {e : Element lruItem}
    (he : e ∈ lc.evictList) : mget lc.items e.Value.key = some e.id := by
  apply mget_of_mem hinv.lruInv_keys_nodup
  exact (hinv.2.2.1.mem_iff).2 (List.mem_map.2 ⟨e, he, rfl⟩)

theorem LruInv.lruInv_remove_eq {lc : LruCache} (hinv : LruInv lc) {e : Element lruItem}
    (he : e ∈ lc.evictList) :
    lRemove lc.evictList e.id
      = lc.evictList.filter (fun x => x.Value.key != e.Value.key) := by
  unfold lRemove
  apply List.filter_congr
  intro x hx
  by_cases hxe : x = e
  · subst hxe
    simp
  · have h1 : x.id ≠ e.id := fun h => hxe (List.inj_on_of_nodup_map hinv.1 hx he h)
    have h2 : x.Value.key ≠ e.Value.key :=
      fun h => hxe (List.inj_on_of_nodup_map hinv.2.1 hx he h)
    rw [bne_iff_ne.2 h1, bne_iff_ne.2 h2]

theorem LruInv.lruInv_removeElement {lc : LruCache} (hinv : LruInv lc) {e : Element lruItem}
    (he : e ∈ lc.evictList) : LruInv (lc.removeElement e) := by
  have hrem := hinv.lruInv_remove_eq he
  obtain ⟨h1, h2, h3, h4⟩ := hinv
  refine ⟨?_, ?_, ?_, ?_⟩
  · exact List.Nodup.sublist ((lRemove_sublist _ _).map _) h1
  · exact List.Nodup.sublist ((lRemove_sublist _ _).map _) h2
  · show (mdel lc.items e.Value.key).Perm
      ((lRemove lc.evictList e.id).map (fun e => (e.Value.key, e.id)))
    rw [hrem]
    have := h3.filter (fun p => p.1 != e.Value.key)
    rw [List.filter_map] at this
    exact this
  · intro x hx
    simp only [LruCache.removeElement, lRemove] at hx ⊢
    exact h4 x (List.mem_filter.1 hx).1

theorem LruInv.lruInv_moveToFront {lc : LruCache} (hinv : LruInv lc) (h : Nat) :
    LruInv { lc with evictList := lMoveToFront lc.evictList h } := by
  have hp := lMoveToFront_perm h hinv.1
  obtain ⟨h1, h2, h3, h4⟩ := hinv
  refine ⟨?_, ?_, ?_, ?_⟩
  · exact ((hp.map _).nodup_iff).2 h1
  · exact ((hp.map _).nodup_iff).2 h2
  · exact h3.trans (hp.map _).symm
  · intro x hx
    exact h4 x (hp.subset hx)

theorem LruInv.lruInv_modify {lc : LruCache} (hinv : LruInv lc) (h : Nat) (f : lruItem → lruItem)
    (hf : ∀ it, (f it).key = it.key) :
    LruInv { lc with evictList := lmodify lc.evictList h f } := by
  have hk : (lmodify lc.evictList h f).map (fun e => (e.Value.key, e.id))
      = lc.evictList.map (fun e => (e.Value.key, e.id)) := by
    simp only [lmodify, List.map_map]
    apply List.map_congr_left
    intro e _
    by_cases he : e.id = h <;> simp [he, hf]
  have hk2 : (lmodify lc.evictList h f).map (fun e => e.Value.key)
      = lc.evictList.map (fun e => e.Value.key) := by
    simp only [lmodify, List.map_map]
    apply List.map_congr_left
    intro e _
    by_cases he : e.id = h <;> simp [he, hf]
  obtain ⟨h1, h2, h3, h4⟩ := hinv
  refine ⟨?_, ?_, ?_, ?_⟩
  · show ((lmodify lc.evictList h f).map Element.id).Nodup
    rw [map_id_lmodify]
    exact h1
  · show ((lmodify lc.evictList h f).map (fun e => e.Value.key)).Nodup
    rw [hk2]
    exact h2
  · show lc.items.Perm ((lmodify lc.evictList h f).map (fun e => (e.Value.key, e.id)))
    rw [hk]
    exact h3
  · intro x hx
    have hx2 : x.id ∈ (lmodify lc.evictList h f).map Element.id :=
      List.mem_map_of_mem Element.id hx
    rw [map_id_lmodify] at hx2
    obtain ⟨y, hy, hyx⟩ := List.mem_map.1 hx2
    rw [← hyx]
    exact h4 y hy

theorem LruInv.lruInv_push {lc : LruCache} (hinv : LruInv lc) {key : Nat} (item : lruItem)
    (hk : item.key = key) (hnew : mget lc.items key = none) (st : stats) :
    LruInv { lc with
      evictList := ⟨lc.nextId, item⟩ :: lc.evictList,
      items := mset lc.items key lc.nextId,
      nextId := lc.nextId + 1,
      stats := st } := by
  have hkn := hinv.lruInv_keys_nodup
  obtain ⟨h1, h2, h3, h4⟩ := hinv
  have hnk : key ∉ mkeys lc.items := (mget_eq_none_iff _ _).1 hnew
  refine ⟨?_, ?_, ?_, ?_⟩
  · simp only [List.map_cons, List.nodup_cons]
    refine ⟨?_, h1⟩
    intro hm
    obtain ⟨y, hy, hyx⟩ := List.mem_map.1 hm
    have := h4 y hy
    omega
  · simp only [List.map_cons, List.nodup_cons]
    refine ⟨?_, h2⟩
    intro hm
    apply hnk
    have hp := h3.map Prod.fst
    rw [List.map_map] at hp
    rw [hk] at hm
    exact hp.mem_iff.2 (by simpa [Function.comp_def] using hm)
  · simp only [mset_of_none _ hnew, List.map_cons, hk]
    exact List.Perm.cons _ h3
  · intro x hx
    rcases List.mem_cons.1 hx with h | h
    · subst h
      simp
    · have := h4 x h
      show x.id < lc.nextId + 1
      omega

theorem LruInv.lruInv_stats {lc : LruCache} (hinv : LruInv lc) (st : stats) :
    LruInv { lc with stats := st } := hinv

theorem wrapInt64_isInt64 (x : Int) : isInt64 (wrapInt64 x) := by
  unfold isInt64 wrapInt64 maxInt64
  constructor <;> omega

theorem wrapInt64_of_isInt64 {x : Int} (h : isInt64 x) : wrapInt64 x = x := by
  unfold isInt64 maxInt64 at h
  unfold wrapInt64
  omega

theorem ExpireAt_isInt64 (now t : Int) : isInt64 (RealClock.ExpireAt now t) := by
  unfold RealClock.ExpireAt
  split
  · exact wrapInt64_isInt64 _
  · unfold isInt64 maxInt64
    constructor <;> omega

theorem mget_mdel_of_none {β : Type} {m : List (Nat × β)} {k : Nat} (j : Nat)
    (h : mget m k = none) : mget (mdel m j) k = none := by
  by_cases hkj : k = j
  · rw [hkj]
    exact mget_mdel_self m j
  · rw [mget_mdel_ne m hkj]
    exact h

theorem LruCache.lru_evict_one (lc : LruCache) :
    lc.evict 1 =
      match lc.evictList.getLast? with
      | none => lc
      | some ent => lc.removeElement ent := by
  simp only [LruCache.evict]

theorem LruOK.lruOK_removeElement {lc : LruCache} (hok : LruOK lc) {e : Element lruItem}
    (he : e ∈ lc.evictList) : LruOK (lc.removeElement e) := by
  obtain ⟨hinv, hb, ht⟩ := hok
  refine ⟨hinv.lruInv_removeElement he, ⟨hb.1, ?_⟩, ?_⟩
  · have := length_mdel_le lc.items e.Value.key
    have h2 := hb.2
    show ((mdel lc.items e.Value.key).length : Int) ≤ lc.size
    omega
  · intro x hx
    simp only [LruCache.removeElement, lRemove] at hx
    exact ht x (List.mem_filter.1 hx).1

theorem LruOK.lruOK_moveToFront {lc : LruCache} (hok : LruOK lc) (h : Nat) :
    LruOK { lc with evictList := lMoveToFront lc.evictList h } := by
  obtain ⟨hinv, hb, ht⟩ := hok
  refine ⟨hinv.lruInv_moveToFront h, hb, ?_⟩
  intro x hx
  exact ht x ((lMoveToFront_perm h hinv.1).subset hx)

theorem LruOK.lruOK_stats {lc : LruCache} (hok : LruOK lc) (st : mycache.stats) :
    LruOK { lc with stats := st } := hok

theorem LruOK.lruOK_getValue {lc : LruCache} (hok : LruOK lc) (key : Nat) (now : Int) :
    LruOK (lc.getValue key now).2 := by
  unfold LruCache.getValue
  split
  · split
    · rename_i el hf
      split
      · exact hok.lruOK_moveToFront _
      · exact hok.lruOK_removeElement (lfind_some hf).1
    · exact hok
  · exact hok

theorem LruOK.lruOK_Get {lc : LruCache} (hok : LruOK lc) (key : Nat) (now : Int) :
    LruOK (lc.Get key now).2 := by
  have h := hok.lruOK_getValue key now
  unfold LruCache.Get
  split
  · rename_i err lc1 heq
    rw [heq] at h
    exact h.lruOK_stats _
  · rename_i v lc1 heq
    rw [heq] at h
    exact h.lruOK_stats _

theorem LruOK.lruOK_TTL {lc : LruCache} (hok : LruOK lc) (key : Nat) (now : Int) :
    LruOK (lc.TTL key now).2 := by
  unfold LruCache.TTL
  split
  · split
    · rename_i el hf
      split
      · exact (hok.lruOK_moveToFront _).lruOK_stats _
      · exact (hok.lruOK_removeElement (lfind_some hf).1).lruOK_stats _
    · exact hok.lruOK_stats _
  · exact hok.lruOK_stats _

theorem LruOK.lruOK_remove {lc : LruCache} (hok : LruOK lc) (key : Nat) :
    LruOK (lc.remove key).2 := by
  unfold LruCache.remove
  split
  · split
    · rename_i el hf
      exact hok.lruOK_removeElement (lfind_some hf).1
    · exact hok
  · exact hok

theorem LruOK.lruOK_evict_one {lc : LruCache} (hok : LruOK lc) : LruOK (lc.evict 1) := by
  rw [LruCache.lru_evict_one]
  split
  · exact hok
  · rename_i ent hl
    exact hok.lruOK_removeElement (List.mem_of_getLast?_eq_some hl)

theorem LruCache.lru_evict_one_length {lc : LruCache} (hinv : LruInv lc)
    (hne : lc.evictList ≠ []) : (lc.evict 1).items.length + 1 = lc.items.length := by
  rw [LruCache.lru_evict_one]
  split
  · rename_i hl
    exact absurd (List.getLast?_eq_none_iff.1 hl) hne
  · rename_i ent hl
    have hm := List.mem_of_getLast?_eq_some hl
    have hk : ent.Value.key ∈ mkeys lc.items :=
      (mget_isSome_iff _ _).1 ⟨_, hinv.lruInv_mget_elem hm⟩
    exact length_mdel_of_mem hinv.lruInv_keys_nodup hk

theorem LruCache.lru_evict_one_mget_none {lc : LruCache} {key : Nat}
    (h : mget lc.items key = none) : mget (lc.evict 1).items key = none := by
  rw [LruCache.lru_evict_one]
  split
  · exact h
  · exact mget_mdel_of_none _ h

theorem LruOK.lruOK_set {lc : LruCache} (hok : LruOK lc) (key value : Nat) (t now : Int) :
    LruOK (lc.set key value t now).2 := by
  unfold LruCache.set
  split
  · rename_i h hg
    obtain ⟨hinv, hb, ht⟩ := hok.lruOK_moveToFront h
    refine ⟨LruInv.lruInv_modify hinv h _ (fun _ => rfl), hb, ?_⟩
    intro x hx
    simp only [lmodify] at hx
    obtain ⟨y, hy, hyx⟩ := List.mem_map.1 hx
    by_cases hyh : y.id = h
    · simp only [hyh, if_true] at hyx
      rw [← hyx]
      exact ExpireAt_isInt64 _ _
    · simp only [hyh, if_false] at hyx
      rw [← hyx]
      exact ht y hy
  · rename_i hg
    by_cases hfull : (lc.evictList.length : Int) ≥ lc.size
    · simp only [hfull, if_true]
      have hne : lc.evictList ≠ [] := by
        intro he
        have := hok.2.1.1
        rw [he] at hfull
        simp at hfull
        omega
      have hlen := LruCache.lru_evict_one_length hok.1 hne
      obtain ⟨hinv, hb, ht⟩ := hok.lruOK_evict_one
      have hnone : mget (lc.evict 1).items key = none := LruCache.lru_evict_one_mget_none hg
      refine ⟨LruInv.lruInv_push hinv _ rfl hnone _, ⟨hb.1, ?_⟩, ?_⟩
      · have h1 := hok.2.1.2
        have h2 : (lc.evict 1).size = lc.size := by
          rw [LruCache.lru_evict_one]
          split <;> rfl
        show ((mset (lc.evict 1).items key (lc.evict 1).nextId).length : Int)
          ≤ (lc.evict 1).size
        rw [mset_of_none _ hnone, h2]
        simp only [List.length_cons]
        omega
      · intro x hx
        rcases List.mem_cons.1 hx with h | h
        · subst h
          exact ExpireAt_isInt64 _ _
        · exact ht x h
    · simp only [hfull, if_false]
      obtain ⟨hinv, hb, ht⟩ := hok
      refine ⟨LruInv.lruInv_push hinv _ rfl hg _, ⟨hb.1, ?_⟩, ?_⟩
      · show ((mset lc.items key lc.nextId).length : Int) ≤ lc.size
        rw [mset_of_none _ hg]
        have := hinv.lruInv_length_eq
        simp only [List.length_cons]
        omega
      · intro x hx
        rcases List.mem_cons.1 hx with h | h
        · subst h
          exact ExpireAt_isInt64 _ _
        · exact ht x h

theorem LruOK.lruOK_Expire {lc : LruCache} (hok : LruOK lc) (key : Nat) (t now : Int) :
    LruOK (lc.Expire key t now).2 := by
  have h := hok.lruOK_Get key now
  unfold LruCache.Expire
  split
  · rename_i err lc1 heq
    rw [heq] at h
    exact h
  · rename_i v lc1 heq
    rw [heq] at h
    exact h.lruOK_set _ _ _ _

theorem LruOK.lruOK_init {lc : LruCache} (hok : LruOK lc) : LruOK lc.init := by
  obtain ⟨_, hb, _⟩ := hok
  refine ⟨⟨by simp [LruCache.init], by simp [LruCache.init], by simp [LruCache.init],
    by simp [LruCache.init]⟩, ⟨hb.1, ?_⟩, by simp [LruTimes, LruCache.init]⟩
  have := hb.1
  simp only [LruCache.init, List.length_nil]
  omega

theorem LruOK.lruOK_foldGet {lc : LruCache} (hok : LruOK lc) (now : Int) {γ : Type}
    (f : γ → Nat → Nat → γ) (ks : List Nat) (acc : γ) :
    LruOK (ks.foldl
      (fun (acc : γ × LruCache) k =>
        match acc.2.Get k now with
        | (.error _, lc1) => (acc.1, lc1)
        | (.ok v, lc1) => (f acc.1 k v, lc1))
      (acc, lc)).2 := by
  induction ks generalizing lc acc with
  | nil => exact hok
  | cons k ks ih =>
    simp only [List.foldl_cons]
    have h := hok.lruOK_Get k now
    cases hg : lc.Get k now with
    | mk r lc1 =>
      rw [hg] at h
      cases r with
      | error e => exact ih h _
      | ok v => exact ih h _

theorem LruOK.lruOK_step {lc : LruCache} (hok : LruOK lc) (c : Call) : LruOK (lc.step c) := by
  unfold LruCache.step
  split
  · exact hok.lruOK_set _ _ _ _
  · exact hok.lruOK_set _ _ _ _
  · exact hok.lruOK_Get _ _
  · exact hok.lruOK_TTL _ _
  · exact hok.lruOK_Expire _ _ _
  · exact hok.lruOK_remove _
  · exact hok.lruOK_init
  · exact hok.lruOK_foldGet c.now (fun m k v => mset m k v) _ _
  · exact hok.lruOK_foldGet c.now (fun ks k _ => ks ++ [k]) _ _
  · exact hok.lruOK_foldGet c.now (fun ks k _ => ks ++ [k]) _ _

theorem LruOK.lruOK_run {lc : LruCache} (hok : LruOK lc) (cs : List Call) : LruOK (lc.run cs) := by
  induction cs generalizing lc with
  | nil => exact hok
  | cons c cs ih => exact ih (hok.lruOK_step c)

theorem LruOK.lruOK_new {size : Int} (h : 1 ≤ size) : LruOK (newLruCache size) := by
  refine ⟨⟨by simp [newLruCache], by simp [newLruCache], by simp [newLruCache],
    by simp [newLruCache]⟩, ⟨h, ?_⟩, by simp [LruTimes, newLruCache]⟩
  simp only [newLruCache, List.length_nil]
  omega

/-! ## The LFU invariant -/

theorem mem_lmodify {α : Type} {l : List (Element α)} {h : Nat} {f : α → α} {x : Element α} :
    x ∈ lmodify l h f ↔
      ∃ e ∈ l, (if e.id = h then { e with Value := f e.Value } else e) = x := by
  simp [lmodify, List.mem_map]

theorem modify_id {α : Type} (e : Element α) (h : Nat) (f : α → α) :
    (if e.id = h then ({ e with Value := f e.Value } : Element α) else e).id = e.id := by
  split <;> rfl

theorem mem_lmodify_of_mem {α : Type} {l : List (Element α)} (h : Nat) (f : α → α)
    {e : Element α} (he : e ∈ l) :
    (if e.id = h then { e with Value := f e.Value } else e) ∈ lmodify l h f :=
  mem_lmodify.2 ⟨e, he, rfl⟩

theorem map_freq_lmodify (l : List (Element freqEntry)) (h : Nat) (f : freqEntry → freqEntry)
    (hf : ∀ fe, (f fe).freq = fe.freq) :
    (lmodify l h f).map (fun e => e.Value.freq) = l.map (fun e => e.Value.freq) := by
  simp only [lmodify, List.map_map]
  apply List.map_congr_left
  intro e _
  by_cases he : e.id = h <;> simp [he, hf]

theorem headZero_lmodify {l : List (Element freqEntry)} (hz : headZero l) (h : Nat)
    (f : freqEntry → freqEntry) (hf : ∀ fe, (f fe).freq = fe.freq) :
    headZero (lmodify l h f) := by
  obtain ⟨e, rest, rfl, he⟩ := hz
  by_cases hh : e.id = h
  · exact ⟨_, _, by simp only [lmodify, List.map_cons, hh, if_true]; rfl, by simp [hf, he]⟩
  · exact ⟨_, _, by simp only [lmodify, List.map_cons, hh, if_false]; rfl, he⟩

theorem LfuInv.lfuInv_mem_of_mget {lf : LfuCache} (hinv : LfuInv lf) {k : Nat} {item : lfuItem}
    (hg : mget lf.items k = some item) :
    item.key = k ∧ ∃ e ∈ lf.freqList, e.id = item.freqElement ∧ k ∈ e.Value.items := by
  have hm := mget_some_mem hg
  exact ⟨hinv.2.1 _ hm, hinv.2.2.2.2.2.2.1 _ hm⟩

theorem LfuInv.lfuInv_bucket_unique {lf : LfuCache} (hinv : LfuInv lf) {e1 e2 : Element freqEntry}
    (h1 : e1 ∈ lf.freqList) (h2 : e2 ∈ lf.freqList) (h : e1.id = e2.id) : e1 = e2 :=
  List.inj_on_of_nodup_map hinv.2.2.1 h1 h2 h

theorem LfuInv.lfuInv_removeItem {lf : LfuCache} (hinv : LfuInv lf) {k : Nat} {item : lfuItem}
    (hg : mget lf.items k = some item) : LfuInv (lf.removeItem item) := by
  obtain ⟨hk, -⟩ := hinv.lfuInv_mem_of_mget hg
  obtain ⟨h1, h2, h3, h4, h5, h6, h7, h8, h9⟩ := hinv
  subst hk
  have hfl : (lf.removeItem item).freqList
      = lmodify lf.freqList item.freqElement (fun fe => fe.delete item.key) := rfl
  have hit : (lf.removeItem item).items = mdel lf.items item.key := rfl
  have hn : (lf.removeItem item).nextId = lf.nextId := rfl
  unfold LfuInv
  rw [hfl, hit, hn]
  refine ⟨?_, ?_, ?_, ?_, ?_, ?_, ?_, ?_, ?_⟩
  · rw [mkeys_mdel]
    exact h1.filter _
  · intro p hp
    exact h2 p (List.mem_filter.1 hp).1
  · rw [map_id_lmodify]
    exact h3
  · intro x hx
    have hx2 := List.mem_map_of_mem Element.id hx
    rw [map_id_lmodify] at hx2
    obtain ⟨y, hy, hyx⟩ := List.mem_map.1 hx2
    rw [← hyx]
    exact h4 y hy
  · rw [map_freq_lmodify lf.freqList item.freqElement (fun fe => fe.delete item.key)
      (fun _ => rfl)]
    exact h5
  · exact headZero_lmodify h6 item.freqElement (fun fe => fe.delete item.key) (fun _ => rfl)
  · intro p hp
    have hp1 := (List.mem_filter.1 hp).1
    have hpk : p.1 ≠ item.key := by simpa using (List.mem_filter.1 hp).2
    obtain ⟨e, he, hid, hmem⟩ := h7 p hp1
    refine ⟨_, mem_lmodify_of_mem item.freqElement (fun fe => fe.delete item.key) he, ?_, ?_⟩
    · rw [modify_id e item.freqElement (fun fe => fe.delete item.key)]
      exact hid
    · by_cases hh : e.id = item.freqElement
      · simp [hh, freqEntry.delete, List.mem_filter, hmem, hpk]
      · simp [hh, hmem]
  · intro x hx j hj
    obtain ⟨e, he, hex⟩ := mem_lmodify.1 hx
    have hje : j ∈ e.Value.items ∧ (e.id = item.freqElement → j ≠ item.key) := by
      by_cases hh : e.id = item.freqElement
      · simp only [hh, if_true] at hex
        subst hex
        simp only [freqEntry.delete, List.mem_filter] at hj
        exact ⟨hj.1, fun _ => by simpa using hj.2⟩
      · simp only [hh, if_false] at hex
        subst hex
        exact ⟨hj, fun h => absurd h hh⟩
    have hxid : x.id = e.id := by
      rw [← hex]
      exact modify_id e item.freqElement (fun fe => fe.delete item.key)
    obtain ⟨it, hit, hfe⟩ := h8 e he j hje.1
    have hjk : j ≠ item.key := by
      intro hjk
      rw [hjk, hg] at hit
      cases hit
      exact hje.2 hfe.symm hjk
    refine ⟨it, ?_, by rw [hxid]; exact hfe⟩
    rw [mget_mdel_ne _ hjk]
    exact hit
  · intro x hx
    obtain ⟨e, he, hex⟩ := mem_lmodify.1 hx
    by_cases hh : e.id = item.freqElement
    · simp only [hh, if_true] at hex
      subst hex
      exact (h9 e he).filter _
    · simp only [hh, if_false] at hex
      subst hex
      exact h9 e he

theorem lfuInv_iff (lf : LfuCache) : LfuInv lf ↔ LfuWF none lf.items lf.freqList lf.nextId := by
  unfold LfuInv LfuWF headZero
  simp

theorem LfuWF.lfuWF_hole_of_absent {items : List (Nat × lfuItem)} {l : List (Element freqEntry)}
    {n key : Nat} (h : LfuWF none items l n) (hk : mget items key = none) :
    LfuWF (some key) items l n := by
  obtain ⟨h1, h2, h3, h4, h5, h6, h7, h8, h9⟩ := h
  refine ⟨h1, h2, h3, h4, h5, h6, fun p hp _ => h7 p hp (by simp), ?_, h9⟩
  intro e he k hke
  obtain ⟨-, it, hit, hfe⟩ := h8 e he k hke
  refine ⟨?_, it, hit, hfe⟩
  intro hkk
  cases hkk
  rw [hk] at hit
  cases hit

/-- Step of `increment`: the item leaves its current bucket. -/
theorem LfuWF.lfuWF_delete {items : List (Nat × lfuItem)} {l : List (Element freqEntry)}
    {n key : Nat} {item : lfuItem} (h : LfuWF none items l n)
    (hg : mget items key = some item) :
    LfuWF (some key) items (lmodify l item.freqElement (fun fe => fe.delete key)) n := by
  obtain ⟨h1, h2, h3, h4, h5, h6, h7, h8, h9⟩ := h
  refine ⟨h1, h2, ?_, ?_, ?_, ?_, ?_, ?_, ?_⟩
  · rw [map_id_lmodify]
    exact h3
  · intro x hx
    have hx2 := List.mem_map_of_mem Element.id hx
    rw [map_id_lmodify] at hx2
    obtain ⟨y, hy, hyx⟩ := List.mem_map.1 hx2
    rw [← hyx]
    exact h4 y hy
  · rw [map_freq_lmodify l item.freqElement (fun fe => fe.delete key) (fun _ => rfl)]
    exact h5
  · exact headZero_lmodify h6 item.freqElement (fun fe => fe.delete key) (fun _ => rfl)
  · intro p hp hpk
    have hpk : p.1 ≠ key := fun e => hpk (by rw [e])
    obtain ⟨e, he, hid, hmem⟩ := h7 p hp (by simp)
    refine ⟨_, mem_lmodify_of_mem item.freqElement (fun fe => fe.delete key) he, ?_, ?_⟩
    · rw [modify_id e item.freqElement (fun fe => fe.delete key)]
      exact hid
    · by_cases hh : e.id = item.freqElement
      · simp [hh, freqEntry.delete, List.mem_filter, hmem, hpk]
      · simp [hh, hmem]
  · intro x hx j hj
    obtain ⟨e, he, hex⟩ := mem_lmodify.1 hx
    have hje : j ∈ e.Value.items ∧ (e.id = item.freqElement → j ≠ key) := by
      by_cases hh : e.id = item.freqElement
      · simp only [hh, if_true] at hex
        subst hex
        simp only [freqEntry.delete, List.mem_filter] at hj
        exact ⟨hj.1, fun _ => by simpa using hj.2⟩
      · simp only [hh, if_false] at hex
        subst hex
        exact ⟨hj, fun h => absurd h hh⟩
    have hxid : x.id = e.id := by
      rw [← hex]
      exact modify_id e item.freqElement (fun fe => fe.delete key)
    obtain ⟨-, it, hit, hfe⟩ := h8 e he j hje.1
    have hjk : j ≠ key := by
      intro hjk
      rw [hjk, hg] at hit
      cases hit
      exact hje.2 hfe.symm hjk
    exact ⟨fun e => hjk (Option.some.inj e), it, hit, by rw [hxid]; exact hfe⟩
  · intro x hx
    obtain ⟨e, he, hex⟩ := mem_lmodify.1 hx
    by_cases hh : e.id = item.freqElement
    · simp only [hh, if_true] at hex
      subst hex
      exact (h9 e he).filter _
    · simp only [hh, if_false] at hex
      subst hex
      exact h9 e he

/-- Step of `increment` and of `set`: the item enters the bucket `tid`. -/
theorem LfuWF.lfuWF_add {items items2 : List (Nat × lfuItem)} {l : List (Element freqEntry)}
    {n key tid : Nat} {item2 : lfuItem} (h : LfuWF (some key) items l n)
    (htid : tid ∈ l.map Element.id)
    (hk1 : (mkeys items2).Nodup) (hk2 : ∀ p ∈ items2, p.2.key = p.1)
    (hnew : mget items2 key = some item2) (hfe : item2.freqElement = tid)
    (hold : ∀ j, j ≠ key → mget items2 j = mget items j)
    (hsub : ∀ p ∈ items2, p.1 ≠ key → p ∈ items) :
    LfuWF none items2 (lmodify l tid (fun fe => fe.add key)) n := by
  obtain ⟨h1, h2, h3, h4, h5, h6, h7, h8, h9⟩ := h
  refine ⟨hk1, hk2, ?_, ?_, ?_, ?_, ?_, ?_, ?_⟩
  · rw [map_id_lmodify]
    exact h3
  · intro x hx
    have hx2 := List.mem_map_of_mem Element.id hx
    rw [map_id_lmodify] at hx2
    obtain ⟨y, hy, hyx⟩ := List.mem_map.1 hx2
    rw [← hyx]
    exact h4 y hy
  · rw [map_freq_lmodify l tid (fun fe => fe.add key) (fun _ => rfl)]
    exact h5
  · exact headZero_lmodify h6 tid (fun fe => fe.add key) (fun _ => rfl)
  · intro p hp _
    by_cases hpk : p.1 = key
    · obtain ⟨t, ht, htt⟩ := List.mem_map.1 htid
      refine ⟨_, mem_lmodify_of_mem tid (fun fe => fe.add key) ht, ?_, ?_⟩
      · rw [modify_id t tid (fun fe => fe.add key), htt]
        have := mget_of_mem hk1 (show (p.1, p.2) ∈ items2 from hp)
        rw [hpk, hnew] at this
        cases this
        exact hfe.symm
      · simp only [htt, if_true, freqEntry.add, hpk]
        split
        · assumption
        · exact List.mem_cons_self _ _
    · obtain ⟨e, he, hid, hmem⟩ := h7 p (hsub p hp hpk) (fun e => hpk (Option.some.inj e))
      refine ⟨_, mem_lmodify_of_mem tid (fun fe => fe.add key) he, ?_, ?_⟩
      · rw [modify_id e tid (fun fe => fe.add key)]
        exact hid
      · by_cases hh : e.id = tid
        · simp only [hh, if_true, freqEntry.add]
          split
          · exact hmem
          · exact List.mem_cons_of_mem _ hmem
        · simp only [hh, if_false]
          exact hmem
  · intro x hx j hj
    refine ⟨by simp, ?_⟩
    obtain ⟨e, he, hex⟩ := mem_lmodify.1 hx
    have hxid : x.id = e.id := by
      rw [← hex]
      exact modify_id e tid (fun fe => fe.add key)
    have hcase : j ∈ e.Value.items ∨ (j = key ∧ e.id = tid) := by
      by_cases hh : e.id = tid
      · simp only [hh, if_true] at hex
        subst hex
        simp only [freqEntry.add] at hj
        split at hj
        · exact Or.inl hj
        · rcases List.mem_cons.1 hj with h | h
          · exact Or.inr ⟨h, hh⟩
          · exact Or.inl h
      · simp only [hh, if_false] at hex
        subst hex
        exact Or.inl hj
    rcases hcase with hc | ⟨hc, hh⟩
    · obtain ⟨hne, it, hit, hf⟩ := h8 e he j hc
      have hjk : j ≠ key := fun e => hne (by rw [e])
      exact ⟨it, by rw [hold j hjk]; exact hit, by rw [hxid]; exact hf⟩
    · exact ⟨item2, by rw [hc]; exact hnew, by rw [hxid, hh]; exact hfe⟩
  · intro x hx
    obtain ⟨e, he, hex⟩ := mem_lmodify.1 hx
    by_cases hh : e.id = tid
    · simp only [hh, if_true] at hex
      subst hex
      simp only [freqEntry.add]
      split
      · exact h9 e he
      · rename_i hnot
        exact List.nodup_cons.2 ⟨hnot, h9 e he⟩
    · simp only [hh, if_false] at hex
      subst hex
      exact h9 e he

theorem mem_lInsertAfter {α : Type} {l : List (Element α)} {new x : Element α} {h : Nat}
    (hx : x ∈ lInsertAfter l new h) : x ∈ l ∨ x = new := by
  induction l with
  | nil => simp [lInsertAfter] at hx
  | cons a l ih =>
    by_cases ha : a.id = h
    · simp only [lInsertAfter, ha, if_true, List.mem_cons] at hx
      rcases hx with h1 | h1 | h1
      · exact Or.inl (h1 ▸ List.mem_cons_self _ _)
      · exact Or.inr h1
      · exact Or.inl (List.mem_cons_of_mem _ h1)
    · simp only [lInsertAfter, ha, if_false, List.mem_cons] at hx
      rcases hx with h1 | h1
      · exact Or.inl (h1 ▸ List.mem_cons_self _ _)
      · rcases ih h1 with h2 | h2
        · exact Or.inl (List.mem_cons_of_mem _ h2)
        · exact Or.inr h2

theorem mem_lInsertAfter_of_mem {α : Type} {l : List (Element α)} (new : Element α) (h : Nat)
    {x : Element α} (hx : x ∈ l) : x ∈ lInsertAfter l new h := by
  induction l with
  | nil => simp at hx
  | cons a l ih =>
    by_cases ha : a.id = h
    · simp only [lInsertAfter, ha, if_true, List.mem_cons]
      rcases List.mem_cons.1 hx with h1 | h1
      · exact Or.inl h1
      · exact Or.inr (Or.inr h1)
    · simp only [lInsertAfter, ha, if_false, List.mem_cons]
      rcases List.mem_cons.1 hx with h1 | h1
      · exact Or.inl h1
      · exact Or.inr (ih h1)

theorem mem_lInsertAfter_new {α : Type} {l : List (Element α)} (new : Element α) {h : Nat}
    (hh : h ∈ l.map Element.id) : new ∈ lInsertAfter l new h := by
  induction l with
  | nil => simp at hh
  | cons a l ih =>
    by_cases ha : a.id = h
    · simp [lInsertAfter, ha]
    · simp only [lInsertAfter, ha, if_false, List.mem_cons]
      simp only [List.map_cons, List.mem_cons] at hh
      rcases hh with h1 | h1
      · exact absurd h1.symm ha
      · exact Or.inr (ih h1)

theorem nodup_lInsertAfter {α : Type} {l : List (Element α)} {new : Element α} (h : Nat)
    (hnd : (l.map Element.id).Nodup) (hnew : new.id ∉ l.map Element.id) :
    ((lInsertAfter l new h).map Element.id).Nodup := by
  induction l with
  | nil => simp [lInsertAfter]
  | cons a l ih =>
    simp only [List.map_cons, List.nodup_cons, List.mem_cons, not_or] at hnd hnew
    by_cases ha : a.id = h
    · simp only [lInsertAfter, ha, if_true, List.map_cons, List.nodup_cons, List.mem_cons,
        not_or]
      refine ⟨⟨?_, ?_⟩, hnew.2, hnd.2⟩
      · rw [← ha]
        exact fun e => hnew.1 e.symm
      · rw [← ha]
        exact hnd.1
    · simp only [lInsertAfter, ha, if_false, List.map_cons, List.nodup_cons]
      refine ⟨?_, ih hnd.2 hnew.2⟩
      intro hm
      obtain ⟨y, hy, hya⟩ := List.mem_map.1 hm
      rcases mem_lInsertAfter hy with h1 | h1
      · exact hnd.1 (hya ▸ List.mem_map_of_mem Element.id h1)
      · rw [h1] at hya
        exact hnew.1 hya

theorem pairwise_lInsertAfter {l : List (Element freqEntry)} {new c : Element freqEntry}
    {h : Nat} (hs : (l.map (fun e => e.Value.freq)).Pairwise (fun a b => a < b))
    (hnd : (l.map Element.id).Nodup)
    (hc : c ∈ l) (hch : c.id = h) (hf : new.Value.freq = c.Value.freq + 1)
    (hnext : ∀ nx, lNext l h = some nx → nx.Value.freq > c.Value.freq + 1) :
    ((lInsertAfter l new h).map (fun e => e.Value.freq)).Pairwise (fun a b => a < b) := by
  induction l with
  | nil => simp at hc
  | cons a l ih =>
    simp only [List.map_cons, List.pairwise_cons, List.nodup_cons] at hs hnd
    by_cases ha : a.id = h
    · have hac : a = c := by
        rcases List.mem_cons.1 hc with h1 | h1
        · exact h1.symm
        · exfalso
          apply hnd.1
          rw [ha, ← hch]
          exact List.mem_map_of_mem Element.id h1
      subst hac
      simp only [lInsertAfter, ha, if_true, List.map_cons, List.pairwise_cons, List.mem_cons]
      refine ⟨?_, ?_, hs.2⟩
      · intro b hb
        rcases hb with hb | hb
        · rw [hb, hf]
          omega
        · exact hs.1 b hb
      · intro b hb
        cases l with
        | nil => simp at hb
        | cons nx l2 =>
          have h1 := hnext nx (by simp [lNext, ha])
          simp only [List.map_cons, List.mem_cons] at hb
          rcases hb with hb | hb
          · rw [hb, hf]
            exact h1
          · have h2 := hs.2
            simp only [List.map_cons, List.pairwise_cons] at h2
            have := h2.1 b hb
            rw [hf]
            omega
    · have hcl : c ∈ l := by
        rcases List.mem_cons.1 hc with h1 | h1
        · exact absurd (h1 ▸ hch) ha
        · exact h1
      simp only [lInsertAfter, ha, if_false, List.map_cons, List.pairwise_cons]
      refine ⟨?_, ih hs.2 hnd.2 hcl (fun nx hn => hnext nx (by simpa [lNext, ha] using hn))⟩
      intro b hb
      obtain ⟨y, hy, hyb⟩ := List.mem_map.1 hb
      rcases mem_lInsertAfter hy with h1 | h1
      · exact hs.1 b (hyb ▸ List.mem_map_of_mem (fun e => e.Value.freq) h1)
      · have := hs.1 _ (List.mem_map_of_mem (fun e => e.Value.freq) hcl)
        rw [← hyb, h1, hf]
        omega

theorem headZero_lInsertAfter {l : List (Element freqEntry)} (hz : headZero l)
    (new : Element freqEntry) (h : Nat) : headZero (lInsertAfter l new h) := by
  obtain ⟨e, rest, rfl, he⟩ := hz
  by_cases hh : e.id = h
  · refine ⟨e, new :: rest, ?_, he⟩
    simp only [lInsertAfter, hh, if_true]
  · refine ⟨e, lInsertAfter rest new h, ?_, he⟩
    simp only [lInsertAfter, hh, if_false]

/-- Step of `increment`: a new empty bucket is linked after the current one. -/
theorem LfuWF.lfuWF_insertAfter {hole : Option Nat} {items : List (Nat × lfuItem)}
    {l : List (Element freqEntry)} {n h : Nat} {c : Element freqEntry}
    (hw : LfuWF hole items l n) (hc : c ∈ l) (hch : c.id = h)
    (hnext : ∀ nx, lNext l h = some nx → nx.Value.freq > c.Value.freq + 1) :
    LfuWF hole items
      (lInsertAfter l ⟨n, { freq := c.Value.freq + 1, items := [] }⟩ h) (n + 1) := by
  obtain ⟨h1, h2, h3, h4, h5, h6, h7, h8, h9⟩ := hw
  refine ⟨h1, h2, ?_, ?_, ?_, ?_, ?_, ?_, ?_⟩
  · apply nodup_lInsertAfter h h3
    intro hm
    obtain ⟨y, hy, hyn⟩ := List.mem_map.1 hm
    have := h4 y hy
    simp only at hyn
    omega
  · intro x hx
    rcases mem_lInsertAfter hx with hx1 | hx1
    · have := h4 x hx1
      omega
    · rw [hx1]
      simp
  · exact pairwise_lInsertAfter h5 h3 hc hch rfl hnext
  · exact headZero_lInsertAfter h6 _ _
  · intro p hp hph
    obtain ⟨e, he, hid, hmem⟩ := h7 p hp hph
    exact ⟨e, mem_lInsertAfter_of_mem _ _ he, hid, hmem⟩
  · intro x hx j hj
    rcases mem_lInsertAfter hx with hx1 | hx1
    · exact h8 x hx1 j hj
    · rw [hx1] at hj
      simp at hj
  · intro x hx
    rcases mem_lInsertAfter hx with hx1 | hx1
    · exact h9 x hx1
    · rw [hx1]
      simp

/-- Step of `increment`: an empty bucket of non-zero frequency is unlinked. -/
theorem LfuWF.lfuWF_removeEmpty {items : List (Nat × lfuItem)} {l : List (Element freqEntry)}
    {n h : Nat} (hw : LfuWF none items l n)
    (hempty : ∀ e ∈ l, e.id = h → e.Value.items = [] ∧ e.Value.freq ≠ 0) :
    LfuWF none items (lRemove l h) n := by
  obtain ⟨h1, h2, h3, h4, h5, h6, h7, h8, h9⟩ := hw
  have hsub : (lRemove l h).Sublist l := lRemove_sublist l h
  refine ⟨h1, h2, ?_, ?_, ?_, ?_, ?_, ?_, ?_⟩
  · exact List.Nodup.sublist (hsub.map _) h3
  · intro x hx
    exact h4 x (hsub.subset hx)
  · exact List.Pairwise.sublist (hsub.map _) h5
  · obtain ⟨e, rest, rfl, he⟩ := h6
    have hne : e.id ≠ h := by
      intro heq
      exact (hempty e (List.mem_cons_self _ _) heq).2 he
    have : (e.id != h) = true := by simpa using hne
    refine ⟨e, lRemove rest h, ?_, he⟩
    simp only [lRemove, List.filter, this]
  · intro p hp hph
    obtain ⟨e, he, hid, hmem⟩ := h7 p hp hph
    refine ⟨e, ?_, hid, hmem⟩
    simp only [lRemove, List.mem_filter]
    refine ⟨he, ?_⟩
    have hne : e.id ≠ h := by
      intro heq
      rw [(hempty e he heq).1] at hmem
      simp at hmem
    simpa using hne
  · intro x hx j hj
    exact h8 x (hsub.subset hx) j hj
  · intro x hx
    exact h9 x (hsub.subset hx)

theorem lNext_mem {α : Type} {l : List (Element α)} {h : Nat} {nx : Element α}
    (hnd : (l.map Element.id).Nodup) (hn : lNext l h = some nx) : nx ∈ l ∧ nx.id ≠ h := by
  induction l with
  | nil => simp [lNext] at hn
  | cons a l ih =>
    simp only [List.map_cons, List.nodup_cons] at hnd
    by_cases ha : a.id = h
    · simp only [lNext, ha, if_true] at hn
      have hm : nx ∈ l := List.mem_of_mem_head? hn
      refine ⟨List.mem_cons_of_mem _ hm, ?_⟩
      intro heq
      apply hnd.1
      rw [ha, ← heq]
      exact List.mem_map_of_mem Element.id hm
    · simp only [lNext, ha, if_false] at hn
      exact ⟨List.mem_cons_of_mem _ (ih hnd.2 hn).1, (ih hnd.2 hn).2⟩

/-- Last steps of `increment`: insertion into the bucket `tid`, then removal of the
current bucket when it has become empty and is not the frequency-0 bucket. -/
theorem LfuWF.lfuWF_finish {items : List (Nat × lfuItem)} {l : List (Element freqEntry)}
    {n key tid : Nat} {item : lfuItem} {cur : Element freqEntry}
    (hw : LfuWF (some key) items l n) (htid : tid ∈ l.map Element.id) (hne : tid ≠ cur.id)
    (hcur : ∀ e ∈ l, e.id = cur.id → e.Value = cur.Value.delete key)
    (hg : mget items key = some item) :
    LfuWF none (mupd items key { item with freqElement := tid })
      (if (cur.Value.delete key).items.length = 0 ∧ cur.Value.freq ≠ 0 then
        lRemove (lmodify l tid (fun fe => fe.add key)) cur.id
      else lmodify l tid (fun fe => fe.add key)) n := by
  have hw1 := hw.1
  have hw2 := hw.2.1
  have hadd : LfuWF none (mupd items key { item with freqElement := tid })
      (lmodify l tid (fun fe => fe.add key)) n := by
    apply @LfuWF.lfuWF_add _ _ _ _ _ _ { item with freqElement := tid } hw htid
    · rw [mkeys_mupd]
      exact hw1
    · intro p hp
      rcases mem_mupd hp with h | h
      · exact hw2 p h
      · rw [h]
        exact hw2 (key, item) (mget_some_mem hg)
    · rw [mget_mupd, hg]
      simp
    · rfl
    · intro j hj
      rw [mget_mupd]
      simp [hj]
    · intro p hp hpk
      rcases mem_mupd hp with h | h
      · exact h
      · rw [h] at hpk
        exact absurd rfl hpk
  split
  · rename_i hcond
    apply LfuWF.lfuWF_removeEmpty hadd
    intro x hx hxid
    obtain ⟨e, he, hex⟩ := mem_lmodify.1 hx
    have heid : e.id = cur.id := by
      rw [← hxid, ← hex]
      exact (modify_id e tid (fun fe => fe.add key)).symm
    have hnt : ¬ e.id = tid := by
      rw [heid]
      exact fun h => hne h.symm
    simp only [hnt, if_false] at hex
    subst hex
    rw [hcur e he heid]
    exact ⟨List.eq_nil_of_length_eq_zero hcond.1, hcond.2⟩
  · exact hadd

theorem LfuInv.lfuInv_increment {lf : LfuCache} (hinv : LfuInv lf) {k : Nat} {item : lfuItem}
    (hg : mget lf.items k = some item) : LfuInv (lf.increment item) := by
  obtain ⟨hk, cur, hcur, hcid, hkc⟩ := hinv.lfuInv_mem_of_mget hg
  have hnd := hinv.2.2.1
  have hlt := hinv.2.2.2.1
  have hfind : lfind lf.freqList item.freqElement = some cur := by
    rw [← hcid]
    exact lfind_of_mem hnd hcur
  have hw := (lfuInv_iff lf).1 hinv
  have hw1 := LfuWF.lfuWF_delete hw hg
  subst hk
  rw [← hcid] at hw1
  have hc1 : ∀ e ∈ lmodify lf.freqList cur.id (fun fe => fe.delete item.key),
      e.id = cur.id → e.Value = cur.Value.delete item.key := by
    intro x hx hxid
    obtain ⟨e, he, hex⟩ := mem_lmodify.1 hx
    have heid : e.id = cur.id := by
      rw [← hxid, ← hex]
      exact (modify_id e cur.id (fun fe => fe.delete item.key)).symm
    have : e = cur := List.inj_on_of_nodup_map hnd he hcur heid
    subst this
    simp only [if_true] at hex
    rw [← hex]
  have hcm : (⟨cur.id, cur.Value.delete item.key⟩ : Element freqEntry)
      ∈ lmodify lf.freqList cur.id (fun fe => fe.delete item.key) := by
    have := mem_lmodify_of_mem cur.id (fun fe => fe.delete item.key) hcur
    simpa using this
  have hins : LfuWF none
      (mupd lf.items item.key { item with freqElement := lf.nextId })
      (if (cur.Value.delete item.key).items.length = 0 ∧ cur.Value.freq ≠ 0 then
        lRemove (lmodify (lInsertAfter
          (lmodify lf.freqList cur.id (fun fe => fe.delete item.key))
          ⟨lf.nextId, { freq := cur.Value.freq + 1, items := [] }⟩ cur.id) lf.nextId
          (fun fe => fe.add item.key)) cur.id
      else lmodify (lInsertAfter
          (lmodify lf.freqList cur.id (fun fe => fe.delete item.key))
          ⟨lf.nextId, { freq := cur.Value.freq + 1, items := [] }⟩ cur.id) lf.nextId
          (fun fe => fe.add item.key)) (lf.nextId + 1) →
      LfuInv { lf with
        freqList :=
          (if (cur.Value.delete item.key).items.length = 0 ∧ cur.Value.freq ≠ 0 then
            lRemove (lmodify (lInsertAfter
              (lmodify lf.freqList cur.id (fun fe => fe.delete item.key))
              ⟨lf.nextId, { freq := cur.Value.freq + 1, items := [] }⟩ cur.id) lf.nextId
              (fun fe => fe.add item.key)) cur.id
          else lmodify (lInsertAfter
              (lmodify lf.freqList cur.id (fun fe => fe.delete item.key))
              ⟨lf.nextId, { freq := cur.Value.freq + 1, items := [] }⟩ cur.id) lf.nextId
              (fun fe => fe.add item.key)),
        items := mupd lf.items item.key { item with freqElement := lf.nextId },
        nextId := lf.nextId + 1 } := fun h => (lfuInv_iff _).2 h
  have hfresh : ∀ (hnext : ∀ nx, lNext (lmodify lf.freqList cur.id
        (fun fe => fe.delete item.key)) cur.id = some nx →
        nx.Value.freq > cur.Value.freq + 1),
      LfuWF none
      (mupd lf.items item.key { item with freqElement := lf.nextId })
      (if (cur.Value.delete item.key).items.length = 0 ∧ cur.Value.freq ≠ 0 then
        lRemove (lmodify (lInsertAfter
          (lmodify lf.freqList cur.id (fun fe => fe.delete item.key))
          ⟨lf.nextId, { freq := cur.Value.freq + 1, items := [] }⟩ cur.id) lf.nextId
          (fun fe => fe.add item.key)) cur.id
      else lmodify (lInsertAfter
          (lmodify lf.freqList cur.id (fun fe => fe.delete item.key))
          ⟨lf.nextId, { freq := cur.Value.freq + 1, items := [] }⟩ cur.id) lf.nextId
          (fun fe => fe.add item.key)) (lf.nextId + 1) := by
    intro hnext
    have hw2 := LfuWF.lfuWF_insertAfter hw1 hcm rfl hnext
    apply LfuWF.lfuWF_finish hw2
    · exact List.mem_map_of_mem Element.id
        (mem_lInsertAfter_new _ (List.mem_map_of_mem Element.id hcm))
    · have := hlt cur hcur
      omega
    · intro x hx hxid
      rcases mem_lInsertAfter hx with h | h
      · exact hc1 x h hxid
      · rw [h] at hxid
        have := hlt cur hcur
        simp only at hxid
        omega
    · exact hg
  unfold LfuCache.increment
  rw [hfind]
  simp only []
  cases hn : lNext (lmodify lf.freqList cur.id (fun fe => fe.delete item.key)) cur.id with
  | none =>
    simp only []
    apply hins
    apply hfresh
    intro nx hnx
    rw [hn] at hnx
    cases hnx
  | some nx =>
    simp only []
    by_cases hgt : nx.Value.freq > cur.Value.freq + 1
    · simp only [hgt, if_true]
      apply hins
      apply hfresh
      intro nx2 hnx
      rw [hn] at hnx
      cases hnx
      exact hgt
    · simp only [hgt, if_false]
      apply (lfuInv_iff _).2
      have hnm := lNext_mem (by rw [map_id_lmodify]; exact hnd) hn
      exact LfuWF.lfuWF_finish hw1 (List.mem_map_of_mem Element.id hnm.1) hnm.2 hc1 hg

/-! ### `LfuCache.evict 1` -/

theorem LfuCache.lfu_evictRange_done (lf : LfuCache) (ks : List Nat) :
    (lf.evictRange 1 ks 1).1 = lf ∧ (lf.evictRange 1 ks 1).2.1 = 1 := by
  cases ks with
  | nil => simp [LfuCache.evictRange]
  | cons k ks => simp [LfuCache.evictRange]

theorem LfuCache.lfu_evictFrom_done (lf : LfuCache) (ord : Order)
    (rest : List (Element freqEntry)) : lf.evictFrom 1 ord rest 1 = lf := by
  cases rest with
  | nil => simp [LfuCache.evictFrom]
  | cons e rest => simp [LfuCache.evictFrom]

/-- What `evict 1` does, bucket by bucket: it skips the empty buckets and removes the
first member visited in the first non-empty bucket. -/
theorem LfuCache.lfu_evictFrom_spec {lf : LfuCache} (hinv : LfuInv lf) {ord : Order}
    (hord : ord.ok) (suffix : List (Element freqEntry))
    (hsuf : ∀ e ∈ suffix, e ∈ lf.freqList) :
    (lf.evictFrom 1 ord suffix 0 = lf ∧ ∀ e ∈ suffix, e.Value.items = []) ∨
    (∃ pre e post k item, suffix = pre ++ e :: post ∧ (∀ x ∈ pre, x.Value.items = []) ∧
      k ∈ e.Value.items ∧ mget lf.items k = some item ∧
      lf.evictFrom 1 ord suffix 0 = lf.removeItem item) := by
  induction suffix with
  | nil => exact Or.inl ⟨by simp [LfuCache.evictFrom], by simp⟩
  | cons e rest ih =>
    have he : e ∈ lf.freqList := hsuf e (List.mem_cons_self _ _)
    have hfind : lfind lf.freqList e.id = some e := lfind_of_mem hinv.2.2.1 he
    have hperm := hord e.Value.items
    cases hm : ord e.Value.items with
    | nil =>
      have hnil : e.Value.items = [] := by
        rw [hm] at hperm
        exact List.Perm.eq_nil hperm.symm
      have hstep : lf.evictFrom 1 ord (e :: rest) 0 = lf.evictFrom 1 ord rest 0 := by
        simp [LfuCache.evictFrom, hfind, hm, LfuCache.evictRange]
      rcases ih (fun x hx => hsuf x (List.mem_cons_of_mem _ hx)) with h | h
      · left
        refine ⟨by rw [hstep]; exact h.1, ?_⟩
        intro x hx
        rcases List.mem_cons.1 hx with h1 | h1
        · rw [h1]
          exact hnil
        · exact h.2 x h1
      · right
        obtain ⟨pre, e2, post, k, item, hs, hpre, hk, hg, hev⟩ := h
        refine ⟨e :: pre, e2, post, k, item, by simp [hs], ?_, hk, hg, by rw [hstep]; exact hev⟩
        intro x hx
        rcases List.mem_cons.1 hx with h1 | h1
        · rw [h1]
          exact hnil
        · exact hpre x h1
    | cons k ks =>
      right
      have hk : k ∈ e.Value.items := hperm.subset (by rw [hm]; exact List.mem_cons_self _ _)
      obtain ⟨item, hg, -⟩ := hinv.2.2.2.2.2.2.2.1 e he k hk
      refine ⟨[], e, rest, k, item, by simp, by simp, hk, hg, ?_⟩
      have h1 := (LfuCache.lfu_evictRange_done (lf.removeItem item) ks).1
      have h2 := (LfuCache.lfu_evictRange_done (lf.removeItem item) ks).2
      simp only [LfuCache.evictFrom, hfind, hm, LfuCache.evictRange, hg]
      simp only [show (0 < 1) = True from by simp, if_true,
        show ¬ (0 ≥ 1) from by omega, if_false, Nat.zero_add]
      split
      · exact h1
      · rw [h1, h2]
        exact LfuCache.lfu_evictFrom_done _ _ _

theorem LfuCache.lfu_evict_spec {lf : LfuCache} (hinv : LfuInv lf) {ord : Order}
    (hord : ord.ok) :
    (lf.evict 1 ord = lf ∧ ∀ e ∈ lf.freqList, e.Value.items = []) ∨
    (∃ pre e post k item, lf.freqList = pre ++ e :: post ∧
      (∀ x ∈ pre, x.Value.items = []) ∧
      k ∈ e.Value.items ∧ mget lf.items k = some item ∧
      lf.evict 1 ord = lf.removeItem item) :=
  LfuCache.lfu_evictFrom_spec hinv hord lf.freqList (fun _ h => h)

theorem LfuInv.lfuInv_evict {lf : LfuCache} (hinv : LfuInv lf) {ord : Order} (hord : ord.ok) :
    LfuInv (lf.evict 1 ord) := by
  rcases LfuCache.lfu_evict_spec hinv hord with h | ⟨_, _, _, _, item, _, _, _, hg, hev⟩
  · rw [h.1]
    exact hinv
  · rw [hev]
    exact hinv.lfuInv_removeItem hg

theorem LfuCache.lfu_evict_length {lf : LfuCache} (hinv : LfuInv lf) {ord : Order}
    (hord : ord.ok) (hne : lf.items ≠ []) :
    (lf.evict 1 ord).items.length + 1 = lf.items.length := by
  rcases LfuCache.lfu_evict_spec hinv hord with h | ⟨_, _, _, k, item, _, _, _, hg, hev⟩
  · exfalso
    cases hl : lf.items with
    | nil => exact hne hl
    | cons p ps =>
      obtain ⟨e, he, -, hmem⟩ := hinv.2.2.2.2.2.2.1 p (by rw [hl]; exact List.mem_cons_self _ _)
      rw [h.2 e he] at hmem
      simp at hmem
  · rw [hev]
    have hk := (hinv.lfuInv_mem_of_mget hg).1
    show (mdel lf.items item.key).length + 1 = lf.items.length
    rw [hk]
    exact length_mdel_of_mem hinv.1 ((mget_isSome_iff _ _).1 ⟨_, hg⟩)

theorem LfuCache.lfu_evict_mget_none {lf : LfuCache} (hinv : LfuInv lf) {ord : Order}
    (hord : ord.ok) {key : Nat} (h : mget lf.items key = none) :
    mget (lf.evict 1 ord).items key = none := by
  rcases LfuCache.lfu_evict_spec hinv hord with h1 | ⟨_, _, _, _, item, _, _, _, _, hev⟩
  · rw [h1.1]
    exact h
  · rw [hev]
    exact mget_mdel_of_none _ h

theorem LfuCache.lfu_evict_size (lf : LfuCache) {ord : Order} (hinv : LfuInv lf) (hord : ord.ok) :
    (lf.evict 1 ord).size = lf.size ∧ (lf.evict 1 ord).stats = lf.stats := by
  rcases LfuCache.lfu_evict_spec hinv hord with h1 | ⟨_, _, _, _, item, _, _, _, _, hev⟩
  · rw [h1.1]
    exact ⟨rfl, rfl⟩
  · rw [hev]
    exact ⟨rfl, rfl⟩

/-! ### The LFU operations preserve the invariants -/

theorem mem_mupd_nodup {β : Type} {m : List (Nat × β)} {k : Nat} {v : β} {p : Nat × β}
    (hnd : (mkeys m).Nodup) (h : p ∈ mupd m k v) : (p ∈ m ∧ p.1 ≠ k) ∨ p = (k, v) := by
  by_cases hp : p.1 = k
  · right
    have h1 : (mkeys (mupd m k v)).Nodup := by rw [mkeys_mupd]; exact hnd
    have h2 := mget_of_mem h1 (show (p.1, p.2) ∈ mupd m k v from h)
    rw [mget_mupd, hp] at h2
    simp only [if_true] at h2
    cases hm : mget m k with
    | none => rw [hm] at h2; cases h2
    | some w =>
      rw [hm] at h2
      simp only [Option.map_some', Option.some.injEq] at h2
      exact Prod.ext hp h2.symm
  · left
    rcases mem_mupd h with h1 | h1
    · exact ⟨h1, hp⟩
    · rw [h1] at hp
      exact absurd rfl hp

theorem LfuInv.lfuInv_update {lf : LfuCache} (hinv : LfuInv lf) {k : Nat} {item item2 : lfuItem}
    (hg : mget lf.items k = some item) (hk : item2.key = item.key)
    (hf : item2.freqElement = item.freqElement) :
    LfuInv { lf with items := mupd lf.items k item2 } := by
  have hik := (hinv.lfuInv_mem_of_mget hg).1
  obtain ⟨h1, h2, h3, h4, h5, h6, h7, h8, h9⟩ := hinv
  refine ⟨?_, ?_, h3, h4, h5, h6, ?_, ?_, h9⟩
  · show (mkeys (mupd lf.items k item2)).Nodup
    rw [mkeys_mupd]
    exact h1
  · intro p hp
    rcases mem_mupd hp with h | h
    · exact h2 p h
    · rw [h]
      simp only
      rw [hk, hik]
  · intro p hp
    rcases mem_mupd hp with h | h
    · exact h7 p h
    · rw [h]
      simp only
      rw [hf]
      exact h7 (k, item) (mget_some_mem hg)
  · intro e he j hj
    obtain ⟨it, hit, hfe⟩ := h8 e he j hj
    show ∃ item, mget (mupd lf.items k item2) j = some item ∧ item.freqElement = e.id
    rw [mget_mupd]
    by_cases hjk : j = k
    · simp only [hjk, if_true, hg, Option.map_some']
      refine ⟨item2, rfl, ?_⟩
      rw [hjk, hg] at hit
      cases hit
      rw [hf]
      exact hfe
    · simp only [hjk, if_false]
      exact ⟨it, hit, hfe⟩

theorem LfuOK.lfuOK_removeItem {lf : LfuCache} (hok : LfuOK lf) {k : Nat} {item : lfuItem}
    (hg : mget lf.items k = some item) : LfuOK (lf.removeItem item) := by
  obtain ⟨hinv, hb, ht⟩ := hok
  refine ⟨hinv.lfuInv_removeItem hg, ⟨hb.1, ?_⟩, ?_⟩
  · have := length_mdel_le lf.items item.key
    have h2 := hb.2
    show ((mdel lf.items item.key).length : Int) ≤ lf.size
    omega
  · intro p hp
    exact ht p (List.mem_filter.1 hp).1

theorem LfuCache.lfu_increment_fields (lf : LfuCache) (item : lfuItem) :
    (lf.increment item).size = lf.size ∧ (lf.increment item).stats = lf.stats ∧
    ((lf.increment item).items = lf.items ∨
      ∃ tid, (lf.increment item).items
        = mupd lf.items item.key { item with freqElement := tid }) := by
  unfold LfuCache.increment
  split
  · exact ⟨rfl, rfl, Or.inl rfl⟩
  · exact ⟨rfl, rfl, Or.inr ⟨_, rfl⟩⟩

theorem LfuOK.lfuOK_increment {lf : LfuCache} (hok : LfuOK lf) {k : Nat} {item : lfuItem}
    (hg : mget lf.items k = some item) : LfuOK (lf.increment item) := by
  obtain ⟨hinv, hb, ht⟩ := hok
  obtain ⟨hs, -, hitems⟩ := lf.lfu_increment_fields item
  refine ⟨hinv.lfuInv_increment hg, ⟨by rw [hs]; exact hb.1, ?_⟩, ?_⟩
  · rw [hs]
    rcases hitems with h | ⟨tid, h⟩
    · rw [h]
      exact hb.2
    · rw [h, length_mupd]
      exact hb.2
  · intro p hp
    rcases hitems with h | ⟨tid, h⟩
    · rw [h] at hp
      exact ht p hp
    · rw [h] at hp
      rcases mem_mupd hp with h1 | h1
      · exact ht p h1
      · rw [h1]
        exact ht (k, item) (mget_some_mem hg)

theorem LfuOK.lfuOK_stats {lf : LfuCache} (hok : LfuOK lf) (st : mycache.stats) :
    LfuOK { lf with stats := st } := hok

theorem LfuCache.lfu_increment_stats (lf : LfuCache) (st : mycache.stats) (item : lfuItem) :
    LfuCache.increment { lf with stats := st } item
      = { lf.increment item with stats := st } := by
  unfold LfuCache.increment
  simp only
  split <;> rfl

theorem LfuOK.lfuOK_getValue {lf : LfuCache} (hok : LfuOK lf) (key : Nat) (now : Int) :
    LfuOK (lf.getValue key now).2 := by
  unfold LfuCache.getValue
  split
  · rename_i item hg
    split
    · exact hok.lfuOK_increment hg
    · exact hok.lfuOK_removeItem hg
  · exact hok

theorem LfuOK.lfuOK_Get {lf : LfuCache} (hok : LfuOK lf) (key : Nat) (now : Int) :
    LfuOK (lf.Get key now).2 := by
  have h := hok.lfuOK_getValue key now
  unfold LfuCache.Get
  split
  · rename_i err lf1 heq
    rw [heq] at h
    exact h.lfuOK_stats _
  · rename_i v lf1 heq
    rw [heq] at h
    exact h.lfuOK_stats _

theorem LfuOK.lfuOK_TTL {lf : LfuCache} (hok : LfuOK lf) (key : Nat) (now : Int) :
    LfuOK (lf.TTL key now).2 := by
  unfold LfuCache.TTL
  split
  · rename_i item hg
    split
    · rw [LfuCache.lfu_increment_stats]
      exact (hok.lfuOK_increment hg).lfuOK_stats _
    · exact (hok.lfuOK_removeItem hg).lfuOK_stats _
  · exact hok.lfuOK_stats _

theorem LfuOK.lfuOK_remove {lf : LfuCache} (hok : LfuOK lf) (key : Nat) :
    LfuOK (lf.remove key).2 := by
  unfold LfuCache.remove
  split
  · rename_i item hg
    exact hok.lfuOK_removeItem hg
  · exact hok

theorem LfuOK.lfuOK_evict {lf : LfuCache} (hok : LfuOK lf) {ord : Order} (hord : ord.ok) :
    LfuOK (lf.evict 1 ord) := by
  rcases LfuCache.lfu_evict_spec hok.1 hord with h | ⟨_, _, _, _, item, _, _, _, hg, hev⟩
  · rw [h.1]
    exact hok
  · rw [hev]
    exact hok.lfuOK_removeItem hg

theorem LfuOK.lfuOK_insert {lf : LfuCache} (hok : LfuInv lf ∧ LfuTimes lf) {key : Nat}
    (hnone : mget lf.items key = none) {el : Element freqEntry} (hel : el ∈ lf.freqList)
    (value : Nat) (expireAt : Int) (hexp : isInt64 expireAt) (st : mycache.stats) :
    LfuInv { lf with
        freqList := lmodify lf.freqList el.id (fun fe => fe.add key),
        items := mset lf.items key
          { key := key, value := value, expireAt := expireAt, freqElement := el.id },
        stats := st } ∧
    LfuTimes { lf with
        freqList := lmodify lf.freqList el.id (fun fe => fe.add key),
        items := mset lf.items key
          { key := key, value := value, expireAt := expireAt, freqElement := el.id },
        stats := st } := by
  obtain ⟨hinv, ht⟩ := hok
  have hw := LfuWF.lfuWF_hole_of_absent ((lfuInv_iff lf).1 hinv) hnone
  have hnk : key ∉ mkeys lf.items := (mget_eq_none_iff _ _).1 hnone
  constructor
  · apply (lfuInv_iff _).2
    apply @LfuWF.lfuWF_add _ _ _ _ _ _
      { key := key, value := value, expireAt := expireAt, freqElement := el.id }
      hw (List.mem_map_of_mem Element.id hel)
    · show (mkeys (mset lf.items key _)).Nodup
      rw [mset_of_none _ hnone]
      exact List.nodup_cons.2 ⟨hnk, hinv.1⟩
    · intro p hp
      have hp2 : p ∈ mset lf.items key
          { key := key, value := value, expireAt := expireAt, freqElement := el.id } := hp
      rw [mset_of_none _ hnone] at hp2
      rcases List.mem_cons.1 hp2 with h | h
      · rw [h]
      · exact hinv.2.1 p h
    · exact mget_mset_self _ _ _
    · rfl
    · intro j hj
      exact mget_mset_ne _ _ hj
    · intro p hp hpk
      have hp2 : p ∈ mset lf.items key
          { key := key, value := value, expireAt := expireAt, freqElement := el.id } := hp
      rw [mset_of_none _ hnone] at hp2
      rcases List.mem_cons.1 hp2 with h | h
      · rw [h] at hpk
        exact absurd rfl hpk
      · exact h
  · intro p hp
    have hp2 : p ∈ mset lf.items key
        { key := key, value := value, expireAt := expireAt, freqElement := el.id } := hp
    rw [mset_of_none _ hnone] at hp2
    rcases List.mem_cons.1 hp2 with h | h
    · rw [h]
      exact hexp
    · exact ht p h

theorem LfuOK.lfuOK_set {lf : LfuCache} (hok : LfuOK lf) (key value : Nat) (t now : Int)
    {ord : Order} (hord : ord.ok) : LfuOK (lf.set key value t now ord).2 := by
  unfold LfuCache.set
  simp only
  split
  · rename_i item hg
    obtain ⟨hinv, hb, ht⟩ := hok
    refine ⟨hinv.lfuInv_update hg rfl rfl, ⟨hb.1, ?_⟩, ?_⟩
    · show ((mupd lf.items key _).length : Int) ≤ lf.size
      rw [length_mupd]
      exact hb.2
    · intro p hp
      rcases mem_mupd hp with h | h
      · exact ht p h
      · rw [h]
        exact ExpireAt_isInt64 _ _
  · rename_i hg
    have hcases : ∃ lf1, (if (lf.items.length : Int) ≥ lf.size then lf.evict 1 ord else lf) = lf1
        ∧ LfuOK lf1 ∧ mget lf1.items key = none ∧ (lf1.items.length : Int) + 1 ≤ lf1.size := by
      by_cases hfull : (lf.items.length : Int) ≥ lf.size
      · refine ⟨lf.evict 1 ord, by simp only [hfull, if_true], hok.lfuOK_evict hord,
          LfuCache.lfu_evict_mget_none hok.1 hord hg, ?_⟩
        have hne : lf.items ≠ [] := by
          intro he
          have := hok.2.1.1
          rw [he] at hfull
          simp at hfull
          omega
        have h1 := LfuCache.lfu_evict_length hok.1 hord hne
        have h2 := (LfuCache.lfu_evict_size lf hok.1 hord).1
        have h3 := hok.2.1.2
        rw [h2]
        omega
      · refine ⟨lf, by simp only [hfull, if_false], hok, hg, ?_⟩
        omega
    obtain ⟨lf1, heq, hok1, hnone, hlen⟩ := hcases
    rw [heq]
    split
    · exact hok1
    · rename_i el hhead
      have hel : el ∈ lf1.freqList := List.mem_of_mem_head? hhead
      have hins := LfuOK.lfuOK_insert ⟨hok1.1, hok1.2.2⟩ hnone hel value
        (RealClock.ExpireAt now t) (ExpireAt_isInt64 _ _) lf1.stats.IncrKeyCount
      refine ⟨hins.1, ⟨hok1.2.1.1, ?_⟩, hins.2⟩
      show ((mset lf1.items key _).length : Int) ≤ lf1.size
      rw [mset_of_none _ hnone]
      simp only [List.length_cons]
      omega

theorem LfuOK.lfuOK_Expire {lf : LfuCache} (hok : LfuOK lf) (key : Nat) (t now : Int)
    {ord : Order} (hord : ord.ok) : LfuOK (lf.Expire key t now ord).2 := by
  have h := hok.lfuOK_Get key now
  unfold LfuCache.Expire
  split
  · rename_i err lf1 heq
    rw [heq] at h
    exact h
  · rename_i v lf1 heq
    rw [heq] at h
    exact h.lfuOK_set _ _ _ _ hord

theorem LfuOK.lfuOK_init {lf : LfuCache} (hb : 1 ≤ lf.size) : LfuOK lf.init := by
  refine ⟨⟨by simp [LfuCache.init, mkeys], by simp [LfuCache.init], by simp [LfuCache.init],
    by simp [LfuCache.init], by simp [LfuCache.init], ⟨_, _, rfl, rfl⟩,
    by simp [LfuCache.init], by simp [LfuCache.init], by simp [LfuCache.init]⟩,
    ⟨hb, ?_⟩, by simp [LfuTimes, LfuCache.init]⟩
  simp only [LfuCache.init, List.length_nil]
  omega

theorem LfuOK.lfuOK_foldGet {lf : LfuCache} (hok : LfuOK lf) (now : Int) {γ : Type}
    (f : γ → Nat → Nat → γ) (ks : List Nat) (acc : γ) :
    LfuOK (ks.foldl
      (fun (acc : γ × LfuCache) k =>
        match acc.2.Get k now with
        | (.error _, lf1) => (acc.1, lf1)
        | (.ok v, lf1) => (f acc.1 k v, lf1))
      (acc, lf)).2 := by
  induction ks generalizing lf acc with
  | nil => exact hok
  | cons k ks ih =>
    simp only [List.foldl_cons]
    have h := hok.lfuOK_Get k now
    cases hg : lf.Get k now with
    | mk r lf1 =>
      rw [hg] at h
      cases r with
      | error e => exact ih h _
      | ok v => exact ih h _

theorem LfuOK.lfuOK_step {lf : LfuCache} (hok : LfuOK lf) (c : Call) (hc : c.ord.ok) :
    LfuOK (lf.step c) := by
  unfold LfuCache.step
  split
  · exact hok.lfuOK_set _ _ _ _ hc
  · exact hok.lfuOK_set _ _ _ _ hc
  · exact hok.lfuOK_Get _ _
  · exact hok.lfuOK_TTL _ _
  · exact hok.lfuOK_Expire _ _ _ hc
  · exact hok.lfuOK_remove _
  · exact LfuOK.lfuOK_init hok.2.1.1
  · exact hok.lfuOK_foldGet c.now (fun m k v => mset m k v) _ _
  · exact hok.lfuOK_foldGet c.now (fun ks k _ => ks ++ [k]) _ _
  · exact hok.lfuOK_foldGet c.now (fun ks k _ => ks ++ [k]) _ _

theorem LfuOK.lfuOK_run {lf : LfuCache} (hok : LfuOK lf) (cs : List Call) (hcs : CallsOk cs) :
    LfuOK (lf.run cs) := by
  induction cs generalizing lf with
  | nil => exact hok
  | cons c cs ih =>
    exact ih (hok.lfuOK_step c (hcs c (List.mem_cons_self _ _)))
      (fun d hd => hcs d (List.mem_cons_of_mem _ hd))

theorem LfuOK.lfuOK_new {size : Int} (h : 1 ≤ size) : LfuOK (newLfuCache size) :=
  @LfuOK.lfuOK_init ⟨size, ⟨0, 0, 0, 0⟩, [], [], 0⟩ h

/-! ### The capacity never changes -/

theorem LruCache.lru_getValue_size (lc : LruCache) (key : Nat) (now : Int) :
    (lc.getValue key now).2.size = lc.size := by
  unfold LruCache.getValue
  repeat' split
  all_goals rfl

theorem LruCache.lru_Get_size (lc : LruCache) (key : Nat) (now : Int) :
    (lc.Get key now).2.size = lc.size := by
  have h := lc.lru_getValue_size key now
  unfold LruCache.Get
  split
  · rename_i heq
    rw [heq] at h
    exact h
  · rename_i heq
    rw [heq] at h
    exact h

theorem LruCache.lru_set_size (lc : LruCache) (key value : Nat) (t now : Int) :
    (lc.set key value t now).2.size = lc.size := by
  unfold LruCache.set
  split
  · rfl
  · simp only [LruCache.lru_evict_one]
    repeat' split
    all_goals rfl

theorem LruCache.lru_foldGet_size (lc : LruCache) (now : Int) {γ : Type}
    (f : γ → Nat → Nat → γ) (ks : List Nat) (acc : γ) :
    (ks.foldl
      (fun (acc : γ × LruCache) k =>
        match acc.2.Get k now with
        | (.error _, lc1) => (acc.1, lc1)
        | (.ok v, lc1) => (f acc.1 k v, lc1))
      (acc, lc)).2.size = lc.size := by
  induction ks generalizing lc acc with
  | nil => rfl
  | cons k ks ih =>
    simp only [List.foldl_cons]
    have h := lc.lru_Get_size k now
    cases hg : lc.Get k now with
    | mk r lc1 =>
      rw [hg] at h
      cases r with
      | error e => exact (ih lc1 _).trans h
      | ok v => exact (ih lc1 _).trans h

theorem LruCache.lru_step_size (lc : LruCache) (c : Call) : (lc.step c).size = lc.size := by
  unfold LruCache.step
  split
  · exact lc.lru_set_size _ _ _ _
  · exact lc.lru_set_size _ _ _ _
  · exact lc.lru_Get_size _ _
  · unfold LruCache.TTL
    repeat' split
    all_goals rfl
  · unfold LruCache.Expire
    have h := lc.lru_Get_size ‹Nat› c.now
    split
    · rename_i heq
      rw [heq] at h
      exact h
    · rename_i heq
      rw [heq] at h
      exact (LruCache.lru_set_size _ _ _ _ _).trans h
  · unfold LruCache.Del LruCache.remove
    repeat' split
    all_goals rfl
  · rfl
  · exact lc.lru_foldGet_size c.now (fun m k v => mset m k v) _ _
  · exact lc.lru_foldGet_size c.now (fun ks k _ => ks ++ [k]) _ _
  · exact lc.lru_foldGet_size c.now (fun ks k _ => ks ++ [k]) _ _

theorem LruCache.lru_run_size (lc : LruCache) (cs : List Call) : (lc.run cs).size = lc.size := by
  induction cs generalizing lc with
  | nil => rfl
  | cons c cs ih => exact (ih (lc.step c)).trans (lc.lru_step_size c)

theorem LfuCache.lfu_getValue_size (lf : LfuCache) (key : Nat) (now : Int) :
    (lf.getValue key now).2.size = lf.size := by
  unfold LfuCache.getValue
  split
  · split
    · exact (lf.lfu_increment_fields _).1
    · rfl
  · rfl

theorem LfuCache.lfu_Get_size (lf : LfuCache) (key : Nat) (now : Int) :
    (lf.Get key now).2.size = lf.size := by
  have h := lf.lfu_getValue_size key now
  unfold LfuCache.Get
  split
  · rename_i heq
    rw [heq] at h
    exact h
  · rename_i heq
    rw [heq] at h
    exact h

theorem LfuCache.lfu_set_size {lf : LfuCache} (hinv : LfuInv lf) (key value : Nat) (t now : Int)
    {ord : Order} (hord : ord.ok) : (lf.set key value t now ord).2.size = lf.size := by
  have hev := (LfuCache.lfu_evict_size lf hinv hord).1
  unfold LfuCache.set
  simp only
  split
  · rfl
  · by_cases hfull : (lf.items.length : Int) ≥ lf.size
    · simp only [hfull, if_true]
      split
      · exact hev
      · exact hev
    · simp only [hfull, if_false]
      split <;> rfl

theorem LfuCache.lfu_foldGet_size (lf : LfuCache) (now : Int) {γ : Type}
    (f : γ → Nat → Nat → γ) (ks : List Nat) (acc : γ) :
    (ks.foldl
      (fun (acc : γ × LfuCache) k =>
        match acc.2.Get k now with
        | (.error _, lf1) => (acc.1, lf1)
        | (.ok v, lf1) => (f acc.1 k v, lf1))
      (acc, lf)).2.size = lf.size := by
  induction ks generalizing lf acc with
  | nil => rfl
  | cons k ks ih =>
    simp only [List.foldl_cons]
    have h := lf.lfu_Get_size k now
    cases hg : lf.Get k now with
    | mk r lf1 =>
      rw [hg] at h
      cases r with
      | error e => exact (ih lf1 _).trans h
      | ok v => exact (ih lf1 _).trans h

theorem LfuCache.lfu_step_size {lf : LfuCache} (hok : LfuOK lf) (c : Call) (hc : c.ord.ok) :
    (lf.step c).size = lf.size := by
  unfold LfuCache.step
  split
  · exact LfuCache.lfu_set_size hok.1 _ _ _ _ hc
  · exact LfuCache.lfu_set_size hok.1 _ _ _ _ hc
  · exact lf.lfu_Get_size _ _
  · unfold LfuCache.TTL
    split
    · split
      · rw [LfuCache.lfu_increment_stats]
        exact (lf.lfu_increment_fields _).1
      · rfl
    · rfl
  · unfold LfuCache.Expire
    have h := lf.lfu_Get_size ‹Nat› c.now
    have hok1 := hok.lfuOK_Get ‹Nat› c.now
    split
    · rename_i heq
      rw [heq] at h
      exact h
    · rename_i heq
      rw [heq] at h hok1
      exact (LfuCache.lfu_set_size hok1.1 _ _ _ _ hc).trans h
  · unfold LfuCache.Del LfuCache.remove
    split <;> rfl
  · rfl
  · exact lf.lfu_foldGet_size c.now (fun m k v => mset m k v) _ _
  · exact lf.lfu_foldGet_size c.now (fun ks k _ => ks ++ [k]) _ _
  · exact lf.lfu_foldGet_size c.now (fun ks k _ => ks ++ [k]) _ _

theorem LfuCache.lfu_run_size {lf : LfuCache} (hok : LfuOK lf) (cs : List Call)
    (hcs : CallsOk cs) : (lf.run cs).size = lf.size := by
  induction cs generalizing lf with
  | nil => rfl
  | cons c cs ih =>
    have hc := hcs c (List.mem_cons_self _ _)
    exact (ih (hok.lfuOK_step c hc) (fun d hd => hcs d (List.mem_cons_of_mem _ hd))).trans
      (LfuCache.lfu_step_size hok c hc)

/-! ### Insertion of a new key into a full cache -/

theorem LruCache.lru_set_new_full {lc : LruCache} (hok : LruOK lc) {key : Nat} (value : Nat)
    (t now : Int) (hg : mget lc.items key = none)
    (hfull : (lc.evictList.length : Int) ≥ lc.size) :
    ∃ tail, lc.evictList.getLast? = some tail ∧
      (lc.set key value t now).2 =
        { lc with
          evictList :=
            ⟨lc.nextId, ⟨RealClock.ExpireAt now t, key, value⟩⟩ :: lc.evictList.dropLast,
          items := (key, lc.nextId) :: mdel lc.items tail.Value.key,
          nextId := lc.nextId + 1,
          stats := lc.stats.DecrKeyCount.IncrEvictCount.IncrKeyCount } := by
  have hne : lc.evictList ≠ [] := by
    intro he
    have := hok.2.1.1
    rw [he] at hfull
    simp at hfull
    omega
  cases hl : lc.evictList.getLast? with
  | none => exact absurd (List.getLast?_eq_none_iff.1 hl) hne
  | some tail =>
    refine ⟨tail, rfl, ?_⟩
    have hev : lc.evict 1 = lc.removeElement tail := by
      rw [LruCache.lru_evict_one, hl]
    have hnone : mget (mdel lc.items tail.Value.key) key = none := mget_mdel_of_none _ hg
    unfold LruCache.set
    rw [hg]
    simp only [hfull, if_true, hev]
    simp only [LruCache.removeElement, mset_of_none _ hnone,
      lRemove_eq_dropLast hok.1.1 hl]

theorem LfuCache.lfu_set_new_full {lf : LfuCache} (hok : LfuOK lf) {key : Nat}
    {ord : Order} (hord : ord.ok) (hg : mget lf.items key = none)
    (hfull : (lf.items.length : Int) ≥ lf.size) :
    ∃ pre e post victim vitem el, lf.freqList = pre ++ e :: post ∧
      (∀ x ∈ pre, x.Value.items = []) ∧ victim ∈ e.Value.items ∧
      mget lf.items victim = some vitem ∧
      (lf.removeItem vitem).freqList.head? = some el ∧
      ∀ (value : Nat) (t now : Int), (lf.set key value t now ord).2 =
        { lf with
          freqList := lmodify (lf.removeItem vitem).freqList el.id (fun fe => fe.add key),
          items := (key, ⟨RealClock.ExpireAt now t, key, value, el.id⟩) :: mdel lf.items victim,
          stats := lf.stats.IncrKeyCount } := by
  have hne : lf.items ≠ [] := by
    intro he
    have := hok.2.1.1
    rw [he] at hfull
    simp at hfull
    omega
  rcases LfuCache.lfu_evict_spec hok.1 hord with h | ⟨pre, e, post, k, item, hfl, hpre, hk, hgk, hev⟩
  · exfalso
    cases hl : lf.items with
    | nil => exact hne hl
    | cons p ps =>
      obtain ⟨e, he, -, hmem⟩ :=
        hok.1.2.2.2.2.2.2.1 p (by rw [hl]; exact List.mem_cons_self _ _)
      rw [h.2 e he] at hmem
      simp at hmem
  · have hinv1 := hok.1.lfuInv_removeItem hgk
    obtain ⟨el, rest, hhead, -⟩ := hinv1.2.2.2.2.2.1
    have hkey := (hok.1.lfuInv_mem_of_mget hgk).1
    refine ⟨pre, e, post, k, item, el, hfl, hpre, hk, hgk, by rw [hhead]; rfl, ?_⟩
    intro value t now
    have hnone : mget (mdel lf.items item.key) key = none := mget_mdel_of_none _ hg
    unfold LfuCache.set
    simp only
    rw [hg]
    simp only [hfull, if_true, hev]
    rw [hhead]
    simp only [List.head?_cons]
    rw [hkey] at hnone
    simp only [LfuCache.removeItem, mset_of_none _ hnone, hkey]

/-! ## C1: capacity -/

theorem Order.ok_id : Order.ok (fun l => l) := fun l => List.Perm.refl l

theorem LruCache.lru_capacity_step {lc : LruCache} (hok : LruOK lc) {key : Nat} (value : Nat)
    (t now : Int) (hg : mget lc.items key = none)
    (hfull : (lc.items.length : Int) = lc.size) :
    ∃ victim ∈ mkeys lc.items, ∃ h,
      (lc.set key value t now).2.items = (key, h) :: mdel lc.items victim ∧
      (lc.set key value t now).2.items.length = lc.items.length := by
  have hlen := hok.1.lruInv_length_eq
  obtain ⟨tail, hl, hset⟩ := LruCache.lru_set_new_full hok value t now hg (by omega)
  have hm := List.mem_of_getLast?_eq_some hl
  have hk : tail.Value.key ∈ mkeys lc.items :=
    (mget_isSome_iff _ _).1 ⟨_, hok.1.lruInv_mget_elem hm⟩
  refine ⟨tail.Value.key, hk, lc.nextId, by rw [hset], ?_⟩
  rw [hset]
  have := length_mdel_of_mem hok.1.lruInv_keys_nodup hk
  simp only [List.length_cons]
  omega

/-- C1 (capacity invariant). For an LRU or an LFU cache built with `size ≥ 1`, after any
sequence of calls (Set, SetWithExpire, Get, TTL, Expire, Del, Clear, and also GetALL,
Keys, Len) the number of stored entries is at most `size`; and when `Set` or
`SetWithExpire` inserts a new key while the cache holds `size` entries, the map
afterwards is the old map with exactly one stored key (the victim) deleted and the new
key added, so it again holds `size` entries. -/
theorem C1_capacity_invariant (size : Int) (hsize : 1 ≤ size) (cs : List Call)
    (hcs : CallsOk cs) (lc : LruCache) (lf : LfuCache)
    (hlc : lc = (newLruCache size).run cs) (hlf : lf = (newLfuCache size).run cs) :
    (lc.items.length : Int) ≤ size ∧ (lc.evictList.length : Int) ≤ size ∧
    (lf.items.length : Int) ≤ size ∧
    (∀ key value t now, mget lc.items key = none → (lc.items.length : Int) = size →
      ∃ victim ∈ mkeys lc.items, ∃ h,
        (lc.SetWithExpire key value t now).2.items = (key, h) :: mdel lc.items victim ∧
        (lc.Set key value now).2.items = (key, h) :: mdel lc.items victim ∧
        (lc.SetWithExpire key value t now).2.items.length = lc.items.length ∧
        (lc.Set key value now).2.items.length = lc.items.length) ∧
    (∀ key value t now ord, Order.ok ord → mget lf.items key = none →
      (lf.items.length : Int) = size →
      ∃ victim ∈ mkeys lf.items, ∃ it1 it2,
        (lf.SetWithExpire key value t now ord).2.items = (key, it1) :: mdel lf.items victim ∧
        (lf.Set key value now ord).2.items = (key, it2) :: mdel lf.items victim ∧
        it1.value = value ∧ it2.value = value ∧
        (lf.SetWithExpire key value t now ord).2.items.length = lf.items.length ∧
        (lf.Set key value now ord).2.items.length = lf.items.length) := by
  have hoklc : LruOK lc := hlc ▸ (LruOK.lruOK_new hsize).lruOK_run cs
  have hoklf : LfuOK lf := hlf ▸ (LfuOK.lfuOK_new hsize).lfuOK_run cs hcs
  have hslc : lc.size = size := by rw [hlc]; exact LruCache.lru_run_size _ cs
  have hslf : lf.size = size := by rw [hlf]; exact LfuCache.lfu_run_size (LfuOK.lfuOK_new hsize) cs hcs
  have h1 := hoklc.2.1.2
  have h2 := hoklc.1.lruInv_length_eq
  have h3 := hoklf.2.1.2
  refine ⟨by omega, by omega, by omega, ?_, ?_⟩
  · intro key value t now hg hfull
    obtain ⟨victim, hv, h, hs, hl⟩ :=
      LruCache.lru_capacity_step hoklc value t now hg (by omega)
    obtain ⟨victim0, hv0, h0, hs0, hl0⟩ :=
      LruCache.lru_capacity_step hoklc value 0 now hg (by omega)
    obtain ⟨tail, hl1, hset1⟩ := LruCache.lru_set_new_full hoklc value t now hg (by omega)
    obtain ⟨tail0, hl2, hset2⟩ := LruCache.lru_set_new_full hoklc value 0 now hg (by omega)
    rw [hl1] at hl2
    cases hl2
    have hm := List.mem_of_getLast?_eq_some hl1
    have hk : tail.Value.key ∈ mkeys lc.items :=
      (mget_isSome_iff _ _).1 ⟨_, hoklc.1.lruInv_mget_elem hm⟩
    refine ⟨tail.Value.key, hk, lc.nextId, ?_, ?_, hl, hl0⟩
    · show (lc.set key value t now).2.items = _
      rw [hset1]
    · show (lc.set key value 0 now).2.items = _
      rw [hset2]
  · intro key value t now ord hord hg hfull
    obtain ⟨pre, e, post, victim, vitem, el, -, -, -, hgv, -, hset⟩ :=
      LfuCache.lfu_set_new_full hoklf hord hg (by omega)
    have hk : victim ∈ mkeys lf.items := (mget_isSome_iff _ _).1 ⟨_, hgv⟩
    have hlen := length_mdel_of_mem hoklf.1.1 hk
    refine ⟨victim, hk, ⟨RealClock.ExpireAt now t, key, value, el.id⟩,
      ⟨RealClock.ExpireAt now 0, key, value, el.id⟩, ?_, ?_, rfl, rfl, ?_, ?_⟩
    · show (lf.set key value t now ord).2.items = _
      rw [hset]
    · show (lf.set key value 0 now ord).2.items = _
      rw [hset]
    · show (lf.set key value t now ord).2.items.length = _
      rw [hset]
      simp only [List.length_cons]
      omega
    · show (lf.set key value 0 now ord).2.items.length = _
      rw [hset]
      simp only [List.length_cons]
      omega

/-- Witness for C1: an LRU and an LFU cache of capacity 2 after three insertions. -/
theorem C1_capacity_invariant_witness :
    ((1 : Int) ≤ 2) ∧
    ((((newLruCache 2).run
        [⟨.Set 1 10, 0, fun l => l⟩, ⟨.Set 2 20, 0, fun l => l⟩,
          ⟨.Set 3 30, 0, fun l => l⟩]).items.length : Int) ≤ 2) ∧
    ((((newLfuCache 2).run
        [⟨.Set 1 10, 0, fun l => l⟩, ⟨.Set 2 20, 0, fun l => l⟩,
          ⟨.Set 3 30, 0, fun l => l⟩]).items.length : Int) ≤ 2) :=
  have h := C1_capacity_invariant 2 (by decide)
    [⟨.Set 1 10, 0, fun l => l⟩, ⟨.Set 2 20, 0, fun l => l⟩, ⟨.Set 3 30, 0, fun l => l⟩]
    (by
      intro c hc
      simp only [List.mem_cons, List.mem_singleton, List.not_mem_nil, or_false] at hc
      rcases hc with h | h | h <;> subst h <;> exact Order.ok_id)
    _ _ rfl rfl
  ⟨by decide, h.1, h.2.2.1⟩

/-! ## C2: the LRU eviction order -/

theorem recent_sub {log : List Nat} {l l2 : List (Element lruItem)} (h : Recent log l)
    (hs : l2.Sublist l) : Recent log l2 :=
  ⟨List.Pairwise.sublist (hs.map _) h.1, fun e he => h.2 e (hs.subset he)⟩

theorem recent_touch {log : List Nat} {l l2 : List (Element lruItem)} {e : Element lruItem}
    (h : Recent log l2) (hne : ∀ x ∈ l2, x.Value.key ≠ e.Value.key)
    (hl : (l.map (fun x => x.Value.key)) = e.Value.key :: l2.map (fun x => x.Value.key)) :
    Recent (e.Value.key :: log) l := by
  constructor
  · rw [hl, List.pairwise_cons]
    constructor
    · intro b hb
      obtain ⟨x, hx, hxb⟩ := List.mem_map.1 hb
      have : e.Value.key ≠ b := by
        rw [← hxb]
        exact fun heq => hne x hx heq.symm
      rw [List.indexOf_cons_self, List.indexOf_cons_ne _ this]
      exact Nat.succ_pos _
    · refine List.Pairwise.imp_of_mem ?_ h.1
      intro a b ha hb hab
      obtain ⟨x, hx, hxa⟩ := List.mem_map.1 ha
      obtain ⟨y, hy, hyb⟩ := List.mem_map.1 hb
      have h1 : e.Value.key ≠ a := by
        rw [← hxa]
        exact fun heq => hne x hx heq.symm
      have h2 : e.Value.key ≠ b := by
        rw [← hyb]
        exact fun heq => hne y hy heq.symm
      rw [List.indexOf_cons_ne _ h1, List.indexOf_cons_ne _ h2]
      exact Nat.succ_lt_succ hab
  · intro x hx
    have hm : x.Value.key ∈ l.map (fun x => x.Value.key) :=
      List.mem_map_of_mem (fun x => x.Value.key) hx
    rw [hl] at hm
    rcases List.mem_cons.1 hm with h1 | h1
    · rw [h1]
      exact List.mem_cons_self _ _
    · obtain ⟨y, hy, hyx⟩ := List.mem_map.1 h1
      rw [← hyx]
      exact List.mem_cons_of_mem _ (h.2 y hy)

theorem map_key_lmodify (l : List (Element lruItem)) (h : Nat) (f : lruItem → lruItem)
    (hf : ∀ it, (f it).key = it.key) :
    (lmodify l h f).map (fun e => e.Value.key) = l.map (fun e => e.Value.key) := by
  simp only [lmodify, List.map_map]
  apply List.map_congr_left
  intro e _
  by_cases he : e.id = h <;> simp [he, hf]

theorem lMoveToFront_eq {α : Type} {l : List (Element α)} {h : Nat} {el : Element α}
    (hf : lfind l h = some el) : lMoveToFront l h = el :: lRemove l h := by
  simp [lMoveToFront, hf]

theorem LruInv.lruInv_key_ne {lc : LruCache} (hinv : LruInv lc) {h : Nat}
    {el : Element lruItem} (hf : lfind lc.evictList h = some el) :
    ∀ x ∈ lRemove lc.evictList h, x.Value.key ≠ el.Value.key := by
  intro x hx heq
  have hx1 := List.mem_filter.1 hx
  have hid : x.id ≠ h := by simpa using hx1.2
  have hxe := List.inj_on_of_nodup_map hinv.2.1 hx1.1 (lfind_some hf).1 heq
  rw [hxe] at hid
  exact hid (lfind_some hf).2

theorem recent_moveToFront {lc : LruCache} (hinv : LruInv lc) {log : List Nat} {h : Nat}
    {el : Element lruItem} (hf : lfind lc.evictList h = some el)
    (hr : Recent log lc.evictList) (f : lruItem → lruItem) (hkey : ∀ it, (f it).key = it.key) :
    Recent (el.Value.key :: log) (lMoveToFront lc.evictList h) ∧
    Recent (el.Value.key :: log) (lmodify (lMoveToFront lc.evictList h) h f) := by
  have hsub := recent_sub hr (lRemove_sublist lc.evictList h)
  have hne := hinv.lruInv_key_ne hf
  constructor
  · exact recent_touch hsub hne (by rw [lMoveToFront_eq hf]; rfl)
  · exact recent_touch hsub hne
      (by rw [map_key_lmodify _ _ _ hkey, lMoveToFront_eq hf]; rfl)

theorem recent_getValue {lc : LruCache} (hok : LruOK lc) {log : List Nat}
    (hr : Recent log lc.evictList) (key : Nat) (now : Int) :
    match (lc.getValue key now).1 with
    | .error _ => Recent log (lc.getValue key now).2.evictList
    | .ok _ => Recent (key :: log) (lc.getValue key now).2.evictList := by
  unfold LruCache.getValue
  cases hg : mget lc.items key with
  | none => exact hr
  | some h =>
    obtain ⟨el, hf, hk, -, -⟩ := hok.1.lruInv_resolve hg
    simp only [hf]
    by_cases hexp : (!IsExpired el.Value.expireAt now) = true
    · simp only [hexp, if_true]
      rw [← hk]
      exact (recent_moveToFront hok.1 hf hr id (fun _ => rfl)).1
    · simp only [hexp]
      exact recent_sub hr (lRemove_sublist _ _)

theorem recent_Get {lc : LruCache} (hok : LruOK lc) {log : List Nat}
    (hr : Recent log lc.evictList) (key : Nat) (now : Int) :
    match (lc.Get key now).1 with
    | .error _ => Recent log (lc.Get key now).2.evictList
    | .ok _ => Recent (key :: log) (lc.Get key now).2.evictList := by
  have h := recent_getValue hok hr key now
  unfold LruCache.Get
  cases hg : lc.getValue key now with
  | mk r lc1 =>
    rw [hg] at h
    cases r with
    | error e => exact h
    | ok v => exact h

theorem recent_TTL {lc : LruCache} (hok : LruOK lc) {log : List Nat}
    (hr : Recent log lc.evictList) (key : Nat) (now : Int) :
    match (lc.TTL key now).1.2 with
    | some _ => Recent log (lc.TTL key now).2.evictList
    | none => Recent (key :: log) (lc.TTL key now).2.evictList := by
  unfold LruCache.TTL
  cases hg : mget lc.items key with
  | none => exact hr
  | some h =>
    obtain ⟨el, hf, hk, -, -⟩ := hok.1.lruInv_resolve hg
    simp only [hf]
    by_cases hexp : (!IsExpired el.Value.expireAt now) = true
    · simp only [hexp, if_true]
      rw [← hk]
      exact (recent_moveToFront hok.1 hf hr id (fun _ => rfl)).1
    · simp only [hexp]
      exact recent_sub hr (lRemove_sublist _ _)

theorem LruInv.lruInv_key_absent {lc : LruCache} (hinv : LruInv lc) {key : Nat}
    (hg : mget lc.items key = none) : ∀ x ∈ lc.evictList, x.Value.key ≠ key := by
  intro x hx heq
  have := hinv.lruInv_mget_elem hx
  rw [heq, hg] at this
  cases this

theorem recent_set {lc : LruCache} (hok : LruOK lc) {log : List Nat}
    (hr : Recent log lc.evictList) (key value : Nat) (t now : Int) :
    Recent (key :: log) (lc.set key value t now).2.evictList := by
  unfold LruCache.set
  cases hg : mget lc.items key with
  | some h =>
    obtain ⟨el, hf, hk, -, -⟩ := hok.1.lruInv_resolve hg
    simp only
    rw [← hk]
    exact (recent_moveToFront hok.1 hf hr
      (fun item => { item with
        value := value, expireAt := RealClock.ExpireAt now t }) (fun _ => rfl)).2
  | none =>
    simp only
    by_cases hfull : (lc.evictList.length : Int) ≥ lc.size
    · simp only [hfull, if_true]
      have hsub : (lc.evict 1).evictList.Sublist lc.evictList := by
        rw [LruCache.lru_evict_one]
        split
        · exact List.Sublist.refl _
        · exact lRemove_sublist _ _
      have hne := hok.lruOK_evict_one.1.lruInv_key_absent
        (LruCache.lru_evict_one_mget_none hg)
      exact @recent_touch log _ (lc.evict 1).evictList
        ⟨(lc.evict 1).nextId, ⟨RealClock.ExpireAt now t, key, value⟩⟩
        (recent_sub hr hsub) hne rfl
    · simp only [hfull, if_false]
      exact @recent_touch log _ lc.evictList
        ⟨lc.nextId, ⟨RealClock.ExpireAt now t, key, value⟩⟩ hr
        (hok.1.lruInv_key_absent hg) rfl

theorem recent_foldGet {lc : LruCache} (hok : LruOK lc) {log : List Nat}
    (hr : Recent log lc.evictList) (now : Int) {γ : Type}
    (f : γ → Nat → Nat → γ) (ks : List Nat) (acc : γ) :
    Recent (lc.touchesGets now ks ++ log) (ks.foldl
      (fun (acc : γ × LruCache) k =>
        match acc.2.Get k now with
        | (.error _, lc1) => (acc.1, lc1)
        | (.ok v, lc1) => (f acc.1 k v, lc1))
      (acc, lc)).2.evictList := by
  induction ks generalizing lc acc log with
  | nil => exact hr
  | cons k ks ih =>
    simp only [List.foldl_cons, LruCache.touchesGets]
    have h := recent_Get hok hr k now
    have hok1 := hok.lruOK_Get k now
    cases hg : lc.Get k now with
    | mk r lc1 =>
      rw [hg] at h hok1
      cases r with
      | error e => exact ih hok1 h _
      | ok v =>
        simp only [List.append_assoc, List.singleton_append]
        exact ih hok1 h _

theorem recent_step {lc : LruCache} (hok : LruOK lc) {log : List Nat}
    (hr : Recent log lc.evictList) (c : Call) :
    Recent (lc.touches c ++ log) (lc.step c).evictList := by
  unfold LruCache.step LruCache.touches
  cases c.op with
  | Set key value => exact recent_set hok hr key value 0 c.now
  | SetWithExpire key value t => exact recent_set hok hr key value t c.now
  | Get key =>
    have h := recent_Get hok hr key c.now
    simp only
    cases hg : (lc.Get key c.now).1 with
    | error e => rw [hg] at h; exact h
    | ok v => rw [hg] at h; exact h
  | TTL key =>
    have h := recent_TTL hok hr key c.now
    simp only
    cases hg : (lc.TTL key c.now).1.2 with
    | some e => rw [hg] at h; exact h
    | none => rw [hg] at h; exact h
  | Expire key t =>
    have h := recent_Get hok hr key c.now
    have hok1 := hok.lruOK_Get key c.now
    simp only [LruCache.Expire]
    cases hg : lc.Get key c.now with
    | mk r lc1 =>
      rw [hg] at h hok1
      cases r with
      | error e => exact h
      | ok v => exact recent_set hok1 h key v t c.now
  | Del key =>
    simp only [LruCache.Del, LruCache.remove, List.nil_append]
    cases hg : mget lc.items key with
    | none => exact hr
    | some h =>
      simp only
      cases hf : lfind lc.evictList h with
      | none => exact hr
      | some el => exact recent_sub hr (lRemove_sublist _ _)
  | Clear => exact ⟨List.Pairwise.nil, by simp [LruCache.Clear, LruCache.init]⟩
  | GetALL => exact recent_foldGet hok hr c.now (fun m k v => mset m k v) _ _
  | Keys => exact recent_foldGet hok hr c.now (fun ks k _ => ks ++ [k]) _ _
  | Len => exact recent_foldGet hok hr c.now (fun ks k _ => ks ++ [k]) _ _

theorem recent_run {lc : LruCache} (hok : LruOK lc) {log : List Nat}
    (hr : Recent log lc.evictList) (cs : List Call) :
    Recent (lc.touchLog cs ++ log) (lc.run cs).evictList := by
  induction cs generalizing lc log with
  | nil => exact hr
  | cons c cs ih =>
    have := ih (hok.lruOK_step c) (recent_step hok hr c)
    simpa [LruCache.touchLog, LruCache.run, List.append_assoc] using this

theorem recent_fresh (size : Int) (hsize : 1 ≤ size) (cs : List Call) :
    Recent ((newLruCache size).touchLog cs) ((newLruCache size).run cs).evictList := by
  have h := recent_run (LruOK.lruOK_new hsize) (show Recent [] (newLruCache size).evictList
    from ⟨List.Pairwise.nil, by simp [newLruCache]⟩) cs
  simpa using h

/-- C2 (LRU eviction order). In an LRU cache reached from a fresh cache of capacity
`size ≥ 1` by any calls, when `Set`/`SetWithExpire` inserts a new key while `size`
entries are stored, the entry removed is the tail of the recency list: the list
afterwards is the new element followed by the old list without its last element, and
the map is the old map without the tail's key plus the new key.  The tail is the stored
entry whose most recent touch (insertion, overwrite, successful `Get` or `TTL`) is the
oldest: in the log of touches, most recent first, every other stored key occurs before
the tail's key.  Every other entry stays, in the list and in the map. -/
theorem C2_lru_eviction_order (size : Int) (hsize : 1 ≤ size) (cs : List Call)
    (lc : LruCache) (hlc : lc = (newLruCache size).run cs) (key value : Nat) (t now : Int)
    (hnew : mget lc.items key = none) (hfull : (lc.items.length : Int) = size) :
    ∃ tail, lc.evictList.getLast? = some tail ∧
      (lc.SetWithExpire key value t now).2.evictList
        = ⟨lc.nextId, ⟨RealClock.ExpireAt now t, key, value⟩⟩ :: lc.evictList.dropLast ∧
      (lc.Set key value now).2.evictList
        = ⟨lc.nextId, ⟨0, key, value⟩⟩ :: lc.evictList.dropLast ∧
      (lc.SetWithExpire key value t now).2.items
        = (key, lc.nextId) :: mdel lc.items tail.Value.key ∧
      (lc.Set key value now).2.items = (key, lc.nextId) :: mdel lc.items tail.Value.key ∧
      (∀ e ∈ lc.evictList, e ≠ tail →
        ((newLruCache size).touchLog cs).indexOf e.Value.key
          < ((newLruCache size).touchLog cs).indexOf tail.Value.key) ∧
      (∀ e ∈ lc.evictList, e ≠ tail →
        e ∈ (lc.SetWithExpire key value t now).2.evictList ∧
        e ∈ (lc.Set key value now).2.evictList ∧
        mget (lc.SetWithExpire key value t now).2.items e.Value.key = some e.id ∧
        mget (lc.Set key value now).2.items e.Value.key = some e.id) := by
  have hok : LruOK lc := hlc ▸ (LruOK.lruOK_new hsize).lruOK_run cs
  have hs : lc.size = size := by rw [hlc]; exact LruCache.lru_run_size _ cs
  have hrec : Recent ((newLruCache size).touchLog cs) lc.evictList := by
    rw [hlc]
    exact recent_fresh size hsize cs
  have hlen := hok.1.lruInv_length_eq
  obtain ⟨tail, hl, hset⟩ := LruCache.lru_set_new_full hok value t now hnew (by omega)
  obtain ⟨tail0, hl0, hset0⟩ := LruCache.lru_set_new_full hok value 0 now hnew (by omega)
  rw [hl] at hl0
  cases hl0
  have hset1 : (lc.SetWithExpire key value t now).2 = _ := hset
  have hset2 : (lc.Set key value now).2 = _ := hset0
  obtain ⟨ys, hys⟩ := List.getLast?_eq_some_iff.1 hl
  have hdrop : lc.evictList.dropLast = ys := by rw [hys]; simp
  have hmemys : ∀ e ∈ lc.evictList, e ≠ tail → e ∈ ys := by
    intro e he hne
    rw [hys] at he
    rcases List.mem_append.1 he with h | h
    · exact h
    · exact absurd (List.mem_singleton.1 h) hne
  have htm : tail ∈ lc.evictList := List.mem_of_getLast?_eq_some hl
  refine ⟨tail, hl, by rw [hset1], by rw [hset2]; rfl, by rw [hset1], by rw [hset2], ?_, ?_⟩
  · intro e he hne
    have hp := hrec.1
    rw [hys, List.map_append, List.pairwise_append] at hp
    exact hp.2.2 _ (List.mem_map_of_mem (fun e => e.Value.key) (hmemys e he hne)) _
      (by simp)
  · intro e he hne
    have hey := hmemys e he hne
    have hk1 : e.Value.key ≠ tail.Value.key :=
      fun h => hne (List.inj_on_of_nodup_map hok.1.2.1 he htm h)
    have hk2 : e.Value.key ≠ key := hok.1.lruInv_key_absent hnew e he
    have hg := hok.1.lruInv_mget_elem he
    have hm : mget ((key, lc.nextId) :: mdel lc.items tail.Value.key) e.Value.key
        = some e.id := by
      have : ¬ key = e.Value.key := fun h => hk2 h.symm
      simp only [mget, this, if_false]
      rw [mget_mdel_ne _ hk1]
      exact hg
    refine ⟨?_, ?_, ?_, ?_⟩
    · rw [hset1, hdrop]
      exact List.mem_cons_of_mem _ hey
    · rw [hset2, hdrop]
      exact List.mem_cons_of_mem _ hey
    · rw [hset1]
      exact hm
    · rw [hset2]
      exact hm

/-- Witness for C2: capacity 2, `set(1)`, `set(2)`, `set(3)` leaves exactly the keys
2 and 3. -/
theorem C2_lru_eviction_order_witness :
    mkeys ((newLruCache 2).run
      [⟨.Set 1 10, 0, fun l => l⟩, ⟨.Set 2 20, 0, fun l => l⟩,
        ⟨.Set 3 30, 0, fun l => l⟩]).items = [3, 2] ∧
    ∃ tail, ((newLruCache 2).run
        [⟨.Set 1 10, 0, fun l => l⟩, ⟨.Set 2 20, 0, fun l => l⟩]).evictList.getLast?
          = some tail ∧ tail.Value.key = 1 :=
  ⟨by decide,
    (C2_lru_eviction_order 2 (by decide)
      [⟨.Set 1 10, 0, fun l => l⟩, ⟨.Set 2 20, 0, fun l => l⟩] _ rfl 3 30 0 0
      (by decide) (by decide)).elim
      (fun tail h => ⟨tail, h.1, by
        have h1 := h.1
        have h2 : ((newLruCache 2).run
          [⟨.Set 1 10, 0, fun l => l⟩, ⟨.Set 2 20, 0, fun l => l⟩]).evictList.getLast?
            = some ⟨0, ⟨0, 1, 10⟩⟩ := by decide
        rw [h2] at h1
        cases h1
        rfl⟩)⟩

/-! ## C3: the LRU promotion -/

theorem LruCache.lru_set_new_keeps {lc : LruCache} (hok : LruOK lc) {k2 : Nat}
    (value : Nat) (t now : Int) (hnew : mget lc.items k2 = none) {key h : Nat}
    (hg : mget lc.items key = some h)
    (hnt : ∀ tail, lc.evictList.getLast? = some tail → tail.Value.key ≠ key) :
    mget (lc.set k2 value t now).2.items key = some h := by
  have hne : ¬ k2 = key := by
    intro heq
    rw [heq, hg] at hnew
    cases hnew
  by_cases hfull : (lc.evictList.length : Int) ≥ lc.size
  · obtain ⟨tail, hl, hset⟩ := LruCache.lru_set_new_full hok value t now hnew hfull
    rw [hset]
    simp only [mget, hne, if_false]
    rw [mget_mdel_ne _ (fun heq => hnt tail hl heq.symm)]
    exact hg
  · unfold LruCache.set
    rw [hnew]
    simp only [hfull, if_false, mset_of_none _ hnew, mget, hne]
    exact hg

theorem LruCache.lru_getValue_hit {lc : LruCache} {key h : Nat} {el : Element lruItem}
    (now : Int) (hg : mget lc.items key = some h) (hf : lfind lc.evictList h = some el)
    (hexp : IsExpired el.Value.expireAt now = false) :
    lc.getValue key now
      = (.ok el.Value.value, { lc with evictList := el :: lRemove lc.evictList h }) := by
  unfold LruCache.getValue
  simp [hg, hf, hexp, lMoveToFront]

theorem LruCache.lru_Get_hit {lc : LruCache} {key h : Nat} {el : Element lruItem}
    (now : Int) (hg : mget lc.items key = some h) (hf : lfind lc.evictList h = some el)
    (hexp : IsExpired el.Value.expireAt now = false) :
    lc.Get key now
      = (.ok el.Value.value,
          { lc with evictList := el :: lRemove lc.evictList h,
                    stats := lc.stats.IncrHitCount }) := by
  unfold LruCache.Get
  rw [LruCache.lru_getValue_hit now hg hf hexp]

theorem LruCache.lru_TTL_hit {lc : LruCache} {key h : Nat} {el : Element lruItem}
    (now : Int) (hg : mget lc.items key = some h) (hf : lfind lc.evictList h = some el)
    (hexp : IsExpired el.Value.expireAt now = false) :
    lc.TTL key now
      = ((ttlOf el.Value.expireAt now, none),
          { lc with evictList := el :: lRemove lc.evictList h,
                    stats := lc.stats.IncrHitCount }) := by
  unfold LruCache.TTL
  simp [hg, hf, hexp, lMoveToFront]

theorem promoted_not_last {l : List (Element lruItem)} {h : Nat} {el : Element lruItem}
    (hf : lfind l h = some el) (hnd : (l.map Element.id).Nodup) (hlen : 2 ≤ l.length) :
    ∀ tail, (el :: lRemove l h).getLast? = some tail → tail ≠ el := by
  intro tail ht heq
  have hperm := lRemove_perm hnd hf
  have hl := hperm.length_eq
  simp only [List.length_cons] at hl
  cases hr : lRemove l h with
  | nil =>
    rw [hr] at hl
    simp at hl
    omega
  | cons a rest =>
    rw [hr, List.getLast?_cons_cons] at ht
    have hm : tail ∈ lRemove l h := by
      rw [hr]
      exact List.mem_of_getLast?_eq_some ht
    have := (List.mem_filter.1 hm).2
    rw [heq, (lfind_some hf).2] at this
    simp at this

/-- C3 (LRU promotion). In an LRU cache reached from a fresh cache of capacity
`size ≥ 1`, a `Get` or `TTL` of a stored key whose entry is not expired succeeds and
moves the entry to the front of the recency list; the other entries follow in their
old relative order (the old list with that entry filtered out), and the map is
unchanged.  If at least two entries are stored, the promoted entry is not at the tail
afterwards, and the next insertion of a new key keeps it stored. -/
theorem C3_lru_promotion (size : Int) (hsize : 1 ≤ size) (cs : List Call)
    (lc : LruCache) (hlc : lc = (newLruCache size).run cs) (key h : Nat)
    (el : Element lruItem) (now : Int)
    (hg : mget lc.items key = some h) (hf : lfind lc.evictList h = some el)
    (hexp : IsExpired el.Value.expireAt now = false) :
    el.Value.key = key ∧
    (lc.Get key now).1 = .ok el.Value.value ∧
    (lc.TTL key now).1 = (ttlOf el.Value.expireAt now, none) ∧
    (lc.Get key now).2.evictList = el :: lc.evictList.filter (fun e => e.id != h) ∧
    (lc.TTL key now).2.evictList = el :: lc.evictList.filter (fun e => e.id != h) ∧
    (lc.Get key now).2.items = lc.items ∧ (lc.TTL key now).2.items = lc.items ∧
    (2 ≤ lc.evictList.length →
      (∀ tail, (lc.Get key now).2.evictList.getLast? = some tail → tail ≠ el) ∧
      (∀ tail, (lc.TTL key now).2.evictList.getLast? = some tail → tail ≠ el) ∧
      ∀ k2 value t now2, mget lc.items k2 = none →
        mget ((lc.Get key now).2.SetWithExpire k2 value t now2).2.items key = some h ∧
        mget ((lc.Get key now).2.Set k2 value now2).2.items key = some h ∧
        mget ((lc.TTL key now).2.SetWithExpire k2 value t now2).2.items key = some h ∧
        mget ((lc.TTL key now).2.Set k2 value now2).2.items key = some h) := by
  have hok : LruOK lc := hlc ▸ (LruOK.lruOK_new hsize).lruOK_run cs
  obtain ⟨el2, hf2, hk, -, -⟩ := hok.1.lruInv_resolve hg
  rw [hf] at hf2
  cases hf2
  have hG := LruCache.lru_Get_hit now hg hf hexp
  have hT := LruCache.lru_TTL_hit now hg hf hexp
  have hokG := hok.lruOK_Get key now
  have hokT := hok.lruOK_TTL key now
  refine ⟨hk, by rw [hG], by rw [hT], by rw [hG]; rfl, by rw [hT]; rfl, by rw [hG],
    by rw [hT], ?_⟩
  intro hlen
  have hlast := promoted_not_last hf hok.1.1 hlen
  have hlG : ∀ tail, (lc.Get key now).2.evictList.getLast? = some tail → tail ≠ el := by
    rw [hG]
    exact hlast
  have hlT : ∀ tail, (lc.TTL key now).2.evictList.getLast? = some tail → tail ≠ el := by
    rw [hT]
    exact hlast
  have hmemG : el ∈ (lc.Get key now).2.evictList := by
    rw [hG]
    exact List.mem_cons_self _ _
  have hmemT : el ∈ (lc.TTL key now).2.evictList := by
    rw [hT]
    exact List.mem_cons_self _ _
  have hkG : ∀ tail, (lc.Get key now).2.evictList.getLast? = some tail →
      tail.Value.key ≠ key := by
    intro tail ht heq
    exact hlG tail ht (List.inj_on_of_nodup_map hokG.1.2.1
      (List.mem_of_getLast?_eq_some ht) hmemG (heq.trans hk.symm))
  have hkT : ∀ tail, (lc.TTL key now).2.evictList.getLast? = some tail →
      tail.Value.key ≠ key := by
    intro tail ht heq
    exact hlT tail ht (List.inj_on_of_nodup_map hokT.1.2.1
      (List.mem_of_getLast?_eq_some ht) hmemT (heq.trans hk.symm))
  have hiG : (lc.Get key now).2.items = lc.items := by rw [hG]
  have hiT : (lc.TTL key now).2.items = lc.items := by rw [hT]
  refine ⟨hlG, hlT, ?_⟩
  intro k2 value t now2 hnew
  exact ⟨LruCache.lru_set_new_keeps hokG value t now2 (by rw [hiG]; exact hnew)
      (by rw [hiG]; exact hg) hkG,
    LruCache.lru_set_new_keeps hokG value 0 now2 (by rw [hiG]; exact hnew)
      (by rw [hiG]; exact hg) hkG,
    LruCache.lru_set_new_keeps hokT value t now2 (by rw [hiT]; exact hnew)
      (by rw [hiT]; exact hg) hkT,
    LruCache.lru_set_new_keeps hokT value 0 now2 (by rw [hiT]; exact hnew)
      (by rw [hiT]; exact hg) hkT⟩

/-- Witness for C3: capacity 2, `set(1)`, `set(2)`, `get(1)`, `set(3)` evicts 2 and
keeps 1. -/
theorem C3_lru_promotion_witness :
    mkeys ((newLruCache 2).run
      [⟨.Set 1 10, 0, fun l => l⟩, ⟨.Set 2 20, 0, fun l => l⟩, ⟨.Get 1, 0, fun l => l⟩,
        ⟨.Set 3 30, 0, fun l => l⟩]).items = [3, 1] ∧
    (((newLruCache 2).run
      [⟨.Set 1 10, 0, fun l => l⟩, ⟨.Set 2 20, 0, fun l => l⟩]).Get 1 0).1 = .ok 10 :=
  ⟨by decide,
    (C3_lru_promotion 2 (by decide)
      [⟨.Set 1 10, 0, fun l => l⟩, ⟨.Set 2 20, 0, fun l => l⟩] _ rfl 1 0 ⟨0, ⟨0, 1, 10⟩⟩ 0
      (by decide) (by decide) (by decide)).2.1⟩

/-! ## C4: the LFU eviction order -/

theorem LfuInv.lfuInv_freqOf {lf : LfuCache} (hinv : LfuInv lf) {k : Nat} {item : lfuItem}
    (hg : mget lf.items k = some item) :
    ∃ e ∈ lf.freqList, e.id = item.freqElement ∧ k ∈ e.Value.items ∧
      lf.freqOf item = some e.Value.freq := by
  obtain ⟨-, e, he, hid, hk⟩ := hinv.lfuInv_mem_of_mget hg
  refine ⟨e, he, hid, hk, ?_⟩
  unfold LfuCache.freqOf
  rw [← hid, lfind_of_mem hinv.2.2.1 he]
  rfl

theorem LfuInv.lfuInv_member_bucket {lf : LfuCache} (hinv : LfuInv lf) {k : Nat}
    {item : lfuItem} (hg : mget lf.items k = some item) {e : Element freqEntry}
    (he : e ∈ lf.freqList) (hk : k ∈ e.Value.items) : item.freqElement = e.id := by
  obtain ⟨it, hit, hfe⟩ := hinv.2.2.2.2.2.2.2.1 e he k hk
  rw [hg] at hit
  cases hit
  exact hfe

/-- C4 (LFU eviction order). In an LFU cache reached from a fresh cache of capacity
`size ≥ 1`, when `Set`/`SetWithExpire` inserts a new key while `size` entries are
stored, exactly one stored entry (the victim) leaves the map, and the frequency of the
victim's bucket is minimal among the frequencies of all stored entries, whatever the
order in which the bucket sets are visited; in particular an entry of frequency greater
than 0 is not evicted while an entry of frequency 0 is stored. -/
theorem C4_lfu_eviction_order (size : Int) (hsize : 1 ≤ size) (cs : List Call)
    (hcs : CallsOk cs) (lf : LfuCache) (hlf : lf = (newLfuCache size).run cs)
    (key value : Nat) (t now : Int) (ord : Order) (hord : ord.ok)
    (hnew : mget lf.items key = none) (hfull : (lf.items.length : Int) = size) :
    ∃ victim vitem fv, mget lf.items victim = some vitem ∧ lf.freqOf vitem = some fv ∧
      (∃ it, (lf.SetWithExpire key value t now ord).2.items
        = (key, it) :: mdel lf.items victim) ∧
      (∃ it, (lf.Set key value now ord).2.items = (key, it) :: mdel lf.items victim) ∧
      (∀ j jitem, mget lf.items j = some jitem →
        ∃ fj, lf.freqOf jitem = some fj ∧ fv ≤ fj) ∧
      ((∃ j jitem, mget lf.items j = some jitem ∧ lf.freqOf jitem = some 0) → fv = 0) := by
  have hok : LfuOK lf := hlf ▸ (LfuOK.lfuOK_new hsize).lfuOK_run cs hcs
  have hs : lf.size = size := by
    rw [hlf]
    exact LfuCache.lfu_run_size (LfuOK.lfuOK_new hsize) cs hcs
  obtain ⟨pre, e, post, victim, vitem, el, hfl, hpre, hv, hgv, -, hset⟩ :=
    LfuCache.lfu_set_new_full hok hord hnew (by omega)
  have he : e ∈ lf.freqList := by rw [hfl]; simp
  have hve := hok.1.lfuInv_member_bucket hgv he hv
  have hfv : lf.freqOf vitem = some e.Value.freq := by
    unfold LfuCache.freqOf
    rw [hve, lfind_of_mem hok.1.2.2.1 he]
    rfl
  have hmin : ∀ j jitem, mget lf.items j = some jitem →
      ∃ fj, lf.freqOf jitem = some fj ∧ e.Value.freq ≤ fj := by
    intro j jitem hgj
    obtain ⟨ej, hej, -, hjm, hfj⟩ := hok.1.lfuInv_freqOf hgj
    refine ⟨ej.Value.freq, hfj, ?_⟩
    have hsorted := hok.1.2.2.2.2.1
    rw [hfl, List.map_append, List.map_cons, List.pairwise_append,
      List.pairwise_cons] at hsorted
    rw [hfl] at hej
    rcases List.mem_append.1 hej with h | h
    · rw [hpre ej h] at hjm
      simp at hjm
    · rcases List.mem_cons.1 h with h1 | h1
      · rw [h1]
      · exact Nat.le_of_lt (hsorted.2.1.1 _
          (List.mem_map_of_mem (fun e => e.Value.freq) h1))
  refine ⟨victim, vitem, e.Value.freq, hgv, hfv,
    ⟨⟨RealClock.ExpireAt now t, key, value, el.id⟩, ?_⟩,
    ⟨⟨RealClock.ExpireAt now 0, key, value, el.id⟩, ?_⟩, hmin, ?_⟩
  · show (lf.set key value t now ord).2.items = _
    rw [hset]
  · show (lf.set key value 0 now ord).2.items = _
    rw [hset]
  · rintro ⟨j, jitem, hgj, hf0⟩
    obtain ⟨fj, hfj, hle⟩ := hmin j jitem hgj
    rw [hf0] at hfj
    cases hfj
    omega

/-- Witness for C4: capacity 3, insert 1, 2, 3, `get(1)` three times, `get(2)` once,
insert 4: the key 3 is evicted. -/
theorem C4_lfu_eviction_order_witness :
    mkeys ((newLfuCache 3).run
      [⟨.Set 1 10, 0, fun l => l⟩, ⟨.Set 2 20, 0, fun l => l⟩, ⟨.Set 3 30, 0, fun l => l⟩,
        ⟨.Get 1, 0, fun l => l⟩, ⟨.Get 1, 0, fun l => l⟩, ⟨.Get 1, 0, fun l => l⟩,
        ⟨.Get 2, 0, fun l => l⟩, ⟨.Set 4 40, 0, fun l => l⟩]).items = [4, 2, 1] ∧
    ∃ victim vitem fv,
      mget ((newLfuCache 3).run
        [⟨.Set 1 10, 0, fun l => l⟩, ⟨.Set 2 20, 0, fun l => l⟩,
          ⟨.Set 3 30, 0, fun l => l⟩, ⟨.Get 1, 0, fun l => l⟩, ⟨.Get 1, 0, fun l => l⟩,
          ⟨.Get 1, 0, fun l => l⟩, ⟨.Get 2, 0, fun l => l⟩]).items victim = some vitem ∧
      ((newLfuCache 3).run
        [⟨.Set 1 10, 0, fun l => l⟩, ⟨.Set 2 20, 0, fun l => l⟩,
          ⟨.Set 3 30, 0, fun l => l⟩, ⟨.Get 1, 0, fun l => l⟩, ⟨.Get 1, 0, fun l => l⟩,
          ⟨.Get 1, 0, fun l => l⟩, ⟨.Get 2, 0, fun l => l⟩]).freqOf vitem = some fv :=
  ⟨by decide,
    (C4_lfu_eviction_order 3 (by decide)
      [⟨.Set 1 10, 0, fun l => l⟩, ⟨.Set 2 20, 0, fun l => l⟩, ⟨.Set 3 30, 0, fun l => l⟩,
        ⟨.Get 1, 0, fun l => l⟩, ⟨.Get 1, 0, fun l => l⟩, ⟨.Get 1, 0, fun l => l⟩,
        ⟨.Get 2, 0, fun l => l⟩]
      (by
        intro c hc
        simp only [List.mem_cons, List.mem_singleton, List.not_mem_nil, or_false] at hc
        rcases hc with h | h | h | h | h | h | h <;> subst h <;> exact Order.ok_id)
      _ rfl 4 40 0 0 (fun l => l) Order.ok_id (by decide) (by decide)).elim
      (fun victim h => h.elim (fun vitem h2 => h2.elim
        (fun fv h3 => ⟨victim, vitem, fv, h3.1, h3.2.1⟩)))⟩

/-! ## What the lookups compute -/

theorem SimpleCache.simple_Get_none {sc : SimpleCache} {key : Nat} (now : Int)
    (hg : mget sc.items key = none) :
    sc.Get key now
      = (.error Error.KeyNotFound, { sc with stats := sc.stats.IncrMissCount }) := by
  simp [SimpleCache.Get, SimpleCache.getValue, hg]

theorem SimpleCache.simple_Get_hit {sc : SimpleCache} {key : Nat} {item : simpleItem}
    (now : Int) (hg : mget sc.items key = some item)
    (hexp : IsExpired item.expireAt now = false) :
    sc.Get key now = (.ok item.value, { sc with stats := sc.stats.IncrHitCount }) := by
  simp [SimpleCache.Get, SimpleCache.getValue, hg, hexp]

theorem SimpleCache.simple_Get_expired {sc : SimpleCache} {key : Nat} {item : simpleItem}
    (now : Int) (hg : mget sc.items key = some item)
    (hexp : IsExpired item.expireAt now = true) :
    sc.Get key now
      = (.error Error.KeyNotFound,
          { sc with items := mdel sc.items key,
                    stats := sc.stats.DecrKeyCount.IncrMissCount }) := by
  simp [SimpleCache.Get, SimpleCache.getValue, SimpleCache.remove, hg, hexp]

theorem SimpleCache.simple_TTL_none {sc : SimpleCache} {key : Nat} (now : Int)
    (hg : mget sc.items key = none) :
    sc.TTL key now
      = ((-2, some Error.KeyNotFound), { sc with stats := sc.stats.IncrMissCount }) := by
  simp [SimpleCache.TTL, hg]

theorem SimpleCache.simple_TTL_hit {sc : SimpleCache} {key : Nat} {item : simpleItem}
    (now : Int) (hg : mget sc.items key = some item)
    (hexp : IsExpired item.expireAt now = false) :
    sc.TTL key now
      = ((ttlOf item.expireAt now, none), { sc with stats := sc.stats.IncrHitCount }) := by
  simp [SimpleCache.TTL, hg, hexp]

theorem SimpleCache.simple_TTL_expired {sc : SimpleCache} {key : Nat} {item : simpleItem}
    (now : Int) (hg : mget sc.items key = some item)
    (hexp : IsExpired item.expireAt now = true) :
    sc.TTL key now
      = ((-2, some Error.KeyNotFound),
          { sc with items := mdel sc.items key,
                    stats := sc.stats.DecrKeyCount.IncrMissCount }) := by
  simp [SimpleCache.TTL, SimpleCache.remove, hg, hexp]

theorem LruCache.lru_Get_none {lc : LruCache} {key : Nat} (now : Int)
    (hg : mget lc.items key = none) :
    lc.Get key now
      = (.error Error.KeyNotFound, { lc with stats := lc.stats.IncrMissCount }) := by
  simp [LruCache.Get, LruCache.getValue, hg]

theorem LruCache.lru_Get_expired {lc : LruCache} {key h : Nat} {el : Element lruItem}
    (now : Int) (hg : mget lc.items key = some h) (hf : lfind lc.evictList h = some el)
    (hexp : IsExpired el.Value.expireAt now = true) :
    lc.Get key now
      = (.error Error.KeyNotFound,
          { lc with evictList := lRemove lc.evictList el.id,
                    items := mdel lc.items el.Value.key,
                    stats := lc.stats.DecrKeyCount.IncrMissCount }) := by
  simp [LruCache.Get, LruCache.getValue, LruCache.removeElement, hg, hf, hexp]

theorem LruCache.lru_TTL_none {lc : LruCache} {key : Nat} (now : Int)
    (hg : mget lc.items key = none) :
    lc.TTL key now
      = ((-2, some Error.KeyNotFound), { lc with stats := lc.stats.IncrMissCount }) := by
  simp [LruCache.TTL, hg]

theorem LruCache.lru_TTL_expired {lc : LruCache} {key h : Nat} {el : Element lruItem}
    (now : Int) (hg : mget lc.items key = some h) (hf : lfind lc.evictList h = some el)
    (hexp : IsExpired el.Value.expireAt now = true) :
    lc.TTL key now
      = ((-2, some Error.KeyNotFound),
          { lc with evictList := lRemove lc.evictList el.id,
                    items := mdel lc.items el.Value.key,
                    stats := lc.stats.DecrKeyCount.IncrMissCount }) := by
  simp [LruCache.TTL, LruCache.removeElement, hg, hf, hexp]

theorem LfuCache.lfu_Get_none {lf : LfuCache} {key : Nat} (now : Int)
    (hg : mget lf.items key = none) :
    lf.Get key now
      = (.error Error.KeyNotFound, { lf with stats := lf.stats.IncrMissCount }) := by
  simp [LfuCache.Get, LfuCache.getValue, hg]

theorem LfuCache.lfu_Get_hit {lf : LfuCache} {key : Nat} {item : lfuItem}
    (now : Int) (hg : mget lf.items key = some item)
    (hexp : IsExpired item.expireAt now = false) :
    lf.Get key now
      = (.ok item.value,
          { lf.increment item with stats := (lf.increment item).stats.IncrHitCount }) := by
  simp [LfuCache.Get, LfuCache.getValue, hg, hexp]

theorem LfuCache.lfu_Get_expired {lf : LfuCache} {key : Nat} {item : lfuItem}
    (now : Int) (hg : mget lf.items key = some item)
    (hexp : IsExpired item.expireAt now = true) :
    lf.Get key now
      = (.error Error.KeyNotFound,
          { lf.removeItem item with stats := lf.stats.IncrMissCount }) := by
  simp [LfuCache.Get, LfuCache.getValue, LfuCache.removeItem, hg, hexp]

theorem LfuCache.lfu_TTL_none {lf : LfuCache} {key : Nat} (now : Int)
    (hg : mget lf.items key = none) :
    lf.TTL key now
      = ((-2, some Error.KeyNotFound), { lf with stats := lf.stats.IncrMissCount }) := by
  simp [LfuCache.TTL, hg]

theorem LfuCache.lfu_TTL_hit {lf : LfuCache} {key : Nat} {item : lfuItem}
    (now : Int) (hg : mget lf.items key = some item)
    (hexp : IsExpired item.expireAt now = false) :
    lf.TTL key now
      = ((ttlOf item.expireAt now, none),
          { lf.increment item with stats := lf.stats.IncrHitCount }) := by
  simp [LfuCache.TTL, hg, hexp, LfuCache.lfu_increment_stats]

theorem LfuCache.lfu_TTL_expired {lf : LfuCache} {key : Nat} {item : lfuItem}
    (now : Int) (hg : mget lf.items key = some item)
    (hexp : IsExpired item.expireAt now = true) :
    lf.TTL key now
      = ((-2, some Error.KeyNotFound),
          { lf.removeItem item with stats := lf.stats.IncrMissCount }) := by
  simp [LfuCache.TTL, LfuCache.removeItem, hg, hexp]

/-! ## The binding installed by `set` -/

theorem SimpleCache.simple_set_binding (sc : SimpleCache) (key value : Nat) (t now : Int)
    (ord : Order) :
    (sc.set key value t now ord).1 = none ∧
    mget (sc.set key value t now ord).2.items key
      = some ⟨RealClock.ExpireAt now t, value⟩ := by
  unfold SimpleCache.set
  cases hg : mget sc.items key with
  | some item => simp [mget_mupd, hg]
  | none => simp [mget_mset_self]

theorem lfind_lmodify_head {α : Type} (el : Element α) (l : List (Element α)) (f : α → α) :
    lfind (lmodify (el :: l) el.id f) el.id = some ⟨el.id, f el.Value⟩ := by
  simp [lmodify, lfind]

theorem LruCache.lru_set_binding {lc : LruCache} (hok : LruOK lc) (key value : Nat)
    (t now : Int) :
    (lc.set key value t now).1 = none ∧
    ∃ h, mget (lc.set key value t now).2.items key = some h ∧
      lfind (lc.set key value t now).2.evictList h
        = some ⟨h, ⟨RealClock.ExpireAt now t, key, value⟩⟩ := by
  unfold LruCache.set
  cases hg : mget lc.items key with
  | some h =>
    obtain ⟨el, hf, hk, hid, -⟩ := hok.1.lruInv_resolve hg
    refine ⟨rfl, h, hg, ?_⟩
    simp only
    rw [lMoveToFront_eq hf, ← hid, lfind_lmodify_head, hk]
  | none =>
    refine ⟨rfl, ?_⟩
    simp only
    exact ⟨_, mget_mset_self _ _ _, by simp [lfind]⟩

theorem LfuCache.lfu_set_binding {lf : LfuCache} (hok : LfuOK lf) (key value : Nat)
    (t now : Int) {ord : Order} (hord : ord.ok) :
    (lf.set key value t now ord).1 = none ∧
    ∃ fe, mget (lf.set key value t now ord).2.items key
      = some ⟨RealClock.ExpireAt now t, key, value, fe⟩ := by
  unfold LfuCache.set
  simp only
  cases hg : mget lf.items key with
  | some item =>
    have hk := (hok.1.lfuInv_mem_of_mget hg).1
    refine ⟨rfl, item.freqElement, ?_⟩
    simp only [mget_mupd, if_true, hg, Option.map_some', hk]
  | none =>
    simp only
    have hinv1 : LfuInv (if (lf.items.length : Int) ≥ lf.size then lf.evict 1 ord else lf) := by
      split
      · exact (hok.lfuOK_evict hord).1
      · exact hok.1
    obtain ⟨el, rest, hhead, -⟩ := hinv1.2.2.2.2.2.1
    rw [hhead]
    simp only [List.head?_cons]
    exact ⟨trivial, el.id, mget_mset_self _ _ _⟩

/-! ## C5: expiration on `Get` -/

theorem ExpireAt_pos {T t : Int} (ht : 0 < t) (hov : isInt64 (T + t)) :
    RealClock.ExpireAt T t = T + t := by
  unfold RealClock.ExpireAt
  simp only [gt_iff_lt, ht, if_true]
  exact wrapInt64_of_isInt64 hov

theorem IsExpired_true_iff (e now : Int) : IsExpired e now = true ↔ e ≠ 0 ∧ e < now := by
  unfold IsExpired
  by_cases h0 : e = 0
  · simp [h0]
  · by_cases h1 : e < now <;> simp [h0, h1]

theorem IsExpired_false_iff (e now : Int) : IsExpired e now = false ↔ e = 0 ∨ now ≤ e := by
  unfold IsExpired
  by_cases h0 : e = 0
  · simp [h0]
  · by_cases h1 : e < now
    · simp [h0, h1]
    · simp only [h0, h1, if_false, true_iff, false_or]
      omega

theorem SimpleCache.simple_Get_ok {sc : SimpleCache} {key : Nat} {now : Int} {v : Nat}
    (h : (sc.Get key now).1 = .ok v) :
    ∃ item, mget sc.items key = some item ∧ item.value = v ∧
      IsExpired item.expireAt now = false := by
  cases hg : mget sc.items key with
  | none =>
    rw [SimpleCache.simple_Get_none now hg] at h
    cases h
  | some item =>
    cases hexp : IsExpired item.expireAt now with
    | true =>
      rw [SimpleCache.simple_Get_expired now hg hexp] at h
      cases h
    | false =>
      rw [SimpleCache.simple_Get_hit now hg hexp] at h
      cases h
      exact ⟨item, rfl, rfl, hexp⟩

theorem LruCache.lru_Get_ok {lc : LruCache} (hinv : LruInv lc) {key : Nat} {now : Int}
    {v : Nat} (h : (lc.Get key now).1 = .ok v) :
    ∃ hd el, mget lc.items key = some hd ∧ lfind lc.evictList hd = some el ∧
      el.Value.value = v ∧ IsExpired el.Value.expireAt now = false := by
  cases hg : mget lc.items key with
  | none =>
    rw [LruCache.lru_Get_none now hg] at h
    cases h
  | some hd =>
    obtain ⟨el, hf, -, -, -⟩ := hinv.lruInv_resolve hg
    cases hexp : IsExpired el.Value.expireAt now with
    | true =>
      rw [LruCache.lru_Get_expired now hg hf hexp] at h
      cases h
    | false =>
      rw [LruCache.lru_Get_hit now hg hf hexp] at h
      cases h
      exact ⟨hd, el, rfl, hf, rfl, hexp⟩

theorem LfuCache.lfu_Get_ok {lf : LfuCache} {key : Nat} {now : Int} {v : Nat}
    (h : (lf.Get key now).1 = .ok v) :
    ∃ item, mget lf.items key = some item ∧ item.value = v ∧
      IsExpired item.expireAt now = false := by
  cases hg : mget lf.items key with
  | none =>
    rw [LfuCache.lfu_Get_none now hg] at h
    cases h
  | some item =>
    cases hexp : IsExpired item.expireAt now with
    | true =>
      rw [LfuCache.lfu_Get_expired now hg hexp] at h
      cases h
    | false =>
      rw [LfuCache.lfu_Get_hit now hg hexp] at h
      cases h
      exact ⟨item, rfl, rfl, hexp⟩

theorem SimpleCache.simple_Get_after {sc : SimpleCache} {key : Nat} {item : simpleItem}
    (hg : mget sc.items key = some item) (now : Int) :
    (IsExpired item.expireAt now = true →
      (sc.Get key now).1 = .error Error.KeyNotFound ∧
      mget (sc.Get key now).2.items key = none) ∧
    (IsExpired item.expireAt now = false → (sc.Get key now).1 = .ok item.value) := by
  constructor
  · intro hexp
    rw [SimpleCache.simple_Get_expired now hg hexp]
    exact ⟨rfl, mget_mdel_self _ _⟩
  · intro hexp
    rw [SimpleCache.simple_Get_hit now hg hexp]

theorem LruCache.lru_Get_after {lc : LruCache} (hinv : LruInv lc) {key h : Nat}
    {el : Element lruItem} (hg : mget lc.items key = some h)
    (hf : lfind lc.evictList h = some el) (now : Int) :
    (IsExpired el.Value.expireAt now = true →
      (lc.Get key now).1 = .error Error.KeyNotFound ∧
      mget (lc.Get key now).2.items key = none ∧
      ∀ e ∈ (lc.Get key now).2.evictList, e.Value.key ≠ key) ∧
    (IsExpired el.Value.expireAt now = false → (lc.Get key now).1 = .ok el.Value.value) := by
  obtain ⟨el2, hf2, hk, hid, -⟩ := hinv.lruInv_resolve hg
  rw [hf] at hf2
  cases hf2
  constructor
  · intro hexp
    rw [LruCache.lru_Get_expired now hg hf hexp]
    refine ⟨rfl, ?_, ?_⟩
    · show mget (mdel lc.items el.Value.key) key = none
      rw [hk]
      exact mget_mdel_self _ _
    · intro e he
      have := hinv.lruInv_key_ne hf e (by rw [← hid]; exact he)
      rw [hk] at this
      exact this
  · intro hexp
    rw [LruCache.lru_Get_hit now hg hf hexp]

theorem LfuCache.lfu_Get_after {lf : LfuCache} (hinv : LfuInv lf) {key : Nat}
    {item : lfuItem} (hg : mget lf.items key = some item) (now : Int) :
    (IsExpired item.expireAt now = true →
      (lf.Get key now).1 = .error Error.KeyNotFound ∧
      mget (lf.Get key now).2.items key = none ∧
      ∀ e ∈ (lf.Get key now).2.freqList, key ∉ e.Value.items) ∧
    (IsExpired item.expireAt now = false → (lf.Get key now).1 = .ok item.value) := by
  have hk := (hinv.lfuInv_mem_of_mget hg).1
  constructor
  · intro hexp
    rw [LfuCache.lfu_Get_expired now hg hexp]
    have hnone : mget (lf.removeItem item).items key = none := by
      show mget (mdel lf.items item.key) key = none
      rw [hk]
      exact mget_mdel_self _ _
    refine ⟨rfl, hnone, ?_⟩
    intro e he hmem
    obtain ⟨it, hit, -⟩ := (hinv.lfuInv_removeItem hg).2.2.2.2.2.2.2.1 e he key hmem
    rw [hnone] at hit
    cases hit
  · intro hexp
    rw [LfuCache.lfu_Get_hit now hg hexp]

/-- C5, as amended (expiration on `Get`). Let `t > 0`, let the clock reading `T` of
`SetWithExpire(k, v, t)` be non-negative and let `T + t` fit into `int64`.  Then, in
each policy, a `Get(k)` right after the `SetWithExpire` at clock time `T' > T + t`
returns `KeyNotFound` and removes the entry from the map and from the bookkeeping (no
element of the LRU list carries the key, no LFU bucket has it as a member), while a
`Get(k)` at a time `T' ≤ T + t` returns `v`.  In every state, a `Get` that returns a
value returns the value of a stored entry that is not expired. -/
theorem C5_expiration_on_get (sc : SimpleCache) (lc : LruCache) (lf : LfuCache)
    (hlc : LruOK lc) (hlf : LfuOK lf) (ord : Order) (hord : ord.ok)
    (k v : Nat) (t T T2 : Int) (ht : 0 < t) (hT : 0 ≤ T) (hov : T + t ≤ maxInt64) :
    (T + t < T2 →
      ((sc.SetWithExpire k v t T ord).2.Get k T2).1 = .error Error.KeyNotFound ∧
      mget ((sc.SetWithExpire k v t T ord).2.Get k T2).2.items k = none ∧
      ((lc.SetWithExpire k v t T).2.Get k T2).1 = .error Error.KeyNotFound ∧
      mget ((lc.SetWithExpire k v t T).2.Get k T2).2.items k = none ∧
      (∀ e ∈ ((lc.SetWithExpire k v t T).2.Get k T2).2.evictList, e.Value.key ≠ k) ∧
      ((lf.SetWithExpire k v t T ord).2.Get k T2).1 = .error Error.KeyNotFound ∧
      mget ((lf.SetWithExpire k v t T ord).2.Get k T2).2.items k = none ∧
      (∀ e ∈ ((lf.SetWithExpire k v t T ord).2.Get k T2).2.freqList, k ∉ e.Value.items)) ∧
    (T2 ≤ T + t →
      ((sc.SetWithExpire k v t T ord).2.Get k T2).1 = .ok v ∧
      ((lc.SetWithExpire k v t T).2.Get k T2).1 = .ok v ∧
      ((lf.SetWithExpire k v t T ord).2.Get k T2).1 = .ok v) ∧
    (∀ key now w, (sc.Get key now).1 = .ok w →
      ∃ item, mget sc.items key = some item ∧ item.value = w ∧
        IsExpired item.expireAt now = false) ∧
    (∀ key now w, (lc.Get key now).1 = .ok w →
      ∃ h el, mget lc.items key = some h ∧ lfind lc.evictList h = some el ∧
        el.Value.value = w ∧ IsExpired el.Value.expireAt now = false) ∧
    (∀ key now w, (lf.Get key now).1 = .ok w →
      ∃ item, mget lf.items key = some item ∧ item.value = w ∧
        IsExpired item.expireAt now = false) := by
  have hrange : isInt64 (T + t) := by
    unfold isInt64
    constructor <;> omega
  have hE := ExpireAt_pos ht hrange
  have hsc := (sc.simple_set_binding k v t T ord).2
  obtain ⟨h, hlc1, hlc2⟩ := (LruCache.lru_set_binding hlc k v t T).2
  obtain ⟨fe, hlf1⟩ := (LfuCache.lfu_set_binding hlf k v t T hord).2
  have hokc := hlc.lruOK_set k v t T
  have hokf := hlf.lfuOK_set k v t T hord
  have hS := SimpleCache.simple_Get_after hsc T2
  have hL := LruCache.lru_Get_after hokc.1 hlc1 hlc2 T2
  have hF := LfuCache.lfu_Get_after hokf.1 hlf1 T2
  simp only [hE] at hS hL hF
  refine ⟨?_, ?_, fun key now w hw => SimpleCache.simple_Get_ok hw,
    fun key now w hw => LruCache.lru_Get_ok hlc.1 hw,
    fun key now w hw => LfuCache.lfu_Get_ok hw⟩
  · intro hlt
    have hexp : IsExpired (T + t) T2 = true :=
      (IsExpired_true_iff _ _).2 ⟨by omega, hlt⟩
    exact ⟨(hS.1 hexp).1, (hS.1 hexp).2, (hL.1 hexp).1, (hL.1 hexp).2.1, (hL.1 hexp).2.2,
      (hF.1 hexp).1, (hF.1 hexp).2.1, (hF.1 hexp).2.2⟩
  · intro hle
    have hexp : IsExpired (T + t) T2 = false := (IsExpired_false_iff _ _).2 (Or.inr hle)
    exact ⟨hS.2 hexp, hL.2 hexp, hF.2 hexp⟩

/-- Witness for C5: fresh caches, `SetWithExpire(1, 7, 10)` at time 100. -/
theorem C5_expiration_on_get_witness :
    (((newSimpleCache 0).SetWithExpire 1 7 10 100 (fun l => l)).2.Get 1 110).1 = .ok 7 ∧
    (((newLruCache 1).SetWithExpire 1 7 10 100).2.Get 1 111).1
      = .error Error.KeyNotFound :=
  have h := C5_expiration_on_get (newSimpleCache 0) (newLruCache 1) (newLfuCache 1)
    (LruOK.lruOK_new (by decide)) (LfuOK.lfuOK_new (by decide)) (fun l => l) Order.ok_id
    1 7 10 100
  ⟨((h 110 (by decide) (by decide) (by decide)).2.1 (by decide)).1,
    ((h 111 (by decide) (by decide) (by decide)).1 (by decide)).2.2.1⟩

/-- C5 as stated fails when `T + t` overflows `int64`: `SetWithExpire(1, 7, 2^63 - 1)`
at clock time 1 stores a negative expiration time, and a `Get` at the same clock time
1, which is not after `T + t`, returns `KeyNotFound` in each policy. -/
theorem C5_counterexample :
    (0 : Int) < 9223372036854775807 ∧ (1 : Int) ≤ 1 + 9223372036854775807 ∧
    (((newSimpleCache 0).SetWithExpire 1 7 9223372036854775807 1 (fun l => l)).2.Get 1 1).1
      = .error Error.KeyNotFound ∧
    (((newLruCache 1).SetWithExpire 1 7 9223372036854775807 1).2.Get 1 1).1
      = .error Error.KeyNotFound ∧
    (((newLfuCache 1).SetWithExpire 1 7 9223372036854775807 1 (fun l => l)).2.Get 1 1).1
      = .error Error.KeyNotFound := by
  exact ⟨by decide, by decide, rfl, rfl, rfl⟩

/-! ## The Simple cache invariant -/

theorem SimpleOK.simpleOK_stats {sc : SimpleCache} (hok : SimpleOK sc) (st : mycache.stats) :
    SimpleOK { sc with stats := st } := hok

theorem SimpleOK.simpleOK_remove {sc : SimpleCache} (hok : SimpleOK sc) (key : Nat) :
    SimpleOK (sc.remove key).2 := by
  unfold SimpleCache.remove
  split
  · refine ⟨?_, ?_⟩
    · show (mkeys (mdel sc.items key)).Nodup
      rw [mkeys_mdel]
      exact hok.1.filter _
    · intro p hp
      exact hok.2 p (List.mem_filter.1 hp).1
  · exact hok

theorem SimpleOK.simpleOK_getValue {sc : SimpleCache} (hok : SimpleOK sc) (key : Nat)
    (now : Int) : SimpleOK (sc.getValue key now).2 := by
  unfold SimpleCache.getValue
  split
  · split
    · exact hok
    · exact hok.simpleOK_remove key
  · exact hok

theorem SimpleOK.simpleOK_Get {sc : SimpleCache} (hok : SimpleOK sc) (key : Nat)
    (now : Int) : SimpleOK (sc.Get key now).2 := by
  have h := hok.simpleOK_getValue key now
  unfold SimpleCache.Get
  split
  · rename_i heq
    rw [heq] at h
    exact h
  · rename_i heq
    rw [heq] at h
    exact h

theorem SimpleOK.simpleOK_TTL {sc : SimpleCache} (hok : SimpleOK sc) (key : Nat)
    (now : Int) : SimpleOK (sc.TTL key now).2 := by
  unfold SimpleCache.TTL
  split
  · split
    · exact hok
    · exact hok.simpleOK_remove key
  · exact hok

theorem SimpleOK.simpleOK_removes {sc : SimpleCache} (hok : SimpleOK sc) (ks : List Nat) :
    SimpleOK (ks.foldl (fun c key => (c.remove key).2) sc) := by
  induction ks generalizing sc with
  | nil => exact hok
  | cons k ks ih => exact ih (hok.simpleOK_remove k)

theorem SimpleOK.simpleOK_evict {sc : SimpleCache} (hok : SimpleOK sc) (count : Nat)
    (now : Int) (ord : Order) : SimpleOK (sc.evict count now ord) := by
  unfold SimpleCache.evict
  exact SimpleOK.simpleOK_removes (hok.simpleOK_stats _) _

theorem SimpleCache.simple_removes_mget_none (ks : List Nat) {sc : SimpleCache} {key : Nat}
    (h : mget sc.items key = none) :
    mget (ks.foldl (fun c key => (c.remove key).2) sc).items key = none := by
  induction ks generalizing sc with
  | nil => exact h
  | cons k ks ih =>
    apply ih
    show mget (sc.remove k).2.items key = none
    unfold SimpleCache.remove
    split
    · exact mget_mdel_of_none _ h
    · exact h

theorem SimpleOK.simpleOK_set {sc : SimpleCache} (hok : SimpleOK sc) (key value : Nat)
    (t now : Int) (ord : Order) : SimpleOK (sc.set key value t now ord).2 := by
  unfold SimpleCache.set
  cases hg : mget sc.items key with
  | some item =>
    refine ⟨?_, ?_⟩
    · show (mkeys (mupd sc.items key _)).Nodup
      rw [mkeys_mupd]
      exact hok.1
    · intro p hp
      rcases mem_mupd hp with h | h
      · exact hok.2 p h
      · rw [h]
        exact ExpireAt_isInt64 _ _
  | none =>
    simp only
    have h1 : SimpleOK (if (sc.items.length : Int) ≥ sc.size ∧ sc.size > 0
        then sc.evict 1 now ord else sc) := by
      split
      · exact hok.simpleOK_evict _ _ _
      · exact hok
    have h2 : mget (if (sc.items.length : Int) ≥ sc.size ∧ sc.size > 0
        then sc.evict 1 now ord else sc).items key = none := by
      split
      · exact SimpleCache.simple_removes_mget_none _ hg
      · exact hg
    refine ⟨?_, ?_⟩
    · show (mkeys (mset _ key _)).Nodup
      rw [mset_of_none _ h2]
      exact List.nodup_cons.2 ⟨(mget_eq_none_iff _ _).1 h2, h1.1⟩
    · intro p hp
      have hp2 : p ∈ mset (if (sc.items.length : Int) ≥ sc.size ∧ sc.size > 0
          then sc.evict 1 now ord else sc).items key
          ⟨RealClock.ExpireAt now t, value⟩ := hp
      rw [mset_of_none _ h2] at hp2
      rcases List.mem_cons.1 hp2 with h | h
      · rw [h]
        exact ExpireAt_isInt64 _ _
      · exact h1.2 p h

theorem SimpleOK.simpleOK_Expire {sc : SimpleCache} (hok : SimpleOK sc) (key : Nat)
    (t now : Int) (ord : Order) : SimpleOK (sc.Expire key t now ord).2 := by
  have h := hok.simpleOK_Get key now
  unfold SimpleCache.Expire
  split
  · rename_i heq
    rw [heq] at h
    exact h
  · rename_i heq
    rw [heq] at h
    exact h.simpleOK_set _ _ _ _ _

theorem SimpleOK.simpleOK_foldGet {sc : SimpleCache} (hok : SimpleOK sc) (now : Int)
    (ks : List Nat) (acc : List (Nat × Nat)) :
    SimpleOK (ks.foldl
      (fun (acc : List (Nat × Nat) × SimpleCache) k =>
        match acc.2.Get k now with
        | (.error _, sc1) => (acc.1, sc1)
        | (.ok v, sc1) => (mset acc.1 k v, sc1))
      (acc, sc)).2 := by
  induction ks generalizing sc acc with
  | nil => exact hok
  | cons k ks ih =>
    simp only [List.foldl_cons]
    have h := hok.simpleOK_Get k now
    cases hg : sc.Get k now with
    | mk r sc1 =>
      rw [hg] at h
      cases r with
      | error e => exact ih h _
      | ok v => exact ih h _

theorem SimpleOK.simpleOK_foldGetValue {sc : SimpleCache} (hok : SimpleOK sc) (now : Int)
    (ks : List Nat) (acc : List Nat) :
    SimpleOK (ks.foldl
      (fun (acc : List Nat × SimpleCache) k =>
        match acc.2.getValue k now with
        | (.error _, sc1) => (acc.1, sc1)
        | (.ok _, sc1) => (acc.1 ++ [k], sc1))
      (acc, sc)).2 := by
  induction ks generalizing sc acc with
  | nil => exact hok
  | cons k ks ih =>
    simp only [List.foldl_cons]
    have h := hok.simpleOK_getValue k now
    cases hg : sc.getValue k now with
    | mk r sc1 =>
      rw [hg] at h
      cases r with
      | error e => exact ih h _
      | ok v => exact ih h _

theorem SimpleOK.simpleOK_step {sc : SimpleCache} (hok : SimpleOK sc) (c : Call) :
    SimpleOK (sc.step c) := by
  unfold SimpleCache.step
  split
  · exact hok.simpleOK_set _ _ _ _ _
  · exact hok.simpleOK_set _ _ _ _ _
  · exact hok.simpleOK_Get _ _
  · exact hok.simpleOK_TTL _ _
  · exact hok.simpleOK_Expire _ _ _ _
  · exact hok.simpleOK_remove _
  · exact ⟨by simp [SimpleCache.Clear, SimpleCache.init, mkeys],
      by simp [SimpleCache.Clear, SimpleCache.init]⟩
  · exact hok.simpleOK_foldGet _ _ _
  · exact hok.simpleOK_foldGetValue _ _ _
  · exact hok.simpleOK_foldGetValue _ _ _

theorem SimpleOK.simpleOK_run {sc : SimpleCache} (hok : SimpleOK sc) (cs : List Call) :
    SimpleOK (sc.run cs) := by
  induction cs generalizing sc with
  | nil => exact hok
  | cons c cs ih => exact ih (hok.simpleOK_step c)

theorem SimpleOK.simpleOK_new (size : Int) : SimpleOK (newSimpleCache size) :=
  ⟨by simp [newSimpleCache, mkeys], by simp [newSimpleCache]⟩

/-! ## C6: the result of `TTL` -/

theorem ttl_core {e now : Int} (hnow : 0 ≤ now) (he : isInt64 e) :
    (if IsExpired e now = true then ((-2 : Int), some Error.KeyNotFound)
      else (ttlOf e now, none)) = ttlSpec (some e) now := by
  unfold ttlSpec
  simp only
  by_cases hexp : IsExpired e now = true
  · have h := (IsExpired_true_iff e now).1 hexp
    simp only [hexp, if_true, h, ne_eq, not_false_eq_true, and_self]
  · have hf : IsExpired e now = false := by simpa using hexp
    have h := (IsExpired_false_iff e now).1 hf
    simp only [hexp, if_false]
    by_cases h0 : e = 0
    · simp [h0, ttlOf]
    · have hle : now ≤ e := by
        rcases h with h | h
        · exact absurd h h0
        · exact h
      have hnlt : ¬ e < now := by omega
      have hr : isInt64 (e - now) := by
        unfold isInt64 maxInt64 at *
        constructor <;> omega
      simp only [ne_eq, h0, not_false_eq_true, hnlt, and_false, if_false, ttlOf]
      rw [wrapInt64_of_isInt64 hr]
      simp

theorem ttlSpec_range (stored : Option Int) (now : Int) :
    (ttlSpec stored now).1 = -2 ∨ (ttlSpec stored now).1 = -1 ∨ 0 ≤ (ttlSpec stored now).1 := by
  unfold ttlSpec
  cases stored with
  | none => exact Or.inl rfl
  | some e =>
    simp only
    by_cases h1 : e ≠ 0 ∧ e < now
    · rw [if_pos h1]
      exact Or.inl rfl
    · rw [if_neg h1]
      by_cases h0 : e = 0
      · rw [if_pos h0]
        exact Or.inr (Or.inl rfl)
      · rw [if_neg h0]
        right
        right
        have : ¬ e < now := fun h => h1 ⟨h0, h⟩
        show 0 ≤ e - now
        omega

theorem SimpleCache.simple_TTL_spec {sc : SimpleCache} (hok : SimpleOK sc) (k : Nat)
    {now : Int} (hnow : 0 ≤ now) :
    (sc.TTL k now).1 = ttlSpec ((sc.entry k).map Prod.snd) now := by
  unfold SimpleCache.entry
  cases hg : mget sc.items k with
  | none =>
    rw [SimpleCache.simple_TTL_none now hg]
    rfl
  | some item =>
    have hr := hok.2 _ (mget_some_mem hg)
    simp only [Option.map_some']
    rw [← ttl_core hnow hr]
    cases hexp : IsExpired item.expireAt now with
    | true => rw [SimpleCache.simple_TTL_expired now hg hexp]; rfl
    | false => rw [SimpleCache.simple_TTL_hit now hg hexp]; rfl

theorem LruCache.lru_TTL_spec {lc : LruCache} (hok : LruOK lc) (k : Nat)
    {now : Int} (hnow : 0 ≤ now) :
    (lc.TTL k now).1 = ttlSpec ((lc.entry k).map Prod.snd) now := by
  unfold LruCache.entry
  cases hg : mget lc.items k with
  | none =>
    rw [LruCache.lru_TTL_none now hg]
    rfl
  | some h =>
    obtain ⟨el, hf, -, -, hmem⟩ := hok.1.lruInv_resolve hg
    have hr := hok.2.2 el hmem
    simp only [Option.some_bind, hf, Option.map_some']
    rw [← ttl_core hnow hr]
    cases hexp : IsExpired el.Value.expireAt now with
    | true => rw [LruCache.lru_TTL_expired now hg hf hexp]; rfl
    | false => rw [LruCache.lru_TTL_hit now hg hf hexp]; rfl

theorem LfuCache.lfu_TTL_spec {lf : LfuCache} (hok : LfuOK lf) (k : Nat)
    {now : Int} (hnow : 0 ≤ now) :
    (lf.TTL k now).1 = ttlSpec ((lf.entry k).map Prod.snd) now := by
  unfold LfuCache.entry
  cases hg : mget lf.items k with
  | none =>
    rw [LfuCache.lfu_TTL_none now hg]
    rfl
  | some item =>
    have hr := hok.2.2 _ (mget_some_mem hg)
    simp only [Option.map_some']
    rw [← ttl_core hnow hr]
    cases hexp : IsExpired item.expireAt now with
    | true => rw [LfuCache.lfu_TTL_expired now hg hexp]; rfl
    | false => rw [LfuCache.lfu_TTL_hit now hg hexp]; rfl

/-- C6 (result of `TTL`). In a reachable state of each policy (a state satisfying the
invariant of the policy) and at a non-negative clock time `now`, `TTL(k)` returns what
`ttlSpec` prescribes from the stored expiration time of `k`: `(-2, KeyNotFound)` when
`k` is not stored or its entry is expired (`expireAt ≠ 0` and `expireAt < now`),
`(-1, nil)` when `expireAt = 0`, otherwise `(expireAt - now, nil)`.  The number returned
is always -2, -1 or non-negative. -/
theorem C6_ttl_result (sc : SimpleCache) (lc : LruCache) (lf : LfuCache)
    (hsc : SimpleOK sc) (hlc : LruOK lc) (hlf : LfuOK lf) (k : Nat) (now : Int)
    (hnow : 0 ≤ now) :
    (sc.TTL k now).1 = ttlSpec ((sc.entry k).map Prod.snd) now ∧
    (lc.TTL k now).1 = ttlSpec ((lc.entry k).map Prod.snd) now ∧
    (lf.TTL k now).1 = ttlSpec ((lf.entry k).map Prod.snd) now ∧
    ((sc.TTL k now).1.1 = -2 ∨ (sc.TTL k now).1.1 = -1 ∨ 0 ≤ (sc.TTL k now).1.1) ∧
    ((lc.TTL k now).1.1 = -2 ∨ (lc.TTL k now).1.1 = -1 ∨ 0 ≤ (lc.TTL k now).1.1) ∧
    ((lf.TTL k now).1.1 = -2 ∨ (lf.TTL k now).1.1 = -1 ∨ 0 ≤ (lf.TTL k now).1.1) := by
  have h1 := SimpleCache.simple_TTL_spec hsc k hnow
  have h2 := LruCache.lru_TTL_spec hlc k hnow
  have h3 := LfuCache.lfu_TTL_spec hlf k hnow
  refine ⟨h1, h2, h3, ?_, ?_, ?_⟩
  · rw [h1]
    exact ttlSpec_range _ _
  · rw [h2]
    exact ttlSpec_range _ _
  · rw [h3]
    exact ttlSpec_range _ _

/-- Witness for C6: after `SetWithExpire(1, 7, 10)` at time 100, `TTL(1)` at time 104
returns 6 in each policy. -/
theorem C6_ttl_result_witness :
    (((newSimpleCache 0).SetWithExpire 1 7 10 100 (fun l => l)).2.TTL 1 104).1 = (6, none) ∧
    (((newLruCache 1).SetWithExpire 1 7 10 100).2.TTL 1 104).1 = (6, none) ∧
    (((newLfuCache 1).SetWithExpire 1 7 10 100 (fun l => l)).2.TTL 1 104).1 = (6, none) :=
  have h := C6_ttl_result ((newSimpleCache 0).SetWithExpire 1 7 10 100 (fun l => l)).2
    ((newLruCache 1).SetWithExpire 1 7 10 100).2
    ((newLfuCache 1).SetWithExpire 1 7 10 100 (fun l => l)).2
    ((SimpleOK.simpleOK_new 0).simpleOK_set 1 7 10 100 _)
    ((LruOK.lruOK_new (by decide)).lruOK_set 1 7 10 100)
    ((LfuOK.lfuOK_new (by decide)).lfuOK_set 1 7 10 100 Order.ok_id) 1 104 (by decide)
  ⟨h.1.trans (by decide), h.2.1.trans (by decide), h.2.2.1.trans (by decide)⟩

/-! ## The operations seen through `entry` -/

theorem SimpleCache.simple_entry_mdel (sc : SimpleCache) (k j : Nat) (st : mycache.stats) :
    SimpleCache.entry { sc with items := mdel sc.items k, stats := st } j
      = if j = k then none else sc.entry j := by
  unfold SimpleCache.entry
  by_cases hjk : j = k
  · simp [hjk, mget_mdel_self]
  · simp [hjk, mget_mdel_ne _ hjk]

theorem SimpleCache.simple_Get_entry (sc : SimpleCache) (k : Nat) (now : Int) :
    (sc.Get k now).1 = getSpec (live (sc.entry k) now) ∧
    ∀ j, (sc.Get k now).2.entry j = if j = k then live (sc.entry j) now else sc.entry j := by
  cases hg : mget sc.items k with
  | none =>
    rw [SimpleCache.simple_Get_none now hg]
    refine ⟨by simp [SimpleCache.entry, hg, live, getSpec], ?_⟩
    intro j
    by_cases hjk : j = k
    · simp [SimpleCache.entry, hjk, hg, live]
    · simp [SimpleCache.entry, hjk]
  | some item =>
    cases hexp : IsExpired item.expireAt now with
    | true =>
      rw [SimpleCache.simple_Get_expired now hg hexp]
      refine ⟨by simp [SimpleCache.entry, hg, live, getSpec, hexp], ?_⟩
      intro j
      rw [SimpleCache.simple_entry_mdel]
      by_cases hjk : j = k
      · simp [SimpleCache.entry, hjk, hg, live, hexp]
      · simp [hjk]
    | false =>
      rw [SimpleCache.simple_Get_hit now hg hexp]
      refine ⟨by simp [SimpleCache.entry, hg, live, getSpec, hexp], ?_⟩
      intro j
      by_cases hjk : j = k
      · simp [SimpleCache.entry, hjk, hg, live, hexp]
      · simp [SimpleCache.entry, hjk]

theorem SimpleCache.simple_TTL_entry (sc : SimpleCache) (k : Nat) (now : Int) :
    ∀ j, (sc.TTL k now).2.entry j = if j = k then live (sc.entry j) now else sc.entry j := by
  cases hg : mget sc.items k with
  | none =>
    rw [SimpleCache.simple_TTL_none now hg]
    intro j
    by_cases hjk : j = k
    · simp [SimpleCache.entry, hjk, hg, live]
    · simp [SimpleCache.entry, hjk]
  | some item =>
    cases hexp : IsExpired item.expireAt now with
    | true =>
      rw [SimpleCache.simple_TTL_expired now hg hexp]
      intro j
      rw [SimpleCache.simple_entry_mdel]
      by_cases hjk : j = k
      · simp [SimpleCache.entry, hjk, hg, live, hexp]
      · simp [hjk]
    | false =>
      rw [SimpleCache.simple_TTL_hit now hg hexp]
      intro j
      by_cases hjk : j = k
      · simp [SimpleCache.entry, hjk, hg, live, hexp]
      · simp [SimpleCache.entry, hjk]

theorem SimpleCache.simple_remove_entry (sc : SimpleCache) (k : Nat) :
    ((sc.remove k).1 = some Error.KeyNotFound ↔ sc.entry k = none) ∧
    ((sc.remove k).1 = none ↔ sc.entry k ≠ none) ∧
    (sc.entry k = none → (sc.remove k).2 = sc) ∧
    ∀ j, (sc.remove k).2.entry j = if j = k then none else sc.entry j := by
  unfold SimpleCache.remove
  cases hg : mget sc.items k with
  | none =>
    refine ⟨by simp [SimpleCache.entry, hg], by simp [SimpleCache.entry, hg],
      fun _ => rfl, ?_⟩
    intro j
    by_cases hjk : j = k
    · simp [SimpleCache.entry, hjk, hg]
    · simp [hjk]
  | some item =>
    refine ⟨by simp [SimpleCache.entry, hg], by simp [SimpleCache.entry, hg],
      by simp [SimpleCache.entry, hg], ?_⟩
    intro j
    exact SimpleCache.simple_entry_mdel sc k j _

theorem SimpleCache.simple_removes_entry (ks : List Nat) (sc : SimpleCache) (j : Nat) :
    (ks.foldl (fun c key => (c.remove key).2) sc).entry j
      = if j ∈ ks then none else sc.entry j := by
  induction ks generalizing sc with
  | nil => simp
  | cons k ks ih =>
    simp only [List.foldl_cons]
    rw [ih, (SimpleCache.simple_remove_entry sc k).2.2.2 j]
    by_cases hjk : j = k
    · simp [hjk]
    · by_cases hm : j ∈ ks <;> simp [hjk, hm]

theorem SimpleCache.simple_set_entry (sc : SimpleCache) (k v : Nat) (t now : Int)
    (ord : Order) :
    (sc.set k v t now ord).2.entry k = some (v, RealClock.ExpireAt now t) ∧
    (∀ j, j ≠ k → (sc.set k v t now ord).2.entry j = sc.entry j ∨
      (sc.set k v t now ord).2.entry j = none) ∧
    (sc.entry k ≠ none → ∀ j, j ≠ k → (sc.set k v t now ord).2.entry j = sc.entry j) := by
  refine ⟨by simp [SimpleCache.entry, (sc.simple_set_binding k v t now ord).2], ?_, ?_⟩
  · intro j hjk
    unfold SimpleCache.set
    cases hg : mget sc.items k with
    | some item =>
      left
      simp [SimpleCache.entry, mget_mupd, hjk]
    | none =>
      simp only
      by_cases hfull : (sc.items.length : Int) ≥ sc.size ∧ sc.size > 0
      · simp only [hfull, and_self, if_true]
        unfold SimpleCache.entry
        simp only [mget_mset_ne _ _ hjk]
        have := SimpleCache.simple_removes_entry
          (SimpleCache.evictLoop sc.items 1 now (ord (mkeys sc.items)) 0 sc.stats []).2
          { sc with stats :=
            (SimpleCache.evictLoop sc.items 1 now (ord (mkeys sc.items)) 0 sc.stats []).1 } j
        unfold SimpleCache.entry at this
        unfold SimpleCache.evict
        simp only
        rw [this]
        split
        · exact Or.inr rfl
        · exact Or.inl rfl
      · simp only [hfull, if_false]
        left
        simp [SimpleCache.entry, mget_mset_ne _ _ hjk]
  · intro hk j hjk
    unfold SimpleCache.set
    cases hg : mget sc.items k with
    | some item => simp [SimpleCache.entry, mget_mupd, hjk]
    | none => simp [SimpleCache.entry, hg] at hk

theorem lfind_lRemove_ne {α : Type} (l : List (Element α)) {h g : Nat} (hne : g ≠ h) :
    lfind (lRemove l h) g = lfind l g := by
  induction l with
  | nil => rfl
  | cons a l ih =>
    by_cases ha : a.id = h
    · subst ha
      have hag : ¬ a.id = g := fun e => hne e.symm
      simp only [lRemove, List.filter, bne_self_eq_false, lfind, hag, if_false]
      exact ih
    · have hb : (a.id != h) = true := by simpa using ha
      simp only [lRemove, List.filter, hb, lfind]
      by_cases hag : a.id = g
      · simp [hag]
      · simp only [hag, if_false]
        exact ih

theorem lfind_lRemove_self {α : Type} (l : List (Element α)) (h : Nat) :
    lfind (lRemove l h) h = none := by
  rw [lfind_eq_none_iff]
  simp [lRemove, List.mem_filter]

theorem lfind_lMoveToFront {α : Type} (l : List (Element α)) (h g : Nat) :
    lfind (lMoveToFront l h) g = lfind l g := by
  unfold lMoveToFront
  cases hf : lfind l h with
  | none => rfl
  | some el =>
    have hid := (lfind_some hf).2
    by_cases hg : g = h
    · simp [lfind, hid, hg, hf]
    · have : ¬ el.id = g := by rw [hid]; exact fun e => hg e.symm
      simp only [lfind, this, if_false]
      exact lfind_lRemove_ne l hg

theorem lfind_lmodify_ne {α : Type} (l : List (Element α)) {h g : Nat} (f : α → α)
    (hne : g ≠ h) : lfind (lmodify l h f) g = lfind l g := by
  induction l with
  | nil => rfl
  | cons a l ih =>
    by_cases ha : a.id = h
    · subst ha
      have hag : ¬ a.id = g := fun e => hne e.symm
      simp only [lmodify, List.map_cons, if_true, lfind, hag, if_false]
      exact ih
    · simp only [lmodify, List.map_cons, ha, if_false, lfind]
      by_cases hag : a.id = g
      · simp [hag]
      · simp only [hag, if_false]
        exact ih

theorem LruInv.lruInv_handle_inj {lc : LruCache} (hinv : LruInv lc) {j k h : Nat}
    (hj : mget lc.items j = some h) (hk : mget lc.items k = some h) : j = k := by
  obtain ⟨e1, hf1, hk1, -, -⟩ := hinv.lruInv_resolve hj
  obtain ⟨e2, hf2, hk2, -, -⟩ := hinv.lruInv_resolve hk
  rw [hf1] at hf2
  cases hf2
  rw [← hk1, ← hk2]

theorem LruCache.lru_entry_moveToFront (lc : LruCache) (h j : Nat) (st : mycache.stats) :
    LruCache.entry { lc with evictList := lMoveToFront lc.evictList h, stats := st } j
      = lc.entry j := by
  unfold LruCache.entry
  cases mget lc.items j with
  | none => rfl
  | some g => simp [lfind_lMoveToFront]

theorem LruCache.lru_entry_remove {lc : LruCache} (hinv : LruInv lc) {k h : Nat}
    (hg : mget lc.items k = some h) (j : Nat) (st : mycache.stats) :
    LruCache.entry { lc with evictList := lRemove lc.evictList h,
                             items := mdel lc.items k, stats := st } j
      = if j = k then none else lc.entry j := by
  unfold LruCache.entry
  by_cases hjk : j = k
  · simp [hjk, mget_mdel_self]
  · simp only [hjk, if_false, mget_mdel_ne _ hjk]
    cases hj : mget lc.items j with
    | none => rfl
    | some g =>
      have hne : g ≠ h := by
        intro heq
        rw [heq] at hj
        exact hjk (hinv.lruInv_handle_inj hj hg)
      simp [lfind_lRemove_ne _ hne]

theorem LruCache.lru_entry_removeElement {lc : LruCache} (hinv : LruInv lc)
    {el : Element lruItem} (he : el ∈ lc.evictList) (j : Nat) :
    (lc.removeElement el).entry j = if j = el.Value.key then none else lc.entry j :=
  LruCache.lru_entry_remove hinv (hinv.lruInv_mget_elem he) j _

theorem LruCache.lru_entry_some {lc : LruCache} {k h : Nat} {el : Element lruItem}
    (hg : mget lc.items k = some h) (hf : lfind lc.evictList h = some el) :
    lc.entry k = some (el.Value.value, el.Value.expireAt) := by
  simp [LruCache.entry, hg, hf]

theorem LruCache.lru_entry_none {lc : LruCache} {k : Nat}
    (hg : mget lc.items k = none) : lc.entry k = none := by
  simp [LruCache.entry, hg]

theorem LruCache.lru_Get_entry {lc : LruCache} (hinv : LruInv lc) (k : Nat) (now : Int) :
    (lc.Get k now).1 = getSpec (live (lc.entry k) now) ∧
    ∀ j, (lc.Get k now).2.entry j = if j = k then live (lc.entry j) now else lc.entry j := by
  cases hg : mget lc.items k with
  | none =>
    rw [LruCache.lru_Get_none now hg]
    refine ⟨by simp [LruCache.lru_entry_none hg, live, getSpec], ?_⟩
    intro j
    by_cases hjk : j = k
    · simp [LruCache.entry, hjk, hg, live]
    · simp [LruCache.entry, hjk]
  | some h =>
    obtain ⟨el, hf, hk, hid, hmem⟩ := hinv.lruInv_resolve hg
    have he := LruCache.lru_entry_some hg hf
    cases hexp : IsExpired el.Value.expireAt now with
    | true =>
      rw [LruCache.lru_Get_expired now hg hf hexp]
      refine ⟨by simp [he, live, getSpec, hexp], ?_⟩
      intro j
      rw [hid, hk, LruCache.lru_entry_remove hinv hg]
      by_cases hjk : j = k
      · simp [hjk, he, live, hexp]
      · simp [hjk]
    | false =>
      rw [LruCache.lru_Get_hit now hg hf hexp, ← lMoveToFront_eq hf]
      refine ⟨by simp [he, live, getSpec, hexp], ?_⟩
      intro j
      rw [LruCache.lru_entry_moveToFront]
      by_cases hjk : j = k
      · simp [hjk, he, live, hexp]
      · simp [hjk]

theorem LruCache.lru_TTL_entry {lc : LruCache} (hinv : LruInv lc) (k : Nat) (now : Int) :
    ∀ j, (lc.TTL k now).2.entry j = if j = k then live (lc.entry j) now else lc.entry j := by
  cases hg : mget lc.items k with
  | none =>
    rw [LruCache.lru_TTL_none now hg]
    intro j
    by_cases hjk : j = k
    · simp [LruCache.entry, hjk, hg, live]
    · simp [LruCache.entry, hjk]
  | some h =>
    obtain ⟨el, hf, hk, hid, hmem⟩ := hinv.lruInv_resolve hg
    have he := LruCache.lru_entry_some hg hf
    cases hexp : IsExpired el.Value.expireAt now with
    | true =>
      rw [LruCache.lru_TTL_expired now hg hf hexp]
      intro j
      rw [hid, hk, LruCache.lru_entry_remove hinv hg]
      by_cases hjk : j = k
      · simp [hjk, he, live, hexp]
      · simp [hjk]
    | false =>
      rw [LruCache.lru_TTL_hit now hg hf hexp, ← lMoveToFront_eq hf]
      intro j
      rw [LruCache.lru_entry_moveToFront]
      by_cases hjk : j = k
      · simp [hjk, he, live, hexp]
      · simp [hjk]

theorem LruCache.lru_remove_entry {lc : LruCache} (hinv : LruInv lc) (k : Nat) :
    ((lc.remove k).1 = some Error.KeyNotFound ↔ lc.entry k = none) ∧
    ((lc.remove k).1 = none ↔ lc.entry k ≠ none) ∧
    (lc.entry k = none → (lc.remove k).2 = lc) ∧
    ∀ j, (lc.remove k).2.entry j = if j = k then none else lc.entry j := by
  unfold LruCache.remove
  cases hg : mget lc.items k with
  | none =>
    have he := LruCache.lru_entry_none hg
    refine ⟨by simp [he], by simp [he], fun _ => rfl, ?_⟩
    intro j
    by_cases hjk : j = k
    · simp [hjk, he]
    · simp [hjk]
  | some h =>
    obtain ⟨el, hf, hk, hid, hmem⟩ := hinv.lruInv_resolve hg
    have he := LruCache.lru_entry_some hg hf
    simp only [hf]
    refine ⟨by simp [he], by simp [he], by simp [he], ?_⟩
    intro j
    rw [LruCache.lru_entry_removeElement hinv hmem, hk]

theorem LruCache.lru_entry_push {lc : LruCache} (hinv : LruInv lc) (k : Nat) (item : lruItem)
    (st : mycache.stats) (j : Nat) (hjk : j ≠ k) :
    LruCache.entry { lc with
      evictList := ⟨lc.nextId, item⟩ :: lc.evictList,
      items := mset lc.items k lc.nextId,
      nextId := lc.nextId + 1,
      stats := st } j = lc.entry j := by
  unfold LruCache.entry
  simp only [mget_mset_ne _ _ hjk]
  cases hj : mget lc.items j with
  | none => rfl
  | some g =>
    obtain ⟨e, -, -, hid, hmem⟩ := hinv.lruInv_resolve hj
    have hlt := hinv.2.2.2 e hmem
    have hne : ¬ lc.nextId = g := by omega
    simp [lfind, hne]

theorem LruCache.lru_set_entry {lc : LruCache} (hok : LruOK lc) (k v : Nat) (t now : Int) :
    (lc.set k v t now).2.entry k = some (v, RealClock.ExpireAt now t) ∧
    (∀ j, j ≠ k → (lc.set k v t now).2.entry j = lc.entry j ∨
      (lc.set k v t now).2.entry j = none) ∧
    (lc.entry k ≠ none → ∀ j, j ≠ k → (lc.set k v t now).2.entry j = lc.entry j) := by
  obtain ⟨h0, hb1, hb2⟩ := (LruCache.lru_set_binding hok k v t now).2
  have hexist : ∀ h, mget lc.items k = some h → ∀ j, j ≠ k →
      (lc.set k v t now).2.entry j = lc.entry j := by
    intro h hg j hjk
    unfold LruCache.set
    rw [hg]
    unfold LruCache.entry
    simp only
    cases hj : mget lc.items j with
    | none => rfl
    | some g =>
      have hne : g ≠ h := by
        intro heq
        rw [heq] at hj
        exact hjk (hok.1.lruInv_handle_inj hj hg)
      simp [lfind_lmodify_ne _ _ hne, lfind_lMoveToFront]
  refine ⟨LruCache.lru_entry_some hb1 hb2, ?_, ?_⟩
  · intro j hjk
    cases hg : mget lc.items k with
    | some h => exact Or.inl (hexist h hg j hjk)
    | none =>
      unfold LruCache.set
      rw [hg]
      simp only
      by_cases hfull : (lc.evictList.length : Int) ≥ lc.size
      · simp only [hfull, if_true]
        have h1 := LruCache.lru_entry_push hok.lruOK_evict_one.1 k
          ⟨RealClock.ExpireAt now t, k, v⟩ (lc.evict 1).stats.IncrEvictCount.IncrKeyCount
          j hjk
        rw [h1, LruCache.lru_evict_one]
        split
        · exact Or.inl rfl
        · rename_i ent hl
          rw [LruCache.lru_entry_removeElement hok.1 (List.mem_of_getLast?_eq_some hl)]
          split
          · exact Or.inr rfl
          · exact Or.inl rfl
      · simp only [hfull, if_false]
        exact Or.inl (LruCache.lru_entry_push hok.1 k _ _ j hjk)
  · intro hk j hjk
    cases hg : mget lc.items k with
    | some h => exact hexist h hg j hjk
    | none => exact absurd (LruCache.lru_entry_none hg) hk

theorem LfuCache.lfu_entry_mdel (lf : LfuCache) (k j : Nat) (fl : List (Element freqEntry))
    (st : mycache.stats) :
    LfuCache.entry { lf with items := mdel lf.items k, freqList := fl, stats := st } j
      = if j = k then none else lf.entry j := by
  unfold LfuCache.entry
  by_cases hjk : j = k
  · simp [hjk, mget_mdel_self]
  · simp [hjk, mget_mdel_ne _ hjk]

theorem LfuCache.lfu_entry_removeItem {lf : LfuCache} (hinv : LfuInv lf) {k : Nat}
    {item : lfuItem} (hg : mget lf.items k = some item) (j : Nat) :
    (lf.removeItem item).entry j = if j = k then none else lf.entry j := by
  have hk := (hinv.lfuInv_mem_of_mget hg).1
  unfold LfuCache.removeItem
  rw [hk]
  exact LfuCache.lfu_entry_mdel lf k j _ _

theorem LfuCache.lfu_entry_increment {lf : LfuCache} (hinv : LfuInv lf) {k : Nat}
    {item : lfuItem} (hg : mget lf.items k = some item) (j : Nat) :
    (lf.increment item).entry j = lf.entry j := by
  have hk := (hinv.lfuInv_mem_of_mget hg).1
  obtain ⟨-, -, hitems⟩ := lf.lfu_increment_fields item
  unfold LfuCache.entry
  rcases hitems with h | ⟨tid, h⟩
  · rw [h]
  · rw [h, hk, mget_mupd]
    by_cases hjk : j = k
    · simp [hjk, hg]
    · simp [hjk]

theorem LfuCache.lfu_entry_stats (lf : LfuCache) (st : mycache.stats) (j : Nat) :
    LfuCache.entry { lf with stats := st } j = lf.entry j := rfl

theorem LfuCache.lfu_Get_entry {lf : LfuCache} (hinv : LfuInv lf) (k : Nat) (now : Int) :
    (lf.Get k now).1 = getSpec (live (lf.entry k) now) ∧
    ∀ j, (lf.Get k now).2.entry j = if j = k then live (lf.entry j) now else lf.entry j := by
  cases hg : mget lf.items k with
  | none =>
    rw [LfuCache.lfu_Get_none now hg]
    refine ⟨by simp [LfuCache.entry, hg, live, getSpec], ?_⟩
    intro j
    by_cases hjk : j = k
    · simp [LfuCache.entry, hjk, hg, live]
    · simp [LfuCache.entry, hjk]
  | some item =>
    have he : lf.entry k = some (item.value, item.expireAt) := by
      simp [LfuCache.entry, hg]
    cases hexp : IsExpired item.expireAt now with
    | true =>
      rw [LfuCache.lfu_Get_expired now hg hexp]
      refine ⟨by simp [he, live, getSpec, hexp], ?_⟩
      intro j
      rw [LfuCache.lfu_entry_stats, LfuCache.lfu_entry_removeItem hinv hg]
      by_cases hjk : j = k
      · simp [hjk, he, live, hexp]
      · simp [hjk]
    | false =>
      rw [LfuCache.lfu_Get_hit now hg hexp]
      refine ⟨by simp [he, live, getSpec, hexp], ?_⟩
      intro j
      rw [LfuCache.lfu_entry_stats, LfuCache.lfu_entry_increment hinv hg]
      by_cases hjk : j = k
      · simp [hjk, he, live, hexp]
      · simp [hjk]

theorem LfuCache.lfu_TTL_entry {lf : LfuCache} (hinv : LfuInv lf) (k : Nat) (now : Int) :
    ∀ j, (lf.TTL k now).2.entry j = if j = k then live (lf.entry j) now else lf.entry j := by
  cases hg : mget lf.items k with
  | none =>
    rw [LfuCache.lfu_TTL_none now hg]
    intro j
    by_cases hjk : j = k
    · simp [LfuCache.entry, hjk, hg, live]
    · simp [LfuCache.entry, hjk]
  | some item =>
    have he : lf.entry k = some (item.value, item.expireAt) := by
      simp [LfuCache.entry, hg]
    cases hexp : IsExpired item.expireAt now with
    | true =>
      rw [LfuCache.lfu_TTL_expired now hg hexp]
      intro j
      rw [LfuCache.lfu_entry_stats, LfuCache.lfu_entry_removeItem hinv hg]
      by_cases hjk : j = k
      · simp [hjk, he, live, hexp]
      · simp [hjk]
    | false =>
      rw [LfuCache.lfu_TTL_hit now hg hexp]
      intro j
      rw [LfuCache.lfu_entry_stats, LfuCache.lfu_entry_increment hinv hg]
      by_cases hjk : j = k
      · simp [hjk, he, live, hexp]
      · simp [hjk]

theorem LfuCache.lfu_remove_entry {lf : LfuCache} (hinv : LfuInv lf) (k : Nat) :
    ((lf.remove k).1 = some Error.KeyNotFound ↔ lf.entry k = none) ∧
    ((lf.remove k).1 = none ↔ lf.entry k ≠ none) ∧
    (lf.entry k = none → (lf.remove k).2 = lf) ∧
    ∀ j, (lf.remove k).2.entry j = if j = k then none else lf.entry j := by
  unfold LfuCache.remove
  cases hg : mget lf.items k with
  | none =>
    have he : lf.entry k = none := by simp [LfuCache.entry, hg]
    refine ⟨by simp [he], by simp [he], fun _ => rfl, ?_⟩
    intro j
    by_cases hjk : j = k
    · simp [hjk, he]
    · simp [hjk]
  | some item =>
    have he : lf.entry k = some (item.value, item.expireAt) := by
      simp [LfuCache.entry, hg]
    refine ⟨by simp [he], by simp [he], by simp [he], ?_⟩
    intro j
    exact LfuCache.lfu_entry_removeItem hinv hg j

theorem LfuCache.lfu_set_entry {lf : LfuCache} (hok : LfuOK lf) (k v : Nat) (t now : Int)
    {ord : Order} (hord : ord.ok) :
    (lf.set k v t now ord).2.entry k = some (v, RealClock.ExpireAt now t) ∧
    (∀ j, j ≠ k → (lf.set k v t now ord).2.entry j = lf.entry j ∨
      (lf.set k v t now ord).2.entry j = none) ∧
    (lf.entry k ≠ none → ∀ j, j ≠ k → (lf.set k v t now ord).2.entry j = lf.entry j) := by
  obtain ⟨fe, hb⟩ := (LfuCache.lfu_set_binding hok k v t now hord).2
  have hexist : ∀ item, mget lf.items k = some item → ∀ j, j ≠ k →
      (lf.set k v t now ord).2.entry j = lf.entry j := by
    intro item hg j hjk
    unfold LfuCache.set
    simp only
    rw [hg]
    simp [LfuCache.entry, mget_mupd, hjk]
  refine ⟨by simp [LfuCache.entry, hb], ?_, ?_⟩
  · intro j hjk
    cases hg : mget lf.items k with
    | some item => exact Or.inl (hexist item hg j hjk)
    | none =>
      have hlf1 : ∀ lf1 : LfuCache, LfuInv lf1 →
          (match lf1.freqList.head? with
            | none => ((none : Option Error), lf1)
            | some el =>
              (none, { lf1 with
                freqList := lmodify lf1.freqList el.id (fun fe => fe.add k),
                items := mset lf1.items k
                  { key := k, value := v, expireAt := RealClock.ExpireAt now t,
                    freqElement := el.id },
                stats := lf1.stats.IncrKeyCount })).2.entry j = lf1.entry j := by
        intro lf1 hinv1
        obtain ⟨el, rest, hhead, -⟩ := hinv1.2.2.2.2.2.1
        rw [hhead]
        simp [LfuCache.entry, mget_mset_ne _ _ hjk]
      unfold LfuCache.set
      simp only
      rw [hg]
      simp only
      by_cases hfull : (lf.items.length : Int) ≥ lf.size
      · simp only [hfull, if_true]
        rw [hlf1 _ (hok.lfuOK_evict hord).1]
        rcases LfuCache.lfu_evict_spec hok.1 hord with h | ⟨_, _, _, kv, item, _, _, _, hgi, hev⟩
        · rw [h.1]
          exact Or.inl rfl
        · rw [hev, LfuCache.lfu_entry_removeItem hok.1 hgi]
          split
          · exact Or.inr rfl
          · exact Or.inl rfl
      · simp only [hfull, if_false]
        exact Or.inl (hlf1 _ hok.1)
  · intro hk j hjk
    cases hg : mget lf.items k with
    | some item => exact hexist item hg j hjk
    | none => simp [LfuCache.entry, hg] at hk

/-! ## C7: `Set` installs a never-expiring binding -/

theorem SimpleCache.simple_entry_some {sc : SimpleCache} {k v : Nat} {e : Int}
    (h : sc.entry k = some (v, e)) :
    ∃ item, mget sc.items k = some item ∧ item.value = v ∧ item.expireAt = e := by
  unfold SimpleCache.entry at h
  cases hg : mget sc.items k with
  | none => rw [hg] at h; cases h
  | some item =>
    rw [hg] at h
    simp only [Option.map_some', Option.some.injEq, Prod.mk.injEq] at h
    exact ⟨item, rfl, h.1, h.2⟩

theorem LruCache.lru_entry_some_inv {lc : LruCache} {k v : Nat} {e : Int}
    (h : lc.entry k = some (v, e)) :
    ∃ hd el, mget lc.items k = some hd ∧ lfind lc.evictList hd = some el ∧
      el.Value.value = v ∧ el.Value.expireAt = e := by
  unfold LruCache.entry at h
  cases hg : mget lc.items k with
  | none => rw [hg] at h; cases h
  | some hd =>
    rw [hg] at h
    simp only [Option.some_bind] at h
    cases hf : lfind lc.evictList hd with
    | none => rw [hf] at h; cases h
    | some el =>
      rw [hf] at h
      simp only [Option.map_some', Option.some.injEq, Prod.mk.injEq] at h
      exact ⟨hd, el, rfl, hf, h.1, h.2⟩

theorem LfuCache.lfu_entry_some {lf : LfuCache} {k v : Nat} {e : Int}
    (h : lf.entry k = some (v, e)) :
    ∃ item, mget lf.items k = some item ∧ item.value = v ∧ item.expireAt = e := by
  unfold LfuCache.entry at h
  cases hg : mget lf.items k with
  | none => rw [hg] at h; cases h
  | some item =>
    rw [hg] at h
    simp only [Option.map_some', Option.some.injEq, Prod.mk.injEq] at h
    exact ⟨item, rfl, h.1, h.2⟩

theorem IsExpired_zero (now : Int) : IsExpired 0 now = false := by
  simp [IsExpired]

theorem live_never (v : Nat) (now : Int) : live (some (v, 0)) now = some (v, 0) := by
  simp [live, IsExpired_zero]

theorem SimpleCache.simple_never {sc : SimpleCache} {k v : Nat}
    (h : sc.entry k = some (v, 0)) (k2 : Nat) (now : Int) :
    (sc.Get k now).1 = .ok v ∧ (sc.TTL k now).1 = (-1, none) ∧
    (sc.Get k2 now).2.entry k = some (v, 0) ∧ (sc.TTL k2 now).2.entry k = some (v, 0) := by
  obtain ⟨item, hg, hv, he⟩ := SimpleCache.simple_entry_some h
  have hexp : IsExpired item.expireAt now = false := by rw [he]; exact IsExpired_zero now
  refine ⟨?_, ?_, ?_, ?_⟩
  · rw [SimpleCache.simple_Get_hit now hg hexp, hv]
  · rw [SimpleCache.simple_TTL_hit now hg hexp, he]
    rfl
  · rw [(sc.simple_Get_entry k2 now).2 k, h, live_never]
    simp
  · rw [sc.simple_TTL_entry k2 now k, h, live_never]
    simp

theorem LruCache.lru_never {lc : LruCache} (hinv : LruInv lc) {k v : Nat}
    (h : lc.entry k = some (v, 0)) (k2 : Nat) (now : Int) :
    (lc.Get k now).1 = .ok v ∧ (lc.TTL k now).1 = (-1, none) ∧
    (lc.Get k2 now).2.entry k = some (v, 0) ∧ (lc.TTL k2 now).2.entry k = some (v, 0) := by
  obtain ⟨hd, el, hg, hf, hv, he⟩ := LruCache.lru_entry_some_inv h
  have hexp : IsExpired el.Value.expireAt now = false := by rw [he]; exact IsExpired_zero now
  refine ⟨?_, ?_, ?_, ?_⟩
  · rw [LruCache.lru_Get_hit now hg hf hexp, hv]
  · rw [LruCache.lru_TTL_hit now hg hf hexp, he]
    rfl
  · rw [(LruCache.lru_Get_entry hinv k2 now).2 k, h, live_never]
    simp
  · rw [LruCache.lru_TTL_entry hinv k2 now k, h, live_never]
    simp

theorem LfuCache.lfu_never {lf : LfuCache} (hinv : LfuInv lf) {k v : Nat}
    (h : lf.entry k = some (v, 0)) (k2 : Nat) (now : Int) :
    (lf.Get k now).1 = .ok v ∧ (lf.TTL k now).1 = (-1, none) ∧
    (lf.Get k2 now).2.entry k = some (v, 0) ∧ (lf.TTL k2 now).2.entry k = some (v, 0) := by
  obtain ⟨item, hg, hv, he⟩ := LfuCache.lfu_entry_some h
  have hexp : IsExpired item.expireAt now = false := by rw [he]; exact IsExpired_zero now
  refine ⟨?_, ?_, ?_, ?_⟩
  · rw [LfuCache.lfu_Get_hit now hg hexp, hv]
  · rw [LfuCache.lfu_TTL_hit now hg hexp, he]
    rfl
  · rw [(LfuCache.lfu_Get_entry hinv k2 now).2 k, h, live_never]
    simp
  · rw [LfuCache.lfu_TTL_entry hinv k2 now k, h, live_never]
    simp

/-- C7 (`Set` installs a never-expiring binding). In each policy (in a state satisfying
the invariant of the policy, capacity at least 1 for LRU and LFU), `Set(k, v)` returns
no error and leaves `k` stored with value `v` and expiration time 0, whether `k` was
new, with or without an eviction, or already stored with any value and expiration.  In
every state in which `k` is stored with value `v` and expiration 0, at every clock time
`Get(k)` returns `v` and `TTL(k)` returns -1, and a `Get` or `TTL` of any key leaves
that binding in place. -/
theorem C7_set_never_expires (sc : SimpleCache) (lc : LruCache) (lf : LfuCache)
    (hlc : LruOK lc) (hlf : LfuOK lf) (ord : Order) (hord : ord.ok) (k v : Nat) (T : Int) :
    ((sc.Set k v T ord).1 = none ∧ (sc.Set k v T ord).2.entry k = some (v, 0)) ∧
    ((lc.Set k v T).1 = none ∧ (lc.Set k v T).2.entry k = some (v, 0)) ∧
    ((lf.Set k v T ord).1 = none ∧ (lf.Set k v T ord).2.entry k = some (v, 0)) ∧
    (∀ (s : SimpleCache) (k2 : Nat) (now : Int), s.entry k = some (v, 0) →
      (s.Get k now).1 = .ok v ∧ (s.TTL k now).1 = (-1, none) ∧
      (s.Get k2 now).2.entry k = some (v, 0) ∧ (s.TTL k2 now).2.entry k = some (v, 0)) ∧
    (∀ (s : LruCache) (k2 : Nat) (now : Int), LruOK s → s.entry k = some (v, 0) →
      (s.Get k now).1 = .ok v ∧ (s.TTL k now).1 = (-1, none) ∧
      (s.Get k2 now).2.entry k = some (v, 0) ∧ (s.TTL k2 now).2.entry k = some (v, 0)) ∧
    (∀ (s : LfuCache) (k2 : Nat) (now : Int), LfuOK s → s.entry k = some (v, 0) →
      (s.Get k now).1 = .ok v ∧ (s.TTL k now).1 = (-1, none) ∧
      (s.Get k2 now).2.entry k = some (v, 0) ∧ (s.TTL k2 now).2.entry k = some (v, 0)) := by
  have hE : RealClock.ExpireAt T 0 = 0 := by simp [RealClock.ExpireAt]
  refine ⟨⟨(sc.simple_set_binding k v 0 T ord).1, ?_⟩,
    ⟨(LruCache.lru_set_binding hlc k v 0 T).1, ?_⟩,
    ⟨(LfuCache.lfu_set_binding hlf k v 0 T hord).1, ?_⟩,
    fun s k2 now h => SimpleCache.simple_never h k2 now,
    fun s k2 now hs h => LruCache.lru_never hs.1 h k2 now,
    fun s k2 now hs h => LfuCache.lfu_never hs.1 h k2 now⟩
  · have := (sc.simple_set_entry k v 0 T ord).1
    rw [hE] at this
    exact this
  · have := (LruCache.lru_set_entry hlc k v 0 T).1
    rw [hE] at this
    exact this
  · have := (LfuCache.lfu_set_entry hlf k v 0 T hord).1
    rw [hE] at this
    exact this

/-- Witness for C7: `SetWithExpire(1, 7, 10)` then `Set(1, 8)` resets the expiration
time to 0 in each policy. -/
theorem C7_set_never_expires_witness :
    (((newSimpleCache 0).SetWithExpire 1 7 10 100 (fun l => l)).2.Set 1 8 101
      (fun l => l)).2.entry 1 = some (8, 0) ∧
    (((newLruCache 1).SetWithExpire 1 7 10 100).2.Set 1 8 101).2.entry 1 = some (8, 0) ∧
    (((newLfuCache 1).SetWithExpire 1 7 10 100 (fun l => l)).2.Set 1 8 101
      (fun l => l)).2.entry 1 = some (8, 0) :=
  have h := C7_set_never_expires ((newSimpleCache 0).SetWithExpire 1 7 10 100 (fun l => l)).2
    ((newLruCache 1).SetWithExpire 1 7 10 100).2
    ((newLfuCache 1).SetWithExpire 1 7 10 100 (fun l => l)).2
    ((LruOK.lruOK_new (by decide)).lruOK_set 1 7 10 100)
    ((LfuOK.lfuOK_new (by decide)).lfuOK_set 1 7 10 100 Order.ok_id)
    (fun l => l) Order.ok_id 1 8 101
  ⟨h.1.2, h.2.1.2, h.2.2.1.2⟩

/-! ## C8: delete -/

theorem lfind_lmodify {α : Type} (l : List (Element α)) (h g : Nat) (f : α → α) :
    lfind (lmodify l h f) g
      = (lfind l g).map (fun e => if e.id = h then { e with Value := f e.Value } else e) := by
  induction l with
  | nil => rfl
  | cons a l ih =>
    by_cases hag : a.id = g
    · subst hag
      by_cases hah : a.id = h
      · subst hah
        simp [lmodify, lfind]
      · simp [lmodify, lfind, hah]
    · by_cases hah : a.id = h
      · subst hah
        simp only [lmodify, List.map_cons, if_true, lfind, hag, if_false]
        exact ih
      · simp only [lmodify, List.map_cons, hah, if_false, lfind, hag]
        exact ih

theorem SimpleCache.simple_Del_absent {sc : SimpleCache} {k : Nat}
    (h : mget sc.items k = none) : (sc.Del k).1 = some Error.KeyNotFound := by
  simp [SimpleCache.Del, SimpleCache.remove, h]

theorem LruCache.lru_Del_absent {lc : LruCache} {k : Nat}
    (h : mget lc.items k = none) : (lc.Del k).1 = some Error.KeyNotFound := by
  simp [LruCache.Del, LruCache.remove, h]

theorem LfuCache.lfu_Del_absent {lf : LfuCache} {k : Nat}
    (h : mget lf.items k = none) : (lf.Del k).1 = some Error.KeyNotFound := by
  simp [LfuCache.Del, LfuCache.remove, h]

theorem LfuCache.lfu_freqOf_removeItem (lf : LfuCache) (item it : lfuItem) :
    (lf.removeItem item).freqOf it = lf.freqOf it := by
  unfold LfuCache.freqOf LfuCache.removeItem
  simp only [lfind_lmodify, Option.map_map]
  cases lfind lf.freqList it.freqElement with
  | none => rfl
  | some e =>
    simp only [Option.map_some', Function.comp]
    by_cases h : e.id = item.freqElement <;> simp [h, freqEntry.delete]

theorem LfuInv.lfuInv_no_member {lf : LfuCache} (hinv : LfuInv lf) {k : Nat}
    (hg : mget lf.items k = none) : ∀ e ∈ lf.freqList, k ∉ e.Value.items := by
  intro e he hmem
  obtain ⟨it, hit, -⟩ := hinv.2.2.2.2.2.2.2.1 e he k hmem
  rw [hg] at hit
  cases hit

/-- C8 (delete). In each policy (in a state satisfying the invariant of the policy),
`Del(k)` returns `KeyNotFound` exactly when `k` is not stored, and then the state is
unchanged.  When `k` is stored, `Del(k)` returns no error and removes `k` from the map
and from the bookkeeping; every other key keeps its entry (value and expiration time),
the LRU list is the old list with the element of `k` filtered out (the others in their
old order), and every other LFU item keeps its record and the frequency of its bucket.
After a `Del(k)`, a second `Del(k)` returns `KeyNotFound`. -/
theorem C8_delete (sc : SimpleCache) (lc : LruCache) (lf : LfuCache)
    (hlc : LruOK lc) (hlf : LfuOK lf) (k : Nat) :
    (((sc.Del k).1 = some Error.KeyNotFound ↔ mget sc.items k = none) ∧
      (mget sc.items k = none → (sc.Del k).2 = sc) ∧
      (mget sc.items k ≠ none → (sc.Del k).1 = none) ∧
      mget (sc.Del k).2.items k = none ∧
      (∀ j, j ≠ k → (sc.Del k).2.entry j = sc.entry j) ∧
      ((sc.Del k).2.Del k).1 = some Error.KeyNotFound) ∧
    (((lc.Del k).1 = some Error.KeyNotFound ↔ mget lc.items k = none) ∧
      (mget lc.items k = none → (lc.Del k).2 = lc) ∧
      (mget lc.items k ≠ none → (lc.Del k).1 = none) ∧
      mget (lc.Del k).2.items k = none ∧
      (∀ j, j ≠ k → (lc.Del k).2.entry j = lc.entry j) ∧
      (lc.Del k).2.evictList = lc.evictList.filter (fun e => e.Value.key != k) ∧
      ((lc.Del k).2.Del k).1 = some Error.KeyNotFound) ∧
    (((lf.Del k).1 = some Error.KeyNotFound ↔ mget lf.items k = none) ∧
      (mget lf.items k = none → (lf.Del k).2 = lf) ∧
      (mget lf.items k ≠ none → (lf.Del k).1 = none) ∧
      mget (lf.Del k).2.items k = none ∧
      (∀ e ∈ (lf.Del k).2.freqList, k ∉ e.Value.items) ∧
      (∀ j, j ≠ k → (lf.Del k).2.entry j = lf.entry j) ∧
      (∀ j item, j ≠ k → mget lf.items j = some item →
        mget (lf.Del k).2.items j = some item ∧
        (lf.Del k).2.freqOf item = lf.freqOf item) ∧
      ((lf.Del k).2.Del k).1 = some Error.KeyNotFound) := by
  refine ⟨?_, ?_, ?_⟩
  · have hnone : mget (sc.Del k).2.items k = none := by
      unfold SimpleCache.Del SimpleCache.remove
      cases hg : mget sc.items k with
      | none => exact hg
      | some item => exact mget_mdel_self _ _
    refine ⟨?_, ?_, ?_, hnone, ?_, ?_⟩
    · unfold SimpleCache.Del SimpleCache.remove
      cases hg : mget sc.items k <;> simp
    · intro hg
      simp [SimpleCache.Del, SimpleCache.remove, hg]
    · intro hg
      unfold SimpleCache.Del SimpleCache.remove
      cases hg2 : mget sc.items k with
      | none => exact absurd hg2 hg
      | some item => rfl
    · intro j hjk
      have := (sc.simple_remove_entry k).2.2.2 j
      simp only [hjk, if_false] at this
      exact this
    · exact SimpleCache.simple_Del_absent hnone
  · have hnone : mget (lc.Del k).2.items k = none := by
      unfold LruCache.Del LruCache.remove
      cases hg : mget lc.items k with
      | none => exact hg
      | some h =>
        obtain ⟨el, hf, hk, -, -⟩ := hlc.1.lruInv_resolve hg
        simp only [hf]
        show mget (mdel lc.items el.Value.key) k = none
        rw [hk]
        exact mget_mdel_self _ _
    refine ⟨?_, ?_, ?_, hnone, ?_, ?_, ?_⟩
    · unfold LruCache.Del LruCache.remove
      cases hg : mget lc.items k with
      | none => simp
      | some h =>
        obtain ⟨el, hf, -, -, -⟩ := hlc.1.lruInv_resolve hg
        simp [hf]
    · intro hg
      simp [LruCache.Del, LruCache.remove, hg]
    · intro hg
      unfold LruCache.Del LruCache.remove
      cases hg2 : mget lc.items k with
      | none => exact absurd hg2 hg
      | some h =>
        obtain ⟨el, hf, -, -, -⟩ := hlc.1.lruInv_resolve hg2
        simp [hf]
    · intro j hjk
      have := (LruCache.lru_remove_entry hlc.1 k).2.2.2 j
      simp only [hjk, if_false] at this
      exact this
    · unfold LruCache.Del LruCache.remove
      cases hg : mget lc.items k with
      | none =>
        symm
        apply List.filter_eq_self.2
        intro e he
        have := hlc.1.lruInv_key_absent hg e he
        simpa using this
      | some h =>
        obtain ⟨el, hf, hk, -, hmem⟩ := hlc.1.lruInv_resolve hg
        simp only [hf]
        show lRemove lc.evictList el.id = _
        rw [hlc.1.lruInv_remove_eq hmem, hk]
    · exact LruCache.lru_Del_absent hnone
  · have hnone : mget (lf.Del k).2.items k = none := by
      unfold LfuCache.Del LfuCache.remove
      cases hg : mget lf.items k with
      | none => exact hg
      | some item =>
        have hk := (hlf.1.lfuInv_mem_of_mget hg).1
        show mget (mdel lf.items item.key) k = none
        rw [hk]
        exact mget_mdel_self _ _
    have hinv2 : LfuInv (lf.Del k).2 := (hlf.lfuOK_remove k).1
    refine ⟨?_, ?_, ?_, hnone, hinv2.lfuInv_no_member hnone, ?_, ?_, ?_⟩
    · unfold LfuCache.Del LfuCache.remove
      cases hg : mget lf.items k <;> simp
    · intro hg
      simp [LfuCache.Del, LfuCache.remove, hg]
    · intro hg
      unfold LfuCache.Del LfuCache.remove
      cases hg2 : mget lf.items k with
      | none => exact absurd hg2 hg
      | some item => rfl
    · intro j hjk
      have := (LfuCache.lfu_remove_entry hlf.1 k).2.2.2 j
      simp only [hjk, if_false] at this
      exact this
    · intro j item hjk hgj
      unfold LfuCache.Del LfuCache.remove
      cases hg : mget lf.items k with
      | none => exact ⟨hgj, rfl⟩
      | some it =>
        have hk := (hlf.1.lfuInv_mem_of_mget hg).1
        refine ⟨?_, LfuCache.lfu_freqOf_removeItem lf it item⟩
        show mget (mdel lf.items it.key) j = some item
        rw [hk, mget_mdel_ne _ hjk]
        exact hgj
    · exact LfuCache.lfu_Del_absent hnone

/-- Witness for C8: deleting the key 1 from caches that hold the keys 1 and 2. -/
theorem C8_delete_witness :
    ((((newSimpleCache 0).run
        [⟨.Set 1 10, 0, fun l => l⟩, ⟨.Set 2 20, 0, fun l => l⟩]).Del 1).2.Del 1).1
      = some Error.KeyNotFound ∧
    mkeys (((newLruCache 2).run
        [⟨.Set 1 10, 0, fun l => l⟩, ⟨.Set 2 20, 0, fun l => l⟩]).Del 1).2.items = [2] :=
  have h := C8_delete
    ((newSimpleCache 0).run [⟨.Set 1 10, 0, fun l => l⟩, ⟨.Set 2 20, 0, fun l => l⟩])
    ((newLruCache 2).run [⟨.Set 1 10, 0, fun l => l⟩, ⟨.Set 2 20, 0, fun l => l⟩])
    ((newLfuCache 2).run [⟨.Set 1 10, 0, fun l => l⟩, ⟨.Set 2 20, 0, fun l => l⟩])
    ((LruOK.lruOK_new (by decide)).lruOK_run _)
    ((LfuOK.lfuOK_new (by decide)).lfuOK_run _ (by
      intro c hc
      simp only [List.mem_cons, List.mem_singleton, List.not_mem_nil, or_false] at hc
      rcases hc with h | h <;> subst h <;> exact Order.ok_id)) 1
  ⟨h.1.2.2.2.2.2, by decide⟩

/-! ## C9: the key count on delete -/

/-- C9 (key count on delete): the LFU policy departs from it.  `LfuCache.Del` never
changes the statistics, so a successful `Del` leaves `KeyCount()` as it was: on an LFU
cache of capacity 1, after `Set(1, 10)` the key count is 1, `Del(1)` returns no error
and empties the map, and the key count is still 1.  The same calls on a Simple and on
an LRU cache bring the key count back to 0. -/
theorem C9_lfu_delete_keeps_key_count :
    (∀ (lf : LfuCache) (k : Nat), (lf.Del k).2.stats = lf.stats) ∧
    ((newLfuCache 1).Set 1 10 0 (fun l => l)).2.stats.KeyCount = 1 ∧
    (((newLfuCache 1).Set 1 10 0 (fun l => l)).2.Del 1).1 = none ∧
    (((newLfuCache 1).Set 1 10 0 (fun l => l)).2.Del 1).2.items = [] ∧
    (((newLfuCache 1).Set 1 10 0 (fun l => l)).2.Del 1).2.stats.KeyCount = 1 ∧
    (((newSimpleCache 1).Set 1 10 0 (fun l => l)).2.Del 1).2.stats.KeyCount = 0 ∧
    (((newLruCache 1).Set 1 10 0).2.Del 1).2.stats.KeyCount = 0 := by
  refine ⟨?_, by decide, by decide, by decide, by decide, by decide, by decide⟩
  intro lf k
  unfold LfuCache.Del LfuCache.remove
  cases mget lf.items k <;> rfl

/-! ## C10: eviction in a full Simple cache -/

theorem SimpleCache.simple_evictLoop_none (items : List (Nat × simpleItem)) (count : Nat)
    (now : Int) (hfut : ∀ p ∈ items, p.2.expireAt ≠ 0 ∧ now ≤ p.2.expireAt)
    (ks : List Nat) (current : Nat) (st : mycache.stats) (deferred : List Nat) :
    SimpleCache.evictLoop items count now ks current st deferred = (st, deferred) := by
  induction ks generalizing current st deferred with
  | nil => rfl
  | cons k ks ih =>
    unfold SimpleCache.evictLoop
    split
    · rfl
    · cases hg : mget items k with
      | none => exact ih _ _ _
      | some item =>
        have h := hfut _ (mget_some_mem hg)
        have hno : ¬ (item.expireAt = 0 ∨ item.expireAt < now) := by
          intro hc
          rcases hc with h1 | h1
          · exact h.1 h1
          · simp only at h
            omega
        simp only [hno, if_false]
        exact ih _ _ _

/-- C10 (eviction in a full Simple cache): the code departs from it.  When every stored
entry has an expiration time that is not 0 and not yet passed, `evict` removes nothing,
whatever the count and the visiting order, so the insertion of a new key into a full
Simple cache makes it hold more than `size` entries: with capacity 1,
`SetWithExpire(1, 10, 100)` and `SetWithExpire(2, 20, 100)` at clock time 0 leave two
entries stored and an eviction count of 0. -/
theorem C10_simple_evict_skips_unexpired :
    (∀ (sc : SimpleCache) (count : Nat) (now : Int) (ord : Order),
      (∀ p ∈ sc.items, p.2.expireAt ≠ 0 ∧ now ≤ p.2.expireAt) →
      sc.evict count now ord = sc) ∧
    mkeys (((newSimpleCache 1).SetWithExpire 1 10 100 0 (fun l => l)).2.SetWithExpire
      2 20 100 0 (fun l => l)).2.items = [2, 1] ∧
    (((newSimpleCache 1).SetWithExpire 1 10 100 0 (fun l => l)).2.SetWithExpire
      2 20 100 0 (fun l => l)).2.stats.EvictCount = 0 ∧
    (((newSimpleCache 1).SetWithExpire 1 10 100 0 (fun l => l)).2.SetWithExpire
      2 20 100 0 (fun l => l)).2.size = 1 := by
  refine ⟨?_, by decide, by decide, by decide⟩
  intro sc count now ord hfut
  unfold SimpleCache.evict
  rw [SimpleCache.simple_evictLoop_none sc.items count now hfut]
  rfl

/-! ## C11: `Expire` -/

theorem live_some_iff {e : Option (Nat × Int)} {now : Int} {v : Nat} {x : Int}
    (h : live e now = some (v, x)) : e = some (v, x) ∧ IsExpired x now = false := by
  unfold live at h
  cases e with
  | none => cases h
  | some p =>
    obtain ⟨a, b⟩ := p
    simp only at h
    cases hb : IsExpired b now with
    | true => rw [hb] at h; simp at h
    | false =>
      rw [hb] at h
      simp only [Bool.false_eq_true, if_false, Option.some.injEq, Prod.mk.injEq] at h
      obtain ⟨h1, h2⟩ := h
      subst h1
      subst h2
      exact ⟨rfl, hb⟩

theorem live_idem (e : Option (Nat × Int)) (now : Int) : live (live e now) now = live e now := by
  unfold live
  cases e with
  | none => rfl
  | some p =>
    obtain ⟨a, b⟩ := p
    simp only
    cases hb : IsExpired b now <;> simp [hb]

theorem ttlSpec_after (now t : Int) (hnow : 0 ≤ now) (hov : now + t ≤ maxInt64) :
    (0 < t → ttlSpec (some (RealClock.ExpireAt now t)) now = (t, none)) ∧
    (t ≤ 0 → ttlSpec (some (RealClock.ExpireAt now t)) now = (-1, none)) := by
  constructor
  · intro ht
    have hr : isInt64 (now + t) := by
      unfold isInt64 maxInt64 at *
      constructor <;> omega
    rw [ExpireAt_pos ht hr]
    unfold ttlSpec
    have h1 : ¬ (now + t ≠ 0 ∧ now + t < now) := by
      intro h
      omega
    have h2 : ¬ now + t = 0 := by omega
    simp only [h1, if_false, h2]
    congr 1
    omega
  · intro ht
    have : ¬ t > 0 := by omega
    simp [RealClock.ExpireAt, this, ttlSpec]

theorem live_after (v : Nat) (now t : Int) (hov : 0 < t → 0 ≤ now ∧ now + t ≤ maxInt64) :
    live (some (v, RealClock.ExpireAt now t)) now = some (v, RealClock.ExpireAt now t) := by
  unfold live
  simp only
  have : IsExpired (RealClock.ExpireAt now t) now = false := by
    rw [IsExpired_false_iff]
    by_cases ht : 0 < t
    · obtain ⟨h1, h2⟩ := hov ht
      have hr : isInt64 (now + t) := by
        unfold isInt64 maxInt64 at *
        constructor <;> omega
      rw [ExpireAt_pos ht hr]
      right
      omega
    · left
      have : ¬ t > 0 := ht
      simp [RealClock.ExpireAt, this]
  simp [this]

theorem SimpleCache.simple_Expire_spec (sc : SimpleCache) (k : Nat) (t now : Int)
    (ord : Order) :
    (∀ v e, live (sc.entry k) now = some (v, e) →
      (sc.Expire k t now ord).1 = none ∧
      (sc.Expire k t now ord).2.entry k = some (v, RealClock.ExpireAt now t) ∧
      ∀ j, j ≠ k → (sc.Expire k t now ord).2.entry j = sc.entry j) ∧
    (live (sc.entry k) now = none →
      (sc.Expire k t now ord).1 = some Error.KeyNotFound ∧
      ∀ j, live ((sc.Expire k t now ord).2.entry j) now = live (sc.entry j) now) := by
  have hG := sc.simple_Get_entry k now
  constructor
  · intro v e hl
    rw [hl] at hG
    unfold SimpleCache.Expire
    cases hg : sc.Get k now with
    | mk r sc1 =>
      rw [hg] at hG
      obtain ⟨hr, hent⟩ := hG
      simp only at hr hent
      rw [hr]
      simp only [getSpec]
      have hk1 : sc1.entry k = some (v, e) := by
        rw [hent k]
        simp [hl]
      have hS := sc1.simple_set_entry k v t now ord
      refine ⟨(sc1.simple_set_binding k v t now ord).1, hS.1, ?_⟩
      intro j hjk
      rw [hS.2.2 (by rw [hk1]; simp) j hjk, hent j]
      simp [hjk]
  · intro hl
    rw [hl] at hG
    unfold SimpleCache.Expire
    cases hg : sc.Get k now with
    | mk r sc1 =>
      rw [hg] at hG
      obtain ⟨hr, hent⟩ := hG
      simp only at hr hent
      rw [hr]
      simp only [getSpec]
      refine ⟨trivial, ?_⟩
      intro j
      rw [hent j]
      by_cases hjk : j = k
      · simp only [hjk, if_true, live_idem]
      · simp only [hjk, if_false]

theorem LruCache.lru_Expire_spec {lc : LruCache} (hok : LruOK lc) (k : Nat) (t now : Int) :
    (∀ v e, live (lc.entry k) now = some (v, e) →
      (lc.Expire k t now).1 = none ∧
      (lc.Expire k t now).2.entry k = some (v, RealClock.ExpireAt now t) ∧
      ∀ j, j ≠ k → (lc.Expire k t now).2.entry j = lc.entry j) ∧
    (live (lc.entry k) now = none →
      (lc.Expire k t now).1 = some Error.KeyNotFound ∧
      ∀ j, live ((lc.Expire k t now).2.entry j) now = live (lc.entry j) now) := by
  have hG := LruCache.lru_Get_entry hok.1 k now
  have hok1 := hok.lruOK_Get k now
  constructor
  · intro v e hl
    rw [hl] at hG
    unfold LruCache.Expire
    cases hg : lc.Get k now with
    | mk r lc1 =>
      rw [hg] at hG hok1
      obtain ⟨hr, hent⟩ := hG
      simp only at hr hent hok1
      rw [hr]
      simp only [getSpec]
      have hk1 : lc1.entry k = some (v, e) := by
        rw [hent k]
        simp [hl]
      have hS := LruCache.lru_set_entry hok1 k v t now
      refine ⟨(LruCache.lru_set_binding hok1 k v t now).1, hS.1, ?_⟩
      intro j hjk
      rw [hS.2.2 (by rw [hk1]; simp) j hjk, hent j]
      simp [hjk]
  · intro hl
    rw [hl] at hG
    unfold LruCache.Expire
    cases hg : lc.Get k now with
    | mk r lc1 =>
      rw [hg] at hG
      obtain ⟨hr, hent⟩ := hG
      simp only at hr hent
      rw [hr]
      simp only [getSpec]
      refine ⟨trivial, ?_⟩
      intro j
      rw [hent j]
      by_cases hjk : j = k
      · simp only [hjk, if_true, live_idem]
      · simp only [hjk, if_false]

theorem LfuCache.lfu_Expire_spec {lf : LfuCache} (hok : LfuOK lf) (k : Nat) (t now : Int)
    {ord : Order} (hord : ord.ok) :
    (∀ v e, live (lf.entry k) now = some (v, e) →
      (lf.Expire k t now ord).1 = none ∧
      (lf.Expire k t now ord).2.entry k = some (v, RealClock.ExpireAt now t) ∧
      ∀ j, j ≠ k → (lf.Expire k t now ord).2.entry j = lf.entry j) ∧
    (live (lf.entry k) now = none →
      (lf.Expire k t now ord).1 = some Error.KeyNotFound ∧
      ∀ j, live ((lf.Expire k t now ord).2.entry j) now = live (lf.entry j) now) := by
  have hG := LfuCache.lfu_Get_entry hok.1 k now
  have hok1 := hok.lfuOK_Get k now
  constructor
  · intro v e hl
    rw [hl] at hG
    unfold LfuCache.Expire
    cases hg : lf.Get k now with
    | mk r lf1 =>
      rw [hg] at hG hok1
      obtain ⟨hr, hent⟩ := hG
      simp only at hr hent hok1
      rw [hr]
      simp only [getSpec]
      have hk1 : lf1.entry k = some (v, e) := by
        rw [hent k]
        simp [hl]
      have hS := LfuCache.lfu_set_entry hok1 k v t now hord
      refine ⟨(LfuCache.lfu_set_binding hok1 k v t now hord).1, hS.1, ?_⟩
      intro j hjk
      rw [hS.2.2 (by rw [hk1]; simp) j hjk, hent j]
      simp [hjk]
  · intro hl
    rw [hl] at hG
    unfold LfuCache.Expire
    cases hg : lf.Get k now with
    | mk r lf1 =>
      rw [hg] at hG
      obtain ⟨hr, hent⟩ := hG
      simp only at hr hent
      rw [hr]
      simp only [getSpec]
      refine ⟨trivial, ?_⟩
      intro j
      rw [hent j]
      by_cases hjk : j = k
      · simp only [hjk, if_true, live_idem]
      · simp only [hjk, if_false]

theorem ExpireAt_nonpos {now t : Int} (ht : t ≤ 0) : RealClock.ExpireAt now t = 0 := by
  have : ¬ t > 0 := by omega
  simp [RealClock.ExpireAt, this]

/-- C11, as amended (`Expire`). In each policy (in a state satisfying the invariant of
the policy), for a key `k` stored and not expired at clock time `now`, with value `v`,
`Expire(k, t)` returns no error and, whatever `t` and the clock time, leaves `k` stored
with value `v` (its expiration time being `ExpireAt(t)`) and every other entry
untouched.  If `t ≤ 0`, afterwards `Get(k)` returns `v` and `TTL(k)` returns -1 at any
clock time; if `t > 0`, `now ≥ 0` and `now + t` fits into `int64`, afterwards `Get(k)`
at clock time `now` returns `v` and `TTL(k)` at clock time `now` returns `t`.  For a key
that is absent or expired, `Expire` returns `KeyNotFound` and the entries that are live
at clock time `now` (values and expirations) are unchanged. -/
theorem C11_expire (sc : SimpleCache) (lc : LruCache) (lf : LfuCache)
    (hsc : SimpleOK sc) (hlc : LruOK lc) (hlf : LfuOK lf) (ord : Order) (hord : ord.ok)
    (k : Nat) (t now : Int) :
    (∀ v e, live (sc.entry k) now = some (v, e) →
      (sc.Expire k t now ord).1 = none ∧
      (sc.Expire k t now ord).2.entry k = some (v, RealClock.ExpireAt now t) ∧
      (∀ j, j ≠ k → (sc.Expire k t now ord).2.entry j = sc.entry j) ∧
      (t ≤ 0 → ∀ T, ((sc.Expire k t now ord).2.Get k T).1 = .ok v ∧
        ((sc.Expire k t now ord).2.TTL k T).1 = (-1, none)) ∧
      (0 < t → 0 ≤ now → now + t ≤ maxInt64 →
        ((sc.Expire k t now ord).2.Get k now).1 = .ok v ∧
        ((sc.Expire k t now ord).2.TTL k now).1 = (t, none))) ∧
    (live (sc.entry k) now = none →
      (sc.Expire k t now ord).1 = some Error.KeyNotFound ∧
      ∀ j, live ((sc.Expire k t now ord).2.entry j) now = live (sc.entry j) now) ∧
    (∀ v e, live (lc.entry k) now = some (v, e) →
      (lc.Expire k t now).1 = none ∧
      (lc.Expire k t now).2.entry k = some (v, RealClock.ExpireAt now t) ∧
      (∀ j, j ≠ k → (lc.Expire k t now).2.entry j = lc.entry j) ∧
      (t ≤ 0 → ∀ T, ((lc.Expire k t now).2.Get k T).1 = .ok v ∧
        ((lc.Expire k t now).2.TTL k T).1 = (-1, none)) ∧
      (0 < t → 0 ≤ now → now + t ≤ maxInt64 →
        ((lc.Expire k t now).2.Get k now).1 = .ok v ∧
        ((lc.Expire k t now).2.TTL k now).1 = (t, none))) ∧
    (live (lc.entry k) now = none →
      (lc.Expire k t now).1 = some Error.KeyNotFound ∧
      ∀ j, live ((lc.Expire k t now).2.entry j) now = live (lc.entry j) now) ∧
    (∀ v e, live (lf.entry k) now = some (v, e) →
      (lf.Expire k t now ord).1 = none ∧
      (lf.Expire k t now ord).2.entry k = some (v, RealClock.ExpireAt now t) ∧
      (∀ j, j ≠ k → (lf.Expire k t now ord).2.entry j = lf.entry j) ∧
      (t ≤ 0 → ∀ T, ((lf.Expire k t now ord).2.Get k T).1 = .ok v ∧
        ((lf.Expire k t now ord).2.TTL k T).1 = (-1, none)) ∧
      (0 < t → 0 ≤ now → now + t ≤ maxInt64 →
        ((lf.Expire k t now ord).2.Get k now).1 = .ok v ∧
        ((lf.Expire k t now ord).2.TTL k now).1 = (t, none))) ∧
    (live (lf.entry k) now = none →
      (lf.Expire k t now ord).1 = some Error.KeyNotFound ∧
      ∀ j, live ((lf.Expire k t now ord).2.entry j) now = live (lf.entry j) now) := by
  have hS := sc.simple_Expire_spec k t now ord
  have hL := LruCache.lru_Expire_spec hlc k t now
  have hF := LfuCache.lfu_Expire_spec hlf k t now hord
  have hokS := hsc.simpleOK_Expire k t now ord
  have hokL := hlc.lruOK_Expire k t now
  have hokF := hlf.lfuOK_Expire k t now hord
  refine ⟨?_, hS.2, ?_, hL.2, ?_, hF.2⟩
  · intro v e hl
    obtain ⟨h1, h2, h3⟩ := hS.1 v e hl
    refine ⟨h1, h2, h3, ?_, ?_⟩
    · intro ht T
      rw [ExpireAt_nonpos ht] at h2
      exact ⟨(SimpleCache.simple_never h2 k T).1, (SimpleCache.simple_never h2 k T).2.1⟩
    · intro ht hnow hov
      constructor
      · rw [((sc.Expire k t now ord).2.simple_Get_entry k now).1, h2,
          live_after v now t (fun _ => ⟨hnow, hov⟩)]
        rfl
      · rw [SimpleCache.simple_TTL_spec hokS k hnow, h2]
        exact (ttlSpec_after now t hnow hov).1 ht
  · intro v e hl
    obtain ⟨h1, h2, h3⟩ := hL.1 v e hl
    refine ⟨h1, h2, h3, ?_, ?_⟩
    · intro ht T
      rw [ExpireAt_nonpos ht] at h2
      exact ⟨(LruCache.lru_never hokL.1 h2 k T).1, (LruCache.lru_never hokL.1 h2 k T).2.1⟩
    · intro ht hnow hov
      constructor
      · rw [(LruCache.lru_Get_entry hokL.1 k now).1, h2,
          live_after v now t (fun _ => ⟨hnow, hov⟩)]
        rfl
      · rw [LruCache.lru_TTL_spec hokL k hnow, h2]
        exact (ttlSpec_after now t hnow hov).1 ht
  · intro v e hl
    obtain ⟨h1, h2, h3⟩ := hF.1 v e hl
    refine ⟨h1, h2, h3, ?_, ?_⟩
    · intro ht T
      rw [ExpireAt_nonpos ht] at h2
      exact ⟨(LfuCache.lfu_never hokF.1 h2 k T).1, (LfuCache.lfu_never hokF.1 h2 k T).2.1⟩
    · intro ht hnow hov
      constructor
      · rw [(LfuCache.lfu_Get_entry hokF.1 k now).1, h2,
          live_after v now t (fun _ => ⟨hnow, hov⟩)]
        rfl
      · rw [LfuCache.lfu_TTL_spec hokF k hnow, h2]
        exact (ttlSpec_after now t hnow hov).1 ht

/-- Witness for C11: `Set(1, 7)` then `Expire(1, 10)` at clock time 100 makes `TTL(1)`
return 10 in the Simple cache. -/
theorem C11_expire_witness :
    ((((newSimpleCache 0).Set 1 7 100 (fun l => l)).2.Expire 1 10 100
      (fun l => l)).2.TTL 1 100).1 = (10, none) :=
  ((C11_expire ((newSimpleCache 0).Set 1 7 100 (fun l => l)).2
    ((newLruCache 1).Set 1 7 100).2 ((newLfuCache 1).Set 1 7 100 (fun l => l)).2
    ((SimpleOK.simpleOK_new 0).simpleOK_set 1 7 0 100 _)
    ((LruOK.lruOK_new (by decide)).lruOK_set 1 7 0 100)
    ((LfuOK.lfuOK_new (by decide)).lfuOK_set 1 7 0 100 Order.ok_id)
    (fun l => l) Order.ok_id 1 10 100).1 7 0 (by decide)).2.2.2.2
    (by decide) (by decide) (by decide) |>.2

/-- C11 as stated fails when `now + t` overflows `int64`: after `Set(1, 7)`,
`Expire(1, 2^63 - 1)` at clock time 1 returns no error but stores a negative expiration
time, and `TTL(1)` at the same clock time returns `(-2, KeyNotFound)`, not `t`, in each
policy. -/
theorem C11_counterexample :
    (((newSimpleCache 0).Set 1 7 1 (fun l => l)).2.Expire 1 9223372036854775807 1
      (fun l => l)).1 = none ∧
    ((((newSimpleCache 0).Set 1 7 1 (fun l => l)).2.Expire 1 9223372036854775807 1
      (fun l => l)).2.TTL 1 1).1 = (-2, some Error.KeyNotFound) ∧
    ((((newLruCache 1).Set 1 7 1).2.Expire 1 9223372036854775807 1).2.TTL 1 1).1
      = (-2, some Error.KeyNotFound) ∧
    ((((newLfuCache 1).Set 1 7 1 (fun l => l)).2.Expire 1 9223372036854775807 1
      (fun l => l)).2.TTL 1 1).1 = (-2, some Error.KeyNotFound) := by
  exact ⟨by decide, by decide, by decide, by decide⟩


/-! ## C13: `Clear` -/

theorem Order.ok_nil {ord : Order} (h : ord.ok) : ord [] = [] :=
  List.Perm.eq_nil (h [])

/-- C13 (`Clear`). In each policy, after `Clear()` the store is empty: every `Get`
returns `KeyNotFound` and every `TTL` returns `(-2, KeyNotFound)` at every clock time,
`Len()` is 0, the LRU list is empty, the LFU bucket list consists of only one bucket, of
frequency 0 and without members, and the capacity is unchanged; the statistics record
(`KeyCount`, `HitCount`, `MissCount`, `EvictCount`) is the one before the call. -/
theorem C13_clear (sc : SimpleCache) (lc : LruCache) (lf : LfuCache) (ord : Order)
    (hord : ord.ok) (k : Nat) (now : Int) :
    (sc.Clear.items = [] ∧ sc.Clear.size = sc.size ∧ sc.Clear.stats = sc.stats ∧
      (sc.Clear.Get k now).1 = .error Error.KeyNotFound ∧
      (sc.Clear.TTL k now).1 = (-2, some Error.KeyNotFound) ∧
      (sc.Clear.Len now ord).1 = 0) ∧
    (lc.Clear.items = [] ∧ lc.Clear.evictList = [] ∧ lc.Clear.size = lc.size ∧
      lc.Clear.stats = lc.stats ∧
      (lc.Clear.Get k now).1 = .error Error.KeyNotFound ∧
      (lc.Clear.TTL k now).1 = (-2, some Error.KeyNotFound) ∧
      (lc.Clear.Len now ord).1 = 0) ∧
    (lf.Clear.items = [] ∧
      (∃ e, lf.Clear.freqList = [e] ∧ e.Value.freq = 0 ∧ e.Value.items = []) ∧
      lf.Clear.size = lf.size ∧ lf.Clear.stats = lf.stats ∧
      (lf.Clear.Get k now).1 = .error Error.KeyNotFound ∧
      (lf.Clear.TTL k now).1 = (-2, some Error.KeyNotFound) ∧
      (lf.Clear.Len now ord).1 = 0) := by
  have h0 := Order.ok_nil hord
  refine ⟨⟨rfl, rfl, rfl, rfl, rfl, ?_⟩, ⟨rfl, rfl, rfl, rfl, rfl, rfl, ?_⟩,
    ⟨rfl, ⟨_, rfl, rfl, rfl⟩, rfl, rfl, rfl, rfl, ?_⟩⟩
  · simp [SimpleCache.Len, SimpleCache.Keys, SimpleCache.keys, SimpleCache.Clear,
      SimpleCache.init, mkeys, h0]
  · simp [LruCache.Len, LruCache.Keys, LruCache.keys, LruCache.Clear,
      LruCache.init, mkeys, h0]
  · simp [LfuCache.Len, LfuCache.Keys, LfuCache.keys, LfuCache.Clear,
      LfuCache.init, mkeys, h0]

/-- Witness for C13: clearing caches that hold one entry. -/
theorem C13_clear_witness :
    (((newLfuCache 1).Set 1 7 0 (fun l => l)).2.Clear.Len 0 (fun l => l)).1 = 0 :=
  (C13_clear ((newSimpleCache 1).Set 1 7 0 (fun l => l)).2 ((newLruCache 1).Set 1 7 0).2
    ((newLfuCache 1).Set 1 7 0 (fun l => l)).2 (fun l => l) Order.ok_id 1 0).2.2.2.2.2.2.2.2


/-! ## C17: the structural invariant of the LFU cache -/

theorem lNext_freq_gt {l : List (Element freqEntry)}
    (hs : (l.map (fun e => e.Value.freq)).Pairwise (fun a b => a < b)) {h : Nat}
    {c nx : Element freqEntry} (hc : lfind l h = some c) (hn : lNext l h = some nx) :
    c.Value.freq < nx.Value.freq := by
  induction l with
  | nil => simp [lfind] at hc
  | cons a l ih =>
    rw [List.map_cons, List.pairwise_cons] at hs
    by_cases ha : a.id = h
    · simp only [lfind, ha, if_true, Option.some.injEq] at hc
      simp only [lNext, ha, if_true] at hn
      subst hc
      cases l with
      | nil => simp at hn
      | cons b l =>
        simp only [List.head?_cons, Option.some.injEq] at hn
        subst hn
        exact hs.1 _ (by simp)
    · simp only [lfind, ha, if_false] at hc
      simp only [lNext, ha, if_false] at hn
      exact ih hs.2 hc hn

theorem LfuCache.lfu_increment_eq_spec {lf : LfuCache}
    (hs : (lf.freqList.map (fun e => e.Value.freq)).Pairwise (fun a b => a < b))
    (item : lfuItem) : lf.increment item = lf.incrementSpec item := by
  unfold LfuCache.increment LfuCache.incrementSpec
  cases hf : lfind lf.freqList item.freqElement with
  | none => rfl
  | some cur =>
    simp only []
    have hid : cur.id = item.freqElement := (lfind_some hf).2
    cases hn : lNext (lmodify lf.freqList cur.id (fun fe => fe.delete item.key)) cur.id with
    | none => rfl
    | some nx =>
      have hf1 : lfind (lmodify lf.freqList cur.id (fun fe => fe.delete item.key)) cur.id
          = some ⟨cur.id, cur.Value.delete item.key⟩ := by
        rw [lfind_lmodify, hid, hf]
        simp [hid]
      have hlt := lNext_freq_gt
        (by rw [map_freq_lmodify lf.freqList cur.id (fun fe => fe.delete item.key)
          (fun _ => rfl)]; exact hs) hf1 hn
      have hlt2 : cur.Value.freq < nx.Value.freq := hlt
      simp only []
      by_cases hgt : nx.Value.freq > cur.Value.freq + 1
      · have hne : ¬ nx.Value.freq = cur.Value.freq + 1 := by omega
        rw [if_pos hgt, if_neg hne]
      · have he : nx.Value.freq = cur.Value.freq + 1 := by omega
        rw [if_neg hgt, if_pos he]

/-- C17 (LFU structural invariant). In an LFU cache built with `size ≥ 1`, after any
sequence of calls: the frequencies of the bucket list are strictly increasing from front
to back; the front bucket has frequency 0; every stored entry is a member of the bucket
its `freqElement` references, that bucket is linked in the list, and the entry is a
member of no other bucket; every bucket member is a stored entry; and `increment`, whose
test is "the successor is nil or has a frequency greater than next", does the same as
the version whose test is "the successor does not have frequency exactly next". -/
theorem C17_lfu_structural_invariant (size : Int) (hsize : 1 ≤ size) (cs : List Call)
    (hcs : CallsOk cs) (lf : LfuCache) (hlf : lf = (newLfuCache size).run cs) :
    (lf.freqList.map (fun e => e.Value.freq)).Pairwise (fun a b => a < b) ∧
    (∃ e rest, lf.freqList = e :: rest ∧ e.Value.freq = 0) ∧
    (∀ k item, mget lf.items k = some item →
      ∃ e, lfind lf.freqList item.freqElement = some e ∧ e ∈ lf.freqList ∧
        k ∈ e.Value.items ∧ ∀ e2 ∈ lf.freqList, k ∈ e2.Value.items → e2 = e) ∧
    (∀ e ∈ lf.freqList, ∀ k ∈ e.Value.items, ∃ item, mget lf.items k = some item) ∧
    (∀ item, lf.increment item = lf.incrementSpec item) := by
  have hok : LfuOK lf := hlf ▸ (LfuOK.lfuOK_new hsize).lfuOK_run cs hcs
  have hinv := hok.1
  refine ⟨hinv.2.2.2.2.1, hinv.2.2.2.2.2.1, ?_, ?_,
    LfuCache.lfu_increment_eq_spec hinv.2.2.2.2.1⟩
  · intro k item hg
    obtain ⟨-, e, he, heid, hk⟩ := hinv.lfuInv_mem_of_mget hg
    refine ⟨e, ?_, he, hk, ?_⟩
    · rw [← heid]
      exact lfind_of_mem hinv.2.2.1 he
    · intro e2 he2 hk2
      obtain ⟨item2, hg2, hid2⟩ := hinv.2.2.2.2.2.2.2.1 e2 he2 k hk2
      rw [hg] at hg2
      cases hg2
      exact hinv.lfuInv_bucket_unique he2 he (by rw [← hid2, heid])
  · intro e he k hk
    obtain ⟨item, hg, -⟩ := hinv.2.2.2.2.2.2.2.1 e he k hk
    exact ⟨item, hg⟩

/-- Witness for C17: an LFU cache of capacity 2 after two insertions and a lookup. -/
theorem C17_lfu_structural_invariant_witness :
    ((1 : Int) ≤ 2) ∧
    (((newLfuCache 2).run
        [⟨.Set 1 10, 0, fun l => l⟩, ⟨.Set 2 20, 0, fun l => l⟩,
          ⟨.Get 1, 0, fun l => l⟩]).freqList.map (fun e => e.Value.freq)).Pairwise
      (fun a b => a < b) :=
  have h := C17_lfu_structural_invariant 2 (by decide)
    [⟨.Set 1 10, 0, fun l => l⟩, ⟨.Set 2 20, 0, fun l => l⟩, ⟨.Get 1, 0, fun l => l⟩]
    (by
      intro c hc
      simp only [List.mem_cons, List.mem_singleton, List.not_mem_nil, or_false] at hc
      rcases hc with h | h | h <;> subst h <;> exact Order.ok_id)
    _ rfl
  ⟨by decide, h.1⟩

/-! ## C20: the store and the recency list of the LRU cache -/

/-- C20 (LRU store/list invariant). In an LRU cache built with `size ≥ 1`, after any
sequence of calls: every stored key maps to the handle of a list element whose item
carries that key; every list element is designated by the map entry of its own key, and
by no other map entry; no two list elements share a handle or a key; and the list length
equals the number of stored keys. -/
theorem C20_lru_bijection (size : Int) (hsize : 1 ≤ size) (cs : List Call)
    (lc : LruCache) (hlc : lc = (newLruCache size).run cs) :
    (∀ k h, mget lc.items k = some h →
      ∃ e ∈ lc.evictList, lfind lc.evictList h = some e ∧ e.id = h ∧ e.Value.key = k) ∧
    (∀ e ∈ lc.evictList, mget lc.items e.Value.key = some e.id ∧
      ∀ k, mget lc.items k = some e.id → k = e.Value.key) ∧
    (lc.evictList.map Element.id).Nodup ∧
    (lc.evictList.map (fun e => e.Value.key)).Nodup ∧
    (mkeys lc.items).Nodup ∧
    lc.evictList.length = lc.items.length := by
  have hok : LruOK lc := hlc ▸ (LruOK.lruOK_new hsize).lruOK_run cs
  have hinv := hok.1
  refine ⟨?_, ?_, hinv.1, hinv.2.1, hinv.lruInv_keys_nodup, hinv.lruInv_length_eq.symm⟩
  · intro k h hg
    obtain ⟨e, hf, hk, hid, he⟩ := hinv.lruInv_resolve hg
    exact ⟨e, he, hf, hid, hk⟩
  · intro e he
    refine ⟨hinv.lruInv_mget_elem he, ?_⟩
    intro k hg
    obtain ⟨e2, hf, hk, hid, he2⟩ := hinv.lruInv_resolve hg
    have : e2 = e := List.inj_on_of_nodup_map hinv.1 he2 he hid
    rw [← hk, this]

/-- Witness for C20: an LRU cache of capacity 2 after three insertions. -/
theorem C20_lru_bijection_witness :
    ((1 : Int) ≤ 2) ∧
    ((newLruCache 2).run
        [⟨.Set 1 10, 0, fun l => l⟩, ⟨.Set 2 20, 0, fun l => l⟩,
          ⟨.Set 3 30, 0, fun l => l⟩]).evictList.length =
    ((newLruCache 2).run
        [⟨.Set 1 10, 0, fun l => l⟩, ⟨.Set 2 20, 0, fun l => l⟩,
          ⟨.Set 3 30, 0, fun l => l⟩]).items.length :=
  have h := C20_lru_bijection 2 (by decide)
    [⟨.Set 1 10, 0, fun l => l⟩, ⟨.Set 2 20, 0, fun l => l⟩, ⟨.Set 3 30, 0, fun l => l⟩]
    _ rfl
  ⟨by decide, h.2.2.2.2.2⟩


/-! ## C18: empty buckets of the LFU list -/

/-- C18 (empty LFU buckets are removed): the code departs from it.  `removeItem` deletes
the item from its bucket and never unlinks the bucket, whereas `increment` unlinks the
bucket it empties.  On an LFU cache of capacity 1, after `Set(1, 10)`, `Get(1)` and
`Del(1)` the store is empty and the list still holds a bucket of frequency 1 without
members; the same happens when the entry is removed because it is expired (`Get` after
`SetWithExpire`) and when it is evicted by the insertion of another key. -/
theorem C18_lfu_empty_bucket_left :
    ((newLfuCache 1).run
      [⟨.Set 1 10, 0, fun l => l⟩, ⟨.Get 1, 0, fun l => l⟩,
        ⟨.Del 1, 0, fun l => l⟩]).items = [] ∧
    ((newLfuCache 1).run
      [⟨.Set 1 10, 0, fun l => l⟩, ⟨.Get 1, 0, fun l => l⟩,
        ⟨.Del 1, 0, fun l => l⟩]).freqList
      = [⟨0, ⟨0, []⟩⟩, ⟨1, ⟨1, []⟩⟩] ∧
    ((newLfuCache 1).run
      [⟨.SetWithExpire 1 10 5, 0, fun l => l⟩, ⟨.Get 1, 0, fun l => l⟩,
        ⟨.Get 1, 9, fun l => l⟩]).freqList
      = [⟨0, ⟨0, []⟩⟩, ⟨1, ⟨1, []⟩⟩] ∧
    ((newLfuCache 1).run
      [⟨.Set 1 10, 0, fun l => l⟩, ⟨.Get 1, 0, fun l => l⟩,
        ⟨.Set 2 20, 0, fun l => l⟩]).freqList
      = [⟨0, ⟨0, [2]⟩⟩, ⟨1, ⟨1, []⟩⟩] := by
  refine ⟨by decide, by decide, by decide, by decide⟩

/-! ## C19: the statistics of an eviction -/

theorem LfuCache.lfu_evictRange_stats (count : Nat) (ks : List Nat) :
    ∀ (lf : LfuCache) (i : Nat), (lf.evictRange count ks i).1.stats = lf.stats := by
  induction ks with
  | nil => intro lf i; rfl
  | cons k ks ih =>
    intro lf i
    unfold LfuCache.evictRange
    by_cases hi : i ≥ count
    · rw [if_pos hi]
    · rw [if_neg hi]
      cases mget lf.items k with
      | none => exact ih lf i
      | some item => exact (ih (lf.removeItem item) (i + 1)).trans rfl

theorem LfuCache.lfu_evictFrom_stats (count : Nat) (ord : Order)
    (l : List (Element freqEntry)) :
    ∀ (lf : LfuCache) (i : Nat), (lf.evictFrom count ord l i).stats = lf.stats := by
  induction l with
  | nil => intro lf i; rfl
  | cons e rest ih =>
    intro lf i
    unfold LfuCache.evictFrom
    by_cases hi : i < count
    · rw [if_pos hi]
      simp only []
      split
      · exact LfuCache.lfu_evictRange_stats count _ lf i
      · exact (ih _ _).trans (LfuCache.lfu_evictRange_stats count _ lf i)
    · rw [if_neg hi]

/-- C19 (eviction accounting): the LFU policy departs from it.  `LfuCache.evict` never
changes the statistics, for any count and visiting order, so an insertion into a full LFU
cache raises `KeyCount()` by one and leaves `EvictCount()` as it was: with capacity 1,
after `Set(1, 10)` and `Set(2, 20)` only key 2 is stored, the key count is 2 and the
eviction count is 0.  The same calls on an LRU cache leave a key count of 1 and an
eviction count of 1. -/
theorem C19_lfu_evict_no_accounting :
    (∀ (lf : LfuCache) (count : Nat) (ord : Order), (lf.evict count ord).stats = lf.stats) ∧
    mkeys (((newLfuCache 1).Set 1 10 0 (fun l => l)).2.Set 2 20 0 (fun l => l)).2.items
      = [2] ∧
    (((newLfuCache 1).Set 1 10 0 (fun l => l)).2.Set 2 20 0 (fun l => l)).2.stats.KeyCount
      = 2 ∧
    (((newLfuCache 1).Set 1 10 0 (fun l => l)).2.Set 2 20 0 (fun l => l)).2.stats.EvictCount
      = 0 ∧
    mkeys (((newLruCache 1).Set 1 10 0).2.Set 2 20 0).2.items = [2] ∧
    (((newLruCache 1).Set 1 10 0).2.Set 2 20 0).2.stats.KeyCount = 1 ∧
    (((newLruCache 1).Set 1 10 0).2.Set 2 20 0).2.stats.EvictCount = 1 := by
  refine ⟨?_, by decide, by decide, by decide, by decide, by decide, by decide⟩
  intro lf count ord
  exact LfuCache.lfu_evictFrom_stats count ord lf.freqList lf 0


/-! ## C16: the access count of the LFU entries -/

theorem bucketFreq_lmodify (l : List (Element freqEntry)) (h g : Nat)
    (f : freqEntry → freqEntry) (hf : ∀ fe, (f fe).freq = fe.freq) :
    bucketFreq (lmodify l h f) g = bucketFreq l g := by
  unfold bucketFreq
  rw [lfind_lmodify]
  cases lfind l g with
  | none => rfl
  | some e =>
    by_cases he : e.id = h
    · simp [he, hf]
    · simp [he]

theorem bucketFreq_lRemove_ne (l : List (Element freqEntry)) {h g : Nat} (hne : g ≠ h) :
    bucketFreq (lRemove l h) g = bucketFreq l g := by
  unfold bucketFreq
  rw [lfind_lRemove_ne l hne]

theorem lfind_lInsertAfter_ne {α : Type} (l : List (Element α)) (new : Element α) (h : Nat)
    {g : Nat} (hg : new.id ≠ g) : lfind (lInsertAfter l new h) g = lfind l g := by
  induction l with
  | nil => rfl
  | cons a l ih =>
    by_cases ha : a.id = h
    · simp only [lInsertAfter, ha, if_true, lfind, hg, if_false]
    · simp only [lInsertAfter, ha, if_false, lfind, ih]

theorem lfind_lInsertAfter_new {α : Type} {l : List (Element α)} {new : Element α} {h : Nat}
    (hnew : new.id ∉ l.map Element.id) (hh : h ∈ l.map Element.id) :
    lfind (lInsertAfter l new h) new.id = some new := by
  induction l with
  | nil => simp at hh
  | cons a l ih =>
    simp only [List.map_cons, List.mem_cons, not_or] at hnew hh
    have hne : ¬ a.id = new.id := fun e => hnew.1 e.symm
    by_cases ha : a.id = h
    · simp only [lInsertAfter, ha, if_true, lfind]
      rw [← ha, if_neg hne]
    · simp only [lInsertAfter, ha, if_false, lfind, hne]
      rcases hh with hh | hh
      · exact absurd hh.symm ha
      · exact ih hnew.2 hh

theorem bucketFreq_lInsertAfter_ne (l : List (Element freqEntry)) (new : Element freqEntry)
    (h : Nat) {g : Nat} (hg : new.id ≠ g) :
    bucketFreq (lInsertAfter l new h) g = bucketFreq l g := by
  unfold bucketFreq
  rw [lfind_lInsertAfter_ne l new h hg]

theorem bucketFreq_lt {l : List (Element freqEntry)} {g n : Nat}
    (hlt : ∀ e ∈ l, e.id < n) (hg : g ∈ l.map Element.id) : g < n := by
  obtain ⟨e, he, rfl⟩ := List.mem_map.1 hg
  exact hlt e he


theorem bucketFreq_add (l : List (Element freqEntry)) (h key g : Nat) :
    bucketFreq (lmodify l h (fun fe => fe.add key)) g = bucketFreq l g :=
  bucketFreq_lmodify l h g (fun fe => fe.add key) (fun _ => rfl)

theorem bucketFreq_delete (l : List (Element freqEntry)) (h key g : Nat) :
    bucketFreq (lmodify l h (fun fe => fe.delete key)) g = bucketFreq l g :=
  bucketFreq_lmodify l h g (fun fe => fe.delete key) (fun _ => rfl)

/-- The buckets after `increment`: the item references a bucket whose frequency is one
more than that of its old bucket, and every other bucket that stays linked keeps its
frequency. -/
theorem LfuCache.lfu_increment_buckets {lf : LfuCache} (hinv : LfuInv lf) {k : Nat}
    {item : lfuItem} (hg : mget lf.items k = some item) :
    ∃ cur tid, cur ∈ lf.freqList ∧ cur.id = item.freqElement ∧ k ∈ cur.Value.items ∧
      (lf.increment item).items = mupd lf.items item.key { item with freqElement := tid } ∧
      bucketFreq (lf.increment item).freqList tid = some (cur.Value.freq + 1) ∧
      ∀ g, g ∈ lf.freqList.map Element.id →
        (g = cur.id → ¬ ((cur.Value.delete item.key).items.length = 0 ∧ cur.Value.freq ≠ 0)) →
        bucketFreq (lf.increment item).freqList g = bucketFreq lf.freqList g := by
  obtain ⟨hk, cur, hcur, hcid, hkc⟩ := hinv.lfuInv_mem_of_mget hg
  have hnd := hinv.2.2.1
  have hlt := hinv.2.2.2.1
  have hfind : lfind lf.freqList item.freqElement = some cur := by
    rw [← hcid]
    exact lfind_of_mem hnd hcur
  have hcl : cur.id ∈ (lmodify lf.freqList cur.id (fun fe => fe.delete item.key)).map
      Element.id := by
    rw [map_id_lmodify]
    exact List.mem_map_of_mem Element.id hcur
  have hnl : lf.nextId ∉ (lmodify lf.freqList cur.id (fun fe => fe.delete item.key)).map
      Element.id := by
    rw [map_id_lmodify]
    intro hm
    have := bucketFreq_lt hlt hm
    omega
  have hcn : cur.id ≠ lf.nextId := by
    have := hlt cur hcur
    omega
  have hfresh :
      bucketFreq (if (cur.Value.delete item.key).items.length = 0 ∧ cur.Value.freq ≠ 0 then
        lRemove (lmodify (lInsertAfter
          (lmodify lf.freqList cur.id (fun fe => fe.delete item.key))
          ⟨lf.nextId, { freq := cur.Value.freq + 1, items := [] }⟩ cur.id) lf.nextId
          (fun fe => fe.add item.key)) cur.id
      else lmodify (lInsertAfter
          (lmodify lf.freqList cur.id (fun fe => fe.delete item.key))
          ⟨lf.nextId, { freq := cur.Value.freq + 1, items := [] }⟩ cur.id) lf.nextId
          (fun fe => fe.add item.key)) lf.nextId = some (cur.Value.freq + 1) ∧
      ∀ g, g ∈ lf.freqList.map Element.id →
        (g = cur.id → ¬ ((cur.Value.delete item.key).items.length = 0 ∧ cur.Value.freq ≠ 0)) →
        bucketFreq (if (cur.Value.delete item.key).items.length = 0 ∧ cur.Value.freq ≠ 0 then
        lRemove (lmodify (lInsertAfter
          (lmodify lf.freqList cur.id (fun fe => fe.delete item.key))
          ⟨lf.nextId, { freq := cur.Value.freq + 1, items := [] }⟩ cur.id) lf.nextId
          (fun fe => fe.add item.key)) cur.id
      else lmodify (lInsertAfter
          (lmodify lf.freqList cur.id (fun fe => fe.delete item.key))
          ⟨lf.nextId, { freq := cur.Value.freq + 1, items := [] }⟩ cur.id) lf.nextId
          (fun fe => fe.add item.key)) g = bucketFreq lf.freqList g := by
    have h2 : bucketFreq (lmodify (lInsertAfter
          (lmodify lf.freqList cur.id (fun fe => fe.delete item.key))
          ⟨lf.nextId, { freq := cur.Value.freq + 1, items := [] }⟩ cur.id) lf.nextId
          (fun fe => fe.add item.key)) lf.nextId = some (cur.Value.freq + 1) := by
      rw [bucketFreq_add]
      unfold bucketFreq
      rw [@lfind_lInsertAfter_new _ _ ⟨lf.nextId, { freq := cur.Value.freq + 1, items := [] }⟩
        _ hnl hcl]
      rfl
    have h3 : ∀ g, g ∈ lf.freqList.map Element.id → bucketFreq (lmodify (lInsertAfter
          (lmodify lf.freqList cur.id (fun fe => fe.delete item.key))
          ⟨lf.nextId, { freq := cur.Value.freq + 1, items := [] }⟩ cur.id) lf.nextId
          (fun fe => fe.add item.key)) g = bucketFreq lf.freqList g := by
      intro g hgm
      have hgn : lf.nextId ≠ g := by
        have := bucketFreq_lt hlt hgm
        omega
      rw [bucketFreq_add, bucketFreq_lInsertAfter_ne _ ⟨lf.nextId, _⟩ _ hgn,
        bucketFreq_delete]
    by_cases hc : (cur.Value.delete item.key).items.length = 0 ∧ cur.Value.freq ≠ 0
    · rw [if_pos hc]
      refine ⟨?_, ?_⟩
      · rw [bucketFreq_lRemove_ne _ (Ne.symm hcn)]
        exact h2
      · intro g hgm hgc
        have hne : g ≠ cur.id := fun e => hgc e hc
        rw [bucketFreq_lRemove_ne _ hne]
        exact h3 g hgm
    · rw [if_neg hc]
      exact ⟨h2, fun g hgm _ => h3 g hgm⟩
  refine ⟨cur, ?_⟩
  unfold LfuCache.increment
  rw [hfind]
  simp only []
  cases hn : lNext (lmodify lf.freqList cur.id (fun fe => fe.delete item.key)) cur.id with
  | none =>
    simp only []
    exact ⟨lf.nextId, hcur, hcid, hkc, rfl, hfresh⟩
  | some nx =>
    simp only []
    by_cases hgt : nx.Value.freq > cur.Value.freq + 1
    · simp only [hgt, if_true]
      exact ⟨lf.nextId, hcur, hcid, hkc, rfl, hfresh⟩
    · simp only [hgt, if_false]
      have hnm := lNext_mem (by rw [map_id_lmodify]; exact hnd) hn
      have hf1 : lfind (lmodify lf.freqList cur.id (fun fe => fe.delete item.key)) cur.id
          = some ⟨cur.id, cur.Value.delete item.key⟩ := by
        rw [lfind_lmodify, hcid, hfind]
        simp [hcid]
      have hlt1 := lNext_freq_gt
        (by rw [map_freq_lmodify lf.freqList cur.id (fun fe => fe.delete item.key)
          (fun _ => rfl)]; exact hinv.2.2.2.2.1) hf1 hn
      have hlt2 : cur.Value.freq < nx.Value.freq := hlt1
      have hnxf : nx.Value.freq = cur.Value.freq + 1 := by omega
      have hnx1 : bucketFreq (lmodify lf.freqList cur.id (fun fe => fe.delete item.key)) nx.id
          = some nx.Value.freq := by
        unfold bucketFreq
        rw [lfind_of_mem (by rw [map_id_lmodify]; exact hnd) hnm.1]
        rfl
      have h3 : ∀ g, bucketFreq (lmodify (lmodify lf.freqList cur.id
          (fun fe => fe.delete item.key)) nx.id (fun fe => fe.add item.key)) g
          = bucketFreq lf.freqList g := by
        intro g
        rw [bucketFreq_add, bucketFreq_delete]
      refine ⟨nx.id, hcur, hcid, hkc, rfl, ?_, ?_⟩
      · by_cases hc : (cur.Value.delete item.key).items.length = 0 ∧ cur.Value.freq ≠ 0
        · rw [if_pos hc, bucketFreq_lRemove_ne _ hnm.2, h3, ← hnxf, ← hnx1,
            bucketFreq_delete]
        · rw [if_neg hc, h3, ← hnxf, ← hnx1, bucketFreq_delete]
      · intro g hgm hgc
        by_cases hc : (cur.Value.delete item.key).items.length = 0 ∧ cur.Value.freq ≠ 0
        · have hne : g ≠ cur.id := fun e => hgc e hc
          rw [if_pos hc, bucketFreq_lRemove_ne _ hne, h3]
        · rw [if_neg hc, h3]


theorem LfuCache.lfu_freq_stats (lf : LfuCache) (st : mycache.stats) (j : Nat) :
    LfuCache.freq { lf with stats := st } j = lf.freq j := rfl

theorem LfuCache.lfu_freq_none {lf : LfuCache} {k : Nat} (hg : mget lf.items k = none) :
    lf.freq k = none := by
  simp [LfuCache.freq, hg]

theorem LfuInv.lfuInv_freq_some {lf : LfuCache} (hinv : LfuInv lf) {k : Nat} {item : lfuItem}
    (hg : mget lf.items k = some item) :
    ∃ cur ∈ lf.freqList, cur.id = item.freqElement ∧ k ∈ cur.Value.items ∧
      lf.freq k = some cur.Value.freq := by
  obtain ⟨-, e, he, hid, hk⟩ := hinv.lfuInv_mem_of_mget hg
  refine ⟨e, he, hid, hk, ?_⟩
  unfold LfuCache.freq bucketFreq
  rw [hg, Option.some_bind, ← hid, lfind_of_mem hinv.2.2.1 he]
  rfl

theorem LfuInv.lfuInv_freq_stored {lf : LfuCache} (hinv : LfuInv lf) (k : Nat) :
    lf.freq k ≠ none ↔ mget lf.items k ≠ none := by
  cases hg : mget lf.items k with
  | none => simp [LfuCache.lfu_freq_none hg]
  | some item =>
    obtain ⟨cur, -, -, -, hf⟩ := hinv.lfuInv_freq_some hg
    simp [hf]

theorem LfuCache.lfu_freq_removeItem {lf : LfuCache} (hinv : LfuInv lf) {k : Nat}
    {item : lfuItem} (hg : mget lf.items k = some item) (j : Nat) :
    (lf.removeItem item).freq j = if j = k then none else lf.freq j := by
  have hk := (hinv.lfuInv_mem_of_mget hg).1
  unfold LfuCache.freq LfuCache.removeItem
  simp only [hk]
  by_cases hjk : j = k
  · rw [if_pos hjk, hjk, mget_mdel_self]
    rfl
  · rw [if_neg hjk, mget_mdel_ne _ hjk]
    cases mget lf.items j with
    | none => rfl
    | some it => simp only [Option.some_bind, bucketFreq_delete]

theorem LfuCache.lfu_freq_increment {lf : LfuCache} (hinv : LfuInv lf) {k : Nat}
    {item : lfuItem} (hg : mget lf.items k = some item) :
    ∃ f, lf.freq k = some f ∧ (lf.increment item).freq k = some (f + 1) ∧
      ∀ j, j ≠ k → (lf.increment item).freq j = lf.freq j := by
  obtain ⟨cur, tid, hcur, hcid, hkc, hitems, htid, hother⟩ :=
    LfuCache.lfu_increment_buckets hinv hg
  have hk := (hinv.lfuInv_mem_of_mget hg).1
  obtain ⟨cur2, hcur2, hcid2, -, hf⟩ := hinv.lfuInv_freq_some hg
  have hcc : cur2 = cur := hinv.lfuInv_bucket_unique hcur2 hcur (by rw [hcid2, hcid])
  subst hcc
  refine ⟨cur2.Value.freq, hf, ?_, ?_⟩
  · unfold LfuCache.freq
    rw [hitems, hk, mget_mupd, if_pos rfl, hg]
    exact htid
  · intro j hjk
    unfold LfuCache.freq
    rw [hitems, hk, mget_mupd, if_neg hjk]
    cases hgj : mget lf.items j with
    | none => rfl
    | some jitem =>
      simp only [Option.some_bind]
      obtain ⟨-, ej, hej, hejid, hjm⟩ := hinv.lfuInv_mem_of_mget hgj
      apply hother
      · rw [← hejid]
        exact List.mem_map_of_mem Element.id hej
      · intro hge hc
        have : ej = cur2 := hinv.lfuInv_bucket_unique hej hcur (by rw [hejid, hge])
        subst this
        have hmem : j ∈ (ej.Value.delete item.key).items := by
          unfold freqEntry.delete
          simp only [List.mem_filter, bne_iff_ne, ne_eq]
          exact ⟨hjm, by rw [hk]; exact hjk⟩
        have := List.length_pos_of_mem hmem
        omega


theorem LfuCache.lfu_Get_freq {lf : LfuCache} (hinv : LfuInv lf) (k : Nat) (now : Int) :
    (∀ v, (lf.Get k now).1 = .ok v →
      ∃ f, lf.freq k = some f ∧ (lf.Get k now).2.freq k = some (f + 1) ∧
        ∀ j, j ≠ k → (lf.Get k now).2.freq j = lf.freq j) ∧
    (∀ e, (lf.Get k now).1 = .error e →
      (lf.Get k now).2.freq k = none ∧
        ∀ j, j ≠ k → (lf.Get k now).2.freq j = lf.freq j) := by
  cases hg : mget lf.items k with
  | none =>
    rw [LfuCache.lfu_Get_none now hg]
    refine ⟨fun v h => (by cases h), fun e _ => ⟨?_, fun j _ => rfl⟩⟩
    rw [LfuCache.lfu_freq_stats]
    exact LfuCache.lfu_freq_none hg
  | some item =>
    cases hexp : IsExpired item.expireAt now with
    | true =>
      rw [LfuCache.lfu_Get_expired now hg hexp]
      refine ⟨fun v h => (by cases h), fun e _ => ⟨?_, fun j hj => ?_⟩⟩
      · rw [LfuCache.lfu_freq_stats, LfuCache.lfu_freq_removeItem hinv hg, if_pos rfl]
      · rw [LfuCache.lfu_freq_stats, LfuCache.lfu_freq_removeItem hinv hg, if_neg hj]
    | false =>
      rw [LfuCache.lfu_Get_hit now hg hexp]
      refine ⟨fun v _ => ?_, fun e h => by cases h⟩
      exact LfuCache.lfu_freq_increment hinv hg

theorem LfuCache.lfu_TTL_freq {lf : LfuCache} (hinv : LfuInv lf) (k : Nat) (now : Int) :
    ((lf.TTL k now).1.2 = none →
      ∃ f, lf.freq k = some f ∧ (lf.TTL k now).2.freq k = some (f + 1) ∧
        ∀ j, j ≠ k → (lf.TTL k now).2.freq j = lf.freq j) ∧
    (∀ e, (lf.TTL k now).1.2 = some e →
      (lf.TTL k now).2.freq k = none ∧
        ∀ j, j ≠ k → (lf.TTL k now).2.freq j = lf.freq j) := by
  cases hg : mget lf.items k with
  | none =>
    rw [LfuCache.lfu_TTL_none now hg]
    refine ⟨fun h => (by cases h), fun e _ => ⟨?_, fun j _ => rfl⟩⟩
    rw [LfuCache.lfu_freq_stats]
    exact LfuCache.lfu_freq_none hg
  | some item =>
    cases hexp : IsExpired item.expireAt now with
    | true =>
      rw [LfuCache.lfu_TTL_expired now hg hexp]
      refine ⟨fun h => (by cases h), fun e _ => ⟨?_, fun j hj => ?_⟩⟩
      · rw [LfuCache.lfu_freq_stats, LfuCache.lfu_freq_removeItem hinv hg, if_pos rfl]
      · rw [LfuCache.lfu_freq_stats, LfuCache.lfu_freq_removeItem hinv hg, if_neg hj]
    | false =>
      rw [LfuCache.lfu_TTL_hit now hg hexp]
      refine ⟨fun _ => ?_, fun e h => by cases h⟩
      exact LfuCache.lfu_freq_increment hinv hg

theorem LfuCache.lfu_evict_freq {lf : LfuCache} (hinv : LfuInv lf) {ord : Order}
    (hord : ord.ok) (j : Nat) :
    (lf.evict 1 ord).freq j = lf.freq j ∨ (lf.evict 1 ord).freq j = none := by
  rcases LfuCache.lfu_evict_spec hinv hord with h | ⟨_, _, _, kv, item, _, _, _, hgi, hev⟩
  · rw [h.1]
    exact Or.inl rfl
  · rw [hev, LfuCache.lfu_freq_removeItem hinv hgi]
    split
    · exact Or.inr rfl
    · exact Or.inl rfl

theorem LfuCache.lfu_set_freq {lf : LfuCache} (hok : LfuOK lf) (key value : Nat)
    (t now : Int) {ord : Order} (hord : ord.ok) :
    (mget lf.items key = none →
      (lf.set key value t now ord).2.freq key = some 0 ∧
      ∀ j, j ≠ key → (lf.set key value t now ord).2.freq j = lf.freq j ∨
        (lf.set key value t now ord).2.freq j = none) ∧
    (∀ item, mget lf.items key = some item →
      (lf.set key value t now ord).2.freqList = lf.freqList ∧
      mget (lf.set key value t now ord).2.items key
        = some ⟨RealClock.ExpireAt now t, item.key, value, item.freqElement⟩ ∧
      ∀ j, (lf.set key value t now ord).2.freq j = lf.freq j) := by
  constructor
  · intro hg
    have hlf1 : ∀ lf1 : LfuCache, LfuInv lf1 →
        (match lf1.freqList.head? with
          | none => ((none : Option Error), lf1)
          | some el =>
            (none, { lf1 with
              freqList := lmodify lf1.freqList el.id (fun fe => fe.add key),
              items := mset lf1.items key
                { key := key, value := value, expireAt := RealClock.ExpireAt now t,
                  freqElement := el.id },
              stats := lf1.stats.IncrKeyCount })).2.freq key = some 0 ∧
        ∀ j, j ≠ key → (match lf1.freqList.head? with
          | none => ((none : Option Error), lf1)
          | some el =>
            (none, { lf1 with
              freqList := lmodify lf1.freqList el.id (fun fe => fe.add key),
              items := mset lf1.items key
                { key := key, value := value, expireAt := RealClock.ExpireAt now t,
                  freqElement := el.id },
              stats := lf1.stats.IncrKeyCount })).2.freq j = lf1.freq j := by
      intro lf1 hinv1
      obtain ⟨el, rest, hhead, hz⟩ := hinv1.2.2.2.2.2.1
      rw [hhead]
      simp only [List.head?_cons]
      constructor
      · unfold LfuCache.freq
        simp only [mget_mset_self, Option.some_bind, bucketFreq_add]
        simp [bucketFreq, lfind, hz]
      · intro j hjk
        unfold LfuCache.freq
        simp only [mget_mset_ne _ _ hjk]
        cases mget lf1.items j with
        | none => rfl
        | some it =>
          simp only [Option.some_bind, bucketFreq_add]
          rw [hhead]
    unfold LfuCache.set
    simp only
    rw [hg]
    simp only
    by_cases hfull : (lf.items.length : Int) ≥ lf.size
    · simp only [hfull, if_true]
      refine ⟨(hlf1 _ (hok.lfuOK_evict hord).1).1, ?_⟩
      intro j hjk
      rw [(hlf1 _ (hok.lfuOK_evict hord).1).2 j hjk]
      exact LfuCache.lfu_evict_freq hok.1 hord j
    · simp only [hfull, if_false]
      exact ⟨(hlf1 _ hok.1).1, fun j hjk => Or.inl ((hlf1 _ hok.1).2 j hjk)⟩
  · intro item hg
    unfold LfuCache.set
    simp only
    rw [hg]
    refine ⟨rfl, ?_, ?_⟩
    · simp only [mget_mupd, if_true, hg, Option.map_some']
    · intro j
      unfold LfuCache.freq
      simp only [mget_mupd]
      by_cases hjk : j = key
      · simp [hjk, hg]
      · simp [hjk]


theorem counted_sub {lf lf2 : LfuCache} {acc : Nat → Nat} (h : Counted lf acc)
    (hs : ∀ j, lf2.freq j = lf.freq j ∨ lf2.freq j = none) : Counted lf2 acc := by
  intro k f hf
  rcases hs k with h1 | h1
  · rw [h1] at hf
    exact h k f hf
  · rw [h1] at hf
    cases hf

theorem counted_bump {lf lf2 : LfuCache} {acc : Nat → Nat} (h : Counted lf acc) {k f : Nat}
    (hk : lf.freq k = some f) (hk2 : lf2.freq k = some (f + 1))
    (hs : ∀ j, j ≠ k → lf2.freq j = lf.freq j) : Counted lf2 (bump acc k) := by
  intro j g hg
  unfold bump
  by_cases hjk : j = k
  · rw [if_pos hjk]
    rw [hjk, hk2] at hg
    cases hg
    rw [hjk, ← h k f hk]
  · rw [if_neg hjk]
    rw [hs j hjk] at hg
    exact h j g hg

theorem counted_reset {lf lf2 : LfuCache} {acc : Nat → Nat} (h : Counted lf acc) {k : Nat}
    (hk2 : lf2.freq k = some 0)
    (hs : ∀ j, j ≠ k → lf2.freq j = lf.freq j ∨ lf2.freq j = none) :
    Counted lf2 (reset acc k) := by
  intro j g hg
  unfold reset
  by_cases hjk : j = k
  · rw [if_pos hjk]
    rw [hjk, hk2] at hg
    cases hg
    rfl
  · rw [if_neg hjk]
    rcases hs j hjk with h1 | h1
    · rw [h1] at hg
      exact h j g hg
    · rw [h1] at hg
      cases hg

theorem counted_Get {lf : LfuCache} (hinv : LfuInv lf) {acc : Nat → Nat}
    (h : Counted lf acc) (k : Nat) (now : Int) :
    Counted (lf.Get k now).2
      (match (lf.Get k now).1 with
        | .error _ => acc
        | .ok _ => bump acc k) := by
  have hf := LfuCache.lfu_Get_freq hinv k now
  cases hr : (lf.Get k now).1 with
  | error e =>
    obtain ⟨h1, h2⟩ := hf.2 e hr
    apply counted_sub h
    intro j
    by_cases hjk : j = k
    · exact Or.inr (by rw [hjk]; exact h1)
    · exact Or.inl (h2 j hjk)
  | ok v =>
    obtain ⟨f, h1, h2, h3⟩ := hf.1 v hr
    exact counted_bump h h1 h2 h3

theorem counted_TTL {lf : LfuCache} (hinv : LfuInv lf) {acc : Nat → Nat}
    (h : Counted lf acc) (k : Nat) (now : Int) :
    Counted (lf.TTL k now).2
      (match (lf.TTL k now).1.2 with
        | some _ => acc
        | none => bump acc k) := by
  have hf := LfuCache.lfu_TTL_freq hinv k now
  cases hr : (lf.TTL k now).1.2 with
  | some e =>
    obtain ⟨h1, h2⟩ := hf.2 e hr
    apply counted_sub h
    intro j
    by_cases hjk : j = k
    · exact Or.inr (by rw [hjk]; exact h1)
    · exact Or.inl (h2 j hjk)
  | none =>
    obtain ⟨f, h1, h2, h3⟩ := hf.1 hr
    exact counted_bump h h1 h2 h3

theorem counted_set {lf : LfuCache} (hok : LfuOK lf) {acc : Nat → Nat}
    (h : Counted lf acc) (key value : Nat) (t now : Int) {ord : Order} (hord : ord.ok) :
    Counted (lf.set key value t now ord).2
      (if (mget lf.items key).isSome then acc else reset acc key) := by
  have hf := LfuCache.lfu_set_freq hok key value t now hord
  cases hg : mget lf.items key with
  | none =>
    obtain ⟨h1, h2⟩ := hf.1 hg
    simp only [Option.isSome_none, Bool.false_eq_true, if_false]
    exact counted_reset h h1 h2
  | some item =>
    obtain ⟨-, -, h3⟩ := hf.2 item hg
    simp only [Option.isSome_some, if_true]
    exact counted_sub h (fun j => Or.inl (h3 j))

theorem counted_foldGet {lf : LfuCache} (hok : LfuOK lf) {cnt : Nat → Nat}
    (h : Counted lf cnt) (now : Int) {γ : Type}
    (f : γ → Nat → Nat → γ) (ks : List Nat) (acc : γ) :
    Counted (ks.foldl
      (fun (acc : γ × LfuCache) k =>
        match acc.2.Get k now with
        | (.error _, lf1) => (acc.1, lf1)
        | (.ok v, lf1) => (f acc.1 k v, lf1))
      (acc, lf)).2 (lf.hitsGets now ks cnt) := by
  induction ks generalizing lf acc cnt with
  | nil => exact h
  | cons k ks ih =>
    simp only [List.foldl_cons, LfuCache.hitsGets]
    have h1 := counted_Get hok.1 h k now
    have hok1 := hok.lfuOK_Get k now
    cases hg : lf.Get k now with
    | mk r lf1 =>
      rw [hg] at h1 hok1
      cases r with
      | error e => exact ih hok1 h1 _
      | ok v => exact ih hok1 h1 _


theorem counted_step {lf : LfuCache} (hok : LfuOK lf) {acc : Nat → Nat}
    (h : Counted lf acc) (c : Call) (hc : c.ord.ok) :
    Counted (lf.step c) (lf.hitsStep c acc) := by
  unfold LfuCache.step LfuCache.hitsStep
  cases c.op with
  | Set key value => exact counted_set hok h key value 0 c.now hc
  | SetWithExpire key value t => exact counted_set hok h key value t c.now hc
  | Get key => exact counted_Get hok.1 h key c.now
  | TTL key => exact counted_TTL hok.1 h key c.now
  | Expire key t =>
    have h1 := counted_Get hok.1 h key c.now
    have hok1 := hok.lfuOK_Get key c.now
    have hf := LfuCache.lfu_Get_freq hok.1 key c.now
    simp only [LfuCache.Expire]
    cases hg : lf.Get key c.now with
    | mk r lf1 =>
      rw [hg] at h1 hok1 hf
      cases r with
      | error e => exact h1
      | ok v =>
        simp only
        obtain ⟨f, -, hk2, -⟩ := hf.1 v rfl
        have hst : mget lf1.items key ≠ none :=
          (hok1.1.lfuInv_freq_stored key).1 (by simp only [] at hk2; rw [hk2]; simp)
        cases hg1 : mget lf1.items key with
        | none => exact absurd hg1 hst
        | some item =>
          have h2 := counted_set hok1 h1 key v t c.now hc
          rw [hg1] at h2
          exact h2
  | Del key =>
    simp only [LfuCache.Del, LfuCache.remove]
    cases hg : mget lf.items key with
    | none => exact h
    | some item =>
      apply counted_sub h
      intro j
      simp only
      rw [LfuCache.lfu_freq_removeItem hok.1 hg]
      split
      · exact Or.inr rfl
      · exact Or.inl rfl
  | Clear =>
    intro k f hf
    simp [LfuCache.Clear, LfuCache.init, LfuCache.freq, mget] at hf
  | GetALL => exact counted_foldGet hok h c.now (fun m k v => mset m k v) _ _
  | Keys => exact counted_foldGet hok h c.now (fun ks k _ => ks ++ [k]) _ _
  | Len => exact counted_foldGet hok h c.now (fun ks k _ => ks ++ [k]) _ _

theorem counted_run {lf : LfuCache} (hok : LfuOK lf) {acc : Nat → Nat}
    (h : Counted lf acc) (cs : List Call) (hcs : CallsOk cs) :
    Counted (lf.run cs) (lf.hits cs acc) := by
  induction cs generalizing lf acc with
  | nil => exact h
  | cons c cs ih =>
    have hc := hcs c (List.mem_cons_self _ _)
    exact ih (hok.lfuOK_step c hc) (counted_step hok h c hc)
      (fun d hd => hcs d (List.mem_cons_of_mem _ hd))

/-- C16 (LFU access count). In an LFU cache built with `size ≥ 1`, after any sequence of
calls the frequency of the bucket referenced by a stored entry equals the number of
successful lookups of its key since the key was inserted (`hits`: the count starts at 0
when `Set`/`SetWithExpire` stores a key that is not stored, and grows by one with each
successful `Get` or `TTL`, those made by `Expire`, `GetALL`, `Keys` and `Len`
included).  Step by step: a key that is not stored is in a bucket of frequency 0 after
`Set`/`SetWithExpire`; a successful `Get` or `TTL` raises the frequency of its key by
exactly 1 and leaves the frequency of every other key as it was; `Set`/`SetWithExpire`
of a stored key changes the value and the expiration of its item, and neither the bucket
list, nor the bucket the item references, nor the frequency of any key. -/
theorem C16_lfu_access_count (size : Int) (hsize : 1 ≤ size) (cs : List Call)
    (hcs : CallsOk cs) (lf : LfuCache) (hlf : lf = (newLfuCache size).run cs) :
    (∀ k item, mget lf.items k = some item →
      lf.freq k = some ((newLfuCache size).hits cs (fun _ => 0) k)) ∧
    (∀ key value t now ord, Order.ok ord → mget lf.items key = none →
      (lf.SetWithExpire key value t now ord).2.freq key = some 0 ∧
      (lf.Set key value now ord).2.freq key = some 0) ∧
    (∀ k now v, (lf.Get k now).1 = .ok v →
      ∃ f, lf.freq k = some f ∧ (lf.Get k now).2.freq k = some (f + 1) ∧
        ∀ j, j ≠ k → (lf.Get k now).2.freq j = lf.freq j) ∧
    (∀ k now, (lf.TTL k now).1.2 = none →
      ∃ f, lf.freq k = some f ∧ (lf.TTL k now).2.freq k = some (f + 1) ∧
        ∀ j, j ≠ k → (lf.TTL k now).2.freq j = lf.freq j) ∧
    (∀ key value t now ord item, Order.ok ord → mget lf.items key = some item →
      (lf.SetWithExpire key value t now ord).2.freqList = lf.freqList ∧
      mget (lf.SetWithExpire key value t now ord).2.items key
        = some ⟨RealClock.ExpireAt now t, item.key, value, item.freqElement⟩ ∧
      (∀ j, (lf.SetWithExpire key value t now ord).2.freq j = lf.freq j) ∧
      (lf.Set key value now ord).2.freqList = lf.freqList ∧
      mget (lf.Set key value now ord).2.items key
        = some ⟨0, item.key, value, item.freqElement⟩ ∧
      (∀ j, (lf.Set key value now ord).2.freq j = lf.freq j)) := by
  have hok : LfuOK lf := hlf ▸ (LfuOK.lfuOK_new hsize).lfuOK_run cs hcs
  have hcnt : Counted lf ((newLfuCache size).hits cs (fun _ => 0)) := by
    rw [hlf]
    apply counted_run (LfuOK.lfuOK_new hsize) _ cs hcs
    intro k f hf
    simp [newLfuCache, LfuCache.init, LfuCache.freq, mget] at hf
  refine ⟨?_, ?_, ?_, ?_, ?_⟩
  · intro k item hg
    obtain ⟨cur, -, -, -, hf⟩ := hok.1.lfuInv_freq_some hg
    rw [hf, hcnt k _ hf]
  · intro key value t now ord hord hg
    exact ⟨((LfuCache.lfu_set_freq hok key value t now hord).1 hg).1,
      ((LfuCache.lfu_set_freq hok key value 0 now hord).1 hg).1⟩
  · intro k now v hr
    exact (LfuCache.lfu_Get_freq hok.1 k now).1 v hr
  · intro k now hr
    exact (LfuCache.lfu_TTL_freq hok.1 k now).1 hr
  · intro key value t now ord item hord hg
    obtain ⟨h1, h2, h3⟩ := (LfuCache.lfu_set_freq hok key value t now hord).2 item hg
    obtain ⟨h4, h5, h6⟩ := (LfuCache.lfu_set_freq hok key value 0 now hord).2 item hg
    exact ⟨h1, h2, h3, h4, h5, h6⟩

/-- Witness for C16: after two insertions and two lookups of key 1 in an LFU cache of
capacity 2, key 1 is in the bucket of frequency 2. -/
theorem C16_lfu_access_count_witness :
    ((1 : Int) ≤ 2) ∧
    ((newLfuCache 2).run
        [⟨.Set 1 10, 0, fun l => l⟩, ⟨.Set 2 20, 0, fun l => l⟩,
          ⟨.Get 1, 0, fun l => l⟩, ⟨.TTL 1, 0, fun l => l⟩]).freq 1 = some 2 :=
  have h := C16_lfu_access_count 2 (by decide)
    [⟨.Set 1 10, 0, fun l => l⟩, ⟨.Set 2 20, 0, fun l => l⟩, ⟨.Get 1, 0, fun l => l⟩,
      ⟨.TTL 1, 0, fun l => l⟩]
    (by
      intro c hc
      simp only [List.mem_cons, List.mem_singleton, List.not_mem_nil, or_false] at hc
      rcases hc with h | h | h | h <;> subst h <;> exact Order.ok_id)
    _ rfl
  ⟨by decide, (h.1 1 ⟨0, 1, 10, 2⟩ (by decide)).trans (by decide)⟩


/-! ## Properties kept by every operation

A property of the state that is kept by the primitive mutations of a policy is kept by
its operations. -/

theorem SimpleCache.simple_pres_removes {P : SimpleCache → Prop}
    (hr : ∀ sc k, P sc → P (sc.remove k).2) (ks : List Nat) :
    ∀ sc, P sc → P (ks.foldl (fun c key => (c.remove key).2) sc) := by
  induction ks with
  | nil => intro sc h; exact h
  | cons k ks ih => intro sc h; exact ih _ (hr sc k h)

theorem SimpleCache.simple_pres_evictLoop {P : SimpleCache → Prop}
    (he : ∀ sc, P sc → P { sc with stats := sc.stats.IncrEvictCount })
    (sc : SimpleCache) (items : List (Nat × simpleItem)) (count : Nat) (now : Int)
    (keys : List Nat) :
    ∀ (current : Nat) (st : mycache.stats) (deferred : List Nat),
      P { sc with stats := st } →
      P { sc with stats := (SimpleCache.evictLoop items count now keys current st deferred).1 } := by
  induction keys with
  | nil => intro current st deferred h; exact h
  | cons key rest ih =>
    intro current st deferred h
    unfold SimpleCache.evictLoop
    by_cases hc : current ≥ count
    · rw [if_pos hc]
      exact h
    · rw [if_neg hc]
      cases mget items key with
      | none => exact ih _ _ _ h
      | some item =>
        simp only
        by_cases hx : item.expireAt = 0 ∨ item.expireAt < now
        · rw [if_pos hx]
          exact ih _ _ _ (he _ h)
        · rw [if_neg hx]
          exact ih _ _ _ h

theorem SimpleCache.simple_pres_evict {P : SimpleCache → Prop}
    (hr : ∀ sc k, P sc → P (sc.remove k).2)
    (he : ∀ sc, P sc → P { sc with stats := sc.stats.IncrEvictCount })
    (sc : SimpleCache) (count : Nat) (now : Int) (ord : Order) (h : P sc) :
    P (sc.evict count now ord) := by
  unfold SimpleCache.evict
  apply SimpleCache.simple_pres_removes hr
  exact SimpleCache.simple_pres_evictLoop he sc sc.items count now _ 0 sc.stats [] h

theorem SimpleCache.simple_evict_mget_none (sc : SimpleCache) (count : Nat) (now : Int)
    (ord : Order) {key : Nat} (h : mget sc.items key = none) :
    mget (sc.evict count now ord).items key = none := by
  unfold SimpleCache.evict
  exact SimpleCache.simple_removes_mget_none _ h

theorem SimpleCache.simple_pres_set {P Q : SimpleCache → Prop}
    (hr : ∀ sc k, P sc → P (sc.remove k).2)
    (he : ∀ sc, P sc → P { sc with stats := sc.stats.IncrEvictCount })
    (hupd : ∀ sc key item item2, mget sc.items key = some item → P sc →
      Q { sc with items := mupd sc.items key item2 })
    (hins : ∀ sc key item, mget sc.items key = none → P sc →
      Q { sc with items := mset sc.items key item, stats := sc.stats.IncrKeyCount })
    (sc : SimpleCache) (key value : Nat) (t now : Int) (ord : Order) (h : P sc) :
    Q (sc.set key value t now ord).2 := by
  unfold SimpleCache.set
  cases hg : mget sc.items key with
  | some item => exact hupd sc key item _ hg h
  | none =>
    simp only
    by_cases hfull : (sc.items.length : Int) ≥ sc.size ∧ sc.size > 0
    · rw [if_pos hfull]
      exact hins _ key _ (sc.simple_evict_mget_none 1 now ord hg)
        (SimpleCache.simple_pres_evict hr he sc 1 now ord h)
    · rw [if_neg hfull]
      exact hins sc key _ hg h

theorem SimpleCache.simple_pres_getValue {P : SimpleCache → Prop}
    (hr : ∀ sc k, P sc → P (sc.remove k).2)
    (sc : SimpleCache) (key : Nat) (now : Int) (h : P sc) : P (sc.getValue key now).2 := by
  unfold SimpleCache.getValue
  split
  · split
    · exact h
    · exact hr sc key h
  · exact h

theorem SimpleCache.simple_pres_Get {P : SimpleCache → Prop}
    (hr : ∀ sc k, P sc → P (sc.remove k).2)
    (hh : ∀ sc, P sc → P { sc with stats := sc.stats.IncrHitCount })
    (hm : ∀ sc, P sc → P { sc with stats := sc.stats.IncrMissCount })
    (sc : SimpleCache) (key : Nat) (now : Int) (h : P sc) : P (sc.Get key now).2 := by
  have h1 := SimpleCache.simple_pres_getValue hr sc key now h
  unfold SimpleCache.Get
  cases hg : sc.getValue key now with
  | mk r sc1 =>
    rw [hg] at h1
    cases r with
    | error e => exact hm _ h1
    | ok v => exact hh _ h1

theorem SimpleCache.simple_pres_TTL {P : SimpleCache → Prop}
    (hr : ∀ sc k, P sc → P (sc.remove k).2)
    (hh : ∀ sc, P sc → P { sc with stats := sc.stats.IncrHitCount })
    (hm : ∀ sc, P sc → P { sc with stats := sc.stats.IncrMissCount })
    (sc : SimpleCache) (key : Nat) (now : Int) (h : P sc) : P (sc.TTL key now).2 := by
  unfold SimpleCache.TTL
  split
  · split
    · exact hh _ h
    · exact hm _ (hr sc key h)
  · exact hm _ h

theorem SimpleCache.simple_pres_foldGet {P : SimpleCache → Prop}
    (hr : ∀ sc k, P sc → P (sc.remove k).2)
    (hh : ∀ sc, P sc → P { sc with stats := sc.stats.IncrHitCount })
    (hm : ∀ sc, P sc → P { sc with stats := sc.stats.IncrMissCount })
    (now : Int) {γ : Type} (f : γ → Nat → Nat → γ) (ks : List Nat) :
    ∀ (sc : SimpleCache) (acc : γ), P sc →
    P (ks.foldl
      (fun (acc : γ × SimpleCache) k =>
        match acc.2.Get k now with
        | (.error _, sc1) => (acc.1, sc1)
        | (.ok v, sc1) => (f acc.1 k v, sc1))
      (acc, sc)).2 := by
  induction ks with
  | nil => intro sc acc h; exact h
  | cons k ks ih =>
    intro sc acc h
    simp only [List.foldl_cons]
    have h1 := SimpleCache.simple_pres_Get hr hh hm sc k now h
    cases hg : sc.Get k now with
    | mk r sc1 =>
      rw [hg] at h1
      cases r with
      | error e => exact ih _ _ h1
      | ok v => exact ih _ _ h1

theorem SimpleCache.simple_pres_foldGetValue {P : SimpleCache → Prop}
    (hr : ∀ sc k, P sc → P (sc.remove k).2)
    (now : Int) {γ : Type} (f : γ → Nat → Nat → γ) (ks : List Nat) :
    ∀ (sc : SimpleCache) (acc : γ), P sc →
    P (ks.foldl
      (fun (acc : γ × SimpleCache) k =>
        match acc.2.getValue k now with
        | (.error _, sc1) => (acc.1, sc1)
        | (.ok v, sc1) => (f acc.1 k v, sc1))
      (acc, sc)).2 := by
  induction ks with
  | nil => intro sc acc h; exact h
  | cons k ks ih =>
    intro sc acc h
    simp only [List.foldl_cons]
    have h1 := SimpleCache.simple_pres_getValue hr sc k now h
    cases hg : sc.getValue k now with
    | mk r sc1 =>
      rw [hg] at h1
      cases r with
      | error e => exact ih _ _ h1
      | ok v => exact ih _ _ h1

theorem SimpleCache.simple_pres_step {P Q : SimpleCache → Prop}
    (hr : ∀ sc k, P sc → P (sc.remove k).2)
    (hh : ∀ sc, P sc → P { sc with stats := sc.stats.IncrHitCount })
    (hm : ∀ sc, P sc → P { sc with stats := sc.stats.IncrMissCount })
    (he : ∀ sc, P sc → P { sc with stats := sc.stats.IncrEvictCount })
    (hupd : ∀ sc key item item2, mget sc.items key = some item → P sc →
      P { sc with items := mupd sc.items key item2 })
    (hins : ∀ sc key item, mget sc.items key = none → P sc →
      Q { sc with items := mset sc.items key item, stats := sc.stats.IncrKeyCount })
    (hclr : ∀ sc, P sc → P sc.init)
    (hPQ : ∀ sc, P sc → Q sc)
    (sc : SimpleCache) (c : Call) (h : P sc) : Q (sc.step c) := by
  have hset : ∀ (sc : SimpleCache) key value t, P sc → Q (sc.set key value t c.now c.ord).2 :=
    fun sc key value t h => SimpleCache.simple_pres_set hr he
      (fun sc key item item2 hg hp => hPQ _ (hupd sc key item item2 hg hp)) hins
      sc key value t c.now c.ord h
  unfold SimpleCache.step
  cases c.op with
  | Set key value => exact hset sc key value 0 h
  | SetWithExpire key value t => exact hset sc key value t h
  | Get key => exact hPQ _ (SimpleCache.simple_pres_Get hr hh hm sc key c.now h)
  | TTL key => exact hPQ _ (SimpleCache.simple_pres_TTL hr hh hm sc key c.now h)
  | Expire key t =>
    have h1 := SimpleCache.simple_pres_Get hr hh hm sc key c.now h
    simp only [SimpleCache.Expire]
    cases hg : sc.Get key c.now with
    | mk r sc1 =>
      rw [hg] at h1
      cases r with
      | error e => exact hPQ _ h1
      | ok v => exact hset sc1 key v t h1
  | Del key => exact hPQ _ (hr sc key h)
  | Clear => exact hPQ _ (hclr sc h)
  | GetALL =>
    exact hPQ _ (SimpleCache.simple_pres_foldGet hr hh hm c.now (fun m k v => mset m k v) _ _ _ h)
  | Keys =>
    exact hPQ _ (SimpleCache.simple_pres_foldGetValue hr c.now (fun ks k _ => ks ++ [k]) _ _ _ h)
  | Len =>
    exact hPQ _ (SimpleCache.simple_pres_foldGetValue hr c.now (fun ks k _ => ks ++ [k]) _ _ _ h)


theorem LruCache.lru_pres_evict {P : LruCache → Prop}
    (hr : ∀ lc e, e ∈ lc.evictList → P lc → P (lc.removeElement e))
    (lc : LruCache) (h : P lc) : P (lc.evict 1) := by
  rw [LruCache.lru_evict_one]
  split
  · exact h
  · rename_i ent hl
    exact hr lc ent (List.mem_of_getLast?_eq_some hl) h

theorem LruCache.lru_pres_set {P Q : LruCache → Prop}
    (hr : ∀ lc e, e ∈ lc.evictList → P lc → P (lc.removeElement e))
    (he : ∀ lc, P lc → P { lc with stats := lc.stats.IncrEvictCount })
    (hupd : ∀ lc key h value e, mget lc.items key = some h → P lc →
      Q { lc with
        evictList := lmodify (lMoveToFront lc.evictList h) h
          (fun item => { item with value := value, expireAt := e }) })
    (hins : ∀ lc key value e, mget lc.items key = none → P lc →
      Q { lc with
        evictList := ⟨lc.nextId, ⟨e, key, value⟩⟩ :: lc.evictList,
        items := mset lc.items key lc.nextId,
        nextId := lc.nextId + 1,
        stats := lc.stats.IncrKeyCount })
    (lc : LruCache) (key value : Nat) (t now : Int) (h : P lc) :
    Q (lc.set key value t now).2 := by
  unfold LruCache.set
  cases hg : mget lc.items key with
  | some hd => exact hupd lc key hd value _ hg h
  | none =>
    simp only
    by_cases hfull : (lc.evictList.length : Int) ≥ lc.size
    · rw [if_pos hfull]
      exact hins _ key value _ (LruCache.lru_evict_one_mget_none hg)
        (he _ (LruCache.lru_pres_evict hr lc h))
    · rw [if_neg hfull]
      exact hins lc key value _ hg h

theorem LruCache.lru_pres_getValue {P : LruCache → Prop}
    (hr : ∀ lc e, e ∈ lc.evictList → P lc → P (lc.removeElement e))
    (hmv : ∀ lc h, P lc → P { lc with evictList := lMoveToFront lc.evictList h })
    (lc : LruCache) (key : Nat) (now : Int) (h : P lc) : P (lc.getValue key now).2 := by
  unfold LruCache.getValue
  split
  · split
    · rename_i el hf
      split
      · exact hmv _ _ h
      · exact hr lc el (lfind_some hf).1 h
    · exact h
  · exact h

theorem LruCache.lru_pres_Get {P : LruCache → Prop}
    (hr : ∀ lc e, e ∈ lc.evictList → P lc → P (lc.removeElement e))
    (hmv : ∀ lc h, P lc → P { lc with evictList := lMoveToFront lc.evictList h })
    (hh : ∀ lc, P lc → P { lc with stats := lc.stats.IncrHitCount })
    (hm : ∀ lc, P lc → P { lc with stats := lc.stats.IncrMissCount })
    (lc : LruCache) (key : Nat) (now : Int) (h : P lc) : P (lc.Get key now).2 := by
  have h1 := LruCache.lru_pres_getValue hr hmv lc key now h
  unfold LruCache.Get
  cases hg : lc.getValue key now with
  | mk r lc1 =>
    rw [hg] at h1
    cases r with
    | error e => exact hm _ h1
    | ok v => exact hh _ h1

theorem LruCache.lru_pres_TTL {P : LruCache → Prop}
    (hr : ∀ lc e, e ∈ lc.evictList → P lc → P (lc.removeElement e))
    (hmv : ∀ lc h, P lc → P { lc with evictList := lMoveToFront lc.evictList h })
    (hh : ∀ lc, P lc → P { lc with stats := lc.stats.IncrHitCount })
    (hm : ∀ lc, P lc → P { lc with stats := lc.stats.IncrMissCount })
    (lc : LruCache) (key : Nat) (now : Int) (h : P lc) : P (lc.TTL key now).2 := by
  unfold LruCache.TTL
  split
  · split
    · rename_i el hf
      split
      · exact hh _ (hmv _ _ h)
      · exact hm _ (hr lc el (lfind_some hf).1 h)
    · exact hm _ h
  · exact hm _ h

theorem LruCache.lru_pres_remove {P : LruCache → Prop}
    (hr : ∀ lc e, e ∈ lc.evictList → P lc → P (lc.removeElement e))
    (lc : LruCache) (key : Nat) (h : P lc) : P (lc.remove key).2 := by
  unfold LruCache.remove
  split
  · split
    · rename_i el hf
      exact hr lc el (lfind_some hf).1 h
    · exact h
  · exact h

theorem LruCache.lru_pres_foldGet {P : LruCache → Prop}
    (hr : ∀ lc e, e ∈ lc.evictList → P lc → P (lc.removeElement e))
    (hmv : ∀ lc h, P lc → P { lc with evictList := lMoveToFront lc.evictList h })
    (hh : ∀ lc, P lc → P { lc with stats := lc.stats.IncrHitCount })
    (hm : ∀ lc, P lc → P { lc with stats := lc.stats.IncrMissCount })
    (now : Int) {γ : Type} (f : γ → Nat → Nat → γ) (ks : List Nat) :
    ∀ (lc : LruCache) (acc : γ), P lc →
    P (ks.foldl
      (fun (acc : γ × LruCache) k =>
        match acc.2.Get k now with
        | (.error _, lc1) => (acc.1, lc1)
        | (.ok v, lc1) => (f acc.1 k v, lc1))
      (acc, lc)).2 := by
  induction ks with
  | nil => intro lc acc h; exact h
  | cons k ks ih =>
    intro lc acc h
    simp only [List.foldl_cons]
    have h1 := LruCache.lru_pres_Get hr hmv hh hm lc k now h
    cases hg : lc.Get k now with
    | mk r lc1 =>
      rw [hg] at h1
      cases r with
      | error e => exact ih _ _ h1
      | ok v => exact ih _ _ h1

theorem LruCache.lru_pres_step {P Q : LruCache → Prop}
    (hr : ∀ lc e, e ∈ lc.evictList → P lc → P (lc.removeElement e))
    (hmv : ∀ lc h, P lc → P { lc with evictList := lMoveToFront lc.evictList h })
    (hh : ∀ lc, P lc → P { lc with stats := lc.stats.IncrHitCount })
    (hm : ∀ lc, P lc → P { lc with stats := lc.stats.IncrMissCount })
    (he : ∀ lc, P lc → P { lc with stats := lc.stats.IncrEvictCount })
    (hupd : ∀ lc key h value e, mget lc.items key = some h → P lc →
      P { lc with
        evictList := lmodify (lMoveToFront lc.evictList h) h
          (fun item => { item with value := value, expireAt := e }) })
    (hins : ∀ lc key value e, mget lc.items key = none → P lc →
      Q { lc with
        evictList := ⟨lc.nextId, ⟨e, key, value⟩⟩ :: lc.evictList,
        items := mset lc.items key lc.nextId,
        nextId := lc.nextId + 1,
        stats := lc.stats.IncrKeyCount })
    (hclr : ∀ lc, P lc → P lc.init)
    (hPQ : ∀ lc, P lc → Q lc)
    (lc : LruCache) (c : Call) (h : P lc) : Q (lc.step c) := by
  have hset : ∀ (lc : LruCache) key value t, P lc → Q (lc.set key value t c.now).2 :=
    fun lc key value t h => LruCache.lru_pres_set hr he
      (fun lc key hd value e hg hp => hPQ _ (hupd lc key hd value e hg hp)) hins
      lc key value t c.now h
  unfold LruCache.step
  cases c.op with
  | Set key value => exact hset lc key value 0 h
  | SetWithExpire key value t => exact hset lc key value t h
  | Get key => exact hPQ _ (LruCache.lru_pres_Get hr hmv hh hm lc key c.now h)
  | TTL key => exact hPQ _ (LruCache.lru_pres_TTL hr hmv hh hm lc key c.now h)
  | Expire key t =>
    have h1 := LruCache.lru_pres_Get hr hmv hh hm lc key c.now h
    simp only [LruCache.Expire]
    cases hg : lc.Get key c.now with
    | mk r lc1 =>
      rw [hg] at h1
      cases r with
      | error e => exact hPQ _ h1
      | ok v => exact hset lc1 key v t h1
  | Del key => exact hPQ _ (LruCache.lru_pres_remove hr lc key h)
  | Clear => exact hPQ _ (hclr lc h)
  | GetALL =>
    exact hPQ _ (LruCache.lru_pres_foldGet hr hmv hh hm c.now (fun m k v => mset m k v) _ _ _ h)
  | Keys =>
    exact hPQ _ (LruCache.lru_pres_foldGet hr hmv hh hm c.now (fun ks k _ => ks ++ [k]) _ _ _ h)
  | Len =>
    exact hPQ _ (LruCache.lru_pres_foldGet hr hmv hh hm c.now (fun ks k _ => ks ++ [k]) _ _ _ h)


theorem LfuCache.lfu_pres_evictRange {P : LfuCache → Prop}
    (hr : ∀ lf k item, mget lf.items k = some item → P lf → P (lf.removeItem item))
    (count : Nat) (ks : List Nat) :
    ∀ (lf : LfuCache) (i : Nat), P lf → P (lf.evictRange count ks i).1 := by
  induction ks with
  | nil => intro lf i h; exact h
  | cons k ks ih =>
    intro lf i h
    unfold LfuCache.evictRange
    by_cases hi : i ≥ count
    · rw [if_pos hi]
      exact h
    · rw [if_neg hi]
      cases hg : mget lf.items k with
      | none => exact ih lf i h
      | some item => exact ih _ _ (hr lf k item hg h)

theorem LfuCache.lfu_pres_evictFrom {P : LfuCache → Prop}
    (hr : ∀ lf k item, mget lf.items k = some item → P lf → P (lf.removeItem item))
    (count : Nat) (ord : Order) (l : List (Element freqEntry)) :
    ∀ (lf : LfuCache) (i : Nat), P lf → P (lf.evictFrom count ord l i) := by
  induction l with
  | nil => intro lf i h; exact h
  | cons e rest ih =>
    intro lf i h
    unfold LfuCache.evictFrom
    by_cases hi : i < count
    · rw [if_pos hi]
      simp only []
      split
      · exact LfuCache.lfu_pres_evictRange hr count _ lf i h
      · exact ih _ _ (LfuCache.lfu_pres_evictRange hr count _ lf i h)
    · rw [if_neg hi]
      exact h

theorem LfuCache.lfu_pres_evict {P : LfuCache → Prop}
    (hr : ∀ lf k item, mget lf.items k = some item → P lf → P (lf.removeItem item))
    (lf : LfuCache) (count : Nat) (ord : Order) (h : P lf) : P (lf.evict count ord) :=
  LfuCache.lfu_pres_evictFrom hr count ord lf.freqList lf 0 h

theorem LfuCache.lfu_removeItem_mget_none (lf : LfuCache) (item : lfuItem) {key : Nat}
    (h : mget lf.items key = none) : mget (lf.removeItem item).items key = none :=
  mget_mdel_of_none _ h

theorem LfuCache.lfu_pres_set {P Q : LfuCache → Prop}
    (hr : ∀ lf k item, mget lf.items k = some item → P lf → P (lf.removeItem item))
    (hupd : ∀ lf key item item2, mget lf.items key = some item → P lf →
      Q { lf with items := mupd lf.items key item2 })
    (hins : ∀ lf key item el, mget lf.items key = none → P lf →
      Q { lf with
        freqList := lmodify lf.freqList el (fun fe => fe.add key),
        items := mset lf.items key item,
        stats := lf.stats.IncrKeyCount })
    (hPQ : ∀ lf, P lf → Q lf)
    (lf : LfuCache) (key value : Nat) (t now : Int) (ord : Order) (h : P lf) :
    Q (lf.set key value t now ord).2 := by
  have hnone : ∀ lf1 : LfuCache, P lf1 ∧ mget lf1.items key = none →
      Q (match lf1.freqList.head? with
        | none => ((none : Option Error), lf1)
        | some el =>
          (none, { lf1 with
            freqList := lmodify lf1.freqList el.id (fun fe => fe.add key),
            items := mset lf1.items key
              { key := key, value := value, expireAt := RealClock.ExpireAt now t,
                freqElement := el.id },
            stats := lf1.stats.IncrKeyCount })).2 := by
    intro lf1 h1
    cases lf1.freqList.head? with
    | none => exact hPQ _ h1.1
    | some el => exact hins lf1 key _ el.id h1.2 h1.1
  unfold LfuCache.set
  simp only
  cases hg : mget lf.items key with
  | some item => exact hupd lf key item _ hg h
  | none =>
    simp only
    apply hnone
    by_cases hfull : (lf.items.length : Int) ≥ lf.size
    · rw [if_pos hfull]
      exact @LfuCache.lfu_pres_evict (fun x => P x ∧ mget x.items key = none)
        (fun x k item hgx hx => ⟨hr x k item hgx hx.1, x.lfu_removeItem_mget_none item hx.2⟩)
        lf 1 ord ⟨h, hg⟩
    · rw [if_neg hfull]
      exact ⟨h, hg⟩

theorem LfuCache.lfu_pres_getValue {P : LfuCache → Prop}
    (hr : ∀ lf k item, mget lf.items k = some item → P lf → P (lf.removeItem item))
    (hinc : ∀ lf k item, mget lf.items k = some item → P lf → P (lf.increment item))
    (lf : LfuCache) (key : Nat) (now : Int) (h : P lf) : P (lf.getValue key now).2 := by
  unfold LfuCache.getValue
  split
  · rename_i item hg
    split
    · exact hinc lf key item hg h
    · exact hr lf key item hg h
  · exact h

theorem LfuCache.lfu_pres_Get {P : LfuCache → Prop}
    (hr : ∀ lf k item, mget lf.items k = some item → P lf → P (lf.removeItem item))
    (hinc : ∀ lf k item, mget lf.items k = some item → P lf → P (lf.increment item))
    (hh : ∀ lf, P lf → P { lf with stats := lf.stats.IncrHitCount })
    (hm : ∀ lf, P lf → P { lf with stats := lf.stats.IncrMissCount })
    (lf : LfuCache) (key : Nat) (now : Int) (h : P lf) : P (lf.Get key now).2 := by
  have h1 := LfuCache.lfu_pres_getValue hr hinc lf key now h
  unfold LfuCache.Get
  cases hg : lf.getValue key now with
  | mk r lf1 =>
    rw [hg] at h1
    cases r with
    | error e => exact hm _ h1
    | ok v => exact hh _ h1

theorem LfuCache.lfu_pres_TTL {P : LfuCache → Prop}
    (hr : ∀ lf k item, mget lf.items k = some item → P lf → P (lf.removeItem item))
    (hinc : ∀ lf k item, mget lf.items k = some item → P lf → P (lf.increment item))
    (hh : ∀ lf, P lf → P { lf with stats := lf.stats.IncrHitCount })
    (hm : ∀ lf, P lf → P { lf with stats := lf.stats.IncrMissCount })
    (lf : LfuCache) (key : Nat) (now : Int) (h : P lf) : P (lf.TTL key now).2 := by
  unfold LfuCache.TTL
  split
  · rename_i item hg
    split
    · exact hinc _ key item hg (hh _ h)
    · exact hm _ (hr lf key item hg h)
  · exact hm _ h

theorem LfuCache.lfu_pres_remove {P : LfuCache → Prop}
    (hr : ∀ lf k item, mget lf.items k = some item → P lf → P (lf.removeItem item))
    (lf : LfuCache) (key : Nat) (h : P lf) : P (lf.remove key).2 := by
  unfold LfuCache.remove
  split
  · rename_i item hg
    exact hr lf key item hg h
  · exact h

theorem LfuCache.lfu_pres_foldGet {P : LfuCache → Prop}
    (hr : ∀ lf k item, mget lf.items k = some item → P lf → P (lf.removeItem item))
    (hinc : ∀ lf k item, mget lf.items k = some item → P lf → P (lf.increment item))
    (hh : ∀ lf, P lf → P { lf with stats := lf.stats.IncrHitCount })
    (hm : ∀ lf, P lf → P { lf with stats := lf.stats.IncrMissCount })
    (now : Int) {γ : Type} (f : γ → Nat → Nat → γ) (ks : List Nat) :
    ∀ (lf : LfuCache) (acc : γ), P lf →
    P (ks.foldl
      (fun (acc : γ × LfuCache) k =>
        match acc.2.Get k now with
        | (.error _, lf1) => (acc.1, lf1)
        | (.ok v, lf1) => (f acc.1 k v, lf1))
      (acc, lf)).2 := by
  induction ks with
  | nil => intro lf acc h; exact h
  | cons k ks ih =>
    intro lf acc h
    simp only [List.foldl_cons]
    have h1 := LfuCache.lfu_pres_Get hr hinc hh hm lf k now h
    cases hg : lf.Get k now with
    | mk r lf1 =>
      rw [hg] at h1
      cases r with
      | error e => exact ih _ _ h1
      | ok v => exact ih _ _ h1

theorem LfuCache.lfu_pres_step {P Q : LfuCache → Prop}
    (hr : ∀ lf k item, mget lf.items k = some item → P lf → P (lf.removeItem item))
    (hinc : ∀ lf k item, mget lf.items k = some item → P lf → P (lf.increment item))
    (hh : ∀ lf, P lf → P { lf with stats := lf.stats.IncrHitCount })
    (hm : ∀ lf, P lf → P { lf with stats := lf.stats.IncrMissCount })
    (hupd : ∀ lf key item item2, mget lf.items key = some item → P lf →
      P { lf with items := mupd lf.items key item2 })
    (hins : ∀ lf key item el, mget lf.items key = none → P lf →
      Q { lf with
        freqList := lmodify lf.freqList el (fun fe => fe.add key),
        items := mset lf.items key item,
        stats := lf.stats.IncrKeyCount })
    (hclr : ∀ lf, P lf → P lf.init)
    (hPQ : ∀ lf, P lf → Q lf)
    (lf : LfuCache) (c : Call) (h : P lf) : Q (lf.step c) := by
  have hset : ∀ (lf : LfuCache) key value t, P lf → Q (lf.set key value t c.now c.ord).2 :=
    fun lf key value t h => LfuCache.lfu_pres_set hr
      (fun lf key item item2 hg hp => hPQ _ (hupd lf key item item2 hg hp)) hins hPQ
      lf key value t c.now c.ord h
  unfold LfuCache.step
  cases c.op with
  | Set key value => exact hset lf key value 0 h
  | SetWithExpire key value t => exact hset lf key value t h
  | Get key => exact hPQ _ (LfuCache.lfu_pres_Get hr hinc hh hm lf key c.now h)
  | TTL key => exact hPQ _ (LfuCache.lfu_pres_TTL hr hinc hh hm lf key c.now h)
  | Expire key t =>
    have h1 := LfuCache.lfu_pres_Get hr hinc hh hm lf key c.now h
    simp only [LfuCache.Expire]
    cases hg : lf.Get key c.now with
    | mk r lf1 =>
      rw [hg] at h1
      cases r with
      | error e => exact hPQ _ h1
      | ok v => exact hset lf1 key v t h1
  | Del key => exact hPQ _ (LfuCache.lfu_pres_remove hr lf key h)
  | Clear => exact hPQ _ (hclr lf h)
  | GetALL =>
    exact hPQ _ (LfuCache.lfu_pres_foldGet hr hinc hh hm c.now (fun m k v => mset m k v) _ _ _ h)
  | Keys =>
    exact hPQ _ (LfuCache.lfu_pres_foldGet hr hinc hh hm c.now (fun ks k _ => ks ++ [k]) _ _ _ h)
  | Len =>
    exact hPQ _ (LfuCache.lfu_pres_foldGet hr hinc hh hm c.now (fun ks k _ => ks ++ [k]) _ _ _ h)


/-! ## C15: the builder -/

theorem SimpleCache.simple_run_size (sc : SimpleCache) (cs : List Call) :
    (sc.run cs).size = sc.size := by
  induction cs generalizing sc with
  | nil => rfl
  | cons c cs ih =>
    refine (ih (sc.step c)).trans ?_
    apply @SimpleCache.simple_pres_step (fun x => x.size = sc.size) (fun x => x.size = sc.size)
      ?_ ?_ ?_ ?_ ?_ ?_ ?_ ?_ sc c rfl
    · intro x k h
      unfold SimpleCache.remove
      split
      · exact h
      · exact h
    · exact fun x h => h
    · exact fun x h => h
    · exact fun x h => h
    · exact fun x key item item2 _ h => h
    · exact fun x key item _ h => h
    · exact fun x h => h
    · exact fun x h => h

theorem CacheBuilder.build_error (cb : CacheBuilder) :
    (∃ msg, cb.Build = .error msg) ↔
      (cb.tp ≠ TYPE_SIMPLE ∧ cb.tp ≠ TYPE_LRU ∧ cb.tp ≠ TYPE_LFU) ∨
      (cb.tp ≠ TYPE_SIMPLE ∧ cb.size ≤ 0) := by
  have h1 : TYPE_LRU ≠ TYPE_SIMPLE := by decide
  have h2 : TYPE_LFU ≠ TYPE_SIMPLE := by decide
  have h3 : TYPE_LFU ≠ TYPE_LRU := by decide
  unfold CacheBuilder.Build CacheBuilder.build
  by_cases hs : cb.tp = TYPE_SIMPLE
  · simp [hs]
  · by_cases hz : cb.size ≤ 0
    · simp [hs, hz]
    · by_cases hl : cb.tp = TYPE_LRU
      · simp [hz, hl, h1]
      · by_cases hf : cb.tp = TYPE_LFU
        · simp [hz, hf, h2, h3]
        · simp [hs, hz, hl, hf]

/-- C15 (builder validation). `New(size)` selects the simple policy; `Build()` panics if
and only if the selector is none of simple, lru, lfu, or the selector is not simple and
`size ≤ 0`; otherwise it returns the empty cache of the selected policy with the given
size; and in a Simple cache built with `size ≤ 0`, after any sequence of calls,
`Set`/`SetWithExpire` removes no entry: the map afterwards is the old map with the new
binding written, and `EvictCount()` is unchanged. -/
theorem C15_builder (size : Int) (cs : List Call) (sc : SimpleCache)
    (hsc : sc = (newSimpleCache size).run cs) :
    (New size).tp = TYPE_SIMPLE ∧ (New size).size = size ∧
    (∀ cb : CacheBuilder, (∃ msg, cb.Build = .error msg) ↔
      (cb.tp ≠ TYPE_SIMPLE ∧ cb.tp ≠ TYPE_LRU ∧ cb.tp ≠ TYPE_LFU) ∨
      (cb.tp ≠ TYPE_SIMPLE ∧ cb.size ≤ 0)) ∧
    (New size).Build = .ok (.simple (newSimpleCache size)) ∧
    (New size).Simple.Build = .ok (.simple (newSimpleCache size)) ∧
    (0 < size → (New size).LRU.Build = .ok (.lru (newLruCache size))) ∧
    (0 < size → (New size).LFU.Build = .ok (.lfu (newLfuCache size))) ∧
    (newSimpleCache size).items = [] ∧ (newSimpleCache size).size = size ∧
    (newLruCache size).items = [] ∧ (newLruCache size).evictList = [] ∧
    (newLruCache size).size = size ∧
    (newLfuCache size).items = [] ∧ (newLfuCache size).size = size ∧
    (size ≤ 0 → ∀ key value t now ord,
      (sc.SetWithExpire key value t now ord).2.items
        = mset sc.items key ⟨RealClock.ExpireAt now t, value⟩ ∧
      (sc.SetWithExpire key value t now ord).2.stats.EvictCount = sc.stats.EvictCount ∧
      (sc.Set key value now ord).2.items = mset sc.items key ⟨0, value⟩ ∧
      (sc.Set key value now ord).2.stats.EvictCount = sc.stats.EvictCount) := by
  have hsize : sc.size = size := by
    rw [hsc]
    exact SimpleCache.simple_run_size _ cs
  have hset : size ≤ 0 → ∀ key value t now ord,
      (sc.set key value t now ord).2.items
        = mset sc.items key ⟨RealClock.ExpireAt now t, value⟩ ∧
      (sc.set key value t now ord).2.stats.EvictCount = sc.stats.EvictCount := by
    intro hz key value t now ord
    have hno : ¬ ((sc.items.length : Int) ≥ sc.size ∧ sc.size > 0) := by
      rw [hsize]
      omega
    unfold SimpleCache.set
    cases hg : mget sc.items key with
    | some item =>
      simp only
      constructor
      · unfold mset
        rw [hg]
      · trivial
    | none =>
      simp only
      rw [if_neg hno]
      exact ⟨rfl, rfl⟩
  have t1 : TYPE_LRU ≠ TYPE_SIMPLE := by decide
  have t2 : TYPE_LFU ≠ TYPE_SIMPLE := by decide
  have t3 : TYPE_LFU ≠ TYPE_LRU := by decide
  refine ⟨rfl, rfl, CacheBuilder.build_error, ?_, ?_, ?_, ?_, rfl, rfl, rfl, rfl, rfl, rfl,
    rfl, ?_⟩
  · simp [CacheBuilder.Build, CacheBuilder.build, New]
  · simp [CacheBuilder.Build, CacheBuilder.build, CacheBuilder.Simple,
      CacheBuilder.EvictType, New]
  · intro h
    have h1 : ¬ size ≤ 0 := by omega
    simp [CacheBuilder.Build, CacheBuilder.build, CacheBuilder.LRU, CacheBuilder.EvictType,
      New, h1, t1]
  · intro h
    have h1 : ¬ size ≤ 0 := by omega
    simp [CacheBuilder.Build, CacheBuilder.build, CacheBuilder.LFU, CacheBuilder.EvictType,
      New, h1, t2, t3]
  · intro hz key value t now ord
    exact ⟨(hset hz key value t now ord).1, (hset hz key value t now ord).2,
      (hset hz key value 0 now ord).1, (hset hz key value 0 now ord).2⟩

/-- Witness for C15: a Simple cache built with size 0 keeps all three entries. -/
theorem C15_builder_witness :
    ((0 : Int) ≤ 0) ∧
    mkeys (((newSimpleCache 0).run
      [⟨.Set 1 10, 0, fun l => l⟩, ⟨.Set 2 20, 0, fun l => l⟩]).Set 3 30 0
        (fun l => l)).2.items = [3, 2, 1] :=
  have h := (C15_builder 0
    [⟨.Set 1 10, 0, fun l => l⟩, ⟨.Set 2 20, 0, fun l => l⟩] _ rfl).2.2.2.2.2.2.2.2.2.2.2.2.2.2
    (by decide) 3 30 0 0 (fun l => l)
  ⟨by decide, by rw [h.2.2.1]; decide⟩


/-! ## C21: the key count never underflows -/

theorem wrapUint64_of_lt {x : Nat} (h : x < 2 ^ 64) : wrapUint64 x = x :=
  Nat.mod_eq_of_lt h

theorem wrapUint64_decr {x : Nat} (h1 : 1 ≤ x) (h2 : x ≤ maxUint64) :
    wrapUint64 (maxUint64 + x) + 1 = x := by
  unfold wrapUint64
  have hm : maxUint64 + 1 = 2 ^ 64 := by decide
  have hx : maxUint64 + x = (x - 1) + 2 ^ 64 := by omega
  rw [hx, Nat.add_mod_right, Nat.mod_eq_of_lt (by omega)]
  omega

theorem keyCountOK_decr {n len : Nat} {st : mycache.stats} (hn : n ≤ maxUint64)
    (h : KeyCountOK n st (len + 1)) :
    KeyCountOK n st.DecrKeyCount len ∧ 1 ≤ st.keyCount ∧
      st.DecrKeyCount.keyCount + 1 = st.keyCount := by
  obtain ⟨h1, h2⟩ := h
  have hd : st.DecrKeyCount.keyCount + 1 = st.keyCount :=
    wrapUint64_decr (by omega) (by omega)
  refine ⟨⟨?_, ?_⟩, by omega, hd⟩
  · omega
  · omega

theorem keyCountOK_incr {n len : Nat} {st : mycache.stats} (hn : n < maxUint64)
    (h : KeyCountOK n st len) : KeyCountOK (n + 1) st.IncrKeyCount (len + 1) := by
  obtain ⟨h1, h2⟩ := h
  have hm : maxUint64 + 1 = 2 ^ 64 := by decide
  have hi : st.IncrKeyCount.keyCount = st.keyCount + 1 :=
    wrapUint64_of_lt (by omega)
  unfold KeyCountOK
  rw [hi]
  omega

theorem keyCountOK_mono {n m len len2 : Nat} {st : mycache.stats} (h : KeyCountOK n st len)
    (hl : len2 ≤ len) (hn : n ≤ m) : KeyCountOK m st len2 :=
  ⟨Nat.le_trans hl h.1, Nat.le_trans h.2 hn⟩

theorem length_mdel_lt {β : Type} {m : List (Nat × β)} {k : Nat} {v : β}
    (h : mget m k = some v) : (mdel m k).length + 1 ≤ m.length := by
  induction m with
  | nil => simp [mget] at h
  | cons p m ih =>
    obtain ⟨a, b⟩ := p
    by_cases ha : a = k
    · have := length_mdel_le m k
      simp only [mdel, List.filter_cons, ha, bne_self_eq_false, Bool.false_eq_true, if_false,
        List.length_cons]
      simp only [mdel] at this
      omega
    · simp only [mget, ha, if_false] at h
      have := ih h
      simp only [mdel, List.filter_cons, bne_iff_ne, ne_eq, ha, not_false_eq_true, if_true,
        List.length_cons]
      simp only [mdel] at this
      omega

theorem length_mset_le {β : Type} (m : List (Nat × β)) (k : Nat) (v : β) :
    (mset m k v).length ≤ m.length + 1 := by
  unfold mset
  split
  · rw [length_mupd]
    omega
  · simp


theorem SimpleCache.simple_keyCount_remove {n : Nat} (hn : n ≤ maxUint64) (sc : SimpleCache)
    (k : Nat) (h : KeyCountOK n sc.stats sc.items.length) :
    KeyCountOK n (sc.remove k).2.stats (sc.remove k).2.items.length ∧
    (mget sc.items k ≠ none →
      1 ≤ sc.stats.keyCount ∧ (sc.remove k).2.stats.keyCount + 1 = sc.stats.keyCount) := by
  unfold SimpleCache.remove
  cases hg : mget sc.items k with
  | none => exact ⟨h, fun hne => absurd rfl hne⟩
  | some item =>
    have hl := length_mdel_lt hg
    have hd := keyCountOK_decr hn (keyCountOK_mono h hl (Nat.le_refl n))
    exact ⟨hd.1, fun _ => hd.2⟩

theorem SimpleCache.simple_keyCount_step {n : Nat} (hn : n < maxUint64) (sc : SimpleCache)
    (c : Call) (h : KeyCountOK n sc.stats sc.items.length) :
    KeyCountOK (n + 1) (sc.step c).stats (sc.step c).items.length := by
  apply @SimpleCache.simple_pres_step
    (fun x => KeyCountOK n x.stats x.items.length)
    (fun x => KeyCountOK (n + 1) x.stats x.items.length) ?_ ?_ ?_ ?_ ?_ ?_ ?_ ?_ sc c h
  · exact fun x k hx => (x.simple_keyCount_remove (Nat.le_of_lt hn) k hx).1
  · exact fun x hx => hx
  · exact fun x hx => hx
  · exact fun x hx => hx
  · intro x key item item2 _ hx
    show KeyCountOK n x.stats (mupd x.items key item2).length
    rw [length_mupd]
    exact hx
  · intro x key item hg hx
    show KeyCountOK (n + 1) x.stats.IncrKeyCount (mset x.items key item).length
    rw [mset_of_none _ hg]
    exact keyCountOK_incr hn hx
  · intro x hx
    exact keyCountOK_mono hx (Nat.zero_le _) (Nat.le_refl n)
  · exact fun x hx => keyCountOK_mono hx (Nat.le_refl _) (Nat.le_succ n)

theorem SimpleCache.simple_keyCount_run (cs : List Call) :
    ∀ (n : Nat) (sc : SimpleCache), n + cs.length ≤ maxUint64 →
      KeyCountOK n sc.stats sc.items.length →
      KeyCountOK (n + cs.length) (sc.run cs).stats (sc.run cs).items.length := by
  induction cs with
  | nil => intro n sc _ h; exact h
  | cons c cs ih =>
    intro n sc hn h
    simp only [List.length_cons] at hn
    have h1 := sc.simple_keyCount_step (by omega) c h
    have h2 := ih (n + 1) (sc.step c) (by omega) h1
    have he : n + (c :: cs).length = n + 1 + cs.length := by
      simp only [List.length_cons]
      omega
    rw [he]
    exact h2

theorem LruInv.lruInv_init (lc : LruCache) : LruInv lc.init := by
  refine ⟨?_, ?_, ?_, ?_⟩ <;> simp [LruCache.init]

theorem LruCache.lru_keyCount_removeElement {n : Nat} (hn : n ≤ maxUint64) {lc : LruCache}
    {e : Element lruItem} (he : e ∈ lc.evictList)
    (h : LruInv lc ∧ KeyCountOK n lc.stats lc.items.length) :
    (LruInv (lc.removeElement e) ∧
      KeyCountOK n (lc.removeElement e).stats (lc.removeElement e).items.length) ∧
    1 ≤ lc.stats.keyCount ∧ (lc.removeElement e).stats.keyCount + 1 = lc.stats.keyCount := by
  have hl := length_mdel_lt (h.1.lruInv_mget_elem he)
  have hd := keyCountOK_decr hn (keyCountOK_mono h.2 hl (Nat.le_refl n))
  exact ⟨⟨h.1.lruInv_removeElement he, hd.1⟩, hd.2⟩

theorem LruCache.lru_keyCount_step {n : Nat} (hn : n < maxUint64) (lc : LruCache)
    (c : Call) (h : LruInv lc ∧ KeyCountOK n lc.stats lc.items.length) :
    LruInv (lc.step c) ∧ KeyCountOK (n + 1) (lc.step c).stats (lc.step c).items.length := by
  apply @LruCache.lru_pres_step
    (fun x => LruInv x ∧ KeyCountOK n x.stats x.items.length)
    (fun x => LruInv x ∧ KeyCountOK (n + 1) x.stats x.items.length)
    ?_ ?_ ?_ ?_ ?_ ?_ ?_ ?_ ?_ lc c h
  · exact fun x e he hx => (LruCache.lru_keyCount_removeElement (Nat.le_of_lt hn) he hx).1
  · exact fun x hd hx => ⟨hx.1.lruInv_moveToFront hd, hx.2⟩
  · exact fun x hx => hx
  · exact fun x hx => hx
  · exact fun x hx => hx
  · intro x key hd value e _ hx
    exact ⟨(hx.1.lruInv_moveToFront hd).lruInv_modify hd _ (fun _ => rfl), hx.2⟩
  · intro x key value e hg hx
    refine ⟨hx.1.lruInv_push ⟨e, key, value⟩ rfl hg _, ?_⟩
    show KeyCountOK (n + 1) x.stats.IncrKeyCount (mset x.items key x.nextId).length
    rw [mset_of_none _ hg]
    exact keyCountOK_incr hn hx.2
  · intro x hx
    exact ⟨LruInv.lruInv_init x, keyCountOK_mono hx.2 (Nat.zero_le _) (Nat.le_refl n)⟩
  · exact fun x hx => ⟨hx.1, keyCountOK_mono hx.2 (Nat.le_refl _) (Nat.le_succ n)⟩

theorem LruCache.lru_keyCount_run (cs : List Call) :
    ∀ (n : Nat) (lc : LruCache), n + cs.length ≤ maxUint64 →
      LruInv lc ∧ KeyCountOK n lc.stats lc.items.length →
      LruInv (lc.run cs) ∧
        KeyCountOK (n + cs.length) (lc.run cs).stats (lc.run cs).items.length := by
  induction cs with
  | nil => intro n lc _ h; exact h
  | cons c cs ih =>
    intro n lc hn h
    simp only [List.length_cons] at hn
    have h1 := lc.lru_keyCount_step (by omega) c h
    have h2 := ih (n + 1) (lc.step c) (by omega) h1
    have he : n + (c :: cs).length = n + 1 + cs.length := by
      simp only [List.length_cons]
      omega
    rw [he]
    exact h2

theorem LfuCache.lfu_keyCount_step {n : Nat} (hn : n < maxUint64) (lf : LfuCache)
    (c : Call) (h : KeyCountOK n lf.stats lf.items.length) :
    KeyCountOK (n + 1) (lf.step c).stats (lf.step c).items.length := by
  apply @LfuCache.lfu_pres_step
    (fun x => KeyCountOK n x.stats x.items.length)
    (fun x => KeyCountOK (n + 1) x.stats x.items.length) ?_ ?_ ?_ ?_ ?_ ?_ ?_ ?_ lf c h
  · intro x k item _ hx
    exact keyCountOK_mono hx (length_mdel_le _ _) (Nat.le_refl n)
  · intro x k item _ hx
    obtain ⟨-, hs, hitems⟩ := x.lfu_increment_fields item
    show KeyCountOK n (x.increment item).stats (x.increment item).items.length
    rw [hs]
    rcases hitems with hi | ⟨tid, hi⟩
    · rw [hi]
      exact hx
    · rw [hi, length_mupd]
      exact hx
  · exact fun x hx => hx
  · exact fun x hx => hx
  · intro x key item item2 _ hx
    show KeyCountOK n x.stats (mupd x.items key item2).length
    rw [length_mupd]
    exact hx
  · intro x key item el hg hx
    show KeyCountOK (n + 1) x.stats.IncrKeyCount (mset x.items key item).length
    rw [mset_of_none _ hg]
    exact keyCountOK_incr hn hx
  · intro x hx
    exact keyCountOK_mono hx (Nat.zero_le _) (Nat.le_refl n)
  · exact fun x hx => keyCountOK_mono hx (Nat.le_refl _) (Nat.le_succ n)

theorem LfuCache.lfu_keyCount_run (cs : List Call) :
    ∀ (n : Nat) (lf : LfuCache), n + cs.length ≤ maxUint64 →
      KeyCountOK n lf.stats lf.items.length →
      KeyCountOK (n + cs.length) (lf.run cs).stats (lf.run cs).items.length := by
  induction cs with
  | nil => intro n lf _ h; exact h
  | cons c cs ih =>
    intro n lf hn h
    simp only [List.length_cons] at hn
    have h1 := lf.lfu_keyCount_step (by omega) c h
    have h2 := ih (n + 1) (lf.step c) (by omega) h1
    have he : n + (c :: cs).length = n + 1 + cs.length := by
      simp only [List.length_cons]
      omega
    rw [he]
    exact h2


theorem LruInv.lruInv_new (size : Int) : LruInv (newLruCache size) := by
  refine ⟨?_, ?_, ?_, ?_⟩ <;> simp [newLruCache]

/-- C21 (the key count never underflows). For each policy, after any sequence of fewer
than `2^64` calls on a freshly built cache, `KeyCount()` is at least the number of
stored entries.  `DecrKeyCount` is executed by `SimpleCache.remove` for a stored key and
by `LruCache.removeElement` for a linked element only (the LFU policy never executes
it): in every state in which the key count is at least the number of stored entries,
such a removal finds a key count of at least 1, lowers it by exactly one without
wrapping around, and leaves it at least the number of stored entries. -/
theorem C21_key_count_no_underflow (size : Int) (cs : List Call) (hlen : cs.length < 2 ^ 64)
    (sc : SimpleCache) (lc : LruCache) (lf : LfuCache)
    (hsc : sc = (newSimpleCache size).run cs) (hlc : lc = (newLruCache size).run cs)
    (hlf : lf = (newLfuCache size).run cs) :
    sc.items.length ≤ sc.stats.KeyCount ∧
    lc.items.length ≤ lc.stats.KeyCount ∧
    lf.items.length ≤ lf.stats.KeyCount ∧
    (∀ (x : SimpleCache) (k : Nat), x.items.length ≤ x.stats.KeyCount →
      x.stats.KeyCount ≤ maxUint64 → mget x.items k ≠ none →
      1 ≤ x.stats.KeyCount ∧ (x.remove k).2.stats.KeyCount + 1 = x.stats.KeyCount ∧
      (x.remove k).2.items.length ≤ (x.remove k).2.stats.KeyCount) ∧
    (∀ (x : LruCache) (e : Element lruItem), LruInv x → e ∈ x.evictList →
      x.items.length ≤ x.stats.KeyCount → x.stats.KeyCount ≤ maxUint64 →
      1 ≤ x.stats.KeyCount ∧ (x.removeElement e).stats.KeyCount + 1 = x.stats.KeyCount ∧
      (x.removeElement e).items.length ≤ (x.removeElement e).stats.KeyCount) ∧
    LruInv lc := by
  have hm : maxUint64 + 1 = 2 ^ 64 := by decide
  have hn : 0 + cs.length ≤ maxUint64 := by omega
  have h1 := SimpleCache.simple_keyCount_run cs 0 (newSimpleCache size) hn
    ⟨Nat.le_refl 0, Nat.le_refl 0⟩
  have h2 := LruCache.lru_keyCount_run cs 0 (newLruCache size) hn
    ⟨LruInv.lruInv_new size, Nat.le_refl 0, Nat.le_refl 0⟩
  have h3 := LfuCache.lfu_keyCount_run cs 0 (newLfuCache size) hn
    ⟨Nat.le_refl 0, Nat.le_refl 0⟩
  rw [← hsc] at h1
  rw [← hlc] at h2
  rw [← hlf] at h3
  refine ⟨h1.1, h2.2.1, h3.1, ?_, ?_, h2.1⟩
  · intro x k hx hmax hg
    have h := x.simple_keyCount_remove hmax k ⟨hx, Nat.le_refl _⟩
    exact ⟨(h.2 hg).1, (h.2 hg).2, h.1.1⟩
  · intro x e hinv he hx hmax
    have h := LruCache.lru_keyCount_removeElement hmax he ⟨hinv, hx, Nat.le_refl _⟩
    exact ⟨h.2.1, h.2.2, h.1.2.1⟩

/-- Witness for C21: insertions, an eviction and a `Clear` on caches of capacity 1. -/
theorem C21_key_count_no_underflow_witness :
    ((newLruCache 1).run
        [⟨.Set 1 10, 0, fun l => l⟩, ⟨.Set 2 20, 0, fun l => l⟩, ⟨.Clear, 0, fun l => l⟩,
          ⟨.Set 3 30, 0, fun l => l⟩]).items.length ≤
    ((newLruCache 1).run
        [⟨.Set 1 10, 0, fun l => l⟩, ⟨.Set 2 20, 0, fun l => l⟩, ⟨.Clear, 0, fun l => l⟩,
          ⟨.Set 3 30, 0, fun l => l⟩]).stats.KeyCount :=
  (C21_key_count_no_underflow 1
    [⟨.Set 1 10, 0, fun l => l⟩, ⟨.Set 2 20, 0, fun l => l⟩, ⟨.Clear, 0, fun l => l⟩,
      ⟨.Set 3 30, 0, fun l => l⟩] (by decide) _ _ _ rfl rfl rfl).2.1


/-! ## C14: the counters of hits and misses -/

theorem looksAdd_refl (a : mycache.stats) : LooksAdd a a 0 0 := ⟨rfl, rfl⟩

theorem looksAdd_trans {a b c : mycache.stats} {h1 m1 h2 m2 : Nat} (hab : LooksAdd a b h1 m1)
    (hbc : LooksAdd b c h2 m2) : LooksAdd a c (h1 + h2) (m1 + m2) := by
  unfold LooksAdd at *
  omega

theorem looksAdd_hit {a b : mycache.stats} (hab : LooksAdd a b 0 0)
    (h : a.HitCount + 1 < 2 ^ 64) : LooksAdd a b.IncrHitCount 1 0 := by
  have h1 : b.IncrHitCount.HitCount = b.HitCount + 1 :=
    wrapUint64_of_lt (by rw [show b.hitCount = b.HitCount from rfl, hab.1]; exact h)
  have h2 : b.IncrHitCount.MissCount = b.MissCount := rfl
  unfold LooksAdd at *
  omega

theorem looksAdd_miss {a b : mycache.stats} (hab : LooksAdd a b 0 0)
    (h : a.MissCount + 1 < 2 ^ 64) : LooksAdd a b.IncrMissCount 0 1 := by
  have h1 : b.IncrMissCount.MissCount = b.MissCount + 1 :=
    wrapUint64_of_lt (by rw [show b.missCount = b.MissCount from rfl, hab.2]; exact h)
  have h2 : b.IncrMissCount.HitCount = b.HitCount := rfl
  unfold LooksAdd at *
  omega

theorem getsLookups_fold {σ γ : Type} (get : σ → Nat → Except Error Nat × σ)
    (st : σ → mycache.stats)
    (hget : ∀ x k,
      (∀ v, (get x k).1 = .ok v → (st x).HitCount + 1 < 2 ^ 64 →
        LooksAdd (st x) (st (get x k).2) 1 0) ∧
      (∀ e, (get x k).1 = .error e → (st x).MissCount + 1 < 2 ^ 64 →
        LooksAdd (st x) (st (get x k).2) 0 1))
    (g : γ × σ → Nat → γ × σ) (hg : ∀ acc k, (g acc k).2 = (get acc.2 k).2)
    (ks : List Nat) :
    ∀ (x : σ) (acc : γ), (st x).HitCount + (getsLookups get x ks).1 < 2 ^ 64 →
      (st x).MissCount + (getsLookups get x ks).2 < 2 ^ 64 →
      LooksAdd (st x) (st (ks.foldl g (acc, x)).2)
        (getsLookups get x ks).1 (getsLookups get x ks).2 := by
  induction ks with
  | nil => intro x acc _ _; exact looksAdd_refl _
  | cons k ks ih =>
    intro x acc hh hm
    have hg1 := hget x k
    have hg2 := hg (acc, x) k
    simp only [List.foldl_cons, getsLookups] at hh hm ⊢
    cases hgk : g (acc, x) k with
    | mk acc1 y =>
      rw [hgk] at hg2
      simp only at hg2
      cases hgx : get x k with
      | mk r x1 =>
        rw [hgx] at hg1 hh hm hg2
        simp only at hg2
        subst hg2
        cases r with
        | error e =>
          simp only at hh hm ⊢
          have h1 := hg1.2 e rfl (by omega)
          have h2 := ih y acc1 (by rw [h1.1]; omega) (by rw [h1.2]; omega)
          have h3 := looksAdd_trans h1 h2
          unfold LooksAdd at h3 ⊢
          omega
        | ok v =>
          simp only at hh hm ⊢
          have h1 := hg1.1 v rfl (by omega)
          have h2 := ih y acc1 (by rw [h1.1]; omega) (by rw [h1.2]; omega)
          have h3 := looksAdd_trans h1 h2
          unfold LooksAdd at h3 ⊢
          omega

theorem lookupLog_run {σ : Type} (step : σ → Call → σ) (look : σ → Call → Nat × Nat)
    (st : σ → mycache.stats)
    (hstep : ∀ x c, (st x).HitCount + (look x c).1 < 2 ^ 64 →
      (st x).MissCount + (look x c).2 < 2 ^ 64 →
      LooksAdd (st x) (st (step x c)) (look x c).1 (look x c).2)
    (cs : List Call) :
    ∀ x, (st x).HitCount + (lookupLog step look x cs).1 < 2 ^ 64 →
      (st x).MissCount + (lookupLog step look x cs).2 < 2 ^ 64 →
      LooksAdd (st x) (st (cs.foldl step x))
        (lookupLog step look x cs).1 (lookupLog step look x cs).2 := by
  induction cs with
  | nil => intro x _ _; exact looksAdd_refl _
  | cons c cs ih =>
    intro x hh hm
    simp only [List.foldl_cons, lookupLog] at hh hm ⊢
    have h1 := hstep x c (by omega) (by omega)
    have h2 := ih (step x c) (by rw [h1.1]; omega) (by rw [h1.2]; omega)
    exact looksAdd_trans h1 h2


theorem SimpleCache.simple_looks_remove (a : mycache.stats) (sc : SimpleCache) (k : Nat)
    (h : LooksAdd a sc.stats 0 0) : LooksAdd a (sc.remove k).2.stats 0 0 := by
  unfold SimpleCache.remove
  split
  · exact h
  · exact h

theorem SimpleCache.simple_looks_Get (sc : SimpleCache) (k : Nat) (now : Int) :
    (∀ v, (sc.Get k now).1 = .ok v → sc.stats.HitCount + 1 < 2 ^ 64 →
      LooksAdd sc.stats (sc.Get k now).2.stats 1 0) ∧
    (∀ e, (sc.Get k now).1 = .error e → sc.stats.MissCount + 1 < 2 ^ 64 →
      LooksAdd sc.stats (sc.Get k now).2.stats 0 1) := by
  have h1 := @SimpleCache.simple_pres_getValue (fun x => LooksAdd sc.stats x.stats 0 0)
    (fun x j hx => x.simple_looks_remove sc.stats j hx) sc k now (looksAdd_refl _)
  unfold SimpleCache.Get
  cases hg : sc.getValue k now with
  | mk r sc1 =>
    rw [hg] at h1
    cases r with
    | error e => exact ⟨fun v h => (by cases h), fun _ _ hlt => looksAdd_miss h1 hlt⟩
    | ok v => exact ⟨fun _ _ hlt => looksAdd_hit h1 hlt, fun e h => (by cases h)⟩

theorem SimpleCache.simple_looks_TTL (sc : SimpleCache) (k : Nat) (now : Int) :
    ((sc.TTL k now).1.2 = none → sc.stats.HitCount + 1 < 2 ^ 64 →
      LooksAdd sc.stats (sc.TTL k now).2.stats 1 0) ∧
    (∀ e, (sc.TTL k now).1.2 = some e → sc.stats.MissCount + 1 < 2 ^ 64 →
      LooksAdd sc.stats (sc.TTL k now).2.stats 0 1) := by
  unfold SimpleCache.TTL
  split
  · split
    · exact ⟨fun _ hlt => looksAdd_hit (looksAdd_refl _) hlt, fun e h => (by cases h)⟩
    · exact ⟨fun h => (by cases h), fun _ _ hlt =>
        looksAdd_miss (sc.simple_looks_remove sc.stats k (looksAdd_refl _)) hlt⟩
  · exact ⟨fun h => (by cases h), fun _ _ hlt => looksAdd_miss (looksAdd_refl _) hlt⟩

theorem SimpleCache.simple_looks_set (sc : SimpleCache) (key value : Nat) (t now : Int)
    (ord : Order) : LooksAdd sc.stats (sc.set key value t now ord).2.stats 0 0 :=
  @SimpleCache.simple_pres_set (fun x => LooksAdd sc.stats x.stats 0 0)
    (fun x => LooksAdd sc.stats x.stats 0 0)
    (fun x j hx => x.simple_looks_remove sc.stats j hx) (fun _ hx => hx)
    (fun _ _ _ _ _ hx => hx) (fun _ _ _ _ hx => hx) sc key value t now ord (looksAdd_refl _)

theorem SimpleCache.simple_looks_step (sc : SimpleCache) (c : Call)
    (hh : sc.stats.HitCount + (sc.lookups c).1 < 2 ^ 64)
    (hm : sc.stats.MissCount + (sc.lookups c).2 < 2 ^ 64) :
    LooksAdd sc.stats (sc.step c).stats (sc.lookups c).1 (sc.lookups c).2 := by
  obtain ⟨op, now, ord⟩ := c
  cases op with
  | Set key value => exact sc.simple_looks_set key value 0 now ord
  | SetWithExpire key value t => exact sc.simple_looks_set key value t now ord
  | Get key =>
    have h := sc.simple_looks_Get key now
    simp only [SimpleCache.lookups, SimpleCache.step] at hh hm ⊢
    cases hr : (sc.Get key now).1 with
    | error e =>
      rw [hr] at hm
      exact h.2 e hr hm
    | ok v =>
      rw [hr] at hh
      exact h.1 v hr hh
  | TTL key =>
    have h := sc.simple_looks_TTL key now
    simp only [SimpleCache.lookups, SimpleCache.step] at hh hm ⊢
    cases hr : (sc.TTL key now).1.2 with
    | some e =>
      rw [hr] at hm
      exact h.2 e hr hm
    | none =>
      rw [hr] at hh
      exact h.1 hr hh
  | Expire key t =>
    have h := sc.simple_looks_Get key now
    simp only [SimpleCache.lookups, SimpleCache.step, SimpleCache.Expire] at hh hm ⊢
    cases hg : sc.Get key now with
    | mk r sc1 =>
      rw [hg] at h hh hm
      cases r with
      | error e => exact h.2 e rfl hm
      | ok v =>
        exact looksAdd_trans (h.1 v rfl hh) (sc1.simple_looks_set key v t now ord)
  | Del key => exact sc.simple_looks_remove sc.stats key (looksAdd_refl _)
  | Clear => exact looksAdd_refl _
  | GetALL =>
    simp only [SimpleCache.lookups] at hh hm ⊢
    simp only [SimpleCache.step, SimpleCache.GetALL]
    apply getsLookups_fold (fun x k => x.Get k now) SimpleCache.stats
      (fun x k => x.simple_looks_Get k now) _ _ (sc.keys ord) sc [] hh hm
    intro acc k
    beta_reduce
    generalize acc.2.Get k now = y
    obtain ⟨r, x1⟩ := y
    cases r <;> rfl
  | Keys =>
    exact @SimpleCache.simple_pres_foldGetValue (fun x => LooksAdd sc.stats x.stats 0 0)
      (fun x j hx => x.simple_looks_remove sc.stats j hx) now _
      (fun ks k _ => ks ++ [k]) _ sc [] (looksAdd_refl _)
  | Len =>
    exact @SimpleCache.simple_pres_foldGetValue (fun x => LooksAdd sc.stats x.stats 0 0)
      (fun x j hx => x.simple_looks_remove sc.stats j hx) now _
      (fun ks k _ => ks ++ [k]) _ sc [] (looksAdd_refl _)


theorem LruCache.lru_looks_Get (lc : LruCache) (k : Nat) (now : Int) :
    (∀ v, (lc.Get k now).1 = .ok v → lc.stats.HitCount + 1 < 2 ^ 64 →
      LooksAdd lc.stats (lc.Get k now).2.stats 1 0) ∧
    (∀ e, (lc.Get k now).1 = .error e → lc.stats.MissCount + 1 < 2 ^ 64 →
      LooksAdd lc.stats (lc.Get k now).2.stats 0 1) := by
  have h1 := @LruCache.lru_pres_getValue (fun x => LooksAdd lc.stats x.stats 0 0)
    (fun _ _ _ hx => hx) (fun _ _ hx => hx) lc k now (looksAdd_refl _)
  unfold LruCache.Get
  cases hg : lc.getValue k now with
  | mk r lc1 =>
    rw [hg] at h1
    cases r with
    | error e => exact ⟨fun v h => (by cases h), fun _ _ hlt => looksAdd_miss h1 hlt⟩
    | ok v => exact ⟨fun _ _ hlt => looksAdd_hit h1 hlt, fun e h => (by cases h)⟩

theorem LruCache.lru_looks_TTL (lc : LruCache) (k : Nat) (now : Int) :
    ((lc.TTL k now).1.2 = none → lc.stats.HitCount + 1 < 2 ^ 64 →
      LooksAdd lc.stats (lc.TTL k now).2.stats 1 0) ∧
    (∀ e, (lc.TTL k now).1.2 = some e → lc.stats.MissCount + 1 < 2 ^ 64 →
      LooksAdd lc.stats (lc.TTL k now).2.stats 0 1) := by
  unfold LruCache.TTL
  split
  · split
    · split
      · exact ⟨fun _ hlt => looksAdd_hit (looksAdd_refl _) hlt, fun e h => (by cases h)⟩
      · exact ⟨fun h => (by cases h), fun _ _ hlt =>
          @looksAdd_miss lc.stats lc.stats.DecrKeyCount ⟨rfl, rfl⟩ hlt⟩
    · exact ⟨fun h => (by cases h), fun _ _ hlt => looksAdd_miss (looksAdd_refl _) hlt⟩
  · exact ⟨fun h => (by cases h), fun _ _ hlt => looksAdd_miss (looksAdd_refl _) hlt⟩

theorem LruCache.lru_looks_set (lc : LruCache) (key value : Nat) (t now : Int) :
    LooksAdd lc.stats (lc.set key value t now).2.stats 0 0 :=
  @LruCache.lru_pres_set (fun x => LooksAdd lc.stats x.stats 0 0)
    (fun x => LooksAdd lc.stats x.stats 0 0)
    (fun _ _ _ hx => hx) (fun _ hx => hx)
    (fun _ _ _ _ _ _ hx => hx) (fun _ _ _ _ _ hx => hx) lc key value t now (looksAdd_refl _)

theorem LruCache.lru_looks_step (lc : LruCache) (c : Call)
    (hh : lc.stats.HitCount + (lc.lookups c).1 < 2 ^ 64)
    (hm : lc.stats.MissCount + (lc.lookups c).2 < 2 ^ 64) :
    LooksAdd lc.stats (lc.step c).stats (lc.lookups c).1 (lc.lookups c).2 := by
  have hfold : ∀ {γ : Type} (g : γ × LruCache → Nat → γ × LruCache) (acc : γ) (now : Int)
      (ks : List Nat), (∀ acc k, (g acc k).2 = (acc.2.Get k now).2) →
      lc.stats.HitCount + (getsLookups (fun x k => x.Get k now) lc ks).1 < 2 ^ 64 →
      lc.stats.MissCount + (getsLookups (fun x k => x.Get k now) lc ks).2 < 2 ^ 64 →
      LooksAdd lc.stats (ks.foldl g (acc, lc)).2.stats
        (getsLookups (fun x k => x.Get k now) lc ks).1
        (getsLookups (fun x k => x.Get k now) lc ks).2 :=
    fun g acc now ks hg h1 h2 => getsLookups_fold (fun x k => x.Get k now) LruCache.stats
      (fun x k => x.lru_looks_Get k now) g hg ks lc acc h1 h2
  obtain ⟨op, now, ord⟩ := c
  cases op with
  | Set key value => exact lc.lru_looks_set key value 0 now
  | SetWithExpire key value t => exact lc.lru_looks_set key value t now
  | Get key =>
    have h := lc.lru_looks_Get key now
    simp only [LruCache.lookups, LruCache.step] at hh hm ⊢
    cases hr : (lc.Get key now).1 with
    | error e =>
      rw [hr] at hm
      exact h.2 e hr hm
    | ok v =>
      rw [hr] at hh
      exact h.1 v hr hh
  | TTL key =>
    have h := lc.lru_looks_TTL key now
    simp only [LruCache.lookups, LruCache.step] at hh hm ⊢
    cases hr : (lc.TTL key now).1.2 with
    | some e =>
      rw [hr] at hm
      exact h.2 e hr hm
    | none =>
      rw [hr] at hh
      exact h.1 hr hh
  | Expire key t =>
    have h := lc.lru_looks_Get key now
    simp only [LruCache.lookups, LruCache.step, LruCache.Expire] at hh hm ⊢
    cases hg : lc.Get key now with
    | mk r lc1 =>
      rw [hg] at h hh hm
      cases r with
      | error e => exact h.2 e rfl hm
      | ok v =>
        exact looksAdd_trans (h.1 v rfl hh) (lc1.lru_looks_set key v t now)
  | Del key =>
    exact @LruCache.lru_pres_remove (fun x => LooksAdd lc.stats x.stats 0 0)
      (fun _ _ _ hx => hx) lc key (looksAdd_refl _)
  | Clear => exact looksAdd_refl _
  | GetALL =>
    simp only [LruCache.lookups] at hh hm ⊢
    simp only [LruCache.step, LruCache.GetALL]
    apply hfold _ [] now (lc.keys ord) _ hh hm
    intro acc k
    generalize acc.2.Get k now = y
    obtain ⟨r, x1⟩ := y
    cases r <;> rfl
  | Keys =>
    simp only [LruCache.lookups] at hh hm ⊢
    simp only [LruCache.step, LruCache.Keys]
    apply hfold _ [] now (lc.keys ord) _ hh hm
    intro acc k
    generalize acc.2.Get k now = y
    obtain ⟨r, x1⟩ := y
    cases r <;> rfl
  | Len =>
    simp only [LruCache.lookups] at hh hm ⊢
    simp only [LruCache.step, LruCache.Len, LruCache.Keys]
    apply hfold _ [] now (lc.keys ord) _ hh hm
    intro acc k
    generalize acc.2.Get k now = y
    obtain ⟨r, x1⟩ := y
    cases r <;> rfl

theorem LfuCache.lfu_looks_removeItem (a : mycache.stats) (lf : LfuCache) (item : lfuItem)
    (h : LooksAdd a lf.stats 0 0) : LooksAdd a (lf.removeItem item).stats 0 0 := h

theorem LfuCache.lfu_looks_increment (a : mycache.stats) (lf : LfuCache) (item : lfuItem)
    (h : LooksAdd a lf.stats 0 0) : LooksAdd a (lf.increment item).stats 0 0 := by
  rw [(lf.lfu_increment_fields item).2.1]
  exact h

theorem LfuCache.lfu_looks_Get (lf : LfuCache) (k : Nat) (now : Int) :
    (∀ v, (lf.Get k now).1 = .ok v → lf.stats.HitCount + 1 < 2 ^ 64 →
      LooksAdd lf.stats (lf.Get k now).2.stats 1 0) ∧
    (∀ e, (lf.Get k now).1 = .error e → lf.stats.MissCount + 1 < 2 ^ 64 →
      LooksAdd lf.stats (lf.Get k now).2.stats 0 1) := by
  have h1 := @LfuCache.lfu_pres_getValue (fun x => LooksAdd lf.stats x.stats 0 0)
    (fun x _ item _ hx => x.lfu_looks_removeItem lf.stats item hx)
    (fun x _ item _ hx => x.lfu_looks_increment lf.stats item hx) lf k now (looksAdd_refl _)
  unfold LfuCache.Get
  cases hg : lf.getValue k now with
  | mk r lf1 =>
    rw [hg] at h1
    cases r with
    | error e => exact ⟨fun v h => (by cases h), fun _ _ hlt => looksAdd_miss h1 hlt⟩
    | ok v => exact ⟨fun _ _ hlt => looksAdd_hit h1 hlt, fun e h => (by cases h)⟩

theorem LfuCache.lfu_looks_TTL (lf : LfuCache) (k : Nat) (now : Int) :
    ((lf.TTL k now).1.2 = none → lf.stats.HitCount + 1 < 2 ^ 64 →
      LooksAdd lf.stats (lf.TTL k now).2.stats 1 0) ∧
    (∀ e, (lf.TTL k now).1.2 = some e → lf.stats.MissCount + 1 < 2 ^ 64 →
      LooksAdd lf.stats (lf.TTL k now).2.stats 0 1) := by
  unfold LfuCache.TTL
  split
  · rename_i item hg
    split
    · refine ⟨fun _ hlt => ?_, fun e h => (by cases h)⟩
      simp only
      rw [LfuCache.lfu_increment_stats]
      exact looksAdd_hit (looksAdd_refl _) hlt
    · exact ⟨fun h => (by cases h), fun _ _ hlt => looksAdd_miss (looksAdd_refl _) hlt⟩
  · exact ⟨fun h => (by cases h), fun _ _ hlt => looksAdd_miss (looksAdd_refl _) hlt⟩

theorem LfuCache.lfu_looks_set (lf : LfuCache) (key value : Nat) (t now : Int)
    (ord : Order) : LooksAdd lf.stats (lf.set key value t now ord).2.stats 0 0 :=
  @LfuCache.lfu_pres_set (fun x => LooksAdd lf.stats x.stats 0 0)
    (fun x => LooksAdd lf.stats x.stats 0 0)
    (fun x _ item _ hx => x.lfu_looks_removeItem lf.stats item hx)
    (fun _ _ _ _ _ hx => hx) (fun _ _ _ _ _ hx => hx) (fun _ hx => hx)
    lf key value t now ord (looksAdd_refl _)

theorem LfuCache.lfu_looks_step (lf : LfuCache) (c : Call)
    (hh : lf.stats.HitCount + (lf.lookups c).1 < 2 ^ 64)
    (hm : lf.stats.MissCount + (lf.lookups c).2 < 2 ^ 64) :
    LooksAdd lf.stats (lf.step c).stats (lf.lookups c).1 (lf.lookups c).2 := by
  have hfold : ∀ {γ : Type} (g : γ × LfuCache → Nat → γ × LfuCache) (acc : γ) (now : Int)
      (ks : List Nat), (∀ acc k, (g acc k).2 = (acc.2.Get k now).2) →
      lf.stats.HitCount + (getsLookups (fun x k => x.Get k now) lf ks).1 < 2 ^ 64 →
      lf.stats.MissCount + (getsLookups (fun x k => x.Get k now) lf ks).2 < 2 ^ 64 →
      LooksAdd lf.stats (ks.foldl g (acc, lf)).2.stats
        (getsLookups (fun x k => x.Get k now) lf ks).1
        (getsLookups (fun x k => x.Get k now) lf ks).2 :=
    fun g acc now ks hg h1 h2 => getsLookups_fold (fun x k => x.Get k now) LfuCache.stats
      (fun x k => x.lfu_looks_Get k now) g hg ks lf acc h1 h2
  obtain ⟨op, now, ord⟩ := c
  cases op with
  | Set key value => exact lf.lfu_looks_set key value 0 now ord
  | SetWithExpire key value t => exact lf.lfu_looks_set key value t now ord
  | Get key =>
    have h := lf.lfu_looks_Get key now
    simp only [LfuCache.lookups, LfuCache.step] at hh hm ⊢
    cases hr : (lf.Get key now).1 with
    | error e =>
      rw [hr] at hm
      exact h.2 e hr hm
    | ok v =>
      rw [hr] at hh
      exact h.1 v hr hh
  | TTL key =>
    have h := lf.lfu_looks_TTL key now
    simp only [LfuCache.lookups, LfuCache.step] at hh hm ⊢
    cases hr : (lf.TTL key now).1.2 with
    | some e =>
      rw [hr] at hm
      exact h.2 e hr hm
    | none =>
      rw [hr] at hh
      exact h.1 hr hh
  | Expire key t =>
    have h := lf.lfu_looks_Get key now
    simp only [LfuCache.lookups, LfuCache.step, LfuCache.Expire] at hh hm ⊢
    cases hg : lf.Get key now with
    | mk r lf1 =>
      rw [hg] at h hh hm
      cases r with
      | error e => exact h.2 e rfl hm
      | ok v =>
        exact looksAdd_trans (h.1 v rfl hh) (lf1.lfu_looks_set key v t now ord)
  | Del key =>
    exact @LfuCache.lfu_pres_remove (fun x => LooksAdd lf.stats x.stats 0 0)
      (fun x _ item _ hx => x.lfu_looks_removeItem lf.stats item hx) lf key (looksAdd_refl _)
  | Clear => exact looksAdd_refl _
  | GetALL =>
    simp only [LfuCache.lookups] at hh hm ⊢
    simp only [LfuCache.step, LfuCache.GetALL]
    apply hfold _ [] now (lf.keys ord) _ hh hm
    intro acc k
    generalize acc.2.Get k now = y
    obtain ⟨r, x1⟩ := y
    cases r <;> rfl
  | Keys =>
    simp only [LfuCache.lookups] at hh hm ⊢
    simp only [LfuCache.step, LfuCache.Keys]
    apply hfold _ [] now (lf.keys ord) _ hh hm
    intro acc k
    generalize acc.2.Get k now = y
    obtain ⟨r, x1⟩ := y
    cases r <;> rfl
  | Len =>
    simp only [LfuCache.lookups] at hh hm ⊢
    simp only [LfuCache.step, LfuCache.Len, LfuCache.Keys]
    apply hfold _ [] now (lf.keys ord) _ hh hm
    intro acc k
    generalize acc.2.Get k now = y
    obtain ⟨r, x1⟩ := y
    cases r <;> rfl


theorem stats_rate {st : mycache.stats} {h m : Nat} (hh : st.HitCount = h)
    (hm : st.MissCount = m) (hlt : h + m < 2 ^ 64) :
    st.LookupCount = h + m ∧
    st.HitRate = if h + m = 0 then 0 else (h : ℚ) / ((h + m : Nat) : ℚ) := by
  unfold mycache.stats.LookupCount mycache.stats.HitRate
  simp only [hh, hm, wrapUint64_of_lt hlt]
  exact ⟨trivial, trivial⟩

theorem SimpleCache.simple_lookups_run (size : Int) (cs : List Call)
    (hlt : (lookupLog SimpleCache.step SimpleCache.lookups (newSimpleCache size) cs).1
      + (lookupLog SimpleCache.step SimpleCache.lookups (newSimpleCache size) cs).2 < 2 ^ 64) :
    ((newSimpleCache size).run cs).stats.HitCount
      = (lookupLog SimpleCache.step SimpleCache.lookups (newSimpleCache size) cs).1 ∧
    ((newSimpleCache size).run cs).stats.MissCount
      = (lookupLog SimpleCache.step SimpleCache.lookups (newSimpleCache size) cs).2 := by
  have h := lookupLog_run SimpleCache.step SimpleCache.lookups SimpleCache.stats
    SimpleCache.simple_looks_step cs (newSimpleCache size)
    (by show 0 + _ < _; omega) (by show 0 + _ < _; omega)
  have h0 : (newSimpleCache size).stats.HitCount = 0 := rfl
  have h1 : (newSimpleCache size).stats.MissCount = 0 := rfl
  unfold LooksAdd at h
  rw [h0, h1] at h
  exact ⟨by simpa using h.1, by simpa using h.2⟩

theorem LruCache.lru_lookups_run (size : Int) (cs : List Call)
    (hlt : (lookupLog LruCache.step LruCache.lookups (newLruCache size) cs).1
      + (lookupLog LruCache.step LruCache.lookups (newLruCache size) cs).2 < 2 ^ 64) :
    ((newLruCache size).run cs).stats.HitCount
      = (lookupLog LruCache.step LruCache.lookups (newLruCache size) cs).1 ∧
    ((newLruCache size).run cs).stats.MissCount
      = (lookupLog LruCache.step LruCache.lookups (newLruCache size) cs).2 := by
  have h := lookupLog_run LruCache.step LruCache.lookups LruCache.stats
    LruCache.lru_looks_step cs (newLruCache size)
    (by show 0 + _ < _; omega) (by show 0 + _ < _; omega)
  have h0 : (newLruCache size).stats.HitCount = 0 := rfl
  have h1 : (newLruCache size).stats.MissCount = 0 := rfl
  unfold LooksAdd at h
  rw [h0, h1] at h
  exact ⟨by simpa using h.1, by simpa using h.2⟩

theorem LfuCache.lfu_lookups_run (size : Int) (cs : List Call)
    (hlt : (lookupLog LfuCache.step LfuCache.lookups (newLfuCache size) cs).1
      + (lookupLog LfuCache.step LfuCache.lookups (newLfuCache size) cs).2 < 2 ^ 64) :
    ((newLfuCache size).run cs).stats.HitCount
      = (lookupLog LfuCache.step LfuCache.lookups (newLfuCache size) cs).1 ∧
    ((newLfuCache size).run cs).stats.MissCount
      = (lookupLog LfuCache.step LfuCache.lookups (newLfuCache size) cs).2 := by
  have h := lookupLog_run LfuCache.step LfuCache.lookups LfuCache.stats
    LfuCache.lfu_looks_step cs (newLfuCache size)
    (by show 0 + _ < _; omega) (by show 0 + _ < _; omega)
  have h0 : (newLfuCache size).stats.HitCount = 0 := rfl
  have h1 : (newLfuCache size).stats.MissCount = 0 := rfl
  unfold LooksAdd at h
  rw [h0, h1] at h
  exact ⟨by simpa using h.1, by simpa using h.2⟩


/-- C14 (hit/miss accounting). In each policy and in every state: a `Get` or `TTL` that
returns without error adds one to `HitCount()` and leaves `MissCount()`, one that
returns `KeyNotFound` adds one to `MissCount()` and leaves `HitCount()` (while the
counter is below `2^64 - 1`, its last value before it wraps around); `Set`,
`SetWithExpire`, `Del` and `Clear` change neither.  Hence, on a freshly built cache,
after calls during which `h` lookups succeeded and `m` failed (`lookupLog`: every
execution of `Get` or `TTL`, those made by `Expire`, `GetALL`, `Keys` and `Len`
included), with `h + m < 2^64`: `HitCount() = h`, `MissCount() = m`,
`LookupCount() = h + m`, and `HitRate()` is the quotient `h / (h + m)`, or 0 when
`h + m = 0`. -/
theorem C14_hit_miss_accounting (size : Int) (cs : List Call) :
    (∀ (x : SimpleCache) (k value : Nat) (t now : Int) (ord : Order),
      (∀ v, (x.Get k now).1 = .ok v → x.stats.HitCount + 1 < 2 ^ 64 →
        LooksAdd x.stats (x.Get k now).2.stats 1 0) ∧
      (∀ e, (x.Get k now).1 = .error e → x.stats.MissCount + 1 < 2 ^ 64 →
        LooksAdd x.stats (x.Get k now).2.stats 0 1) ∧
      ((x.TTL k now).1.2 = none → x.stats.HitCount + 1 < 2 ^ 64 →
        LooksAdd x.stats (x.TTL k now).2.stats 1 0) ∧
      (∀ e, (x.TTL k now).1.2 = some e → x.stats.MissCount + 1 < 2 ^ 64 →
        LooksAdd x.stats (x.TTL k now).2.stats 0 1) ∧
      LooksAdd x.stats (x.Set k value now ord).2.stats 0 0 ∧
      LooksAdd x.stats (x.SetWithExpire k value t now ord).2.stats 0 0 ∧
      LooksAdd x.stats (x.Del k).2.stats 0 0 ∧
      LooksAdd x.stats x.Clear.stats 0 0) ∧
    (∀ (x : LruCache) (k value : Nat) (t now : Int),
      (∀ v, (x.Get k now).1 = .ok v → x.stats.HitCount + 1 < 2 ^ 64 →
        LooksAdd x.stats (x.Get k now).2.stats 1 0) ∧
      (∀ e, (x.Get k now).1 = .error e → x.stats.MissCount + 1 < 2 ^ 64 →
        LooksAdd x.stats (x.Get k now).2.stats 0 1) ∧
      ((x.TTL k now).1.2 = none → x.stats.HitCount + 1 < 2 ^ 64 →
        LooksAdd x.stats (x.TTL k now).2.stats 1 0) ∧
      (∀ e, (x.TTL k now).1.2 = some e → x.stats.MissCount + 1 < 2 ^ 64 →
        LooksAdd x.stats (x.TTL k now).2.stats 0 1) ∧
      LooksAdd x.stats (x.Set k value now).2.stats 0 0 ∧
      LooksAdd x.stats (x.SetWithExpire k value t now).2.stats 0 0 ∧
      LooksAdd x.stats (x.Del k).2.stats 0 0 ∧
      LooksAdd x.stats x.Clear.stats 0 0) ∧
    (∀ (x : LfuCache) (k value : Nat) (t now : Int) (ord : Order),
      (∀ v, (x.Get k now).1 = .ok v → x.stats.HitCount + 1 < 2 ^ 64 →
        LooksAdd x.stats (x.Get k now).2.stats 1 0) ∧
      (∀ e, (x.Get k now).1 = .error e → x.stats.MissCount + 1 < 2 ^ 64 →
        LooksAdd x.stats (x.Get k now).2.stats 0 1) ∧
      ((x.TTL k now).1.2 = none → x.stats.HitCount + 1 < 2 ^ 64 →
        LooksAdd x.stats (x.TTL k now).2.stats 1 0) ∧
      (∀ e, (x.TTL k now).1.2 = some e → x.stats.MissCount + 1 < 2 ^ 64 →
        LooksAdd x.stats (x.TTL k now).2.stats 0 1) ∧
      LooksAdd x.stats (x.Set k value now ord).2.stats 0 0 ∧
      LooksAdd x.stats (x.SetWithExpire k value t now ord).2.stats 0 0 ∧
      LooksAdd x.stats (x.Del k).2.stats 0 0 ∧
      LooksAdd x.stats x.Clear.stats 0 0) ∧
    (∀ h m, lookupLog SimpleCache.step SimpleCache.lookups (newSimpleCache size) cs = (h, m) →
      h + m < 2 ^ 64 →
      ((newSimpleCache size).run cs).stats.HitCount = h ∧
      ((newSimpleCache size).run cs).stats.MissCount = m ∧
      ((newSimpleCache size).run cs).stats.LookupCount = h + m ∧
      ((newSimpleCache size).run cs).stats.HitRate
        = if h + m = 0 then 0 else (h : ℚ) / ((h + m : Nat) : ℚ)) ∧
    (∀ h m, lookupLog LruCache.step LruCache.lookups (newLruCache size) cs = (h, m) →
      h + m < 2 ^ 64 →
      ((newLruCache size).run cs).stats.HitCount = h ∧
      ((newLruCache size).run cs).stats.MissCount = m ∧
      ((newLruCache size).run cs).stats.LookupCount = h + m ∧
      ((newLruCache size).run cs).stats.HitRate
        = if h + m = 0 then 0 else (h : ℚ) / ((h + m : Nat) : ℚ)) ∧
    (∀ h m, lookupLog LfuCache.step LfuCache.lookups (newLfuCache size) cs = (h, m) →
      h + m < 2 ^ 64 →
      ((newLfuCache size).run cs).stats.HitCount = h ∧
      ((newLfuCache size).run cs).stats.MissCount = m ∧
      ((newLfuCache size).run cs).stats.LookupCount = h + m ∧
      ((newLfuCache size).run cs).stats.HitRate
        = if h + m = 0 then 0 else (h : ℚ) / ((h + m : Nat) : ℚ)) := by
  refine ⟨?_, ?_, ?_, ?_, ?_, ?_⟩
  · intro x k value t now ord
    exact ⟨(x.simple_looks_Get k now).1, (x.simple_looks_Get k now).2,
      (x.simple_looks_TTL k now).1, (x.simple_looks_TTL k now).2,
      x.simple_looks_set k value 0 now ord, x.simple_looks_set k value t now ord,
      x.simple_looks_remove x.stats k (looksAdd_refl _), looksAdd_refl _⟩
  · intro x k value t now
    exact ⟨(x.lru_looks_Get k now).1, (x.lru_looks_Get k now).2,
      (x.lru_looks_TTL k now).1, (x.lru_looks_TTL k now).2,
      x.lru_looks_set k value 0 now, x.lru_looks_set k value t now,
      @LruCache.lru_pres_remove (fun y => LooksAdd x.stats y.stats 0 0)
        (fun _ _ _ hx => hx) x k (looksAdd_refl _), looksAdd_refl _⟩
  · intro x k value t now ord
    exact ⟨(x.lfu_looks_Get k now).1, (x.lfu_looks_Get k now).2,
      (x.lfu_looks_TTL k now).1, (x.lfu_looks_TTL k now).2,
      x.lfu_looks_set k value 0 now ord, x.lfu_looks_set k value t now ord,
      @LfuCache.lfu_pres_remove (fun y => LooksAdd x.stats y.stats 0 0)
        (fun y _ item _ hy => y.lfu_looks_removeItem x.stats item hy) x k (looksAdd_refl _),
      looksAdd_refl _⟩
  · intro h m hlog hlt
    have hr := SimpleCache.simple_lookups_run size cs (by rw [hlog]; exact hlt)
    rw [hlog] at hr
    exact ⟨hr.1, hr.2, (stats_rate hr.1 hr.2 hlt).1, (stats_rate hr.1 hr.2 hlt).2⟩
  · intro h m hlog hlt
    have hr := LruCache.lru_lookups_run size cs (by rw [hlog]; exact hlt)
    rw [hlog] at hr
    exact ⟨hr.1, hr.2, (stats_rate hr.1 hr.2 hlt).1, (stats_rate hr.1 hr.2 hlt).2⟩
  · intro h m hlog hlt
    have hr := LfuCache.lfu_lookups_run size cs (by rw [hlog]; exact hlt)
    rw [hlog] at hr
    exact ⟨hr.1, hr.2, (stats_rate hr.1 hr.2 hlt).1, (stats_rate hr.1 hr.2 hlt).2⟩

/-- Witness for C14: one insertion, two successful lookups and one failed lookup on an
LRU cache give a lookup count of 3 and a hit rate of 2/3. -/
theorem C14_hit_miss_accounting_witness :
    ((newLruCache 2).run
        [⟨.Set 1 10, 0, fun l => l⟩, ⟨.Get 1, 0, fun l => l⟩, ⟨.TTL 1, 0, fun l => l⟩,
          ⟨.Get 2, 0, fun l => l⟩]).stats.LookupCount = 3 ∧
    ((newLruCache 2).run
        [⟨.Set 1 10, 0, fun l => l⟩, ⟨.Get 1, 0, fun l => l⟩, ⟨.TTL 1, 0, fun l => l⟩,
          ⟨.Get 2, 0, fun l => l⟩]).stats.HitRate = 2 / 3 :=
  have h := (C14_hit_miss_accounting 2
    [⟨.Set 1 10, 0, fun l => l⟩, ⟨.Get 1, 0, fun l => l⟩, ⟨.TTL 1, 0, fun l => l⟩,
      ⟨.Get 2, 0, fun l => l⟩]).2.2.2.2.1 2 1 (by decide) (by decide)
  ⟨h.2.2.1, h.2.2.2.trans (by norm_num)⟩


/-! ## C12: enumeration -/

theorem mkeys_mset_nodup {β : Type} {m : List (Nat × β)} (k : Nat) (v : β)
    (h : (mkeys m).Nodup) : (mkeys (mset m k v)).Nodup := by
  unfold mset
  cases hg : mget m k with
  | some w =>
    simp only
    rw [mkeys_mupd]
    exact h
  | none =>
    simp only [mkeys, List.map_cons, List.nodup_cons]
    exact ⟨(mget_eq_none_iff m k).1 hg, h⟩

theorem getSpec_live_ok {e : Option (Nat × Int)} {v : Nat} (h : getSpec e = .ok v) :
    ∃ x, e = some (v, x) := by
  cases e with
  | none => simp [getSpec] at h
  | some p =>
    obtain ⟨a, b⟩ := p
    simp only [getSpec, Except.ok.injEq] at h
    exact ⟨b, by rw [h]⟩

theorem getSpec_live_error {e : Option (Nat × Int)} {err : Error} (h : getSpec e = .error err) :
    e = none := by
  cases e with
  | none => rfl
  | some p =>
    obtain ⟨a, b⟩ := p
    simp [getSpec] at h

theorem enum_state {σ γ : Type} (get : σ → Nat → Except Error Nat × σ)
    (entry : σ → Nat → Option (Nat × Int)) (inv : σ → Prop) (now : Int)
    (hget : ∀ x k, inv x → inv (get x k).2 ∧
      (get x k).1 = getSpec (live (entry x k) now) ∧
      ∀ j, entry (get x k).2 j = if j = k then live (entry x j) now else entry x j)
    (g : γ × σ → Nat → γ × σ) (hg : ∀ acc k, (g acc k).2 = (get acc.2 k).2)
    (ks : List Nat) :
    ∀ (x : σ) (acc : γ), inv x →
      inv (ks.foldl g (acc, x)).2 ∧
      ∀ j, entry (ks.foldl g (acc, x)).2 j
        = if j ∈ ks then live (entry x j) now else entry x j := by
  induction ks with
  | nil => intro x acc h; exact ⟨h, fun j => by simp⟩
  | cons k ks ih =>
    intro x acc h
    obtain ⟨h1, -, h3⟩ := hget x k h
    have hgk : g (acc, x) k = ((g (acc, x) k).1, (get x k).2) := Prod.ext rfl (hg (acc, x) k)
    simp only [List.foldl_cons]
    rw [hgk]
    obtain ⟨i1, i2⟩ := ih (get x k).2 (g (acc, x) k).1 h1
    refine ⟨i1, fun j => ?_⟩
    rw [i2 j, h3 j]
    by_cases hjk : j = k
    · subst hjk
      by_cases hjs : j ∈ ks
      · simp [hjs, live_idem]
      · simp [hjs]
    · by_cases hjs : j ∈ ks
      · simp [hjk, hjs]
      · simp [hjk, hjs]

theorem enum_getall {σ : Type} (get : σ → Nat → Except Error Nat × σ)
    (entry : σ → Nat → Option (Nat × Int)) (inv : σ → Prop) (now : Int)
    (hget : ∀ x k, inv x → inv (get x k).2 ∧
      (get x k).1 = getSpec (live (entry x k) now) ∧
      ∀ j, entry (get x k).2 j = if j = k then live (entry x j) now else entry x j)
    (g : List (Nat × Nat) × σ → Nat → List (Nat × Nat) × σ)
    (hgo : ∀ acc k v, (get acc.2 k).1 = .ok v → (g acc k).1 = mset acc.1 k v)
    (hge : ∀ acc k e, (get acc.2 k).1 = .error e → (g acc k).1 = acc.1)
    (hg : ∀ acc k, (g acc k).2 = (get acc.2 k).2)
    (ks : List Nat) :
    ∀ (x : σ) (acc : List (Nat × Nat)), inv x → (mkeys acc).Nodup →
      (mkeys (ks.foldl g (acc, x)).1).Nodup ∧
      (∀ j v e, j ∈ ks → live (entry x j) now = some (v, e) →
        mget (ks.foldl g (acc, x)).1 j = some v) ∧
      (∀ j, (j ∉ ks ∨ live (entry x j) now = none) →
        mget (ks.foldl g (acc, x)).1 j = mget acc j) := by
  induction ks with
  | nil =>
    intro x acc _ hnd
    refine ⟨hnd, fun j v e hj => ?_, fun j _ => rfl⟩
    simp at hj
  | cons k ks ih =>
    intro x acc h hnd
    obtain ⟨h1, h2, h3⟩ := hget x k h
    have hgk : g (acc, x) k = ((g (acc, x) k).1, (get x k).2) := Prod.ext rfl (hg (acc, x) k)
    have hlive : ∀ j, live (entry (get x k).2 j) now = live (entry x j) now := by
      intro j
      rw [h3 j]
      split
      · exact live_idem _ _
      · rfl
    simp only [List.foldl_cons]
    rw [hgk]
    have hacc : (mkeys (g (acc, x) k).1).Nodup ∧
        (∀ v e, live (entry x k) now = some (v, e) → mget (g (acc, x) k).1 k = some v) ∧
        (∀ j, (j ≠ k ∨ live (entry x k) now = none) →
          mget (g (acc, x) k).1 j = mget acc j) := by
      cases hr : (get x k).1 with
      | error err =>
        rw [hge (acc, x) k err hr]
        have hn := getSpec_live_error (h2 ▸ hr)
        refine ⟨hnd, fun v e hl => ?_, fun j _ => rfl⟩
        rw [hn] at hl
        cases hl
      | ok w =>
        rw [hgo (acc, x) k w hr]
        obtain ⟨xe, hxe⟩ := getSpec_live_ok (h2 ▸ hr)
        refine ⟨mkeys_mset_nodup k w hnd, fun v e hl => ?_, fun j hj => ?_⟩
        · rw [hxe] at hl
          cases hl
          exact mget_mset_self _ _ _
        · rcases hj with hj | hj
          · exact mget_mset_ne _ _ hj
          · rw [hxe] at hj
            cases hj
    obtain ⟨i1, i2, i3⟩ := ih (get x k).2 (g (acc, x) k).1 h1 hacc.1
    refine ⟨i1, ?_, ?_⟩
    · intro j v e hj hl
      by_cases hjs : j ∈ ks
      · exact i2 j v e hjs (by rw [hlive j]; exact hl)
      · have hjk : j = k := by
          rcases List.mem_cons.1 hj with h4 | h4
          · exact h4
          · exact absurd h4 hjs
        rw [i3 j (Or.inl hjs), hjk]
        exact hacc.2.1 v e (hjk ▸ hl)
    · intro j hj
      have hjs : j ∉ ks ∨ live (entry (get x k).2 j) now = none := by
        rcases hj with hj | hj
        · exact Or.inl (fun h4 => hj (List.mem_cons_of_mem _ h4))
        · exact Or.inr (by rw [hlive j]; exact hj)
      rw [i3 j hjs]
      apply hacc.2.2
      by_cases hjk : j = k
      · right
        rcases hj with hj | hj
        · exact absurd (hjk ▸ List.mem_cons_self k ks) hj
        · exact hjk ▸ hj
      · exact Or.inl hjk

theorem enum_keys {σ : Type} (get : σ → Nat → Except Error Nat × σ)
    (entry : σ → Nat → Option (Nat × Int)) (inv : σ → Prop) (now : Int)
    (hget : ∀ x k, inv x → inv (get x k).2 ∧
      (get x k).1 = getSpec (live (entry x k) now) ∧
      ∀ j, entry (get x k).2 j = if j = k then live (entry x j) now else entry x j)
    (g : List Nat × σ → Nat → List Nat × σ)
    (hgo : ∀ acc k v, (get acc.2 k).1 = .ok v → (g acc k).1 = acc.1 ++ [k])
    (hge : ∀ acc k e, (get acc.2 k).1 = .error e → (g acc k).1 = acc.1)
    (hg : ∀ acc k, (g acc k).2 = (get acc.2 k).2)
    (ks : List Nat) :
    ∀ (x : σ) (acc : List Nat), inv x →
      (ks.foldl g (acc, x)).1
        = acc ++ ks.filter (fun j => (live (entry x j) now).isSome) := by
  induction ks with
  | nil => intro x acc _; simp
  | cons k ks ih =>
    intro x acc h
    obtain ⟨h1, h2, h3⟩ := hget x k h
    have hgk : g (acc, x) k = ((g (acc, x) k).1, (get x k).2) := Prod.ext rfl (hg (acc, x) k)
    have hlive : ∀ j, live (entry (get x k).2 j) now = live (entry x j) now := by
      intro j
      rw [h3 j]
      split
      · exact live_idem _ _
      · rfl
    simp only [List.foldl_cons]
    rw [hgk, ih (get x k).2 (g (acc, x) k).1 h1]
    simp only [hlive, List.filter_cons]
    cases hr : (get x k).1 with
    | error err =>
      rw [hge (acc, x) k err hr]
      have hn := getSpec_live_error (h2 ▸ hr)
      simp [hn]
    | ok w =>
      rw [hgo (acc, x) k w hr]
      obtain ⟨xe, hxe⟩ := getSpec_live_ok (h2 ▸ hr)
      simp [hxe]


theorem live_isSome_entry {e : Option (Nat × Int)} {now : Int}
    (h : (live e now).isSome = true) : e ≠ none := by
  intro he
  rw [he] at h
  simp [live] at h

theorem enum_getall_all {σ : Type} (get : σ → Nat → Except Error Nat × σ)
    (entry : σ → Nat → Option (Nat × Int)) (inv : σ → Prop) (now : Int)
    (hget : ∀ x k, inv x → inv (get x k).2 ∧
      (get x k).1 = getSpec (live (entry x k) now) ∧
      ∀ j, entry (get x k).2 j = if j = k then live (entry x j) now else entry x j)
    (g : List (Nat × Nat) × σ → Nat → List (Nat × Nat) × σ)
    (hgo : ∀ acc k v, (get acc.2 k).1 = .ok v → (g acc k).1 = mset acc.1 k v)
    (hge : ∀ acc k e, (get acc.2 k).1 = .error e → (g acc k).1 = acc.1)
    (hg : ∀ acc k, (g acc k).2 = (get acc.2 k).2)
    (keys : List Nat) (x : σ) (hx : inv x) (hcov : ∀ j, j ∉ keys → entry x j = none)
    {ord : Order} (hord : ord.ok) :
    (∀ j, mget ((ord keys).foldl g ([], x)).1 j = (live (entry x j) now).map Prod.fst) ∧
    (mkeys ((ord keys).foldl g ([], x)).1).Nodup ∧
    (∀ j, entry ((ord keys).foldl g ([], x)).2 j = live (entry x j) now) ∧
    inv ((ord keys).foldl g ([], x)).2 := by
  obtain ⟨h1, h2, h3⟩ := enum_getall get entry inv now hget g hgo hge hg (ord keys) x [] hx
    (by simp [mkeys])
  obtain ⟨h4, h5⟩ := enum_state get entry inv now hget g hg (ord keys) x [] hx
  have hmem : ∀ j, entry x j ≠ none → j ∈ ord keys := by
    intro j hj
    by_contra hn
    exact hj (hcov j (fun hk => hn ((hord keys).mem_iff.2 hk)))
  refine ⟨?_, h1, ?_, h4⟩
  · intro j
    cases hl : live (entry x j) now with
    | none =>
      rw [h3 j (Or.inr hl)]
      rfl
    | some p =>
      obtain ⟨v, e⟩ := p
      have hj : j ∈ ord keys := hmem j (live_isSome_entry (by rw [hl]; rfl))
      rw [h2 j v e hj hl]
      rfl
  · intro j
    rw [h5 j]
    split
    · rfl
    · rename_i hj
      have : entry x j = none := by
        by_contra hn
        exact hj (hmem j hn)
      rw [this]
      rfl

theorem enum_keys_all {σ : Type} (get : σ → Nat → Except Error Nat × σ)
    (entry : σ → Nat → Option (Nat × Int)) (inv : σ → Prop) (now : Int)
    (hget : ∀ x k, inv x → inv (get x k).2 ∧
      (get x k).1 = getSpec (live (entry x k) now) ∧
      ∀ j, entry (get x k).2 j = if j = k then live (entry x j) now else entry x j)
    (g : List Nat × σ → Nat → List Nat × σ)
    (hgo : ∀ acc k v, (get acc.2 k).1 = .ok v → (g acc k).1 = acc.1 ++ [k])
    (hge : ∀ acc k e, (get acc.2 k).1 = .error e → (g acc k).1 = acc.1)
    (hg : ∀ acc k, (g acc k).2 = (get acc.2 k).2)
    (keys : List Nat) (x : σ) (hx : inv x) (hnd : keys.Nodup)
    (hcov : ∀ j, j ∉ keys → entry x j = none) {ord : Order} (hord : ord.ok) :
    ((ord keys).foldl g ([], x)).1.Nodup ∧
    (∀ j, j ∈ ((ord keys).foldl g ([], x)).1 ↔ (live (entry x j) now).isSome = true) ∧
    ((ord keys).foldl g ([], x)).1.length
      = (keys.filter (fun j => (live (entry x j) now).isSome)).length ∧
    (∀ j, entry ((ord keys).foldl g ([], x)).2 j = live (entry x j) now) ∧
    inv ((ord keys).foldl g ([], x)).2 := by
  have h1 := enum_keys get entry inv now hget g hgo hge hg (ord keys) x [] hx
  obtain ⟨h4, h5⟩ := enum_state get entry inv now hget g hg (ord keys) x [] hx
  have hmem : ∀ j, entry x j ≠ none → j ∈ ord keys := by
    intro j hj
    by_contra hn
    exact hj (hcov j (fun hk => hn ((hord keys).mem_iff.2 hk)))
  rw [h1, List.nil_append]
  refine ⟨?_, ?_, ?_, ?_, h4⟩
  · exact List.Nodup.filter _ (((hord keys).nodup_iff).2 hnd)
  · intro j
    rw [List.mem_filter]
    constructor
    · exact fun h => h.2
    · exact fun h => ⟨hmem j (live_isSome_entry h), h⟩
  · exact ((hord keys).filter _).length_eq
  · intro j
    rw [h5 j]
    split
    · rfl
    · rename_i hj
      have : entry x j = none := by
        by_contra hn
        exact hj (hmem j hn)
      rw [this]
      rfl


theorem SimpleCache.simple_getValue_Get (sc : SimpleCache) (k : Nat) (now : Int) :
    (sc.getValue k now).1 = (sc.Get k now).1 ∧
    ∀ j, (sc.getValue k now).2.entry j = (sc.Get k now).2.entry j := by
  unfold SimpleCache.Get
  cases hg : sc.getValue k now with
  | mk r sc1 =>
    cases r with
    | error e => exact ⟨rfl, fun j => rfl⟩
    | ok v => exact ⟨rfl, fun j => rfl⟩

theorem SimpleCache.simple_enum (sc : SimpleCache) (hnd : (mkeys sc.items).Nodup) (now : Int)
    {ord : Order} (hord : ord.ok) :
    (∀ j, mget (sc.GetALL now ord).1 j = (live (sc.entry j) now).map Prod.fst) ∧
    (mkeys (sc.GetALL now ord).1).Nodup ∧
    (∀ j, (sc.GetALL now ord).2.entry j = live (sc.entry j) now) ∧
    (sc.Keys now ord).1.Nodup ∧
    (∀ j, j ∈ (sc.Keys now ord).1 ↔ (live (sc.entry j) now).isSome = true) ∧
    (∀ j, (sc.Keys now ord).2.entry j = live (sc.entry j) now) ∧
    (sc.Len now ord).1
      = ((mkeys sc.items).filter (fun j => (live (sc.entry j) now).isSome)).length ∧
    (∀ j, (sc.Len now ord).2.entry j = live (sc.entry j) now) := by
  have hcov : ∀ j, j ∉ mkeys sc.items → sc.entry j = none := by
    intro j hj
    simp [SimpleCache.entry, (mget_eq_none_iff sc.items j).2 hj]
  have hget : ∀ (x : SimpleCache) (k : Nat), True → True ∧
      (x.Get k now).1 = getSpec (live (x.entry k) now) ∧
      ∀ j, (x.Get k now).2.entry j = if j = k then live (x.entry j) now else x.entry j :=
    fun x k _ => ⟨trivial, x.simple_Get_entry k now⟩
  have hgetv : ∀ (x : SimpleCache) (k : Nat), True → True ∧
      (x.getValue k now).1 = getSpec (live (x.entry k) now) ∧
      ∀ j, (x.getValue k now).2.entry j
        = if j = k then live (x.entry j) now else x.entry j := by
    intro x k _
    refine ⟨trivial, ?_, ?_⟩
    · rw [(x.simple_getValue_Get k now).1]
      exact (x.simple_Get_entry k now).1
    · intro j
      rw [(x.simple_getValue_Get k now).2 j]
      exact (x.simple_Get_entry k now).2 j
  have hA := enum_getall_all (fun (x : SimpleCache) k => x.Get k now) SimpleCache.entry
    (fun _ => True) now hget
    (fun acc k =>
      match acc.2.Get k now with
      | (.error _, sc1) => (acc.1, sc1)
      | (.ok v, sc1) => (mset acc.1 k v, sc1))
    (by
      intro acc k v h
      beta_reduce at h ⊢
      revert h
      generalize acc.2.Get k now = y
      obtain ⟨r, x1⟩ := y
      intro h
      simp only at h
      subst h
      rfl)
    (by
      intro acc k e h
      beta_reduce at h ⊢
      revert h
      generalize acc.2.Get k now = y
      obtain ⟨r, x1⟩ := y
      intro h
      simp only at h
      subst h
      rfl)
    (by
      intro acc k
      beta_reduce
      generalize acc.2.Get k now = y
      obtain ⟨r, x1⟩ := y
      cases r <;> rfl)
    (mkeys sc.items) sc trivial hcov hord
  have hK := enum_keys_all (fun (x : SimpleCache) k => x.getValue k now) SimpleCache.entry
    (fun _ => True) now hgetv
    (fun acc k =>
      match acc.2.getValue k now with
      | (.error _, sc1) => (acc.1, sc1)
      | (.ok _, sc1) => (acc.1 ++ [k], sc1))
    (by
      intro acc k v h
      beta_reduce at h ⊢
      revert h
      generalize acc.2.getValue k now = y
      obtain ⟨r, x1⟩ := y
      intro h
      simp only at h
      subst h
      rfl)
    (by
      intro acc k e h
      beta_reduce at h ⊢
      revert h
      generalize acc.2.getValue k now = y
      obtain ⟨r, x1⟩ := y
      intro h
      simp only at h
      subst h
      rfl)
    (by
      intro acc k
      beta_reduce
      generalize acc.2.getValue k now = y
      obtain ⟨r, x1⟩ := y
      cases r <;> rfl)
    (mkeys sc.items) sc trivial hnd hcov hord
  exact ⟨hA.1, hA.2.1, hA.2.2.1, hK.1, hK.2.1, hK.2.2.2.1, hK.2.2.1, hK.2.2.2.1⟩


theorem LruCache.lru_enum {lc : LruCache} (hok : LruOK lc) (now : Int)
    {ord : Order} (hord : ord.ok) :
    (∀ j, mget (lc.GetALL now ord).1 j = (live (lc.entry j) now).map Prod.fst) ∧
    (mkeys (lc.GetALL now ord).1).Nodup ∧
    (∀ j, (lc.GetALL now ord).2.entry j = live (lc.entry j) now) ∧
    (lc.Keys now ord).1.Nodup ∧
    (∀ j, j ∈ (lc.Keys now ord).1 ↔ (live (lc.entry j) now).isSome = true) ∧
    (∀ j, (lc.Keys now ord).2.entry j = live (lc.entry j) now) ∧
    (lc.Len now ord).1
      = ((mkeys lc.items).filter (fun j => (live (lc.entry j) now).isSome)).length ∧
    (∀ j, (lc.Len now ord).2.entry j = live (lc.entry j) now) := by
  have hcov : ∀ j, j ∉ mkeys lc.items → lc.entry j = none := by
    intro j hj
    simp [LruCache.entry, (mget_eq_none_iff lc.items j).2 hj]
  have hget : ∀ (x : LruCache) (k : Nat), LruOK x → LruOK (x.Get k now).2 ∧
      (x.Get k now).1 = getSpec (live (x.entry k) now) ∧
      ∀ j, (x.Get k now).2.entry j = if j = k then live (x.entry j) now else x.entry j :=
    fun x k hx => ⟨hx.lruOK_Get k now, LruCache.lru_Get_entry hx.1 k now⟩
  have hA := enum_getall_all (fun (x : LruCache) k => x.Get k now) LruCache.entry
    LruOK now hget
    (fun acc k =>
      match acc.2.Get k now with
      | (.error _, x1) => (acc.1, x1)
      | (.ok v, x1) => (mset acc.1 k v, x1))
    (by
      intro acc k v h
      beta_reduce at h ⊢
      revert h
      generalize acc.2.Get k now = y
      obtain ⟨r, x1⟩ := y
      intro h
      simp only at h
      subst h
      rfl)
    (by
      intro acc k e h
      beta_reduce at h ⊢
      revert h
      generalize acc.2.Get k now = y
      obtain ⟨r, x1⟩ := y
      intro h
      simp only at h
      subst h
      rfl)
    (by
      intro acc k
      beta_reduce
      generalize acc.2.Get k now = y
      obtain ⟨r, x1⟩ := y
      cases r <;> rfl)
    (mkeys lc.items) lc hok hcov hord
  have hK := enum_keys_all (fun (x : LruCache) k => x.Get k now) LruCache.entry
    LruOK now hget
    (fun acc k =>
      match acc.2.Get k now with
      | (.error _, x1) => (acc.1, x1)
      | (.ok _, x1) => (acc.1 ++ [k], x1))
    (by
      intro acc k v h
      beta_reduce at h ⊢
      revert h
      generalize acc.2.Get k now = y
      obtain ⟨r, x1⟩ := y
      intro h
      simp only at h
      subst h
      rfl)
    (by
      intro acc k e h
      beta_reduce at h ⊢
      revert h
      generalize acc.2.Get k now = y
      obtain ⟨r, x1⟩ := y
      intro h
      simp only at h
      subst h
      rfl)
    (by
      intro acc k
      beta_reduce
      generalize acc.2.Get k now = y
      obtain ⟨r, x1⟩ := y
      cases r <;> rfl)
    (mkeys lc.items) lc hok hok.1.lruInv_keys_nodup hcov hord
  exact ⟨hA.1, hA.2.1, hA.2.2.1, hK.1, hK.2.1, hK.2.2.2.1, hK.2.2.1, hK.2.2.2.1⟩

theorem LfuCache.lfu_enum {lf : LfuCache} (hok : LfuOK lf) (now : Int)
    {ord : Order} (hord : ord.ok) :
    (∀ j, mget (lf.GetALL now ord).1 j = (live (lf.entry j) now).map Prod.fst) ∧
    (mkeys (lf.GetALL now ord).1).Nodup ∧
    (∀ j, (lf.GetALL now ord).2.entry j = live (lf.entry j) now) ∧
    (lf.Keys now ord).1.Nodup ∧
    (∀ j, j ∈ (lf.Keys now ord).1 ↔ (live (lf.entry j) now).isSome = true) ∧
    (∀ j, (lf.Keys now ord).2.entry j = live (lf.entry j) now) ∧
    (lf.Len now ord).1
      = ((mkeys lf.items).filter (fun j => (live (lf.entry j) now).isSome)).length ∧
    (∀ j, (lf.Len now ord).2.entry j = live (lf.entry j) now) := by
  have hcov : ∀ j, j ∉ mkeys lf.items → lf.entry j = none := by
    intro j hj
    simp [LfuCache.entry, (mget_eq_none_iff lf.items j).2 hj]
  have hget : ∀ (x : LfuCache) (k : Nat), LfuOK x → LfuOK (x.Get k now).2 ∧
      (x.Get k now).1 = getSpec (live (x.entry k) now) ∧
      ∀ j, (x.Get k now).2.entry j = if j = k then live (x.entry j) now else x.entry j :=
    fun x k hx => ⟨hx.lfuOK_Get k now, LfuCache.lfu_Get_entry hx.1 k now⟩
  have hA := enum_getall_all (fun (x : LfuCache) k => x.Get k now) LfuCache.entry
    LfuOK now hget
    (fun acc k =>
      match acc.2.Get k now with
      | (.error _, x1) => (acc.1, x1)
      | (.ok v, x1) => (mset acc.1 k v, x1))
    (by
      intro acc k v h
      beta_reduce at h ⊢
      revert h
      generalize acc.2.Get k now = y
      obtain ⟨r, x1⟩ := y
      intro h
      simp only at h
      subst h
      rfl)
    (by
      intro acc k e h
      beta_reduce at h ⊢
      revert h
      generalize acc.2.Get k now = y
      obtain ⟨r, x1⟩ := y
      intro h
      simp only at h
      subst h
      rfl)
    (by
      intro acc k
      beta_reduce
      generalize acc.2.Get k now = y
      obtain ⟨r, x1⟩ := y
      cases r <;> rfl)
    (mkeys lf.items) lf hok hcov hord
  have hK := enum_keys_all (fun (x : LfuCache) k => x.Get k now) LfuCache.entry
    LfuOK now hget
    (fun acc k =>
      match acc.2.Get k now with
      | (.error _, x1) => (acc.1, x1)
      | (.ok _, x1) => (acc.1 ++ [k], x1))
    (by
      intro acc k v h
      beta_reduce at h ⊢
      revert h
      generalize acc.2.Get k now = y
      obtain ⟨r, x1⟩ := y
      intro h
      simp only at h
      subst h
      rfl)
    (by
      intro acc k e h
      beta_reduce at h ⊢
      revert h
      generalize acc.2.Get k now = y
      obtain ⟨r, x1⟩ := y
      intro h
      simp only at h
      subst h
      rfl)
    (by
      intro acc k
      beta_reduce
      generalize acc.2.Get k now = y
      obtain ⟨r, x1⟩ := y
      cases r <;> rfl)
    (mkeys lf.items) lf hok hok.1.1 hcov hord
  exact ⟨hA.1, hA.2.1, hA.2.2.1, hK.1, hK.2.1, hK.2.2.2.1, hK.2.2.1, hK.2.2.2.1⟩


/-- C12 (enumeration). In each policy (in a state satisfying the invariant of the
policy), at clock time `now` and for any order in which the loop visits the keys:
`GetALL()` returns a map that binds exactly the keys whose stored entry is not expired,
each to its stored value, and has no duplicate key; `Keys()` returns exactly those keys,
without duplicates; `Len()` is their number; and after each of the three calls the
stored entries are exactly the entries that were stored and not expired (no expired
entry remains, no live entry is lost or changed). -/
theorem C12_enumeration (sc : SimpleCache) (lc : LruCache) (lf : LfuCache)
    (hsc : SimpleOK sc) (hlc : LruOK lc) (hlf : LfuOK lf) (ord : Order) (hord : ord.ok)
    (now : Int) :
    ((∀ j, mget (sc.GetALL now ord).1 j = (live (sc.entry j) now).map Prod.fst) ∧
      (mkeys (sc.GetALL now ord).1).Nodup ∧
      (∀ j, (sc.GetALL now ord).2.entry j = live (sc.entry j) now) ∧
      (sc.Keys now ord).1.Nodup ∧
      (∀ j, j ∈ (sc.Keys now ord).1 ↔ (live (sc.entry j) now).isSome = true) ∧
      (∀ j, (sc.Keys now ord).2.entry j = live (sc.entry j) now) ∧
      (sc.Len now ord).1
        = ((mkeys sc.items).filter (fun j => (live (sc.entry j) now).isSome)).length ∧
      (∀ j, (sc.Len now ord).2.entry j = live (sc.entry j) now)) ∧
    ((∀ j, mget (lc.GetALL now ord).1 j = (live (lc.entry j) now).map Prod.fst) ∧
      (mkeys (lc.GetALL now ord).1).Nodup ∧
      (∀ j, (lc.GetALL now ord).2.entry j = live (lc.entry j) now) ∧
      (lc.Keys now ord).1.Nodup ∧
      (∀ j, j ∈ (lc.Keys now ord).1 ↔ (live (lc.entry j) now).isSome = true) ∧
      (∀ j, (lc.Keys now ord).2.entry j = live (lc.entry j) now) ∧
      (lc.Len now ord).1
        = ((mkeys lc.items).filter (fun j => (live (lc.entry j) now).isSome)).length ∧
      (∀ j, (lc.Len now ord).2.entry j = live (lc.entry j) now)) ∧
    ((∀ j, mget (lf.GetALL now ord).1 j = (live (lf.entry j) now).map Prod.fst) ∧
      (mkeys (lf.GetALL now ord).1).Nodup ∧
      (∀ j, (lf.GetALL now ord).2.entry j = live (lf.entry j) now) ∧
      (lf.Keys now ord).1.Nodup ∧
      (∀ j, j ∈ (lf.Keys now ord).1 ↔ (live (lf.entry j) now).isSome = true) ∧
      (∀ j, (lf.Keys now ord).2.entry j = live (lf.entry j) now) ∧
      (lf.Len now ord).1
        = ((mkeys lf.items).filter (fun j => (live (lf.entry j) now).isSome)).length ∧
      (∀ j, (lf.Len now ord).2.entry j = live (lf.entry j) now)) :=
  ⟨sc.simple_enum hsc.1 now hord, LruCache.lru_enum hlc now hord,
    LfuCache.lfu_enum hlf now hord⟩

/-- Witness for C12: caches holding key 1 (never expires) and key 2 (expires at time 5),
enumerated at clock time 9: the Simple cache reports one live key. -/
theorem C12_enumeration_witness :
    ((((newSimpleCache 0).Set 1 7 0 (fun l => l)).2.SetWithExpire 2 8 5 0
      (fun l => l)).2.Len 9 (fun l => l)).1 = 1 :=
  ((C12_enumeration
    (((newSimpleCache 0).Set 1 7 0 (fun l => l)).2.SetWithExpire 2 8 5 0 (fun l => l)).2
    (((newLruCache 2).Set 1 7 0).2.SetWithExpire 2 8 5 0).2
    (((newLfuCache 2).Set 1 7 0 (fun l => l)).2.SetWithExpire 2 8 5 0 (fun l => l)).2
    (((SimpleOK.simpleOK_new 0).simpleOK_set 1 7 0 0 _).simpleOK_set 2 8 5 0 _)
    (((LruOK.lruOK_new (by decide)).lruOK_set 1 7 0 0).lruOK_set 2 8 5 0)
    (((LfuOK.lfuOK_new (by decide)).lfuOK_set 1 7 0 0 Order.ok_id).lfuOK_set 2 8 5 0
      Order.ok_id)
    (fun l => l) Order.ok_id 9).1.2.2.2.2.2.2.1).trans (by decide)

end mycache
